import Mathlib


/-!
# Control-flow graph of the decompiler (`decompiler/graph.cpp`)

A shallow embedding of `ControlFlowGraph` and of the free functions of
`graph.cpp`.  Node pointers are natural numbers, the null pointer is `none`,
and the objects the pointers refer to live in a store `mem : Nat → Node`.
Loops that the C++ code runs until a condition holds take a `fuel` argument and
return `none` when it runs out; dereferencing a null pointer, `front()` or
`back()` of an empty list and stepping an iterator past `end()` give `none` as
well.
-/

namespace Decompiler

/-- The capability the graph needs from the instruction hierarchy: is the
instruction a `Jump`, and if it is, is it a `CondJump`, and what is its target. -/
inductive InstrKind where
  | plain : InstrKind
  | jump : Nat → InstrKind
  | condJump : Nat → InstrKind
deriving DecidableEq, Repr

/-- An instruction: its address `_addr` (an `address_t`, here a natural number)
and its dynamic type. -/
structure Instruction where
  _addr : Nat
  kind : InstrKind
deriving DecidableEq, Repr

/-- The result of `dynamic_cast<Jump*>(i)` followed by `->target()`. -/
def Instruction.asJump (i : Instruction) : Option Nat :=
  match i.kind with
  | InstrKind.plain => none
  | InstrKind.jump t => some t
  | InstrKind.condJump t => some t

/-- The result of `dynamic_cast<CondJump*>(i)` as a boolean. -/
def Instruction.isCondJump (i : Instruction) : Bool :=
  match i.kind with
  | InstrKind.condJump _ => true
  | _ => false

/-- A basic block with the scratch fields of the analyses. -/
structure Node where
  _instructions : List Instruction
  _in : List Nat
  _out : List Nat
  _number : Int
  _dominator : Option Nat
  _interval : Option Nat
  _component : Option Nat
  _primitive : Option Nat
deriving DecidableEq, Repr

/-- Modelled from the spec: the constructor of `Node` is declared in `graph.h`;
a new node has no instructions, no edges, number 0 and null scratch pointers. -/
def Node.fresh : Node :=
  { _instructions := [], _in := [], _out := [], _number := 0,
    _dominator := none, _interval := none, _component := none, _primitive := none }

/-- The store of node objects. -/
abbrev Mem := Nat → Node

/-- A `std::map<address_t, Node*>`: association list with ascending keys. -/
abbrev TargetMap := List (Nat × Option Nat)

/-- The assignment `m[k] = v`. -/
def mapSet : TargetMap → Nat → Option Nat → TargetMap
  | [], k, v => [(k, v)]
  | (k1, v1) :: m, k, v =>
    if k < k1 then (k, v) :: (k1, v1) :: m
    else if k = k1 then (k, v) :: m
    else (k1, v1) :: mapSet m k v

/-- The lookup `m.find(k)`: `none` is `end()`. -/
def mapFind : TargetMap → Nat → Option (Option Nat)
  | [], _ => none
  | (k1, v1) :: m, k => if k = k1 then some v1 else mapFind m k

/-- Modelled from the spec: `contains(m, k)` of `graph.h`, the test
`m.find(k) != m.end()`. -/
def contains (m : TargetMap) (k : Nat) : Bool :=
  (mapFind m k).isSome

/-- The value read by `m[k]` when it is used as a node: `none` when the key is
absent (the map then holds a null pointer for it) or maps to null. -/
def mapNode (m : TargetMap) (k : Nat) : Option Nat :=
  (mapFind m k).join

/-- The iterator `next(m.find(k))`: outer `none` when `find` gives `end()`,
inner `none` when the successor is `end()`. -/
def mapNextOf : TargetMap → Nat → Option (Option (Nat × Option Nat))
  | [], _ => none
  | (k1, _) :: m, k => if k = k1 then some m.head? else mapNextOf m k

/-- The graph: the store, the next unused pointer, and the members `_nodes`,
`_targets` and `_entry`. -/
structure ControlFlowGraph where
  mem : Mem
  fresh : Nat
  _nodes : List Nat
  _targets : TargetMap
  _entry : Option Nat

/-- `ControlFlowGraph::ControlFlowGraph()`. -/
def ControlFlowGraph.empty : ControlFlowGraph :=
  { mem := fun _ => Node.fresh, fresh := 0, _nodes := [], _targets := [], _entry := none }

/-- Update of one object of the store. -/
def Mem.modify (mem : Mem) (u : Nat) (f : Node → Node) : Mem :=
  fun x => if x = u then f (mem u) else mem x

/-- `ControlFlowGraph::addNode`: returns the graph and the new node. -/
def addNode (g : ControlFlowGraph) (instrs : List Instruction) : ControlFlowGraph × Nat :=
  ({ g with
      mem := fun x => if x = g.fresh then { Node.fresh with _instructions := instrs } else g.mem x
      fresh := g.fresh + 1
      _nodes := g._nodes ++ [g.fresh] },
   g.fresh)

/-- `ControlFlowGraph::addEdge` on the store. -/
def addEdgeMem (mem : Mem) (src dst : Nat) : Mem :=
  let mem1 := mem.modify src (fun n => { n with _out := n._out ++ [dst] })
  mem1.modify dst (fun n => { n with _in := n._in ++ [src] })

/-- `ControlFlowGraph::addEdge`. -/
def addEdge (g : ControlFlowGraph) (src dst : Nat) : ControlFlowGraph :=
  { g with mem := addEdgeMem g.mem src dst }

/-- First loop of `addNodesFromScript`: every jump marks its target and the
address of the instruction after it. -/
def markTargets : List Instruction → TargetMap → TargetMap
  | [], m => m
  | i :: rest, m =>
    match i.asJump with
    | some t =>
      let m1 := mapSet m t none
      match rest with
      | [] => markTargets rest m1
      | j :: _ => markTargets rest (mapSet m1 j._addr none)
    | none => markTargets rest m

/-- The test `next(last) == scriptEnd || contains(_targets, (*next(last))->_addr)`
of the second loop of `addNodesFromScript`, where `rest` starts at `next(last)`
and `marked` is the test `contains(_targets, ·)`. -/
def cutAfter (marked : Nat → Bool) : List Instruction → Bool
  | [] => true
  | j :: _ => marked j._addr

/-- The address `(*first)->_addr` of the first instruction of a run (the run
is never empty where the code reads it). -/
def headAddr : List Instruction → Nat
  | [] => 0
  | i :: _ => i._addr

/-- The statement `_targets[(*first)->_addr] = addNode(first, next(last))` of the
second loop of `addNodesFromScript`, for the run `b` from `first` to `last`. -/
def buildStep (g : ControlFlowGraph) (b : List Instruction) : ControlFlowGraph :=
  let r := addNode g b
  { r.1 with _targets := mapSet r.1._targets (headAddr b) (some r.2) }

/-- Second loop of `addNodesFromScript`: `cur` holds the instructions from
`first` up to, and without, `last`. -/
def splitNodes : ControlFlowGraph → List Instruction → List Instruction → ControlFlowGraph
  | g, _, [] => g
  | g, cur, i :: rest =>
    if cutAfter (contains g._targets) rest then splitNodes (buildStep g (cur ++ [i])) [] rest
    else splitNodes g (cur ++ [i]) rest

/-- Body of the third loop of `addNodesFromScript` for one node. -/
def linkNode (g : ControlFlowGraph) (node : Nat) : Option ControlFlowGraph :=
  match (g.mem node)._instructions.getLast?, (g.mem node)._instructions.head? with
  | some lastI, some firstI =>
    let afterJump : Option ControlFlowGraph :=
      match lastI.asJump with
      | some t => (mapNode g._targets t).map (fun dst => addEdge g node dst)
      | none => some g
    afterJump.bind fun g1 =>
      (mapNextOf g1._targets firstI._addr).bind fun succ =>
        match succ with
        | some (_, v) =>
          if lastI.asJump.isNone || lastI.isCondJump then
            v.map (fun dst => addEdge g1 node dst)
          else some g1
        | none => some g1
  | _, _ => none

/-- Third loop of `addNodesFromScript`. -/
def linkNodes : ControlFlowGraph → List Nat → Option ControlFlowGraph
  | g, [] => some g
  | g, node :: rest => (linkNode g node).bind fun g1 => linkNodes g1 rest

/-- `ControlFlowGraph::addNodesFromScript`. -/
def addNodesFromScript (g : ControlFlowGraph) (script : List Instruction) :
    Option ControlFlowGraph :=
  let g1 := { g with _targets := markTargets script g._targets }
  let g2 := splitNodes g1 [] script
  linkNodes g2 g2._nodes

/-- `ControlFlowGraph::setEntry`: `none` when a node without instructions is
asked for its first one. -/
def setEntry : ControlFlowGraph → List Nat → Nat → Option ControlFlowGraph
  | g, [], _ => some g
  | g, node :: rest, entry =>
    match (g.mem node)._instructions.head? with
    | none => none
    | some i =>
      if i._addr = entry then setEntry { g with _entry := some node } rest entry
      else setEntry g rest entry

/-- Assignment to `u->_number`. -/
def setNumber (mem : Mem) (u : Nat) (n : Int) : Mem :=
  mem.modify u (fun x => { x with _number := n })

/-- The free function `orderVisit`; `fuel` bounds the depth of the recursion.
Returns the store and the last number given out. -/
def orderVisit : Nat → Mem → Nat → Int → Option (Mem × Int)
  | 0, _, _, _ => none
  | fuel + 1, mem, u, number =>
    let mem1 := setNumber mem u (-1)
    let r := (mem1 u)._out.foldlM
      (fun (s : Mem × Int) v =>
        if (s.1 v)._number = 0 then orderVisit fuel s.1 v s.2 else some s)
      (mem1, number)
    r.map fun s => (setNumber s.1 u (s.2 + 1), s.2 + 1)

/-- `ControlFlowGraph::orderNodes`; the assertion on `_entry` fails with `none`. -/
def orderNodes (fuel : Nat) (g : ControlFlowGraph) : Option ControlFlowGraph :=
  match g._entry with
  | none => none
  | some e =>
    if (g.mem e)._number = 0 then
      (orderVisit fuel g.mem e 0).map fun s => { g with mem := s.1 }
    else some g

/-- `postOrderCompare` read as the non-strict order that a stable sort with
the strict comparison `a->_number < b->_number` produces. -/
def postOrderLe (mem : Mem) (a b : Nat) : Prop :=
  (mem a)._number ≤ (mem b)._number

instance (mem : Mem) : DecidableRel (postOrderLe mem) :=
  fun a b => inferInstanceAs (Decidable ((mem a)._number ≤ (mem b)._number))

/-- `inPostOrder`: `std::list::sort` is stable, and a stable sort has one
result, here computed by insertion. -/
def inPostOrder (mem : Mem) (nodes : List Nat) : List Nat :=
  nodes.insertionSort (postOrderLe mem)

/-- The free function `componentVisit`; `fuel` bounds the depth of the recursion. -/
def componentVisit : Nat → Mem → Nat → Nat → Option Mem
  | 0, _, _, _ => none
  | fuel + 1, mem, u, head =>
    if (mem u)._component.isSome then some mem
    else
      let mem1 := mem.modify u (fun x => { x with _component := some head })
      (mem1 u)._in.foldlM (fun m v => componentVisit fuel m v head) mem1

/-- `ControlFlowGraph::assignComponents`. -/
def assignComponents (fuel : Nat) (g : ControlFlowGraph) : Option ControlFlowGraph :=
  (orderNodes fuel g).bind fun g1 =>
    let nodes := (inPostOrder g1.mem g1._nodes).reverse
    (nodes.foldlM (fun m u => componentVisit fuel m u u) g1.mem).map
      fun m => { g1 with mem := m }

/-- `ControlFlowGraph::components`: the graph after the call and the list returned. -/
def components (fuel : Nat) (g : ControlFlowGraph) : Option (ControlFlowGraph × List Nat) :=
  (assignComponents fuel g).map fun g1 =>
    (g1, g1._nodes.filter (fun u => (g1.mem u)._component = some u))

/-- One inner loop of `dominatorIntersect`: `while (u->_number < bound) u = u->_dominator`,
where `bound` is the number of the other node. -/
def climb : Nat → Mem → Nat → Int → Option Nat
  | 0, _, _, _ => none
  | fuel + 1, mem, u, bound =>
    if (mem u)._number < bound then
      match (mem u)._dominator with
      | none => none
      | some d => climb fuel mem d bound
    else some u

/-- The free function `dominatorIntersect`. -/
def dominatorIntersect : Nat → Mem → Nat → Nat → Option Nat
  | 0, _, _, _ => none
  | fuel + 1, mem, u, v =>
    if u = v then some u
    else
      (climb (fuel + 1) mem u (mem v)._number).bind fun u1 =>
        (climb (fuel + 1) mem v (mem u1)._number).bind fun v1 =>
          dominatorIntersect fuel mem u1 v1

/-- The new estimate for `u` in `assignDominators`: the first predecessor with a
dominator, intersected with the later predecessors that have one.  `none` when
the search for the first one runs past the end of `u->_in`. -/
def newDominator (fuel : Nat) (mem : Mem) (u : Nat) : Option Nat :=
  match (mem u)._in.dropWhile (fun p => (mem p)._dominator.isNone) with
  | [] => none
  | p :: rest =>
    rest.foldlM
      (fun dom q =>
        if (mem q)._dominator.isSome then dominatorIntersect fuel mem q dom else some dom)
      p

/-- One pass of the `foreach (Node *u, nodes)` loop of `assignDominators`:
the store and the flag `changed`. -/
def dominatorPass (fuel : Nat) : Mem → Bool → List Nat → Option (Mem × Bool)
  | mem, changed, [] => some (mem, changed)
  | mem, changed, u :: rest =>
    (newDominator fuel mem u).bind fun dom =>
      if (mem u)._dominator ≠ some dom then
        dominatorPass fuel (mem.modify u (fun x => { x with _dominator := some dom })) true rest
      else dominatorPass fuel mem changed rest

/-- The loop `for (bool changed = true; changed; )` of `assignDominators`. -/
def dominatorLoop : Nat → Nat → Mem → List Nat → Option Mem
  | 0, _, _, _ => none
  | passes + 1, fuel, mem, nodes =>
    (dominatorPass fuel mem false nodes).bind fun r =>
      if r.2 then dominatorLoop passes fuel r.1 nodes else some r.1

/-- `ControlFlowGraph::assignDominators`. -/
def assignDominators (fuel : Nat) (g : ControlFlowGraph) : Option ControlFlowGraph :=
  match g._entry with
  | none => none
  | some e =>
    let nodes := ((inPostOrder g.mem g._nodes).reverse).filter (fun u => u ≠ e)
    let mem1 := g.mem.modify e (fun x => { x with _dominator := some e })
    (dominatorLoop fuel fuel mem1 nodes).map fun m =>
      { g with mem := m.modify e (fun x => { x with _dominator := none }) }

/-- One pass of the `foreach (Node *m, _nodes)` loop inside the loop on `added`
of `assignIntervals`. -/
def growPass (interval : Nat) : Mem → Bool → List Nat → Mem × Bool
  | mem, added, [] => (mem, added)
  | mem, added, m :: rest =>
    let allPredInInterval := (mem m)._in.all (fun p => (mem p)._interval = some interval)
    if (mem m)._interval.isNone && allPredInInterval then
      growPass interval (mem.modify m (fun x => { x with _interval := some interval })) true rest
    else growPass interval mem added rest

/-- The loop `for (bool added = true; added; )` of `assignIntervals`. -/
def growInterval : Nat → Nat → Mem → List Nat → Option Mem
  | 0, _, _, _ => none
  | fuel + 1, interval, mem, nodes =>
    let r := growPass interval mem false nodes
    if r.2 then growInterval fuel interval r.1 nodes else some r.1

/-- The last loop of the body of `assignIntervals`: the nodes pushed on `intervals`. -/
def newHeaders (interval : Nat) (mem : Mem) (nodes : List Nat) : List Nat :=
  nodes.filter fun m =>
    (mem m)._interval.isNone && (mem m)._in.any (fun p => (mem p)._interval = some interval)

/-- The loop `foreach (Node *interval, intervals)` of `assignIntervals`, where
`work` is the part of the list `intervals` not yet visited. -/
def intervalLoop : Nat → Nat → Mem → List Nat → List Nat → Option Mem
  | _, _, mem, _, [] => some mem
  | 0, _, _, _, _ :: _ => none
  | steps + 1, fuel, mem, nodes, interval :: work =>
    let mem1 := mem.modify interval (fun x => { x with _interval := some interval })
    (growInterval fuel interval mem1 nodes).bind fun mem2 =>
      intervalLoop steps fuel mem2 nodes (work ++ newHeaders interval mem2 nodes)

/-- `ControlFlowGraph::assignIntervals`. -/
def assignIntervals (fuel : Nat) (g : ControlFlowGraph) : Option ControlFlowGraph :=
  match g._entry with
  | none => none
  | some e => (intervalLoop fuel fuel g.mem g._nodes [e]).map fun m => { g with mem := m }

/-- `ControlFlowGraph::intervals`: the graph after the call and the list returned. -/
def intervals (fuel : Nat) (g : ControlFlowGraph) : Option (ControlFlowGraph × List Nat) :=
  (assignIntervals fuel g).map fun g1 =>
    (g1, g1._nodes.filter (fun u => (g1.mem u)._interval = some u))

/-- A `std::map<Node*, Node*>`, read only through `trans[k]`. -/
abbrev NodeMap := List (Nat × Nat)

/-- First loop of `extendIntervals`: one node of the derived graph per interval. -/
def deriveNodes (mem : Mem) : ControlFlowGraph → NodeMap → List Nat → ControlFlowGraph × NodeMap
  | d, transMap, [] => (d, transMap)
  | d, transMap, interval :: rest =>
    let r := addNode d (mem interval)._instructions
    let d1 := { r.1 with mem := r.1.mem.modify r.2 (fun x => { x with _primitive := some interval }) }
    deriveNodes mem d1 ((interval, r.2) :: transMap.filter (fun e => e.1 ≠ interval)) rest

/-- The lookup `trans[k]` used as a node: `none` for a null key, a missing key
(the map then holds null for it) or a null value. -/
def transNode (transMap : NodeMap) (k : Option Nat) : Option Nat :=
  k.bind fun key => transMap.lookup key

/-- The inner loop of the second loop of `extendIntervals`, over `interval->_in`. -/
def deriveEdgesOf (mem : Mem) (transMap : NodeMap) (interval : Nat) :
    ControlFlowGraph → List Nat → Option ControlFlowGraph
  | d, [] => some d
  | d, u :: rest =>
    if (mem u)._interval ≠ some interval then
      (transNode transMap (mem u)._interval).bind fun src =>
        (transNode transMap (some interval)).bind fun dst =>
          deriveEdgesOf mem transMap interval (addEdge d src dst) rest
    else deriveEdgesOf mem transMap interval d rest

/-- The second loop of `extendIntervals`. -/
def deriveEdges (mem : Mem) (transMap : NodeMap) :
    ControlFlowGraph → List Nat → Option ControlFlowGraph
  | d, [] => some d
  | d, interval :: rest =>
    (deriveEdgesOf mem transMap interval d (mem interval)._in).bind fun d1 =>
      deriveEdges mem transMap d1 rest

/-- The inner loop of the last loop of `extendIntervals`, over `_nodes`, for
one node `du` of the derived graph `d`. -/
def pushBackOf (d : ControlFlowGraph) (du : Nat) : Mem → List Nat → Option Mem
  | mem, [] => some mem
  | mem, v :: rest =>
    if (mem v)._interval = (d.mem du)._primitive then
      match (d.mem du)._interval with
      | none => none
      | some di =>
        pushBackOf d du (mem.modify v (fun x => { x with _interval := (d.mem di)._primitive })) rest
    else pushBackOf d du mem rest

/-- The last loop of `extendIntervals`, over `d._nodes`. -/
def pushBack (d : ControlFlowGraph) (nodes : List Nat) : Mem → List Nat → Option Mem
  | mem, [] => some mem
  | mem, du :: rest => (pushBackOf d du mem nodes).bind fun mem1 => pushBack d nodes mem1 rest

/-- `ControlFlowGraph::extendIntervals`. -/
def extendIntervals (fuel : Nat) (g : ControlFlowGraph) : Option ControlFlowGraph :=
  (intervals fuel g).bind fun r1 =>
    let dn := deriveNodes r1.1.mem ControlFlowGraph.empty [] r1.2
    (intervals fuel r1.1).bind fun r2 =>
      (deriveEdges r2.1.mem dn.2 dn.1 r2.2).bind fun d1 =>
        match r2.1._entry with
        | none => none
        | some e =>
          match (r2.1.mem e)._instructions.head? with
          | none => none
          | some i =>
            (setEntry d1 d1._nodes i._addr).bind fun d2 =>
              (assignIntervals fuel d2).bind fun d3 =>
                (pushBack d3 r2.1._nodes r2.1.mem d3._nodes).map fun m =>
                  { r2.1 with mem := m }

/-- The loop of `isReducible`, entered at its condition with the current `size`. -/
def reducibleLoop : Nat → Nat → ControlFlowGraph → Nat → Option ControlFlowGraph
  | 0, _, _, _ => none
  | rounds + 1, fuel, g, size =>
    (intervals fuel g).bind fun r1 =>
      if size > r1.2.length then
        (intervals fuel r1.1).bind fun r2 =>
          (extendIntervals fuel r2.1).bind fun g3 =>
            reducibleLoop rounds fuel g3 r2.2.length
      else some r1.1

/-- `ControlFlowGraph::isReducible`: the graph after the call and the result. -/
def isReducible (fuel : Nat) (g : ControlFlowGraph) : Option (ControlFlowGraph × Bool) :=
  (reducibleLoop fuel fuel g (g._nodes.length + 1)).bind fun g1 =>
    (intervals fuel g1).map fun r => (r.1, decide (r.2.length = 1))

/-- `ControlFlowGraph::replaceEdges` on the store. -/
def replaceEdgesMem (mem : Mem) (src oldTo newTo : Nat) : Mem :=
  let n := (mem oldTo)._in.count src
  let mem1 := mem.modify oldTo (fun x => { x with _in := x._in.filter (fun y => y ≠ src) })
  let mem2 := mem1.modify newTo (fun x => { x with _in := x._in ++ List.replicate n src })
  mem2.modify src (fun x => { x with _out := x._out.map (fun y => if y = oldTo then newTo else y) })

/-- `ControlFlowGraph::replaceEdges`. -/
def replaceEdges (g : ControlFlowGraph) (src oldTo newTo : Nat) : ControlFlowGraph :=
  { g with mem := replaceEdgesMem g.mem src oldTo newTo }

/-- The loop `foreach (Node *v, u->_out)` of `removeJumpsToJumps`; `i` is the
position of the iterator in `u->_out`, whose entries `replaceEdges` overwrites
while the loop runs, and `k` the number of entries left. -/
def jumpsOfNode (targets : TargetMap) (u : Nat) : Nat → Nat → Mem → Bool → Option (Mem × Bool)
  | 0, _, mem, changed => some (mem, changed)
  | k + 1, i, mem, changed =>
    match (mem u)._out.get? i with
    | none => some (mem, changed)
    | some v =>
      match (mem v)._instructions.head? with
      | none => none
      | some first =>
        match first.asJump with
        | some t =>
          if !first.isCondJump && t ≠ first._addr then
            match mapNode targets t with
            | none => none
            | some w => jumpsOfNode targets u k (i + 1) (replaceEdgesMem mem u v w) true
          else jumpsOfNode targets u k (i + 1) mem changed
        | none => jumpsOfNode targets u k (i + 1) mem changed

/-- The loop `foreach (Node *u, _nodes)` of `removeJumpsToJumps`. -/
def jumpsPass (targets : TargetMap) : Mem → Bool → List Nat → Option (Mem × Bool)
  | mem, changed, [] => some (mem, changed)
  | mem, changed, u :: rest =>
    (jumpsOfNode targets u (mem u)._out.length 0 mem changed).bind fun r =>
      jumpsPass targets r.1 r.2 rest

/-- The loop `for (bool changed = true; changed; )` of `removeJumpsToJumps`. -/
def jumpsLoop : Nat → TargetMap → Mem → List Nat → Option Mem
  | 0, _, _, _ => none
  | fuel + 1, targets, mem, nodes =>
    (jumpsPass targets mem false nodes).bind fun r =>
      if r.2 then jumpsLoop fuel targets r.1 nodes else some r.1

/-- `ControlFlowGraph::removeJumpsToJumps`. -/
def removeJumpsToJumps (fuel : Nat) (g : ControlFlowGraph) : Option ControlFlowGraph :=
  (jumpsLoop fuel g._targets g.mem g._nodes).map fun m => { g with mem := m }

/-- `std::list::remove` on all the lists `v->_in` for `v` in `vs`. -/
def unlinkIn (u : Nat) : Mem → List Nat → Mem
  | mem, [] => mem
  | mem, v :: vs =>
    unlinkIn u (mem.modify v (fun x => { x with _in := x._in.filter (fun y => y ≠ u) })) vs

/-- `std::list::remove` on all the lists `v->_out` for `v` in `vs`. -/
def unlinkOut (u : Nat) : Mem → List Nat → Mem
  | mem, [] => mem
  | mem, v :: vs =>
    unlinkOut u (mem.modify v (fun x => { x with _out := x._out.filter (fun y => y ≠ u) })) vs

/-- First loop of `removeUnreachableNodes`. -/
def unlinkUnreachable : Mem → List Nat → Mem
  | mem, [] => mem
  | mem, u :: rest =>
    if (mem u)._number = 0 then
      let mem1 := unlinkIn u mem (mem u)._out
      let mem2 := unlinkOut u mem1 (mem1 u)._in
      unlinkUnreachable mem2 rest
    else unlinkUnreachable mem rest

/-- `ControlFlowGraph::removeUnreachableNodes`. -/
def removeUnreachableNodes (g : ControlFlowGraph) : ControlFlowGraph :=
  let mem1 := unlinkUnreachable g.mem g._nodes
  { g with mem := mem1, _nodes := g._nodes.filter (fun u => (mem1 u)._number ≠ 0) }

/-! ### Block structure of an instruction stream -/

/-- The stream has unique ascending addresses. -/
def Ascending (script : List Instruction) : Prop :=
  (script.map (fun i => i._addr)).Pairwise (fun a b => a < b)

/-- Every jump of the stream targets the address of an instruction of the stream. -/
def TargetsValid (script : List Instruction) : Prop :=
  ∀ i ∈ script, ∀ t ∈ i.asJump, ∃ j ∈ script, j._addr = t

instance (script : List Instruction) : Decidable (Ascending script) := by
  unfold Ascending; infer_instance

instance (script : List Instruction) : Decidable (TargetsValid script) := by
  unfold TargetsValid; infer_instance

/-- The address `a` is marked by the first loop of `addNodesFromScript`: it is
the target of a jump of the stream, or the address of the instruction that
follows a jump. -/
def Marked : List Instruction → Nat → Prop
  | [], _ => False
  | i :: rest, a =>
    i.asJump = some a ∨ (i.asJump.isSome ∧ rest.head?.map (fun j => j._addr) = some a) ∨
      Marked rest a

/-- The runs into which the second loop of `addNodesFromScript` cuts the
stream when the addresses that satisfy `T` are the marked ones; `cur` is the
run under construction. -/
def runs (T : Nat → Bool) : List Instruction → List Instruction → List (List Instruction)
  | _, [] => []
  | cur, i :: rest =>
    if cutAfter T rest then (cur ++ [i]) :: runs T [] rest else runs T (cur ++ [i]) rest

/-- The successors the third loop of `addNodesFromScript` gives to `node`,
read off the instructions of the node and `_targets`. -/
def linkOut (g : ControlFlowGraph) (node : Nat) : Option (List Nat) :=
  match (g.mem node)._instructions.getLast?, (g.mem node)._instructions.head? with
  | some lastI, some firstI =>
    let afterJump : Option (List Nat) :=
      match lastI.asJump with
      | some t => (mapNode g._targets t).map (fun dst => [dst])
      | none => some []
    afterJump.bind fun l1 =>
      (mapNextOf g._targets firstI._addr).bind fun succ =>
        match succ with
        | some (_, v) =>
          if lastI.asJump.isNone || lastI.isCondJump then
            v.map (fun dst => l1 ++ [dst])
          else some l1
        | none => some l1
  | _, _ => none

/-- A sequence of calls `addEdge(node, d)` for the `d` of a list. -/
def addEdges (g : ControlFlowGraph) (node : Nat) (l : List Nat) : ControlFlowGraph :=
  l.foldl (fun g1 d => addEdge g1 node d) g

/-- The keys of a map are strictly ascending. -/
def KeysSorted (m : TargetMap) : Prop :=
  (m.map (fun e => e.1)).Pairwise (fun a b => a < b)

/-- The graph after the first two loops of `addNodesFromScript` on an empty graph. -/
def splitGraph (script : List Instruction) : ControlFlowGraph :=
  splitNodes { ControlFlowGraph.empty with _targets := markTargets script [] } [] script

/-- The runs into which `addNodesFromScript` cuts `script`. -/
def scriptRuns (script : List Instruction) : List (List Instruction) :=
  runs (contains (markTargets script [])) [] script

/-- The node that begins at the target of the jump `lastI`, as a list: the
nodes of the graph whose first instruction has the target address; empty when
`lastI` is no jump. -/
def jumpSuccessors (g : ControlFlowGraph) (lastI : Instruction) : List Nat :=
  match lastI.asJump with
  | some t =>
    g._nodes.filter (fun x => (g.mem x)._instructions.head?.map (fun i => i._addr) = some t)
  | none => []

/-- The node that follows the `j`-th node in program order, as a list: empty
when there is none or when `lastI` is an unconditional jump. -/
def fallSuccessors (g : ControlFlowGraph) (j : Nat) (lastI : Instruction) : List Nat :=
  if lastI.asJump.isNone || lastI.isCondJump then (g._nodes[j + 1]?).toList else []

/-! ### Properties of graphs used in the statements -/

/-- The lists `_in` and `_out` agree on the nodes of the graph: `v` occurs in
`u->_out` as often as `u` occurs in `v->_in`. -/
def EdgeSymmetric (g : ControlFlowGraph) : Prop :=
  ∀ u ∈ g._nodes, ∀ v ∈ g._nodes, (g.mem u)._out.count v = (g.mem v)._in.count u

/-- Symmetry of the edge lists of a store over a list of nodes. -/
def SymOn (mem : Mem) (nodes : List Nat) : Prop :=
  ∀ u ∈ nodes, ∀ v ∈ nodes, (mem u)._out.count v = (mem v)._in.count u

/-- Successor edges of the listed nodes stay inside the list. -/
def OutClosedOn (mem : Mem) (nodes : List Nat) : Prop :=
  ∀ u ∈ nodes, ∀ v ∈ (mem u)._out, v ∈ nodes

/-- The store `m2` keeps the numbers of `m1` and, in every edge list, the
occurrences of the nodes with a number other than 0. -/
def KeepsNumbered (m1 m2 : Mem) : Prop :=
  (∀ x, (m2 x)._number = (m1 x)._number) ∧
  ∀ a b, (m1 b)._number ≠ 0 →
    (m2 a)._out.count b = (m1 a)._out.count b ∧ (m2 a)._in.count b = (m1 a)._in.count b

/-- Edges connect nodes of the graph only. -/
def EdgesClosed (g : ControlFlowGraph) : Prop :=
  ∀ u ∈ g._nodes, (∀ v ∈ (g.mem u)._out, v ∈ g._nodes) ∧ (∀ v ∈ (g.mem u)._in, v ∈ g._nodes)

/-- The nodes recorded in `_targets` are nodes of the graph. -/
def TargetsClosed (g : ControlFlowGraph) : Prop :=
  ∀ e ∈ g._targets, ∀ v ∈ e.2, v ∈ g._nodes

instance (g : ControlFlowGraph) : Decidable (EdgeSymmetric g) := by
  unfold EdgeSymmetric; infer_instance

instance (g : ControlFlowGraph) : Decidable (EdgesClosed g) := by
  unfold EdgesClosed; infer_instance

instance (g : ControlFlowGraph) : Decidable (TargetsClosed g) := by
  unfold TargetsClosed; infer_instance

/-- The graph of the classic irreducible example: entry `E` (node 0), `A`
(node 1) and `B` (node 2), with the edges `E→A`, `E→B`, `A→B` and `B→A`. -/
def irreducibleExample : ControlFlowGraph :=
  let g0 := (addNode ControlFlowGraph.empty [⟨0, InstrKind.plain⟩]).1
  let g1 := (addNode g0 [⟨1, InstrKind.plain⟩]).1
  let g2 := (addNode g1 [⟨2, InstrKind.plain⟩]).1
  let g3 := addEdge (addEdge (addEdge (addEdge g2 0 1) 0 2) 1 2) 2 1
  { g3 with _entry := some 0 }

/-- The instruction stream of the end-to-end example:
`A: nop, B: jump C, C: nop, D: conditional jump B, E: return`. -/
def exampleScript : List Instruction :=
  [⟨10, InstrKind.plain⟩, ⟨20, InstrKind.jump 30⟩, ⟨30, InstrKind.plain⟩,
   ⟨40, InstrKind.condJump 20⟩, ⟨50, InstrKind.plain⟩]

/-- The graph built from `exampleScript`, with the entry at `A`. -/
def exampleGraph : Option ControlFlowGraph :=
  (addNodesFromScript ControlFlowGraph.empty exampleScript).bind fun g => setEntry g g._nodes 10

/-- The graph `exampleGraph` itself (the construction succeeds). -/
def exampleGraphValue : ControlFlowGraph :=
  exampleGraph.getD ControlFlowGraph.empty

/-- The headers of the graph: the nodes that are their own interval. -/
def headers (g : ControlFlowGraph) : List Nat :=
  g._nodes.filter (fun u => (g.mem u)._interval = some u)

/-! ### Notions used for `assignIntervals` -/

/-- Number of entries of `nodes` without an interval. -/
def unassigned (mem : Mem) (nodes : List Nat) : Nat :=
  nodes.countP (fun u => (mem u)._interval.isNone)

/-- The store `m2` comes from `m1` by giving the interval `K` to nodes of
`nodes` that had none; every node that received it has all its predecessors
in `K`. -/
structure Grows (K : Nat) (nodes : List Nat) (m1 m2 : Mem) : Prop where
  step : ∀ x, m2 x = m1 x ∨
    ((m1 x)._interval = none ∧ x ∈ nodes ∧ m2 x = { m1 x with _interval := some K })
  preds : ∀ x, (m1 x)._interval = none → (m2 x)._interval = some K →
    ∀ p ∈ (m1 x)._in, (m2 p)._interval = some K

/-- No node without an interval has all its predecessors in the interval `K`. -/
def NoneQualifies (K : Nat) (nodes : List Nat) (mem : Mem) : Prop :=
  ∀ m ∈ nodes, ¬ ((mem m)._interval = none ∧ ∀ p ∈ (mem m)._in, (mem p)._interval = some K)

/-- The invariant of the loop `foreach (Node *interval, intervals)` of
`assignIntervals`, between two turns: `work` is the part of the list
`intervals` not yet visited and `e` the entry. -/
structure IntervalInv (nodes : List Nat) (e : Nat) (mem : Mem) (work : List Nat) : Prop where
  inClosed : ∀ u ∈ nodes, ∀ p ∈ (mem u)._in, p ∈ nodes
  headerValued : ∀ u ∈ nodes, ∀ h, (mem u)._interval = some h →
    h ∈ nodes ∧ (mem h)._interval = some h
  closedH : ∀ h ∈ nodes, (mem h)._interval = some h → NoneQualifies h nodes mem
  member : ∀ u ∈ nodes, ∀ h, (mem u)._interval = some h → h ≠ u →
    ∀ p ∈ (mem u)._in, (mem p)._interval = some h
  workOk : ∀ w ∈ work, w ∈ nodes ∧ ((mem w)._interval = none ∨ (mem w)._interval = some w)
  workPred : ∀ w ∈ work, (mem w)._interval = none →
    (∃ p ∈ (mem w)._in, ∃ h, (mem p)._interval = some h) ∨
      (w = e ∧ ∀ u ∈ nodes, (mem u)._interval = none)
  pending : ∀ u ∈ nodes, (mem u)._interval = none →
    (∃ p ∈ (mem u)._in, (mem p)._interval ≠ none) → u ∈ work
  headerPred : ∀ h ∈ nodes, (mem h)._interval = some h → h ≠ e →
    ∃ p0 ∈ (mem h)._in, ∃ I, (mem p0)._interval = some I ∧ I ≠ h ∧
      ∃ p1 ∈ (mem h)._in, (mem p1)._interval ≠ some I
  entry : e ∈ work ∨ (mem e)._interval = some e

/-- The stores agree on every field but `_interval`. -/
def SameButInterval (m1 m2 : Mem) : Prop :=
  ∀ x, (m2 x)._instructions = (m1 x)._instructions ∧ (m2 x)._in = (m1 x)._in ∧
    (m2 x)._out = (m1 x)._out ∧ (m2 x)._number = (m1 x)._number ∧
    (m2 x)._dominator = (m1 x)._dominator ∧ (m2 x)._component = (m1 x)._component ∧
    (m2 x)._primitive = (m1 x)._primitive

/-- Rank of an entry of the list `intervals`: twice the number of nodes
without an interval, plus one when the entry has an interval. -/
def itemRank (mem : Mem) (nodes : List Nat) (w : Nat) : Nat :=
  2 * unassigned mem nodes + (if (mem w)._interval = none then 0 else 1)

/-- A bound on the number of turns the loop over the list `intervals` still takes. -/
def workWeight (mem : Mem) (nodes : List Nat) (work : List Nat) : Nat :=
  (work.map (fun w => (nodes.length + 1) ^ itemRank mem nodes w)).sum

/-- Reachability along the successor lists of a store. -/
def Reach (mem : Mem) (a b : Nat) : Prop :=
  Relation.ReflTransGen (fun x y => y ∈ (mem x)._out) a b

/-! ### Notions used for `orderNodes` -/

/-- The stores agree on every field but `_number`. -/
def SameButNumber (m1 m2 : Mem) : Prop :=
  ∀ x, (m2 x)._instructions = (m1 x)._instructions ∧ (m2 x)._in = (m1 x)._in ∧
    (m2 x)._out = (m1 x)._out ∧ (m2 x)._dominator = (m1 x)._dominator ∧
    (m2 x)._interval = (m1 x)._interval ∧ (m2 x)._component = (m1 x)._component ∧
    (m2 x)._primitive = (m1 x)._primitive

/-- Number of entries of `nodes` with number 0. -/
def zeros (mem : Mem) (nodes : List Nat) : Nat :=
  nodes.countP (fun u => decide ((mem u)._number = 0))

/-- The store `m2` comes from `m1` by numbering nodes that had number 0 and
are reachable from `src`: the new numbers are the integers from `n + 1` to
`n2`, each given once. -/
structure Numbered (src : Nat) (m1 : Mem) (n : Int) (m2 : Mem) (n2 : Int) : Prop where
  frame : SameButNumber m1 m2
  le : n ≤ n2
  untouched : ∀ x, (m1 x)._number ≠ 0 → (m2 x)._number = (m1 x)._number
  range : ∀ x, (m1 x)._number = 0 →
    (m2 x)._number = 0 ∨ (n < (m2 x)._number ∧ (m2 x)._number ≤ n2)
  inj : ∀ x y, (m1 x)._number = 0 → (m1 y)._number = 0 → (m2 x)._number ≠ 0 →
    (m2 x)._number = (m2 y)._number → x = y
  surj : ∀ i, n < i → i ≤ n2 → ∃ x, (m1 x)._number = 0 ∧ (m2 x)._number = i
  reach : ∀ x, (m1 x)._number = 0 → (m2 x)._number ≠ 0 → Reach m1 src x

/-- Numbers are `-1` (being visited), `0` (not visited) or between 1 and `n`. -/
def Bounded (mem : Mem) (n : Int) : Prop :=
  ∀ x, -1 ≤ (mem x)._number ∧ (mem x)._number ≤ n

/-- Every successor of a numbered node has been visited. -/
def Closure (mem : Mem) : Prop :=
  ∀ x, 0 < (mem x)._number → ∀ y ∈ (mem x)._out, (mem y)._number ≠ 0

/-- Every node being visited reaches `u`. -/
def GrayReach (mem : Mem) (u : Nat) : Prop :=
  ∀ a, (mem a)._number = -1 → Reach mem a u

/-- For a numbered node `x` and a node `y` it reaches, some node `x1` on a
cycle with `x` is still being visited, or is numbered at least as high as `y`. -/
def TInv (mem : Mem) : Prop :=
  ∀ x, 0 < (mem x)._number → ∀ y, Reach mem x y →
    ∃ x1, Reach mem x x1 ∧ Reach mem x1 x ∧
      ((0 < (mem x1)._number ∧ 0 < (mem y)._number ∧ (mem y)._number ≤ (mem x1)._number) ∨
        (mem x1)._number = -1)

/-- Every numbered node other than `e` has a predecessor that is still being
visited or has a higher number. -/
def ParInv (mem : Mem) (e : Nat) : Prop :=
  ∀ x, 0 < (mem x)._number → x ≠ e →
    ∃ p, x ∈ (mem p)._out ∧ ((mem p)._number = -1 ∨ (mem x)._number < (mem p)._number)

/-- What a call `orderVisit(u, n)` needs and keeps: the bounds on the numbers
and the three invariants of the traversal. -/
structure VisitInv (mem : Mem) (n : Int) (e : Nat) : Prop where
  nonneg : 0 ≤ n
  bounded : Bounded mem n
  closure : Closure mem
  tinv : TInv mem
  parInv : ParInv mem e

/-- Statement about `orderVisit` with recursion depth `fuel`, used as the
induction hypothesis for the loop over the successors. -/
def VisitOk (nodes : List Nat) (e : Nat) (fuel : Nat) : Prop :=
  ∀ (mem : Mem) (u : Nat) (n : Int),
    zeros mem nodes < fuel → u ∈ nodes → (∀ x ∈ nodes, ∀ y ∈ (mem x)._out, y ∈ nodes) →
    (mem u)._number = 0 → VisitInv mem n e → GrayReach mem u →
    (u ≠ e → ∃ p, u ∈ (mem p)._out ∧ (mem p)._number = -1) →
    ∃ m2 n2, orderVisit fuel mem u n = some (m2, n2) ∧ Numbered u mem n m2 n2 ∧
      (m2 u)._number = n2 ∧ n < n2 ∧ VisitInv m2 n2 e

/-- The numbers of the store `mem` are a depth-first postorder numbering, from
`e`, of the graph that the store `mem0` holds on `nodes`. -/
structure PostOrder (nodes : List Nat) (e : Nat) (mem0 mem : Mem) : Prop where
  frame : SameButNumber mem0 mem
  outside : ∀ x, x ∉ nodes → mem x = mem0 x
  pos : ∀ u, Reach mem0 e u → 0 < (mem u)._number ∧ (mem u)._number ≤ (mem e)._number
  zero : ∀ u ∈ nodes, ¬ Reach mem0 e u → (mem u)._number = 0
  inj : ∀ u v, Reach mem0 e u → Reach mem0 e v → (mem u)._number = (mem v)._number → u = v
  surj : ∀ i, 0 < i → i ≤ (mem e)._number → ∃ u, Reach mem0 e u ∧ (mem u)._number = i
  parent : ∀ u, Reach mem0 e u → u ≠ e →
    ∃ p, Reach mem0 e p ∧ u ∈ (mem0 p)._out ∧ (mem u)._number < (mem p)._number
  topo : ∀ x y, Reach mem0 e x → Reach mem0 x y →
    ∃ x1, Reach mem0 x x1 ∧ Reach mem0 x1 x ∧ (mem y)._number ≤ (mem x1)._number

/-- The store in which the objects outside `nodes` have number 0. -/
def zeroOutside (nodes : List Nat) (mem : Mem) : Mem :=
  fun x => if x ∈ nodes then mem x else { mem x with _number := 0 }

/-- The stream of the end-to-end example at the addresses `a`, `b`, `c`, `d`, `e`:
`A: nop, B: jump C, C: nop, D: conditional jump B, E: return`. -/
def endToEndScript (a b c d e : Nat) : List Instruction :=
  [⟨a, InstrKind.plain⟩, ⟨b, InstrKind.jump c⟩, ⟨c, InstrKind.plain⟩,
   ⟨d, InstrKind.condJump b⟩, ⟨e, InstrKind.plain⟩]

/-- The graph with the nodes 0 and 1, the edge `0 → 1` and the entry 0. -/
def chainExample : ControlFlowGraph :=
  let g0 := (addNode ControlFlowGraph.empty [⟨0, InstrKind.plain⟩]).1
  let g1 := (addNode g0 [⟨1, InstrKind.plain⟩]).1
  { addEdge g1 0 1 with _entry := some 0 }

/-- The graph with the nodes 0, 1 and 2, the edges `0 → 1`, `1 → 2` and
`2 → 1`, and the entry 0: a loop entered at its head. -/
def loopExample : ControlFlowGraph :=
  let g0 := (addNode ControlFlowGraph.empty [⟨0, InstrKind.plain⟩]).1
  let g1 := (addNode g0 [⟨1, InstrKind.plain⟩]).1
  let g2 := (addNode g1 [⟨2, InstrKind.plain⟩]).1
  { addEdge (addEdge (addEdge g2 0 1) 1 2) 2 1 with _entry := some 0 }

/-- The same graph with every `_component` field null, as before any call of
`assignComponents`. -/
def clearComponents (g : ControlFlowGraph) : ControlFlowGraph :=
  { g with mem := fun x => { g.mem x with _component := none } }

/-- The same graph with every `_interval` field null, as before any call of
`assignIntervals`. -/
def clearIntervals (g : ControlFlowGraph) : ControlFlowGraph :=
  { g with mem := fun x => { g.mem x with _interval := none } }

/-- The store `m2` comes from `m1` by writing `head` into `_component` fields
that were null. -/
def CompFills (head : Nat) (m1 m2 : Mem) : Prop :=
  ∀ x, m2 x = m1 x ∨ ((m1 x)._component = none ∧ m2 x = { m1 x with _component := some head })

/-- Two unconditional jumps that target each other. -/
def jumpCycleScript : List Instruction :=
  [⟨0, InstrKind.jump 1⟩, ⟨1, InstrKind.jump 0⟩]

/-- The graph built from `jumpCycleScript`. -/
def jumpCycleGraph : ControlFlowGraph :=
  (addNodesFromScript ControlFlowGraph.empty jumpCycleScript).getD ControlFlowGraph.empty

/-- The states of the store that `removeJumpsToJumps` runs through on
`jumpCycleGraph`: the two nodes keep their instruction and have one successor
each, one of the two nodes. -/
def JumpCycleInv (mem : Mem) : Prop :=
  (mem 0)._instructions = [⟨0, InstrKind.jump 1⟩] ∧
  (mem 1)._instructions = [⟨1, InstrKind.jump 0⟩] ∧
  ∃ a b, (mem 0)._out = [a] ∧ (mem 1)._out = [b] ∧ a < 2 ∧ b < 2

/-- The list `l2` is `l` without some occurrences of nodes that have number 0
in the store `mem`. -/
def Thinned (mem : Mem) (l l2 : List Nat) : Prop :=
  ∃ q : Nat → Bool, l2 = l.filter q ∧ ∀ p, q p = false → (mem p)._number = 0

/-- The store `m2` comes from `m1` by deleting, from edge lists, occurrences of
nodes with number 0; nothing else changes. -/
def Unlinks (m1 m2 : Mem) : Prop :=
  ∀ x, m2 x = { m1 x with _in := (m2 x)._in, _out := (m2 x)._out } ∧
    Thinned m1 (m1 x)._in (m2 x)._in ∧ Thinned m1 (m1 x)._out (m2 x)._out

/-- The irreducible example with one more node, 3, that the entry does not
reach and that has the edge `3 → 1`. -/
def unreachableExample : ControlFlowGraph :=
  let g := (addNode irreducibleExample [⟨3, InstrKind.plain⟩]).1
  addEdge g 3 1

/-- Every jump of the stream targets the address of a later instruction of
the stream. -/
def ForwardJumps (script : List Instruction) : Prop :=
  ∀ i ∈ script, ∀ t ∈ i.asJump, i._addr < t ∧ ∃ j ∈ script, j._addr = t

instance (script : List Instruction) : Decidable (ForwardJumps script) := by
  unfold ForwardJumps; infer_instance

/-- A stream without backward jumps: a conditional jump over one instruction
and an unconditional jump to the last instruction. -/
def forwardExample : List Instruction :=
  [⟨0, InstrKind.condJump 2⟩, ⟨1, InstrKind.jump 3⟩, ⟨2, InstrKind.plain⟩,
   ⟨3, InstrKind.plain⟩]

/-! ### Notions used for `removeJumpsToJumps` -/

/-- The test of `removeJumpsToJumps` on the node `v`: the target of its first
instruction when that is an unconditional jump to an address other than its
own. -/
def jumpTargetOf (mem : Mem) (v : Nat) : Option Nat :=
  match (mem v)._instructions.head? with
  | none => none
  | some first =>
    match first.asJump with
    | none => none
    | some t => if !first.isCondJump && t ≠ first._addr then some t else none

/-- The first instruction of the node `v` is an unconditional jump to the
address `t`, which is not its own address. -/
def JumpHead (mem : Mem) (v t : Nat) : Prop :=
  jumpTargetOf mem v = some t

/-- The node `v` begins with an unconditional jump to another address, and `w`
is the node that `_targets` holds for that address. -/
def JumpsTo (targets : TargetMap) (mem : Mem) (v w : Nat) : Prop :=
  ∃ t ∈ jumpTargetOf mem v, mapNode targets t = some w

instance (mem : Mem) (v t : Nat) : Decidable (JumpHead mem v t) := by
  unfold JumpHead; infer_instance

instance (targets : TargetMap) (mem : Mem) (v w : Nat) : Decidable (JumpsTo targets mem v w) := by
  unfold JumpsTo; infer_instance

/-- Sum, over the successor entries of the listed nodes, of the rank of the entry. -/
def outWeight (rank : Nat → Nat) (mem : Mem) (nodes : List Nat) : Nat :=
  (nodes.map (fun u => ((mem u)._out.map rank).sum)).sum

/-- What `removeJumpsToJumps` needs of a graph: nodes have instructions, the
targets of block-leading unconditional jumps are recorded in `_targets`, the
nodes recorded there are nodes of the graph, and `rank` falls along every such
jump. -/
structure JumpsReady (targets : TargetMap) (nodes : List Nat) (mem0 : Mem)
    (rank : Nat → Nat) : Prop where
  nonempty : ∀ v ∈ nodes, (mem0 v)._instructions ≠ []
  resolves : ∀ v ∈ nodes, ∀ t, JumpHead mem0 v t → ∃ w, mapNode targets t = some w
  tclosed : ∀ k w, mapNode targets k = some w → w ∈ nodes
  falls : ∀ v ∈ nodes, ∀ w ∈ nodes, JumpsTo targets mem0 v w → rank w < rank v

/-- The invariant of `removeJumpsToJumps`: the store `mem` comes from `mem0` by
moving successor entries along block-leading unconditional jumps. -/
structure JumpsInv (targets : TargetMap) (nodes : List Nat) (mem0 mem : Mem) : Prop where
  instr : ∀ x, (mem x)._instructions = (mem0 x)._instructions
  closed : OutClosedOn mem nodes
  follow : ∀ u, List.Forall₂ (Relation.ReflTransGen (JumpsTo targets mem0))
    (mem0 u)._out (mem u)._out

/-- Two unconditional jumps that target each other, followed by an
unconditional jump to a last instruction that is no jump. -/
def chainCycleScript : List Instruction :=
  [⟨0, InstrKind.jump 1⟩, ⟨1, InstrKind.jump 0⟩, ⟨2, InstrKind.jump 3⟩, ⟨3, InstrKind.plain⟩]

/-- The graph built from `chainCycleScript`. -/
def chainCycleGraph : ControlFlowGraph :=
  (addNodesFromScript ControlFlowGraph.empty chainCycleScript).getD ControlFlowGraph.empty

/-- The states of the store that `removeJumpsToJumps` runs through on
`chainCycleGraph`. -/
def ChainCycleInv (mem : Mem) : Prop :=
  JumpCycleInv mem ∧ (mem 2)._out = [3] ∧ (mem 3)._out = [] ∧
    (mem 3)._instructions = [⟨3, InstrKind.plain⟩]

/-- A conditional jump to the next instruction, then two unconditional jumps
in a row that lead to a last instruction that is no jump. -/
def jumpChainScript : List Instruction :=
  [⟨0, InstrKind.condJump 1⟩, ⟨1, InstrKind.jump 2⟩, ⟨2, InstrKind.jump 3⟩,
   ⟨3, InstrKind.plain⟩]

/-- The graph built from `jumpChainScript`. -/
def jumpChainGraph : ControlFlowGraph :=
  (addNodesFromScript ControlFlowGraph.empty jumpChainScript).getD ControlFlowGraph.empty

/-! ### Notions used for `extendIntervals` -/

/-- The interval fields of the graph are those of a partition into intervals
with one entry each: every node has an interval, which is a node that is its
own interval (a header); the entry `e` is a header; every predecessor of a node
that is not a header lies in the interval of the node. -/
structure ProperIntervals (g : ControlFlowGraph) (e : Nat) : Prop where
  valued : ∀ u ∈ g._nodes, ∃ h, (g.mem u)._interval = some h ∧ h ∈ g._nodes ∧
    (g.mem h)._interval = some h
  entry : (g.mem e)._interval = some e
  member : ∀ u ∈ g._nodes, ∀ h, (g.mem u)._interval = some h → h ≠ u →
    ∀ p ∈ (g.mem u)._in, (g.mem p)._interval = some h

/-- The derived graph `d` mirrors the headers `hs`: its nodes are the numbers
below `hs.length`, the `j`-th one carries the instructions of the `j`-th header
and points to it through `_primitive`, no interval is assigned yet, and edges
connect nodes of `d` only. -/
structure Derived (mem : Mem) (hs : List Nat) (d : ControlFlowGraph) : Prop where
  nodes : d._nodes = List.range hs.length
  entry : d._entry = none
  node : ∀ j h, hs[j]? = some h →
    (d.mem j)._instructions = (mem h)._instructions ∧ (d.mem j)._primitive = some h
  fresh : ∀ x, (d.mem x)._interval = none
  inClosed : ∀ x, ∀ y ∈ (d.mem x)._in, x < hs.length ∧ y < hs.length
  outClosed : ∀ x, ∀ y ∈ (d.mem x)._out, x < hs.length ∧ y < hs.length

/-- The state of the last loop of `extendIntervals` when the nodes of the
derived graph `d` below `c` have been visited: a node of `nodes` that was in the
interval of the `j`-th header of `hs` is now in the interval of the header that
belongs to the interval of `j` in `d` when `j < c`, and is where it was
otherwise; no other field has changed. -/
structure PushedBack (d : ControlFlowGraph) (hs nodes : List Nat) (mem : Mem) (c : Nat)
    (m : Mem) : Prop where
  frame : SameButInterval mem m
  moved : ∀ x ∈ nodes, ∀ (j h : Nat), hs[j]? = some h → (mem x)._interval = some h → j < c →
    ∃ (i h2 : Nat), (d.mem j)._interval = some i ∧ hs[i]? = some h2 ∧
      (m x)._interval = some h2
  kept : ∀ x ∈ nodes, ∀ (j h : Nat), hs[j]? = some h → (mem x)._interval = some h → c ≤ j →
    (m x)._interval = some h

/-! ### Notions used for `assignComponents` -/

/-- Number of entries of `nodes` without a component. -/
def unassignedC (mem : Mem) (nodes : List Nat) : Nat :=
  nodes.countP (fun u => (mem u)._component.isNone)

/-- What a call `componentVisit(u, head)` does to the store `m`: it writes
`head` into null `_component` fields only, `u` has a component afterwards,
every node that received one is reached from `u` along predecessor lists, and
every predecessor of a node that received one has a component afterwards. -/
structure Visited (head u : Nat) (m m2 : Mem) : Prop where
  fills : CompFills head m m2
  root : (m2 u)._component.isSome = true
  back : ∀ x, (m x)._component = none → (m2 x)._component.isSome = true →
    Relation.ReflTransGen (fun a b => b ∈ (m a)._in) u x
  preds : ∀ y, (m y)._component = none → (m2 y)._component.isSome = true →
    ∀ p ∈ (m y)._in, (m2 p)._component.isSome = true

/-- The nodes `x` and `y` are reachable from each other. -/
def Mutual (mem : Mem) (x y : Nat) : Prop :=
  Reach mem x y ∧ Reach mem y x

/-- The invariant of the loop of `assignComponents` when the nodes of `done`
have been visited; `mem0` is the store after `orderNodes` and `e` the entry. -/
structure ComponentsInv (nodes : List Nat) (e : Nat) (mem0 : Mem) (done : List Nat)
    (m : Mem) : Prop where
  frame : ∀ x, m x = { mem0 x with _component := (m x)._component }
  closedA : ∀ y ∈ nodes, (m y)._component.isSome = true →
    ∀ p ∈ (mem0 y)._in, (m p)._component.isSome = true
  visited : ∀ x ∈ done, (m x)._component.isSome = true
  headed : ∀ x ∈ nodes, ∀ h, (m x)._component = some h →
    h ∈ nodes ∧ (m h)._component = some h
  sound : ∀ x ∈ nodes, Reach mem0 e x → ∀ h, (m x)._component = some h → Mutual mem0 x h
  whole : ∀ x ∈ nodes, Reach mem0 e x → ∀ h, (m x)._component = some h →
    ∀ y, Mutual mem0 x y → (m y)._component = some h

/-- The graph with the nodes 0 and 1, the edge `1 → 0` and the entry 0: the
entry does not reach node 1. -/
def unreachedExample : ControlFlowGraph :=
  let g0 := (addNode ControlFlowGraph.empty [⟨0, InstrKind.plain⟩]).1
  let g1 := (addNode g0 [⟨1, InstrKind.plain⟩]).1
  { addEdge g1 1 0 with _entry := some 0 }

/-! ### Notions used for `assignDominators` -/

/-- The stores agree on every field but `_dominator`. -/
def SameButDominator (m1 m2 : Mem) : Prop :=
  ∀ x, (m2 x)._instructions = (m1 x)._instructions ∧ (m2 x)._in = (m1 x)._in ∧
    (m2 x)._out = (m1 x)._out ∧ (m2 x)._number = (m1 x)._number ∧
    (m2 x)._interval = (m1 x)._interval ∧ (m2 x)._component = (m1 x)._component ∧
    (m2 x)._primitive = (m1 x)._primitive

/-- The assignment `u->_dominator = d`. -/
def setDominator (mem : Mem) (u d : Nat) : Mem :=
  mem.modify u (fun x => { x with _dominator := some d })

/-- The node `b` is reached from `a` by following `_dominator` references. -/
def OnChain (mem : Mem) (a b : Nat) : Prop :=
  Relation.ReflTransGen (fun x y => (mem x)._dominator = some y) a b

/-- An edge to a node numbered below `bound`. -/
def LowStep (mem : Mem) (bound : Int) (x y : Nat) : Prop :=
  y ∈ (mem x)._out ∧ (mem y)._number < bound

/-- A path of the graph: every node but the first is a successor of the one
before it. -/
def IsPath (mem : Mem) (l : List Nat) : Prop :=
  l.Chain' (fun x y => y ∈ (mem x)._out)

/-- The node `d` dominates `u`: it lies on every path from `e` to `u`. -/
def Dominates (mem : Mem) (e d u : Nat) : Prop :=
  ∀ l : List Nat, IsPath mem l → l.head? = some e → l.getLast? = some u → d ∈ l

/-- The node `u` is reached from `a` along edges that never enter `x`. -/
def Avoiding (mem : Mem) (x a u : Nat) : Prop :=
  Relation.ReflTransGen (fun y z => z ∈ (mem y)._out ∧ z ≠ x) a u

/-- What `assignDominators` needs of the graph held by `mem` on `nodes`: the
edge lists stay inside the graph and mirror each other, the numbers are
positive, distinct and highest at the entry `e`, and every other node has a
predecessor with a higher number. -/
structure Ordered (nodes : List Nat) (e : Nat) (mem : Mem) : Prop where
  entry : e ∈ nodes
  nodup : nodes.Nodup
  inClosed : ∀ u ∈ nodes, ∀ p ∈ (mem u)._in, p ∈ nodes
  mirror : ∀ u ∈ nodes, ∀ p ∈ (mem u)._in, u ∈ (mem p)._out
  outClosed : ∀ p ∈ nodes, ∀ u ∈ (mem p)._out, u ∈ nodes ∧ p ∈ (mem u)._in
  pos : ∀ u ∈ nodes, 0 < (mem u)._number ∧ (mem u)._number ≤ (mem e)._number
  inj : ∀ u ∈ nodes, ∀ v ∈ nodes, (mem u)._number = (mem v)._number → u = v
  parent : ∀ u ∈ nodes, u ≠ e → ∃ p ∈ (mem u)._in, (mem u)._number < (mem p)._number
  bound : (mem e)._number ≤ nodes.length

/-- The node `z` is the meet, in the tree of the `_dominator` references of
`m`, of the predecessors of `v` that have a dominator: the nodes on its chain
are the nodes on the chains of all of them. -/
def IsMeet (mem0 m : Mem) (v z : Nat) : Prop :=
  (m z)._dominator.isSome ∧
  ∀ x, OnChain m z x ↔ ∀ p ∈ (mem0 v)._in, (m p)._dominator.isSome → OnChain m p x

/-- The state of `assignDominators` inside a pass over the nodes by
descending number, when the nodes numbered above `c` have been processed in
this pass.  The graph is the one of `mem0`; `m` differs in `_dominator` only. -/
structure DomInv (nodes : List Nat) (e : Nat) (mem0 m : Mem) (c : Int) : Prop where
  frame : SameButDominator mem0 m
  root : (m e)._dominator = some e
  inside : ∀ u d, (m u)._dominator = some d → u ∈ nodes ∧ d ∈ nodes
  up : ∀ u d, (m u)._dominator = some d → u ≠ e →
    (m d)._dominator.isSome ∧ (mem0 u)._number < (mem0 d)._number
  done : ∀ u ∈ nodes, c < (mem0 u)._number → (m u)._dominator.isSome
  low : ∀ u d, (m u)._dominator = some d → u ≠ e →
    Relation.TransGen (LowStep mem0 (mem0 d)._number) d u
  meet : ∀ u d, (m u)._dominator = some d → u ≠ e →
    ∀ x, (∀ p ∈ (mem0 u)._in, (m p)._dominator.isSome → OnChain m p x) → OnChain m d x
  via : ∀ u d, (m u)._dominator = some d → u ≠ e →
    (c < (mem0 u)._number ∨ (mem0 d)._number ≤ c) →
    ∃ q ∈ (mem0 u)._in, (m q)._dominator.isSome ∧ (mem0 u)._number < (mem0 q)._number ∧
      OnChain m q d
  doms : ∀ u, (m u)._dominator.isSome → ∀ x, Dominates mem0 e x u → OnChain m u x

/-- The number of the dominator of `u`, 0 when `u` has none. -/
def domNumber (m : Mem) (u : Nat) : Nat :=
  match (m u)._dominator with
  | none => 0
  | some d => (m d)._number.toNat

/-- The nodes visited when following `_dominator` references from `u`, for at
most `k` steps. -/
def dominatorPath : Nat → Mem → Nat → List Nat
  | 0, _, u => [u]
  | k + 1, mem, u =>
    match (mem u)._dominator with
    | none => [u]
    | some d => u :: dominatorPath k mem d

/-- The store in which the objects outside `nodes` have no dominator. -/
def clearOutside (nodes : List Nat) (mem : Mem) : Mem :=
  fun x => if x ∈ nodes then mem x else { mem x with _dominator := none }

/-- The dominators and predecessors of the listed nodes are listed nodes. -/
def DomClosed (nodes : List Nat) (m : Mem) : Prop :=
  (∀ x ∈ nodes, ∀ d, (m x)._dominator = some d → d ∈ nodes) ∧
  ∀ x ∈ nodes, ∀ p ∈ (m x)._in, p ∈ nodes

end Decompiler

namespace Decompiler

/-! ### Store updates -/

@[simp] theorem Mem.modify_same (mem : Mem) (u : Nat) (f : Node → Node) :
    (mem.modify u f) u = f (mem u) := by
  simp [Mem.modify]

theorem Mem.modify_other (mem : Mem) (u x : Nat) (f : Node → Node) (h : x ≠ u) :
    (mem.modify u f) x = mem x := by
  simp [Mem.modify, h]

theorem Mem.modify_apply (mem : Mem) (u x : Nat) (f : Node → Node) :
    (mem.modify u f) x = if x = u then f (mem u) else mem x := rfl

/-! ### Edge symmetry (C3) -/

theorem addEdgeMem_out (mem : Mem) (s d x : Nat) :
    ((addEdgeMem mem s d) x)._out = if x = s then (mem x)._out ++ [d] else (mem x)._out := by
  unfold addEdgeMem
  simp only [Mem.modify_apply]
  by_cases h1 : x = d <;> by_cases h2 : x = s <;> by_cases h3 : d = s <;> simp_all

theorem addEdgeMem_in (mem : Mem) (s d x : Nat) :
    ((addEdgeMem mem s d) x)._in = if x = d then (mem x)._in ++ [s] else (mem x)._in := by
  unfold addEdgeMem
  simp only [Mem.modify_apply]
  by_cases h1 : x = d <;> by_cases h2 : x = s <;> by_cases h3 : d = s <;> simp_all

theorem count_snoc (l : List Nat) (d v : Nat) :
    (l ++ [d]).count v = l.count v + if v = d then 1 else 0 := by
  rw [List.count_append, List.count_singleton]
  by_cases h : v = d
  · subst h; simp
  · have : ¬ d = v := fun e => h e.symm
    simp [h, this]

theorem symOn_addEdgeMem (mem : Mem) (nodes : List Nat) (s d : Nat) (h : SymOn mem nodes) :
    SymOn (addEdgeMem mem s d) nodes := by
  intro u hu v hv
  rw [addEdgeMem_out, addEdgeMem_in]
  have := h u hu v hv
  by_cases h1 : u = s <;> by_cases h2 : v = d
  · subst h1; subst h2; rw [if_pos rfl, if_pos rfl, count_snoc, count_snoc]; simp; exact this
  · subst h1; rw [if_pos rfl, if_neg h2, count_snoc, if_neg h2]; simpa using this
  · subst h2; rw [if_neg h1, if_pos rfl, count_snoc, if_neg h1]; simpa using this
  · rw [if_neg h1, if_neg h2]; exact this

theorem replaceEdgesMem_out (mem : Mem) (s o n x : Nat) :
    ((replaceEdgesMem mem s o n) x)._out =
      if x = s then (mem x)._out.map (fun y => if y = o then n else y) else (mem x)._out := by
  unfold replaceEdgesMem
  simp only [Mem.modify_apply]
  by_cases h1 : x = s <;> by_cases h2 : x = o <;> by_cases h3 : x = n <;>
    by_cases h4 : s = o <;> by_cases h5 : s = n <;> by_cases h6 : n = o <;> simp_all

theorem replaceEdgesMem_in (mem : Mem) (s o n x : Nat) :
    ((replaceEdgesMem mem s o n) x)._in =
      if x = n then
        (if x = o then (mem x)._in.filter (fun y => y ≠ s) else (mem x)._in) ++
          List.replicate ((mem o)._in.count s) s
      else if x = o then (mem x)._in.filter (fun y => y ≠ s) else (mem x)._in := by
  unfold replaceEdgesMem
  simp only [Mem.modify_apply]
  by_cases h1 : x = s <;> by_cases h2 : x = o <;> by_cases h3 : x = n <;>
    by_cases h4 : s = o <;> by_cases h5 : s = n <;> by_cases h6 : n = o <;> simp_all

theorem count_map_replace (l : List Nat) (o n v : Nat) :
    (l.map (fun y => if y = o then n else y)).count v =
      (if v = o then 0 else l.count v) + (if v = n then l.count o else 0) := by
  induction l with
  | nil => simp
  | cons a l ih =>
    simp only [List.map_cons, List.count_cons, ih]
    by_cases h1 : a = o <;> by_cases h2 : v = o <;> by_cases h3 : v = n <;>
      by_cases h4 : a = v <;> by_cases h5 : n = o <;> simp_all <;> omega

theorem count_filter_ne (l : List Nat) (s u : Nat) :
    (l.filter (fun y => y ≠ s)).count u = if u = s then 0 else l.count u := by
  induction l with
  | nil => simp
  | cons a l ih =>
    by_cases h1 : a = s <;> by_cases h2 : u = s <;> by_cases h3 : a = u <;>
      simp_all [List.filter_cons, List.count_cons]

theorem symOn_replaceEdgesMem (mem : Mem) (nodes : List Nat) (s o n : Nat)
    (ho : s ∈ nodes → o ∈ nodes) (h : SymOn mem nodes) :
    SymOn (replaceEdgesMem mem s o n) nodes := by
  intro u hu v hv
  rw [replaceEdgesMem_out, replaceEdgesMem_in]
  have huv := h u hu v hv
  by_cases h1 : u = s
  · subst h1
    have hso := h u hu o (ho hu)
    rw [if_pos rfl, count_map_replace]
    by_cases h2 : v = n <;> by_cases h3 : v = o
    · subst h2; subst h3
      rw [if_pos rfl, if_pos rfl, if_pos rfl, if_pos rfl, List.count_append, count_filter_ne,
        if_pos rfl, List.count_replicate]
      simpa using huv
    · subst h2
      rw [if_neg h3, if_pos rfl, if_pos rfl, if_neg h3, List.count_append, List.count_replicate]
      simp; omega
    · subst h3
      rw [if_pos rfl, if_neg h2, if_neg h2, if_pos rfl, count_filter_ne, if_pos rfl]
    · rw [if_neg h3, if_neg h2, if_neg h2, if_neg h3]; omega
  · rw [if_neg h1]
    have hne : ¬ s = u := fun e => h1 e.symm
    by_cases h2 : v = n <;> by_cases h3 : v = o
    · subst h2; subst h3
      rw [if_pos rfl, if_pos rfl, List.count_append, count_filter_ne, if_neg h1,
        List.count_replicate]
      simp [hne]; exact huv
    · subst h2
      rw [if_pos rfl, if_neg h3, List.count_append, List.count_replicate]
      simp [hne]; exact huv
    · subst h3
      rw [if_neg h2, if_pos rfl, count_filter_ne, if_neg h1]; exact huv
    · rw [if_neg h2, if_neg h3]; exact huv

theorem outClosedOn_replaceEdgesMem (mem : Mem) (nodes : List Nat) (s o n : Nat)
    (hn : n ∈ nodes) (h : OutClosedOn mem nodes) :
    OutClosedOn (replaceEdgesMem mem s o n) nodes := by
  intro u hu v hv
  rw [replaceEdgesMem_out] at hv
  by_cases h1 : u = s
  · rw [if_pos h1, List.mem_map] at hv
    obtain ⟨y, hy, rfl⟩ := hv
    by_cases h2 : y = o
    · rw [if_pos h2]; exact hn
    · rw [if_neg h2]; exact h u hu y hy
  · rw [if_neg h1] at hv
    exact h u hu v hv

theorem jumpsOfNode_inv (targets : TargetMap) (nodes : List Nat) (u : Nat) (hu : u ∈ nodes)
    (ht : ∀ k w, mapNode targets k = some w → w ∈ nodes) :
    ∀ (k i : Nat) (mem : Mem) (changed : Bool) (r : Mem × Bool),
      SymOn mem nodes → OutClosedOn mem nodes →
      jumpsOfNode targets u k i mem changed = some r →
      SymOn r.1 nodes ∧ OutClosedOn r.1 nodes := by
  intro k
  induction k with
  | zero =>
    intro i mem changed r hs hc h
    simp only [jumpsOfNode, Option.some.injEq] at h
    subst h
    exact ⟨hs, hc⟩
  | succ k ih =>
    intro i mem changed r hs hc h
    unfold jumpsOfNode at h
    split at h
    · simp only [Option.some.injEq] at h
      subst h
      exact ⟨hs, hc⟩
    · rename_i v hv
      have hvmem : v ∈ nodes := hc u hu v (List.get?_mem hv)
      split at h
      · exact absurd h (by simp)
      · rename_i first hfirst
        split at h
        · rename_i t ht1
          split at h
          · split at h
            · exact absurd h (by simp)
            · rename_i w hw
              exact ih _ _ _ _
                (symOn_replaceEdgesMem mem nodes u v w (fun _ => hvmem) hs)
                (outClosedOn_replaceEdgesMem mem nodes u v w (ht _ _ hw) hc) h
          · exact ih _ _ _ _ hs hc h
        · exact ih _ _ _ _ hs hc h

theorem jumpsPass_inv (targets : TargetMap) (nodes : List Nat)
    (ht : ∀ k w, mapNode targets k = some w → w ∈ nodes) :
    ∀ (l : List Nat) (mem : Mem) (changed : Bool) (r : Mem × Bool),
      (∀ u ∈ l, u ∈ nodes) → SymOn mem nodes → OutClosedOn mem nodes →
      jumpsPass targets mem changed l = some r →
      SymOn r.1 nodes ∧ OutClosedOn r.1 nodes := by
  intro l
  induction l with
  | nil =>
    intro mem changed r _ hs hc h
    simp only [jumpsPass, Option.some.injEq] at h
    subst h
    exact ⟨hs, hc⟩
  | cons u l ih =>
    intro mem changed r hl hs hc h
    simp only [jumpsPass] at h
    cases h1 : jumpsOfNode targets u (mem u)._out.length 0 mem changed with
    | none => rw [h1] at h; exact absurd h (by simp)
    | some r1 =>
      rw [h1] at h
      simp only [Option.some_bind] at h
      have := jumpsOfNode_inv targets nodes u (hl u (List.mem_cons_self _ _)) ht _ _ _ _ _ hs hc h1
      exact ih _ _ _ (fun x hx => hl x (List.mem_cons_of_mem _ hx)) this.1 this.2 h

theorem jumpsLoop_inv (targets : TargetMap) (nodes : List Nat)
    (ht : ∀ k w, mapNode targets k = some w → w ∈ nodes) :
    ∀ (fuel : Nat) (mem : Mem) (r : Mem),
      SymOn mem nodes → OutClosedOn mem nodes →
      jumpsLoop fuel targets mem nodes = some r →
      SymOn r nodes ∧ OutClosedOn r nodes := by
  intro fuel
  induction fuel with
  | zero => intro mem r _ _ h; simp [jumpsLoop] at h
  | succ fuel ih =>
    intro mem r hs hc h
    simp only [jumpsLoop] at h
    cases h1 : jumpsPass targets mem false nodes with
    | none => rw [h1] at h; exact absurd h (by simp)
    | some r1 =>
      rw [h1] at h
      simp only [Option.some_bind] at h
      have := jumpsPass_inv targets nodes ht nodes mem false r1 (fun _ hx => hx) hs hc h1
      split at h
      · exact ih _ _ this.1 this.2 h
      · simp only [Option.some.injEq] at h
        subst h
        exact this

theorem keepsNumbered_refl (m : Mem) : KeepsNumbered m m :=
  ⟨fun _ => rfl, fun _ _ _ => ⟨rfl, rfl⟩⟩

theorem keepsNumbered_trans {m1 m2 m3 : Mem} (h12 : KeepsNumbered m1 m2)
    (h23 : KeepsNumbered m2 m3) : KeepsNumbered m1 m3 := by
  refine ⟨fun x => (h23.1 x).trans (h12.1 x), fun a b hb => ?_⟩
  have hb2 : (m2 b)._number ≠ 0 := by rw [h12.1 b]; exact hb
  exact ⟨((h23.2 a b hb2).1).trans ((h12.2 a b hb).1), ((h23.2 a b hb2).2).trans ((h12.2 a b hb).2)⟩

theorem keepsNumbered_unlinkIn (u : Nat) :
    ∀ (vs : List Nat) (mem : Mem), (mem u)._number = 0 → KeepsNumbered mem (unlinkIn u mem vs) := by
  intro vs
  induction vs with
  | nil => intro mem _; exact keepsNumbered_refl mem
  | cons v vs ih =>
    intro mem hu
    simp only [unlinkIn]
    have step : KeepsNumbered mem
        (mem.modify v (fun x => { x with _in := x._in.filter (fun y => y ≠ u) })) := by
      refine ⟨fun x => ?_, fun a b hb => ?_⟩
      · by_cases hx : x = v
        · subst hx; simp
        · rw [Mem.modify_other _ _ _ _ hx]
      · by_cases ha : a = v
        · subst ha
          have hbu : ¬ b = u := fun e => hb (by rw [e]; exact hu)
          simp only [Mem.modify_same]
          rw [count_filter_ne, if_neg hbu]
          constructor <;> first | trivial | rfl
        · rw [Mem.modify_other _ _ _ _ ha]
          constructor <;> first | trivial | rfl
    exact keepsNumbered_trans step (ih _ (by rw [step.1 u]; exact hu))

theorem keepsNumbered_unlinkOut (u : Nat) :
    ∀ (vs : List Nat) (mem : Mem), (mem u)._number = 0 → KeepsNumbered mem (unlinkOut u mem vs) := by
  intro vs
  induction vs with
  | nil => intro mem _; exact keepsNumbered_refl mem
  | cons v vs ih =>
    intro mem hu
    simp only [unlinkOut]
    have step : KeepsNumbered mem
        (mem.modify v (fun x => { x with _out := x._out.filter (fun y => y ≠ u) })) := by
      refine ⟨fun x => ?_, fun a b hb => ?_⟩
      · by_cases hx : x = v
        · subst hx; simp
        · rw [Mem.modify_other _ _ _ _ hx]
      · by_cases ha : a = v
        · subst ha
          have hbu : ¬ b = u := fun e => hb (by rw [e]; exact hu)
          simp only [Mem.modify_same]
          rw [count_filter_ne, if_neg hbu]
          constructor <;> first | trivial | rfl
        · rw [Mem.modify_other _ _ _ _ ha]
          constructor <;> first | trivial | rfl
    exact keepsNumbered_trans step (ih _ (by rw [step.1 u]; exact hu))

theorem keepsNumbered_unlinkUnreachable :
    ∀ (l : List Nat) (mem : Mem), KeepsNumbered mem (unlinkUnreachable mem l) := by
  intro l
  induction l with
  | nil => intro mem; exact keepsNumbered_refl mem
  | cons u l ih =>
    intro mem
    simp only [unlinkUnreachable]
    split
    · rename_i hu
      have h1 := keepsNumbered_unlinkIn u (mem u)._out mem hu
      have hu1 : ((unlinkIn u mem (mem u)._out) u)._number = 0 := by rw [h1.1 u]; exact hu
      have h2 := keepsNumbered_unlinkOut u ((unlinkIn u mem (mem u)._out) u)._in _ hu1
      exact keepsNumbered_trans (keepsNumbered_trans h1 h2) (ih _)
    · exact ih _

theorem edgeSymmetric_removeUnreachableNodes (g : ControlFlowGraph) (h : EdgeSymmetric g) :
    EdgeSymmetric (removeUnreachableNodes g) := by
  have hk := keepsNumbered_unlinkUnreachable g._nodes g.mem
  intro u hu v hv
  simp only [removeUnreachableNodes, List.mem_filter, decide_eq_true_eq] at hu hv
  simp only [removeUnreachableNodes]
  have hun : (g.mem u)._number ≠ 0 := by rw [← hk.1 u]; exact hu.2
  have hvn : (g.mem v)._number ≠ 0 := by rw [← hk.1 v]; exact hv.2
  rw [(hk.2 u v hvn).1, (hk.2 v u hun).2]
  exact h u hu.1 v hv.1

theorem splitNodes_edges_nil :
    ∀ (rest cur : List Instruction) (g : ControlFlowGraph),
      (∀ x, (g.mem x)._in = [] ∧ (g.mem x)._out = []) →
      ∀ x, ((splitNodes g cur rest).mem x)._in = [] ∧ ((splitNodes g cur rest).mem x)._out = [] := by
  intro rest
  induction rest with
  | nil => intro cur g h; simpa [splitNodes] using h
  | cons i rest ih =>
    intro cur g h
    simp only [splitNodes]
    split
    · apply ih
      intro x
      simp only [buildStep, addNode]
      by_cases hx : x = g.fresh
      · simp [hx, Node.fresh]
      · simp [hx, h x]
    · exact ih _ _ h

theorem linkNode_sym (g g1 : ControlFlowGraph) (node : Nat) (l : List Nat)
    (h : linkNode g node = some g1) (hs : SymOn g.mem l) :
    g1._nodes = g._nodes ∧ SymOn g1.mem l := by
  unfold linkNode at h
  split at h
  · rename_i lastI firstI _ _
    have key : ∀ ga : ControlFlowGraph, ga._nodes = g._nodes → SymOn ga.mem l →
        ∀ gb, ((mapNextOf ga._targets firstI._addr).bind fun succ =>
          match succ with
          | some (_, v) =>
            if lastI.asJump.isNone || lastI.isCondJump then
              v.map (fun dst => addEdge ga node dst)
            else some ga
          | none => some ga) = some gb → gb._nodes = g._nodes ∧ SymOn gb.mem l := by
      intro ga hn hsa gb hb
      cases h1 : mapNextOf ga._targets firstI._addr with
      | none => rw [h1] at hb; exact absurd hb (by simp)
      | some succ =>
        rw [h1] at hb
        simp only [Option.some_bind] at hb
        split at hb
        · rename_i k v
          split at hb
          · cases v with
            | none => exact absurd hb (by simp)
            | some dst =>
              simp only [Option.map_some', Option.some.injEq] at hb
              subst hb
              exact ⟨hn, symOn_addEdgeMem _ _ _ _ hsa⟩
          · simp only [Option.some.injEq] at hb
            subst hb
            exact ⟨hn, hsa⟩
        · simp only [Option.some.injEq] at hb
          subst hb
          exact ⟨hn, hsa⟩
    cases hj : lastI.asJump with
    | none =>
      rw [hj] at h
      simp only [Option.some_bind] at h
      have := key g rfl hs g1
      rw [hj] at this
      exact this h
    | some t =>
      rw [hj] at h
      simp only at h
      cases hm : mapNode g._targets t with
      | none => rw [hm] at h; exact absurd h (by simp)
      | some dst =>
        rw [hm] at h
        simp only [Option.map_some', Option.some_bind] at h
        have := key (addEdge g node dst) rfl (symOn_addEdgeMem _ _ _ _ hs) g1
        rw [hj] at this
        exact this h
  · exact absurd h (by simp)

theorem linkNodes_sym (l : List Nat) :
    ∀ (nodes : List Nat) (g g1 : ControlFlowGraph),
      linkNodes g nodes = some g1 → SymOn g.mem l → g1._nodes = g._nodes ∧ SymOn g1.mem l := by
  intro nodes
  induction nodes with
  | nil =>
    intro g g1 h hs
    simp only [linkNodes, Option.some.injEq] at h
    subst h
    exact ⟨rfl, hs⟩
  | cons node nodes ih =>
    intro g g1 h hs
    simp only [linkNodes] at h
    cases h1 : linkNode g node with
    | none => rw [h1] at h; exact absurd h (by simp)
    | some g2 =>
      rw [h1] at h
      simp only [Option.some_bind] at h
      have h2 := linkNode_sym g g2 node l h1 hs
      have h3 := ih g2 g1 h h2.2
      exact ⟨h3.1.trans h2.1, h3.2⟩

theorem edgeSymmetric_addNodesFromScript (script : List Instruction) (g : ControlFlowGraph)
    (h : addNodesFromScript ControlFlowGraph.empty script = some g) : EdgeSymmetric g := by
  unfold addNodesFromScript at h
  simp only at h
  have hnil := splitNodes_edges_nil script []
    { ControlFlowGraph.empty with _targets := markTargets script ControlFlowGraph.empty._targets }
    (by intro x; simp [ControlFlowGraph.empty, Node.fresh])
  have := linkNodes_sym
    (splitNodes { ControlFlowGraph.empty with
      _targets := markTargets script ControlFlowGraph.empty._targets } [] script)._nodes _ _ _ h
    (by intro u _ v _; rw [(hnil u).2, (hnil v).1]; rfl)
  intro u hu v hv
  rw [this.1] at hu hv
  exact this.2 u hu v hv

theorem mapNode_eq_some (m : TargetMap) (k w : Nat) :
    mapNode m k = some w ↔ mapFind m k = some (some w) := by
  unfold mapNode
  cases mapFind m k with
  | none => simp
  | some v => cases v <;> simp

theorem mapFind_mem (m : TargetMap) (k : Nat) (v : Option Nat) (h : mapFind m k = some v) :
    (k, v) ∈ m := by
  induction m with
  | nil => simp [mapFind] at h
  | cons e m ih =>
    obtain ⟨k1, v1⟩ := e
    simp only [mapFind] at h
    split at h
    · rename_i hk
      simp only [Option.some.injEq] at h
      subst h; subst hk
      exact List.mem_cons_self _ _
    · exact List.mem_cons_of_mem _ (ih h)

theorem option_eq_some_getD {α : Type} (o : Option α) (d : α) (h : o.isSome = true) :
    o = some (o.getD d) := by
  cases o with
  | none => simp at h
  | some a => rfl

theorem replaceEdgesMem_instructions (mem : Mem) (s o n x : Nat) :
    ((replaceEdgesMem mem s o n) x)._instructions = (mem x)._instructions := by
  unfold replaceEdgesMem
  simp only [Mem.modify_apply]
  by_cases h1 : x = s <;> by_cases h2 : x = o <;> by_cases h3 : x = n <;>
    by_cases h4 : s = o <;> by_cases h5 : s = n <;> by_cases h6 : n = o <;> simp_all

end Decompiler

namespace Decompiler

/-! ### The map `_targets` -/

theorem mapFind_mapSet (m : TargetMap) (k a : Nat) (v : Option Nat) :
    mapFind (mapSet m k v) a = if a = k then some v else mapFind m a := by
  induction m with
  | nil => simp [mapSet, mapFind]
  | cons e m ih =>
    obtain ⟨k1, v1⟩ := e
    simp only [mapSet]
    by_cases h1 : k < k1
    · simp [h1, mapFind]
    · by_cases h2 : k = k1
      · subst h2
        simp only [h1, if_false, if_true, mapFind]
        by_cases h3 : a = k <;> simp [h3]
      · simp only [h1, h2, if_false, mapFind, ih]
        by_cases h3 : a = k1
        · subst h3
          have : ¬ a = k := fun e => h2 e.symm
          simp [this]
        · simp [h3]

theorem contains_mapSet (m : TargetMap) (k a : Nat) (v : Option Nat) :
    contains (mapSet m k v) a = (decide (a = k) || contains m a) := by
  unfold contains
  rw [mapFind_mapSet]
  by_cases h : a = k <;> simp [h]

theorem contains_markTargets (script : List Instruction) :
    ∀ (m : TargetMap) (a : Nat),
      contains (markTargets script m) a = true ↔ contains m a = true ∨ Marked script a := by
  induction script with
  | nil => intro m a; simp [markTargets, Marked]
  | cons i rest ih =>
    intro m a
    unfold markTargets
    cases hj : i.asJump with
    | none => simp [ih, Marked, hj]
    | some t =>
      cases rest with
      | nil =>
        simp only [ih, Marked, hj, contains_mapSet, Bool.or_eq_true, decide_eq_true_eq]
        simp
        constructor
        · rintro (h | h)
          · exact Or.inr h.symm
          · exact Or.inl h
        · rintro (h | h)
          · exact Or.inr h
          · exact Or.inl h.symm
      | cons j rest2 =>
        simp only [ih, Marked, hj, contains_mapSet, Bool.or_eq_true, decide_eq_true_eq]
        simp
        constructor
        · rintro ((h | h | h) | h)
          · exact Or.inr (Or.inr (Or.inl h.symm))
          · exact Or.inr (Or.inl h.symm)
          · exact Or.inl h
          · exact Or.inr (Or.inr (Or.inr h))
        · rintro (h | h | h | h)
          · exact Or.inl (Or.inr (Or.inr h))
          · exact Or.inl (Or.inr (Or.inl h.symm))
          · exact Or.inl (Or.inl h.symm)
          · exact Or.inr h

/-! ### The second loop of `addNodesFromScript` cuts the stream into `runs` -/

theorem headAddr_mem (b : List Instruction) (h : b ≠ []) :
    headAddr b ∈ b.map (fun i => i._addr) := by
  cases b with
  | nil => exact absurd rfl h
  | cons i b => simp [headAddr]

theorem splitNodes_eq_foldl (T : Nat → Bool) :
    ∀ (rest cur : List Instruction) (g : ControlFlowGraph),
      (∀ j ∈ rest, contains g._targets j._addr = T j._addr) →
      ((cur ++ rest).map (fun i => i._addr)).Nodup →
      splitNodes g cur rest = (runs T cur rest).foldl buildStep g := by
  intro rest
  induction rest with
  | nil => intro cur g _ _; simp [splitNodes, runs]
  | cons i rest ih =>
    intro cur g hT hnd
    have hcut : cutAfter (contains g._targets) rest = cutAfter T rest := by
      cases rest with
      | nil => rfl
      | cons j rest2 =>
        exact hT j (List.mem_cons_of_mem _ (List.mem_cons_self _ _))
    simp only [splitNodes, runs, hcut]
    split
    · simp only [List.foldl_cons]
      apply ih
      · intro j hj
        simp only [buildStep, addNode, contains_mapSet]
        have hne : ¬ j._addr = headAddr (cur ++ [i]) := by
          intro e
          have h1 : headAddr (cur ++ [i]) ∈ (cur ++ [i]).map (fun i => i._addr) :=
            headAddr_mem _ (by simp)
          have h2 : j._addr ∈ rest.map (fun i => i._addr) := List.mem_map_of_mem _ hj
          have hnd2 : ((cur ++ [i]).map (fun i => i._addr) ++ rest.map (fun i => i._addr)).Nodup := by
            simpa using hnd
          rw [List.nodup_append] at hnd2
          exact hnd2.2.2 (e ▸ h1) h2 |>.elim
        simp only [hne, decide_False, Bool.false_or]
        exact hT j (List.mem_cons_of_mem _ hj)
      · have : ((([] : List Instruction) ++ rest).map (fun i => i._addr)).Nodup := by
          have hnd2 : ((cur ++ [i]).map (fun i => i._addr) ++ rest.map (fun i => i._addr)).Nodup := by
            simpa using hnd
          rw [List.nodup_append] at hnd2
          simpa using hnd2.2.1
        exact this
    · apply ih
      · intro j hj
        exact hT j (List.mem_cons_of_mem _ hj)
      · simpa using hnd

/-! ### The graph after the second loop -/

theorem buildStep_mem (g : ControlFlowGraph) (b : List Instruction) (x : Nat) :
    (buildStep g b).mem x =
      if x = g.fresh then { Node.fresh with _instructions := b } else g.mem x := rfl

theorem foldl_buildStep_nodes :
    ∀ (bs : List (List Instruction)) (g : ControlFlowGraph),
      (bs.foldl buildStep g)._nodes = g._nodes ++ List.range' g.fresh bs.length ∧
      (bs.foldl buildStep g).fresh = g.fresh + bs.length ∧
      (bs.foldl buildStep g)._entry = g._entry := by
  intro bs
  induction bs with
  | nil => intro g; simp
  | cons b bs ih =>
    intro g
    have h := ih (buildStep g b)
    simp only [List.foldl_cons, List.length_cons]
    refine ⟨?_, ?_, ?_⟩
    · rw [h.1]
      simp [buildStep, addNode, List.range'_succ]
    · rw [h.2.1]
      simp [buildStep, addNode]
      omega
    · rw [h.2.2]
      simp [buildStep, addNode]

theorem foldl_buildStep_mem :
    ∀ (bs : List (List Instruction)) (g : ControlFlowGraph) (x : Nat),
      (bs.foldl buildStep g).mem x =
        if x < g.fresh then g.mem x
        else match bs[x - g.fresh]? with
          | some b => { Node.fresh with _instructions := b }
          | none => g.mem x := by
  intro bs
  induction bs with
  | nil => intro g x; simp
  | cons b bs ih =>
    intro g x
    simp only [List.foldl_cons]
    rw [ih (buildStep g b) x]
    have hf : (buildStep g b).fresh = g.fresh + 1 := rfl
    rw [hf, buildStep_mem]
    by_cases h1 : x < g.fresh
    · have h2 : x < g.fresh + 1 := by omega
      have h3 : ¬ x = g.fresh := by omega
      simp [h1, h2, h3]
    · by_cases h2 : x = g.fresh
      · subst h2
        simp
      · have h3 : ¬ x < g.fresh + 1 := by omega
        have h4 : x - g.fresh = (x - (g.fresh + 1)) + 1 := by omega
        rw [if_neg h3, if_neg h1, h4, List.getElem?_cons_succ, if_neg h2]

theorem foldl_buildStep_targets :
    ∀ (bs : List (List Instruction)) (g : ControlFlowGraph) (a : Nat),
      (bs.map headAddr).Nodup →
      (∀ j b, bs[j]? = some b → headAddr b = a →
        mapFind (bs.foldl buildStep g)._targets a = some (some (g.fresh + j))) ∧
      ((∀ b ∈ bs, headAddr b ≠ a) →
        mapFind (bs.foldl buildStep g)._targets a = mapFind g._targets a) := by
  intro bs
  induction bs with
  | nil => intro g a _; simp
  | cons b bs ih =>
    intro g a hnd
    simp only [List.map_cons, List.nodup_cons] at hnd
    have h := ih (buildStep g b) a hnd.2
    have hstep : mapFind (buildStep g b)._targets a =
        if a = headAddr b then some (some g.fresh) else mapFind g._targets a := by
      simp only [buildStep, addNode, mapFind_mapSet]
    have hf : (buildStep g b).fresh = g.fresh + 1 := rfl
    simp only [List.foldl_cons]
    constructor
    · intro j b1 hj hb1
      cases j with
      | zero =>
        simp only [List.getElem?_cons_zero, Option.some.injEq] at hj
        subst hj
        rw [h.2, hstep, if_pos hb1.symm]
        · rfl
        · intro b2 hb2 e
          exact hnd.1 (by rw [hb1, ← e]; exact List.mem_map_of_mem _ hb2)
      | succ j =>
        simp only [List.getElem?_cons_succ] at hj
        rw [h.1 j b1 hj hb1, hf]
        congr 2
        omega
    · intro hall
      rw [h.2 (fun b2 hb2 => hall b2 (List.mem_cons_of_mem _ hb2)), hstep,
        if_neg (fun e => hall b (List.mem_cons_self _ _) e.symm)]

/-! ### The runs -/

theorem runs_join (T : Nat → Bool) :
    ∀ (rest cur : List Instruction), rest ≠ [] → (runs T cur rest).flatten = cur ++ rest := by
  intro rest
  induction rest with
  | nil => intro cur h; exact absurd rfl h
  | cons i rest ih =>
    intro cur _
    simp only [runs]
    split
    · rename_i hc
      cases rest with
      | nil => simp [runs]
      | cons j rest2 =>
        rw [List.flatten_cons, ih [] (by simp)]
        simp
    · rename_i hc
      cases rest with
      | nil => simp [cutAfter] at hc
      | cons j rest2 =>
        rw [ih (cur ++ [i]) (by simp)]
        simp

theorem runs_ne_nil (T : Nat → Bool) :
    ∀ (rest cur : List Instruction), ∀ b ∈ runs T cur rest, b ≠ [] := by
  intro rest
  induction rest with
  | nil => intro cur b hb; simp [runs] at hb
  | cons i rest ih =>
    intro cur b hb
    simp only [runs] at hb
    split at hb
    · rcases List.mem_cons.1 hb with h | h
      · subst h; simp
      · exact ih [] b h
    · exact ih _ b hb

theorem head?_snoc_snoc (cur : List Instruction) (i j : Instruction) :
    (cur ++ [i] ++ [j]).head? = (cur ++ [i]).head? := by
  cases cur <;> rfl

theorem runs_heads (T : Nat → Bool) :
    ∀ (rest cur : List Instruction) (i : Instruction),
      (runs T cur (i :: rest)).map List.head? =
        (cur ++ [i]).head? :: (rest.filter (fun j => T j._addr)).map some := by
  intro rest
  induction rest with
  | nil => intro cur i; simp [runs, cutAfter]
  | cons j rest ih =>
    intro cur i
    rw [runs]
    by_cases hc : T j._addr = true
    · have : cutAfter T (j :: rest) = true := hc
      rw [if_pos this, List.map_cons, ih [] j, List.filter_cons, if_pos hc]
      simp
    · have : ¬ cutAfter T (j :: rest) = true := hc
      rw [if_neg this, ih (cur ++ [i]) j, List.filter_cons, if_neg hc, head?_snoc_snoc]

theorem headAddr_eq_of_head? (b : List Instruction) (i : Instruction) (h : b.head? = some i) :
    headAddr b = i._addr := by
  cases b with
  | nil => simp at h
  | cons x b => simp at h; subst h; rfl

theorem runs_headAddrs (T : Nat → Bool) (rest cur : List Instruction) (i : Instruction) :
    (runs T cur (i :: rest)).map headAddr =
      headAddr (cur ++ [i]) :: (rest.filter (fun j => T j._addr)).map (fun j => j._addr) := by
  have h := runs_heads T rest cur i
  have hne := runs_ne_nil T (i :: rest) cur
  have key : ∀ (bs : List (List Instruction)) (hs : List Instruction),
      (∀ b ∈ bs, b ≠ []) → bs.map List.head? = hs.map some →
      bs.map headAddr = hs.map (fun j => j._addr) := by
    intro bs
    induction bs with
    | nil => intro hs _ h; cases hs <;> simp_all
    | cons b bs ih =>
      intro hs hn h
      cases hs with
      | nil => simp at h
      | cons x hs =>
        simp only [List.map_cons, List.cons.injEq] at h
        simp only [List.map_cons, List.cons.injEq]
        exact ⟨headAddr_eq_of_head? b x h.1,
          ih hs (fun b hb => hn b (List.mem_cons_of_mem _ hb)) h.2⟩
  cases hh : (cur ++ [i]).head? with
  | none => cases cur <;> simp at hh
  | some x =>
    rw [hh] at h
    have := key _ (x :: rest.filter (fun j => T j._addr)) hne (by simpa using h)
    rw [this, List.map_cons, headAddr_eq_of_head? _ x hh]

/-! ### Sorted maps -/

theorem mem_keys_mapSet (m : TargetMap) (k : Nat) (v : Option Nat) (a : Nat) :
    a ∈ (mapSet m k v).map (fun e => e.1) ↔ a = k ∨ a ∈ m.map (fun e => e.1) := by
  induction m with
  | nil => simp [mapSet]
  | cons e m ih =>
    obtain ⟨k1, v1⟩ := e
    simp only [mapSet]
    by_cases h1 : k < k1
    · simp [h1]
    · by_cases h2 : k = k1
      · subst h2; simp
      · simp only [h1, h2, if_false, List.map_cons, List.mem_cons, ih]
        constructor
        · rintro (h | h | h)
          · exact Or.inr (Or.inl h)
          · exact Or.inl h
          · exact Or.inr (Or.inr h)
        · rintro (h | h | h)
          · exact Or.inr (Or.inl h)
          · exact Or.inl h
          · exact Or.inr (Or.inr h)

theorem keysSorted_mapSet (m : TargetMap) (k : Nat) (v : Option Nat) (h : KeysSorted m) :
    KeysSorted (mapSet m k v) := by
  unfold KeysSorted at *
  induction m with
  | nil => simp [mapSet]
  | cons e m ih =>
    obtain ⟨k1, v1⟩ := e
    simp only [List.map_cons, List.pairwise_cons] at h
    simp only [mapSet]
    by_cases h1 : k < k1
    · simp only [h1, if_true, List.map_cons, List.pairwise_cons]
      refine ⟨?_, h.1, h.2⟩
      intro a ha
      rcases List.mem_cons.1 ha with e | e
      · rw [e]; exact h1
      · exact lt_trans h1 (h.1 a e)
    · by_cases h2 : k = k1
      · subst h2
        simp only [h1, if_false, if_true, List.map_cons, List.pairwise_cons]
        exact h
      · simp only [h1, h2, if_false, List.map_cons, List.pairwise_cons]
        refine ⟨?_, ih h.2⟩
        intro a ha
        rcases (mem_keys_mapSet m k v a).1 ha with e | e
        · rw [e]; omega
        · exact h.1 a e

theorem keysSorted_markTargets (script : List Instruction) :
    ∀ m : TargetMap, KeysSorted m → KeysSorted (markTargets script m) := by
  induction script with
  | nil => intro m h; exact h
  | cons i rest ih =>
    intro m h
    unfold markTargets
    cases i.asJump with
    | none => exact ih m h
    | some t =>
      cases rest with
      | nil => exact ih _ (keysSorted_mapSet _ _ _ h)
      | cons j rest2 => exact ih _ (keysSorted_mapSet _ _ _ (keysSorted_mapSet _ _ _ h))

theorem keysSorted_foldl_buildStep :
    ∀ (bs : List (List Instruction)) (g : ControlFlowGraph),
      KeysSorted g._targets → KeysSorted (bs.foldl buildStep g)._targets := by
  intro bs
  induction bs with
  | nil => intro g h; exact h
  | cons b bs ih =>
    intro g h
    exact ih _ (keysSorted_mapSet _ _ _ h)

theorem mapFind_eq_none_of_lt (m : TargetMap) (a : Nat)
    (h : ∀ k ∈ m.map (fun e => e.1), a < k) : mapFind m a = none := by
  induction m with
  | nil => rfl
  | cons e m ih =>
    obtain ⟨k1, v1⟩ := e
    simp only [mapFind]
    have h1 : a < k1 := h k1 (by simp)
    rw [if_neg (by omega)]
    exact ih (fun k hk => h k (List.mem_cons_of_mem _ hk))

theorem mapFind_isSome_mem_keys (m : TargetMap) (a : Nat) (h : (mapFind m a).isSome = true) :
    a ∈ m.map (fun e => e.1) := by
  induction m with
  | nil => simp [mapFind] at h
  | cons e m ih =>
    obtain ⟨k1, v1⟩ := e
    simp only [mapFind] at h
    by_cases h1 : a = k1
    · simp [h1]
    · rw [if_neg h1] at h
      exact List.mem_cons_of_mem _ (ih h)

theorem mapNextOf_sorted (m : TargetMap) (hs : KeysSorted m) (k : Nat)
    (hk : (mapFind m k).isSome = true) :
    (mapNextOf m k = some none ∧ ∀ a, k < a → mapFind m a = none) ∨
    (∃ k1 v1, mapNextOf m k = some (some (k1, v1)) ∧ k < k1 ∧ mapFind m k1 = some v1 ∧
      ∀ a, k < a → a < k1 → mapFind m a = none) := by
  unfold KeysSorted at hs
  induction m with
  | nil => simp [mapFind] at hk
  | cons e m ih =>
    obtain ⟨k0, v0⟩ := e
    simp only [List.map_cons, List.pairwise_cons] at hs
    simp only [mapFind] at hk
    by_cases h0 : k = k0
    · subst h0
      cases m with
      | nil =>
        left
        refine ⟨by simp [mapNextOf], ?_⟩
        intro a ha
        simp only [mapFind]
        rw [if_neg (by omega)]
      | cons e1 m1 =>
        obtain ⟨k1, v1⟩ := e1
        right
        have hlt : k < k1 := hs.1 k1 (by simp)
        refine ⟨k1, v1, by simp [mapNextOf], hlt, ?_, ?_⟩
        · simp only [mapFind]
          rw [if_neg (by omega)]
          simp
        · intro a ha1 ha2
          simp only [mapFind]
          rw [if_neg (by omega), if_neg (by omega)]
          apply mapFind_eq_none_of_lt
          intro x hx
          have hs2 := hs.2
          simp only [List.map_cons, List.pairwise_cons] at hs2
          exact lt_trans ha2 (hs2.1 x hx)
    · rw [if_neg h0] at hk
      have hkm := mapFind_isSome_mem_keys m k hk
      have hlt : k0 < k := hs.1 k hkm
      have key : ∀ a, k < a → mapFind ((k0, v0) :: m) a = mapFind m a := by
        intro a ha
        simp only [mapFind]
        rw [if_neg (by omega)]
      have hn : mapNextOf ((k0, v0) :: m) k = mapNextOf m k := by
        simp only [mapNextOf]
        rw [if_neg h0]
      rcases ih hs.2 hk with ⟨h1, h2⟩ | ⟨k1, v1, h1, h2, h3, h4⟩
      · left
        refine ⟨by rw [hn, h1], ?_⟩
        intro a ha
        rw [key a ha]; exact h2 a ha
      · right
        refine ⟨k1, v1, by rw [hn, h1], h2, ?_, ?_⟩
        · rw [key k1 h2]; exact h3
        · intro a ha1 ha2
          rw [key a ha1]; exact h4 a ha1 ha2

end Decompiler

namespace Decompiler

/-! ### The third loop of `addNodesFromScript` -/

theorem linkNode_eq (g : ControlFlowGraph) (node : Nat) :
    linkNode g node = (linkOut g node).map (addEdges g node) := by
  unfold linkNode linkOut
  cases (g.mem node)._instructions.getLast? with
  | none => rfl
  | some lastI =>
    cases (g.mem node)._instructions.head? with
    | none => rfl
    | some firstI =>
      simp only
      cases hj : lastI.asJump with
      | none =>
        simp only [Option.some_bind, Option.isNone_none, Bool.true_or, if_true]
        cases mapNextOf g._targets firstI._addr with
        | none => rfl
        | some succ =>
          cases succ with
          | none => simp [addEdges]
          | some kv =>
            obtain ⟨k, v⟩ := kv
            cases v <;> simp [addEdges]
      | some t =>
        dsimp only
        cases mapNode g._targets t with
        | none => rfl
        | some dst =>
          simp only [Option.map_some', Option.some_bind, Option.isNone_some, Bool.false_or]
          have ht : (addEdge g node dst)._targets = g._targets := rfl
          rw [ht]
          cases mapNextOf g._targets firstI._addr with
          | none => rfl
          | some succ =>
            cases succ with
            | none => simp [addEdges]
            | some kv =>
              obtain ⟨k, v⟩ := kv
              by_cases hc : lastI.isCondJump = true
              · cases v <;> simp [addEdges, hc]
              · simp [addEdges, hc]

theorem addEdges_fields (node : Nat) :
    ∀ (l : List Nat) (g : ControlFlowGraph),
      (addEdges g node l)._nodes = g._nodes ∧ (addEdges g node l)._targets = g._targets ∧
      (addEdges g node l)._entry = g._entry ∧ (addEdges g node l).fresh = g.fresh ∧
      ∀ x, ((addEdges g node l).mem x)._instructions = (g.mem x)._instructions ∧
        ((addEdges g node l).mem x)._out =
          (if x = node then (g.mem x)._out ++ l else (g.mem x)._out) ∧
        ((addEdges g node l).mem x)._number = (g.mem x)._number ∧
        ((addEdges g node l).mem x)._dominator = (g.mem x)._dominator ∧
        ((addEdges g node l).mem x)._interval = (g.mem x)._interval ∧
        ((addEdges g node l).mem x)._component = (g.mem x)._component := by
  intro l
  induction l with
  | nil => intro g; simp [addEdges]
  | cons d l ih =>
    intro g
    have h := ih (addEdge g node d)
    have hstep : addEdges g node (d :: l) = addEdges (addEdge g node d) node l := rfl
    rw [hstep]
    refine ⟨h.1, h.2.1, h.2.2.1, h.2.2.2.1, fun x => ?_⟩
    have hx := h.2.2.2.2 x
    have hmem : ∀ y, (addEdge g node d).mem y = addEdgeMem g.mem node d y := fun _ => rfl
    have hother : ∀ y, ((addEdge g node d).mem y)._instructions = (g.mem y)._instructions ∧
        ((addEdge g node d).mem y)._number = (g.mem y)._number ∧
        ((addEdge g node d).mem y)._dominator = (g.mem y)._dominator ∧
        ((addEdge g node d).mem y)._interval = (g.mem y)._interval ∧
        ((addEdge g node d).mem y)._component = (g.mem y)._component := by
      intro y
      rw [hmem]
      unfold addEdgeMem
      simp only [Mem.modify_apply]
      by_cases h1 : y = d <;> by_cases h2 : y = node <;> by_cases h3 : d = node <;> simp_all
    refine ⟨hx.1.trans (hother x).1, ?_, hx.2.2.1.trans (hother x).2.1,
      hx.2.2.2.1.trans (hother x).2.2.1, hx.2.2.2.2.1.trans (hother x).2.2.2.1,
      hx.2.2.2.2.2.trans (hother x).2.2.2.2⟩
    rw [hx.2.1, hmem, addEdgeMem_out]
    by_cases h1 : x = node
    · simp [h1]
    · simp [h1]

theorem linkOut_congr (g g1 : ControlFlowGraph) (node : Nat)
    (ht : g1._targets = g._targets)
    (hi : (g1.mem node)._instructions = (g.mem node)._instructions) :
    linkOut g1 node = linkOut g node := by
  unfold linkOut
  rw [ht, hi]

theorem linkNodes_spec (f : Nat → List Nat) :
    ∀ (nodes : List Nat) (g : ControlFlowGraph),
      nodes.Nodup → (∀ n ∈ nodes, linkOut g n = some (f n)) →
      ∃ g1, linkNodes g nodes = some g1 ∧ g1._nodes = g._nodes ∧ g1._targets = g._targets ∧
        g1._entry = g._entry ∧
        ∀ x, (g1.mem x)._instructions = (g.mem x)._instructions ∧
          (g1.mem x)._out = (if x ∈ nodes then (g.mem x)._out ++ f x else (g.mem x)._out) ∧
          (g1.mem x)._number = (g.mem x)._number ∧
          (g1.mem x)._dominator = (g.mem x)._dominator ∧
          (g1.mem x)._interval = (g.mem x)._interval ∧
          (g1.mem x)._component = (g.mem x)._component := by
  intro nodes
  induction nodes with
  | nil =>
    intro g _ _
    exact ⟨g, rfl, rfl, rfl, rfl, fun x => by simp⟩
  | cons n nodes ih =>
    intro g hnd hf
    simp only [List.nodup_cons] at hnd
    have hn := hf n (List.mem_cons_self _ _)
    have hE := addEdges_fields n (f n) g
    have hstep : linkNode g n = some (addEdges g n (f n)) := by
      rw [linkNode_eq, hn]; rfl
    obtain ⟨g1, h1, h2, h3, h4, h5⟩ := ih (addEdges g n (f n)) hnd.2 (by
      intro m hm
      rw [linkOut_congr g _ m hE.2.1 ((hE.2.2.2.2 m).1)]
      exact hf m (List.mem_cons_of_mem _ hm))
    refine ⟨g1, ?_, h2.trans hE.1, h3.trans hE.2.1, h4.trans hE.2.2.1, fun x => ?_⟩
    · simp only [linkNodes, hstep, Option.some_bind]
      exact h1
    · have hx := h5 x
      have hy := hE.2.2.2.2 x
      refine ⟨hx.1.trans hy.1, ?_, hx.2.2.1.trans hy.2.2.1, hx.2.2.2.1.trans hy.2.2.2.1,
        hx.2.2.2.2.1.trans hy.2.2.2.2.1, hx.2.2.2.2.2.trans hy.2.2.2.2.2⟩
      rw [hx.2.1, hy.2.1]
      by_cases hxn : x = n
      · subst hxn
        simp [hnd.1]
      · by_cases hxm : x ∈ nodes
        · simp [hxn, hxm]
        · simp [hxn, hxm]

end Decompiler

namespace Decompiler

/-! ### Marked addresses -/

theorem marked_of_jump (script : List Instruction) (i : Instruction) (a : Nat)
    (hi : i ∈ script) (hj : i.asJump = some a) : Marked script a := by
  induction script with
  | nil => simp at hi
  | cons x rest ih =>
    rcases List.mem_cons.1 hi with h | h
    · subst h; exact Or.inl hj
    · exact Or.inr (Or.inr (ih h))

theorem marked_after_jump (script : List Instruction) (k : Nat) (i j : Instruction)
    (hi : script[k]? = some i) (hj : script[k + 1]? = some j) (hjump : i.asJump.isSome = true) :
    Marked script j._addr := by
  induction script generalizing k with
  | nil => simp at hi
  | cons x rest ih =>
    cases k with
    | zero =>
      simp only [List.getElem?_cons_zero, Option.some.injEq] at hi
      simp only [List.getElem?_cons_succ] at hj
      subst hi
      refine Or.inr (Or.inl ⟨hjump, ?_⟩)
      cases rest with
      | nil => simp at hj
      | cons y rest2 =>
        simp only [List.getElem?_cons_zero, Option.some.injEq] at hj
        subst hj
        rfl
    | succ k =>
      simp only [List.getElem?_cons_succ] at hi hj
      exact Or.inr (Or.inr (ih k hi hj))

theorem marked_cases (script : List Instruction) (a : Nat) (h : Marked script a) :
    (∃ i ∈ script, i.asJump = some a) ∨
    (∃ k i j, script[k]? = some i ∧ script[k + 1]? = some j ∧ i.asJump.isSome = true ∧
      j._addr = a) := by
  induction script with
  | nil => exact absurd h (by simp [Marked])
  | cons x rest ih =>
    rcases h with h | h | h
    · exact Or.inl ⟨x, List.mem_cons_self _ _, h⟩
    · right
      cases rest with
      | nil => simp at h
      | cons y rest2 =>
        refine ⟨0, x, y, rfl, by simp, h.1, ?_⟩
        simpa using h.2
    · rcases ih h with ⟨i, hi, hj⟩ | ⟨k, i, j, h1, h2, h3, h4⟩
      · exact Or.inl ⟨i, List.mem_cons_of_mem _ hi, hj⟩
      · exact Or.inr ⟨k + 1, i, j, by simpa using h1, by simpa using h2, h3, h4⟩

theorem marked_mem_addr (script : List Instruction) (hv : TargetsValid script) (a : Nat)
    (h : Marked script a) : a ∈ script.map (fun i => i._addr) := by
  rcases marked_cases script a h with ⟨i, hi, hj⟩ | ⟨k, i, j, _, h2, _, h4⟩
  · obtain ⟨x, hx, hxa⟩ := hv i hi a hj
    exact List.mem_map.2 ⟨x, hx, hxa⟩
  · exact List.mem_map.2 ⟨j, List.getElem?_mem h2, h4⟩

theorem mapFind_markTargets_nil (script : List Instruction) (a : Nat) :
    mapFind (markTargets script []) a = if contains (markTargets script []) a then some none
      else none := by
  have key : ∀ (s : List Instruction) (m : TargetMap),
      (∀ a v, mapFind m a = some v → v = none) →
      ∀ a v, mapFind (markTargets s m) a = some v → v = none := by
    intro s
    induction s with
    | nil => intro m h; exact h
    | cons i rest ih =>
      intro m h
      unfold markTargets
      have hset : ∀ (m1 : TargetMap) (k : Nat), (∀ a v, mapFind m1 a = some v → v = none) →
          ∀ a v, mapFind (mapSet m1 k none) a = some v → v = none := by
        intro m1 k h1 a v hv
        rw [mapFind_mapSet] at hv
        split at hv
        · simpa using hv.symm
        · exact h1 a v hv
      cases i.asJump with
      | none => exact ih m h
      | some t =>
        cases rest with
        | nil => exact ih _ (hset _ _ h)
        | cons j rest2 => exact ih _ (hset _ _ (hset _ _ h))
  unfold contains
  cases h : mapFind (markTargets script []) a with
  | none => rfl
  | some v =>
    have := key script [] (by intro a v h; simp [mapFind] at h) a v h
    subst this
    rfl

end Decompiler

namespace Decompiler

/-! ### The graph after the first two loops -/

theorem ascending_nodup (script : List Instruction) (h : Ascending script) :
    (script.map (fun i => i._addr)).Nodup :=
  List.Pairwise.imp (fun hab => Nat.ne_of_lt hab) h

theorem splitGraph_eq (script : List Instruction) (h : Ascending script) :
    splitGraph script = (scriptRuns script).foldl buildStep
      { ControlFlowGraph.empty with _targets := markTargets script [] } := by
  unfold splitGraph scriptRuns
  apply splitNodes_eq_foldl
  · intro j _; rfl
  · simpa using ascending_nodup script h

theorem scriptRuns_flatten (script : List Instruction) : (scriptRuns script).flatten = script := by
  cases script with
  | nil => rfl
  | cons i rest => simpa [scriptRuns] using runs_join _ (i :: rest) [] (by simp)

theorem scriptRuns_ne_nil (script : List Instruction) : ∀ b ∈ scriptRuns script, b ≠ [] :=
  runs_ne_nil _ script []

theorem scriptRuns_heads (i : Instruction) (rest : List Instruction) :
    (scriptRuns (i :: rest)).map List.head? =
      some i :: (rest.filter
        (fun j => contains (markTargets (i :: rest) []) j._addr)).map some := by
  simpa [scriptRuns] using runs_heads (contains (markTargets (i :: rest) [])) rest [] i

theorem scriptRuns_headAddrs (i : Instruction) (rest : List Instruction) :
    (scriptRuns (i :: rest)).map headAddr =
      (i :: rest.filter
        (fun j => contains (markTargets (i :: rest) []) j._addr)).map (fun j => j._addr) := by
  simpa [scriptRuns, headAddr] using
    runs_headAddrs (contains (markTargets (i :: rest) [])) rest [] i

theorem scriptRuns_heads_sorted (script : List Instruction) (h : Ascending script) :
    ((scriptRuns script).map headAddr).Pairwise (fun a b => a < b) := by
  cases script with
  | nil => simp [scriptRuns, runs]
  | cons i rest =>
    rw [scriptRuns_headAddrs]
    have hsub : List.Sublist
        (i :: rest.filter (fun j => contains (markTargets (i :: rest) []) j._addr))
        (i :: rest) := List.Sublist.cons₂ i (List.filter_sublist rest)
    exact List.Pairwise.sublist (List.Sublist.map _ hsub) h

theorem splitGraph_nodes (script : List Instruction) (h : Ascending script) :
    (splitGraph script)._nodes = List.range (scriptRuns script).length := by
  rw [splitGraph_eq script h, (foldl_buildStep_nodes _ _).1]
  simp [ControlFlowGraph.empty, List.range_eq_range']

theorem splitGraph_mem (script : List Instruction) (h : Ascending script) (x : Nat) :
    (∀ b, (scriptRuns script)[x]? = some b →
      (splitGraph script).mem x = { Node.fresh with _instructions := b }) ∧
    ((scriptRuns script)[x]? = none → (splitGraph script).mem x = Node.fresh) := by
  rw [splitGraph_eq script h, foldl_buildStep_mem]
  constructor
  · intro b hb
    simp [ControlFlowGraph.empty, hb]
  · intro hb
    simp [ControlFlowGraph.empty, hb]

theorem splitGraph_sorted (script : List Instruction) (h : Ascending script) :
    KeysSorted (splitGraph script)._targets := by
  rw [splitGraph_eq script h]
  apply keysSorted_foldl_buildStep
  exact keysSorted_markTargets script [] (by simp [KeysSorted])

theorem splitGraph_find_head (script : List Instruction) (h : Ascending script) (j : Nat)
    (b : List Instruction) (hb : (scriptRuns script)[j]? = some b) :
    mapFind (splitGraph script)._targets (headAddr b) = some (some j) := by
  rw [splitGraph_eq script h]
  have hnd : ((scriptRuns script).map headAddr).Nodup :=
    List.Pairwise.imp (fun hab => Nat.ne_of_lt hab) (scriptRuns_heads_sorted script h)
  have := (foldl_buildStep_targets (scriptRuns script)
    { ControlFlowGraph.empty with _targets := markTargets script [] } (headAddr b) hnd).1 j b hb rfl
  simpa [ControlFlowGraph.empty] using this

theorem head_of_marked (script : List Instruction) (h : Ascending script)
    (hv : TargetsValid script) (a : Nat) (hm : contains (markTargets script []) a = true) :
    ∃ b ∈ scriptRuns script, headAddr b = a := by
  have hmk : Marked script a := by
    rcases (contains_markTargets script [] a).1 hm with h1 | h1
    · simp [contains, mapFind] at h1
    · exact h1
  have hmem := marked_mem_addr script hv a hmk
  cases script with
  | nil => simp at hmem
  | cons i rest =>
    have ha : a ∈ (scriptRuns (i :: rest)).map headAddr := by
      rw [scriptRuns_headAddrs]
      obtain ⟨x, hx, hxa⟩ := List.mem_map.1 hmem
      rcases List.mem_cons.1 hx with e | e
      · subst e; subst hxa; simp
      · refine List.mem_map.2 ⟨x, List.mem_cons_of_mem _ (List.mem_filter.2 ⟨e, ?_⟩), hxa⟩
        simpa [hxa] using hm
    obtain ⟨b, hb, hba⟩ := List.mem_map.1 ha
    exact ⟨b, hb, hba⟩

theorem splitGraph_find_other (script : List Instruction) (h : Ascending script)
    (hv : TargetsValid script) (a : Nat) (ha : ∀ b ∈ scriptRuns script, headAddr b ≠ a) :
    mapFind (splitGraph script)._targets a = none := by
  rw [splitGraph_eq script h]
  have hnd : ((scriptRuns script).map headAddr).Nodup :=
    List.Pairwise.imp (fun hab => Nat.ne_of_lt hab) (scriptRuns_heads_sorted script h)
  rw [(foldl_buildStep_targets (scriptRuns script)
    { ControlFlowGraph.empty with _targets := markTargets script [] } a hnd).2 ha]
  show mapFind (markTargets script []) a = none
  rw [mapFind_markTargets_nil]
  split
  · rename_i hc
    obtain ⟨b, hb, hba⟩ := head_of_marked script h hv a hc
    exact absurd hba (ha b hb)
  · rfl

end Decompiler

namespace Decompiler

/-! ### The successors computed by the third loop -/

theorem filter_eq_singleton (l : List Nat) (p : Nat → Bool) (a : Nat) (hnd : l.Nodup)
    (ha : a ∈ l) (hp : ∀ x ∈ l, p x = true ↔ x = a) : l.filter p = [a] := by
  induction l with
  | nil => simp at ha
  | cons x l ih =>
    simp only [List.nodup_cons] at hnd
    by_cases hx : x = a
    · subst hx
      have hpx : p x = true := (hp x (List.mem_cons_self _ _)).2 rfl
      rw [List.filter_cons, if_pos hpx]
      congr 1
      apply List.filter_eq_nil_iff.2
      intro y hy hpy
      have := (hp y (List.mem_cons_of_mem _ hy)).1 hpy
      exact hnd.1 (this ▸ hy)
    · have hpx : ¬ p x = true := fun e => hx ((hp x (List.mem_cons_self _ _)).1 e)
      rw [List.filter_cons, if_neg hpx]
      apply ih hnd.2
      · rcases List.mem_cons.1 ha with e | e
        · exact absurd e.symm hx
        · exact e
      · intro y hy
        exact hp y (List.mem_cons_of_mem _ hy)

theorem heads_lt (script : List Instruction) (h : Ascending script) (j1 j2 : Nat)
    (b1 b2 : List Instruction) (h1 : (scriptRuns script)[j1]? = some b1)
    (h2 : (scriptRuns script)[j2]? = some b2) (hlt : j1 < j2) : headAddr b1 < headAddr b2 := by
  have hs := scriptRuns_heads_sorted script h
  rw [List.pairwise_iff_getElem] at hs
  obtain ⟨hl1, e1⟩ := List.getElem?_eq_some.1 h1
  obtain ⟨hl2, e2⟩ := List.getElem?_eq_some.1 h2
  have := hs j1 j2 (by simpa using hl1) (by simpa using hl2) hlt
  simpa [e1, e2] using this

theorem heads_inj (script : List Instruction) (h : Ascending script) (j1 j2 : Nat)
    (b1 b2 : List Instruction) (h1 : (scriptRuns script)[j1]? = some b1)
    (h2 : (scriptRuns script)[j2]? = some b2) (he : headAddr b1 = headAddr b2) : j1 = j2 := by
  rcases Nat.lt_trichotomy j1 j2 with hlt | heq | hgt
  · have := heads_lt script h j1 j2 b1 b2 h1 h2 hlt; omega
  · exact heq
  · have := heads_lt script h j2 j1 b2 b1 h2 h1 hgt; omega

theorem splitGraph_next (script : List Instruction) (h : Ascending script)
    (hv : TargetsValid script) (j : Nat) (b : List Instruction)
    (hb : (scriptRuns script)[j]? = some b) :
    mapNextOf (splitGraph script)._targets (headAddr b) =
      some (if j + 1 < (scriptRuns script).length then some
        (headAddr ((scriptRuns script)[j + 1]?.getD []), some (j + 1)) else none) := by
  have hfind := splitGraph_find_head script h j b hb
  rcases mapNextOf_sorted _ (splitGraph_sorted script h) (headAddr b) (by rw [hfind]; rfl) with
    ⟨h1, h2⟩ | ⟨k1, v1, h1, h2, h3, h4⟩
  · rw [h1]
    by_cases hj : j + 1 < (scriptRuns script).length
    · exfalso
      have hb2 : (scriptRuns script)[j + 1]? = some ((scriptRuns script)[j + 1]) :=
        List.getElem?_eq_getElem hj
      have hlt := heads_lt script h j (j + 1) b _ hb hb2 (by omega)
      have := h2 _ hlt
      rw [splitGraph_find_head script h (j + 1) _ hb2] at this
      exact absurd this (by simp)
    · rw [if_neg hj]
  · rw [h1]
    have hk1 : ∃ b1 ∈ scriptRuns script, headAddr b1 = k1 := by
      by_contra hne
      have := splitGraph_find_other script h hv k1 (fun b1 hb1 e => hne ⟨b1, hb1, e⟩)
      rw [this] at h3
      exact absurd h3 (by simp)
    obtain ⟨b1, hb1, hbk⟩ := hk1
    obtain ⟨j1, hj1⟩ := List.mem_iff_getElem?.1 hb1
    have hf1 := splitGraph_find_head script h j1 b1 hj1
    rw [hbk, h3] at hf1
    have hv1 : v1 = some j1 := by simpa using hf1
    have hjlt : j < j1 := by
      by_contra hge
      have hle : j1 ≤ j := by omega
      rcases Nat.lt_or_ge j1 j with hlt | hge2
      · have := heads_lt script h j1 j b1 b hj1 hb hlt
        omega
      · have : j1 = j := by omega
        subst this
        rw [hb] at hj1
        have : b = b1 := by simpa using hj1
        subst this
        omega
    have hj1len : j1 < (scriptRuns script).length := (List.getElem?_eq_some.1 hj1).1
    have hj1eq : j1 = j + 1 := by
      by_contra hne
      have hlt : j + 1 < j1 := by omega
      have hb2 : (scriptRuns script)[j + 1]? = some ((scriptRuns script)[j + 1]) :=
        List.getElem?_eq_getElem (by omega)
      have hl1 := heads_lt script h j (j + 1) b _ hb hb2 (by omega)
      have hl2 := heads_lt script h (j + 1) j1 _ b1 hb2 hj1 hlt
      have := h4 _ hl1 (by rw [← hbk]; exact hl2)
      rw [splitGraph_find_head script h (j + 1) _ hb2] at this
      exact absurd this (by simp)
    subst hj1eq
    rw [if_pos hj1len, hj1, hv1, ← hbk]
    rfl

end Decompiler

namespace Decompiler

theorem splitGraph_instructions (script : List Instruction) (h : Ascending script) (x : Nat)
    (b : List Instruction) (hb : (scriptRuns script)[x]? = some b) :
    ((splitGraph script).mem x)._instructions = b := by
  rw [(splitGraph_mem script h x).1 b hb]

theorem splitGraph_out (script : List Instruction) (h : Ascending script) (x : Nat) :
    ((splitGraph script).mem x)._out = [] := by
  cases hb : (scriptRuns script)[x]? with
  | none => rw [(splitGraph_mem script h x).2 hb]; rfl
  | some b => rw [(splitGraph_mem script h x).1 b hb]; rfl

theorem mem_script_of_run (script : List Instruction) (b : List Instruction)
    (hb : b ∈ scriptRuns script) (i : Instruction) (hi : i ∈ b) : i ∈ script := by
  rw [← scriptRuns_flatten script]
  exact List.mem_flatten.2 ⟨b, hb, hi⟩

theorem jumpSuccessors_splitGraph (script : List Instruction) (h : Ascending script)
    (hv : TargetsValid script) (lastI : Instruction) (hl : lastI ∈ script) (t : Nat)
    (ht : lastI.asJump = some t) :
    ∃ jt, mapNode (splitGraph script)._targets t = some jt ∧
      jumpSuccessors (splitGraph script) lastI = [jt] := by
  have hc : contains (markTargets script []) t = true :=
    (contains_markTargets script [] t).2 (Or.inr (marked_of_jump script lastI t hl ht))
  obtain ⟨b, hb, hbt⟩ := head_of_marked script h hv t hc
  obtain ⟨jt, hjt⟩ := List.mem_iff_getElem?.1 hb
  refine ⟨jt, ?_, ?_⟩
  · unfold mapNode
    rw [← hbt, splitGraph_find_head script h jt b hjt]
    rfl
  · unfold jumpSuccessors
    rw [ht]
    simp only
    rw [splitGraph_nodes script h]
    apply filter_eq_singleton _ _ _ (List.nodup_range _)
    · exact List.mem_range.2 (List.getElem?_eq_some.1 hjt).1
    · intro x hx
      have hxl : x < (scriptRuns script).length := List.mem_range.1 hx
      have hbx : (scriptRuns script)[x]? = some ((scriptRuns script)[x]) :=
        List.getElem?_eq_getElem hxl
      rw [splitGraph_instructions script h x _ hbx]
      have hne := scriptRuns_ne_nil script _ (List.getElem?_mem hbx)
      constructor
      · intro hp
        simp only [decide_eq_true_eq] at hp
        apply heads_inj script h x jt _ b hbx hjt
        rw [hbt]
        cases hh : (scriptRuns script)[x] with
        | nil => exact absurd hh hne
        | cons i r =>
          rw [hh] at hp
          simpa [headAddr] using hp
      · intro hxj
        subst hxj
        rw [hjt] at hbx
        have hbb : b = (scriptRuns script)[x] := by simpa using hbx
        rw [← hbb]
        cases b with
        | nil => exact absurd rfl (scriptRuns_ne_nil script _ hb)
        | cons i r => simpa [headAddr] using hbt

theorem fallSuccessors_splitGraph (script : List Instruction) (h : Ascending script)
    (j : Nat) (lastI : Instruction) :
    fallSuccessors (splitGraph script) j lastI =
      if lastI.asJump.isNone || lastI.isCondJump then
        (if j + 1 < (scriptRuns script).length then [j + 1] else [])
      else [] := by
  unfold fallSuccessors
  rw [splitGraph_nodes script h]
  by_cases hj : j + 1 < (scriptRuns script).length
  · simp [hj, List.getElem?_range]
  · have : (List.range (scriptRuns script).length)[j + 1]? = none := by
      apply List.getElem?_eq_none
      simpa using Nat.le_of_not_lt hj
    simp [hj, this]

theorem linkOut_splitGraph (script : List Instruction) (h : Ascending script)
    (hv : TargetsValid script) (j : Nat) (b : List Instruction)
    (hb : (scriptRuns script)[j]? = some b) (lastI : Instruction)
    (hl : b.getLast? = some lastI) :
    linkOut (splitGraph script) j =
      some (jumpSuccessors (splitGraph script) lastI ++ fallSuccessors (splitGraph script) j lastI) := by
  have hbm : b ∈ scriptRuns script := List.getElem?_mem hb
  have hlm : lastI ∈ script :=
    mem_script_of_run script b hbm lastI (List.mem_of_getLast?_eq_some hl)
  have hne := scriptRuns_ne_nil script b hbm
  obtain ⟨firstI, rest, hbe⟩ : ∃ firstI rest, b = firstI :: rest := by
    cases b with
    | nil => exact absurd rfl hne
    | cons i r => exact ⟨i, r, rfl⟩
  have hhead : b.head? = some firstI := by rw [hbe]; rfl
  have hha : headAddr b = firstI._addr := by rw [hbe]; rfl
  have hnext := splitGraph_next script h hv j b hb
  rw [hha] at hnext
  rw [fallSuccessors_splitGraph script h]
  unfold linkOut
  rw [splitGraph_instructions script h j b hb, hl, hhead]
  simp only
  rw [hnext]
  cases ht : lastI.asJump with
  | none =>
    have hjs : jumpSuccessors (splitGraph script) lastI = [] := by
      unfold jumpSuccessors; rw [ht]
    rw [hjs]
    by_cases hj : j + 1 < (scriptRuns script).length
    · simp [hj]
    · simp [hj]
  | some t =>
    obtain ⟨jt, hjt1, hjt2⟩ := jumpSuccessors_splitGraph script h hv lastI hlm t ht
    rw [hjt2]
    simp only [hjt1, Option.map_some', Option.some_bind, Option.isNone_some, Bool.false_or]
    by_cases hj : j + 1 < (scriptRuns script).length
    · by_cases hc : lastI.isCondJump = true
      · simp [hj, hc]
      · simp [hj, hc]
    · by_cases hc : lastI.isCondJump = true
      · simp [hj, hc]
      · simp [hj, hc]

end Decompiler

namespace Decompiler

theorem jumpSuccessors_congr (g g1 : ControlFlowGraph) (lastI : Instruction)
    (hn : g1._nodes = g._nodes)
    (hi : ∀ x, (g1.mem x)._instructions = (g.mem x)._instructions) :
    jumpSuccessors g1 lastI = jumpSuccessors g lastI := by
  unfold jumpSuccessors
  rw [hn]
  simp only [hi]

theorem fallSuccessors_congr (g g1 : ControlFlowGraph) (j : Nat) (lastI : Instruction)
    (hn : g1._nodes = g._nodes) : fallSuccessors g1 j lastI = fallSuccessors g j lastI := by
  unfold fallSuccessors
  rw [hn]

/-- The graph built by `addNodesFromScript` from a stream with unique ascending
addresses and valid jump targets: its nodes, their instructions and their
successor lists. -/
theorem addNodesFromScript_spec (script : List Instruction) (hasc : Ascending script)
    (hv : TargetsValid script) :
    ∃ g, addNodesFromScript ControlFlowGraph.empty script = some g ∧
      g._nodes = List.range (scriptRuns script).length ∧
      (∀ x b, (scriptRuns script)[x]? = some b → (g.mem x)._instructions = b) ∧
      (∀ j b lastI, (scriptRuns script)[j]? = some b → b.getLast? = some lastI →
        (g.mem j)._out = jumpSuccessors g lastI ++ fallSuccessors g j lastI) ∧
      (∀ lastI ∈ script, (jumpSuccessors g lastI).length = if lastI.asJump.isSome then 1 else 0) := by
  have hlast : ∀ (j : Nat) (b : List Instruction), (scriptRuns script)[j]? = some b →
      ∃ lastI, b.getLast? = some lastI := by
    intro j b hb
    have hne := scriptRuns_ne_nil script b (List.getElem?_mem hb)
    cases hl : b.getLast? with
    | none => exact absurd (List.getLast?_eq_none_iff.1 hl) hne
    | some lastI => exact ⟨lastI, rfl⟩
  obtain ⟨g, h1, h2, h3, _, h5⟩ := linkNodes_spec
    (fun n => (linkOut (splitGraph script) n).getD []) (splitGraph script)._nodes
    (splitGraph script) (by rw [splitGraph_nodes script hasc]; exact List.nodup_range _)
    (by
      intro n hn
      rw [splitGraph_nodes script hasc] at hn
      have hnl : n < (scriptRuns script).length := List.mem_range.1 hn
      have hb : (scriptRuns script)[n]? = some ((scriptRuns script)[n]) :=
        List.getElem?_eq_getElem hnl
      obtain ⟨lastI, hl⟩ := hlast n _ hb
      have e := linkOut_splitGraph script hasc hv n _ hb lastI hl
      simp only [e, Option.getD_some])
  have hnodes : g._nodes = List.range (scriptRuns script).length := by
    rw [h2, splitGraph_nodes script hasc]
  have hinstr : ∀ x, (g.mem x)._instructions = ((splitGraph script).mem x)._instructions :=
    fun x => (h5 x).1
  refine ⟨g, h1, hnodes, ?_, ?_, ?_⟩
  · intro x b hb
    rw [hinstr, splitGraph_instructions script hasc x b hb]
  · intro j b lastI hb hl
    have hj : j ∈ (splitGraph script)._nodes := by
      rw [splitGraph_nodes script hasc]
      exact List.mem_range.2 (List.getElem?_eq_some.1 hb).1
    have e := linkOut_splitGraph script hasc hv j b hb lastI hl
    rw [(h5 j).2.1, if_pos hj, splitGraph_out script hasc, List.nil_append,
      jumpSuccessors_congr (splitGraph script) g lastI h2 hinstr,
      fallSuccessors_congr (splitGraph script) g j lastI h2]
    simp only [e, Option.getD_some]
  · intro lastI hl
    rw [jumpSuccessors_congr (splitGraph script) g lastI h2 hinstr]
    cases ht : lastI.asJump with
    | none => simp [jumpSuccessors, ht]
    | some t =>
      obtain ⟨jt, _, hjt⟩ := jumpSuccessors_splitGraph script hasc hv lastI hl t ht
      simp [hjt]

theorem script_index_inj (script : List Instruction) (h : Ascending script) (a b : Nat)
    (x y : Instruction) (hx : script[a]? = some x) (hy : script[b]? = some y)
    (he : x._addr = y._addr) : a = b := by
  have hs : (script.map (fun i => i._addr)).Pairwise (fun a b => a < b) := h
  rw [List.pairwise_iff_getElem] at hs
  obtain ⟨hl1, e1⟩ := List.getElem?_eq_some.1 hx
  obtain ⟨hl2, e2⟩ := List.getElem?_eq_some.1 hy
  rcases Nat.lt_trichotomy a b with hlt | heq | hgt
  · have := hs a b (by simpa using hl1) (by simpa using hl2) hlt
    simp only [List.getElem_map, e1, e2] at this
    omega
  · exact heq
  · have := hs b a (by simpa using hl2) (by simpa using hl1) hgt
    simp only [List.getElem_map, e1, e2] at this
    omega

theorem map_range_eq (B : List (List Instruction)) (f : Nat → List Instruction)
    (hf : ∀ x b, B[x]? = some b → f x = b) : (List.range B.length).map f = B := by
  apply List.ext_getElem?
  intro n
  by_cases hn : n < B.length
  · rw [List.getElem?_map, List.getElem?_range hn, List.getElem?_eq_getElem hn]
    simp only [Option.map_some', Option.some.injEq]
    exact hf n _ (List.getElem?_eq_getElem hn)
  · rw [List.getElem?_eq_none (by simpa using Nat.le_of_not_lt hn),
      List.getElem?_eq_none (Nat.le_of_not_lt hn)]

end Decompiler

namespace Decompiler

/-! ### More fuel does not change a result -/

theorem growInterval_mono (interval : Nat) (nodes : List Nat) :
    ∀ (fuel fuel1 : Nat) (mem r : Mem), fuel ≤ fuel1 →
      growInterval fuel interval mem nodes = some r →
      growInterval fuel1 interval mem nodes = some r := by
  intro fuel
  induction fuel with
  | zero => intro fuel1 mem r _ h; simp [growInterval] at h
  | succ fuel ih =>
    intro fuel1 mem r hle h
    obtain ⟨f1, rfl⟩ : ∃ f1, fuel1 = f1 + 1 := ⟨fuel1 - 1, by omega⟩
    simp only [growInterval] at h ⊢
    split at h
    · rename_i hc
      rw [if_pos hc]
      exact ih f1 _ r (by omega) h
    · rename_i hc
      rw [if_neg hc]
      exact h

theorem intervalLoop_mono (nodes : List Nat) :
    ∀ (steps steps1 fuel fuel1 : Nat) (mem r : Mem) (work : List Nat),
      steps ≤ steps1 → fuel ≤ fuel1 →
      intervalLoop steps fuel mem nodes work = some r →
      intervalLoop steps1 fuel1 mem nodes work = some r := by
  intro steps
  induction steps with
  | zero =>
    intro steps1 fuel fuel1 mem r work _ _ h
    cases work with
    | nil =>
      cases steps1 <;> simpa [intervalLoop] using h
    | cons w work => simp [intervalLoop] at h
  | succ steps ih =>
    intro steps1 fuel fuel1 mem r work hs hf h
    obtain ⟨s1, rfl⟩ : ∃ s1, steps1 = s1 + 1 := ⟨steps1 - 1, by omega⟩
    cases work with
    | nil => simpa [intervalLoop] using h
    | cons w work =>
      simp only [intervalLoop] at h ⊢
      cases hg : growInterval fuel w
          (mem.modify w (fun x => { x with _interval := some w })) nodes with
      | none => rw [hg] at h; exact absurd h (by simp)
      | some m2 =>
        rw [hg] at h
        rw [growInterval_mono w nodes fuel fuel1 _ m2 hf hg]
        simp only [Option.some_bind] at h ⊢
        exact ih s1 fuel fuel1 _ r _ (by omega) hf h

theorem assignIntervals_mono (fuel fuel1 : Nat) (g r : ControlFlowGraph) (hle : fuel ≤ fuel1)
    (h : assignIntervals fuel g = some r) : assignIntervals fuel1 g = some r := by
  unfold assignIntervals at h ⊢
  cases he : g._entry with
  | none => rw [he] at h; exact absurd h (by simp)
  | some e =>
    rw [he] at h
    simp only at h ⊢
    cases hl : intervalLoop fuel fuel g.mem g._nodes [e] with
    | none => rw [hl] at h; exact absurd h (by simp)
    | some m =>
      rw [hl] at h
      rw [intervalLoop_mono g._nodes fuel fuel1 fuel fuel1 _ m _ hle hle hl]
      exact h

theorem intervals_mono (fuel fuel1 : Nat) (g : ControlFlowGraph)
    (r : ControlFlowGraph × List Nat) (hle : fuel ≤ fuel1)
    (h : intervals fuel g = some r) : intervals fuel1 g = some r := by
  unfold intervals at h ⊢
  cases ha : assignIntervals fuel g with
  | none => rw [ha] at h; exact absurd h (by simp)
  | some g1 =>
    rw [ha] at h
    rw [assignIntervals_mono fuel fuel1 g g1 hle ha]
    exact h

theorem extendIntervals_mono (fuel fuel1 : Nat) (g r : ControlFlowGraph) (hle : fuel ≤ fuel1)
    (h : extendIntervals fuel g = some r) : extendIntervals fuel1 g = some r := by
  unfold extendIntervals at h ⊢
  cases h1 : intervals fuel g with
  | none => rw [h1] at h; exact absurd h (by simp)
  | some r1 =>
    rw [h1] at h
    rw [intervals_mono fuel fuel1 g r1 hle h1]
    simp only [Option.some_bind] at h ⊢
    cases h2 : intervals fuel r1.1 with
    | none => rw [h2] at h; exact absurd h (by simp)
    | some r2 =>
      rw [h2] at h
      rw [intervals_mono fuel fuel1 r1.1 r2 hle h2]
      simp only [Option.some_bind] at h ⊢
      cases h3 : deriveEdges r2.1.mem
          (deriveNodes r1.1.mem ControlFlowGraph.empty [] r1.2).2
          (deriveNodes r1.1.mem ControlFlowGraph.empty [] r1.2).1 r2.2 with
      | none => rw [h3] at h; exact absurd h (by simp)
      | some d1 =>
        rw [h3] at h
        simp only [Option.some_bind] at h ⊢
        cases he : r2.1._entry with
        | none => rw [he] at h; exact absurd h (by simp)
        | some e =>
          rw [he] at h
          simp only at h ⊢
          cases hi : (r2.1.mem e)._instructions.head? with
          | none => rw [hi] at h; exact absurd h (by simp)
          | some i =>
            rw [hi] at h
            simp only at h ⊢
            cases hs : setEntry d1 d1._nodes i._addr with
            | none => rw [hs] at h; exact absurd h (by simp)
            | some d2 =>
              rw [hs] at h
              simp only [Option.some_bind] at h ⊢
              cases ha : assignIntervals fuel d2 with
              | none => rw [ha] at h; exact absurd h (by simp)
              | some d3 =>
                rw [ha] at h
                rw [assignIntervals_mono fuel fuel1 d2 d3 hle ha]
                exact h

theorem reducibleLoop_mono :
    ∀ (rounds rounds1 fuel fuel1 : Nat) (g r : ControlFlowGraph) (size : Nat),
      rounds ≤ rounds1 → fuel ≤ fuel1 →
      reducibleLoop rounds fuel g size = some r →
      reducibleLoop rounds1 fuel1 g size = some r := by
  intro rounds
  induction rounds with
  | zero => intro rounds1 fuel fuel1 g r size _ _ h; simp [reducibleLoop] at h
  | succ rounds ih =>
    intro rounds1 fuel fuel1 g r size hr hf h
    obtain ⟨s1, rfl⟩ : ∃ s1, rounds1 = s1 + 1 := ⟨rounds1 - 1, by omega⟩
    simp only [reducibleLoop] at h ⊢
    cases h1 : intervals fuel g with
    | none => rw [h1] at h; exact absurd h (by simp)
    | some r1 =>
      rw [h1] at h
      rw [intervals_mono fuel fuel1 g r1 hf h1]
      simp only [Option.some_bind] at h ⊢
      split at h
      · rename_i hc
        rw [if_pos hc]
        cases h2 : intervals fuel r1.1 with
        | none => rw [h2] at h; exact absurd h (by simp)
        | some r2 =>
          rw [h2] at h
          rw [intervals_mono fuel fuel1 r1.1 r2 hf h2]
          simp only [Option.some_bind] at h ⊢
          cases h3 : extendIntervals fuel r2.1 with
          | none => rw [h3] at h; exact absurd h (by simp)
          | some g3 =>
            rw [h3] at h
            rw [extendIntervals_mono fuel fuel1 r2.1 g3 hf h3]
            simp only [Option.some_bind] at h ⊢
            exact ih s1 fuel fuel1 g3 r _ (by omega) hf h
      · rename_i hc
        rw [if_neg hc]
        exact h

theorem isReducible_mono (fuel fuel1 : Nat) (g : ControlFlowGraph)
    (r : ControlFlowGraph × Bool) (hle : fuel ≤ fuel1)
    (h : isReducible fuel g = some r) : isReducible fuel1 g = some r := by
  unfold isReducible at h ⊢
  cases h1 : reducibleLoop fuel fuel g (g._nodes.length + 1) with
  | none => rw [h1] at h; exact absurd h (by simp)
  | some g1 =>
    rw [h1] at h
    rw [reducibleLoop_mono fuel fuel1 fuel fuel1 g g1 _ hle hle h1]
    simp only [Option.some_bind] at h ⊢
    cases h2 : intervals fuel g1 with
    | none => rw [h2] at h; exact absurd h (by simp)
    | some r2 =>
      rw [h2] at h
      rw [intervals_mono fuel fuel1 g1 r2 hle h2]
      exact h

end Decompiler

namespace Decompiler

/-! ### The loop on `added` of `assignIntervals` -/

theorem grows_refl (K : Nat) (nodes : List Nat) (m : Mem) : Grows K nodes m m :=
  ⟨fun _ => Or.inl rfl, fun x h1 h2 => by rw [h1] at h2; exact absurd h2 (by simp)⟩

theorem Grows.interval_some {K : Nat} {nodes : List Nat} {m1 m2 : Mem} (h : Grows K nodes m1 m2)
    (x h0 : Nat) (hx : (m1 x)._interval = some h0) : m2 x = m1 x := by
  rcases h.step x with e | ⟨e, _, _⟩
  · exact e
  · rw [hx] at e; exact absurd e (by simp)

theorem Grows.interval_cases {K : Nat} {nodes : List Nat} {m1 m2 : Mem} (h : Grows K nodes m1 m2)
    (x : Nat) : (m2 x)._interval = (m1 x)._interval ∨
      ((m1 x)._interval = none ∧ x ∈ nodes ∧ (m2 x)._interval = some K) := by
  rcases h.step x with e | ⟨e1, e2, e3⟩
  · left; rw [e]
  · right; exact ⟨e1, e2, by rw [e3]⟩

theorem Grows.in_eq {K : Nat} {nodes : List Nat} {m1 m2 : Mem} (h : Grows K nodes m1 m2)
    (x : Nat) : (m2 x)._in = (m1 x)._in := by
  rcases h.step x with e | ⟨_, _, e3⟩
  · rw [e]
  · rw [e3]

theorem grows_trans {K : Nat} {nodes : List Nat} {m1 m2 m3 : Mem} (h12 : Grows K nodes m1 m2)
    (h23 : Grows K nodes m2 m3) : Grows K nodes m1 m3 := by
  constructor
  · intro x
    rcases h12.step x with e | ⟨e1, e2, e3⟩
    · rcases h23.step x with f | ⟨f1, f2, f3⟩
      · left; rw [f, e]
      · right; exact ⟨by rw [← e]; exact f1, f2, by rw [f3, e]⟩
    · right
      exact ⟨e1, e2, by rw [h23.interval_some x K (by rw [e3]), e3]⟩
  · intro x h1 h3 p hp
    rcases h12.interval_cases x with e | ⟨_, _, e⟩
    · rw [h1] at e
      have := h23.preds x e h3 p (by rw [h12.in_eq x]; exact hp)
      exact this
    · have h2 := h12.preds x h1 e p hp
      rw [h23.interval_some p K h2]
      exact h2

theorem grows_modify (K : Nat) (nodes : List Nat) (mem : Mem) (m : Nat) (hm : m ∈ nodes)
    (h1 : (mem m)._interval = none) (h2 : ∀ p ∈ (mem m)._in, (mem p)._interval = some K) :
    Grows K nodes mem (mem.modify m (fun x => { x with _interval := some K })) := by
  constructor
  · intro x
    by_cases hx : x = m
    · subst hx
      right
      exact ⟨h1, hm, by simp⟩
    · left
      exact Mem.modify_other _ _ _ _ hx
  · intro x hx1 hx2 p hp
    by_cases hx : x = m
    · subst hx
      have hpm : p ≠ x := by
        intro e
        have := h2 p hp
        rw [e, h1] at this
        exact absurd this (by simp)
      rw [Mem.modify_other _ _ _ _ hpm]
      exact h2 p hp
    · rw [Mem.modify_other _ _ _ _ hx, hx1] at hx2
      exact absurd hx2 (by simp)

theorem growPass_cons (K : Nat) (mem : Mem) (added : Bool) (m : Nat) (rest : List Nat) :
    growPass K mem added (m :: rest) =
      if (mem m)._interval = none ∧ ∀ p ∈ (mem m)._in, (mem p)._interval = some K then
        growPass K (mem.modify m (fun x => { x with _interval := some K })) true rest
      else growPass K mem added rest := by
  simp only [growPass]
  have hc : ((mem m)._interval.isNone &&
      (mem m)._in.all fun p => decide ((mem p)._interval = some K)) = true ↔
      ((mem m)._interval = none ∧ ∀ p ∈ (mem m)._in, (mem p)._interval = some K) := by
    simp [Option.isNone_iff_eq_none]
  by_cases h : (mem m)._interval = none ∧ ∀ p ∈ (mem m)._in, (mem p)._interval = some K
  · rw [if_pos (hc.2 h), if_pos h]
  · rw [if_neg (fun e => h (hc.1 e)), if_neg h]

theorem growPass_grows (K : Nat) (nodes : List Nat) :
    ∀ (l : List Nat) (mem : Mem) (added : Bool), (∀ m ∈ l, m ∈ nodes) →
      Grows K nodes mem (growPass K mem added l).1 := by
  intro l
  induction l with
  | nil => intro mem added _; exact grows_refl K nodes mem
  | cons m rest ih =>
    intro mem added hl
    rw [growPass_cons]
    split
    · rename_i hc
      exact grows_trans (grows_modify K nodes mem m (hl m (List.mem_cons_self _ _)) hc.1 hc.2)
        (ih _ true (fun x hx => hl x (List.mem_cons_of_mem _ hx)))
    · exact ih mem added (fun x hx => hl x (List.mem_cons_of_mem _ hx))

theorem growPass_flag_false (K : Nat) :
    ∀ (l : List Nat) (mem : Mem) (added : Bool), (growPass K mem added l).2 = false →
      added = false ∧ (growPass K mem added l).1 = mem ∧
      ∀ m ∈ l, ¬ ((mem m)._interval = none ∧ ∀ p ∈ (mem m)._in, (mem p)._interval = some K) := by
  intro l
  induction l with
  | nil => intro mem added h; exact ⟨h, rfl, by simp⟩
  | cons m rest ih =>
    intro mem added h
    rw [growPass_cons] at h ⊢
    split at h
    · have := (ih _ true h).1
      exact absurd this (by simp)
    · rename_i hc
      rw [if_neg hc]
      obtain ⟨h1, h2, h3⟩ := ih mem added h
      refine ⟨h1, h2, ?_⟩
      intro x hx
      rcases List.mem_cons.1 hx with e | e
      · rw [e]; exact hc
      · exact h3 x e

theorem countP_le_of_imp (l : List Nat) (p q : Nat → Bool) (h : ∀ x ∈ l, p x = true → q x = true) :
    l.countP p ≤ l.countP q := by
  induction l with
  | nil => simp
  | cons a l ih =>
    have ih1 := ih (fun x hx => h x (List.mem_cons_of_mem _ hx))
    by_cases hp : p a = true
    · have hq := h a (List.mem_cons_self _ _) hp
      rw [List.countP_cons_of_pos _ _ hp, List.countP_cons_of_pos _ _ hq]
      omega
    · rw [List.countP_cons_of_neg _ _ hp]
      by_cases hq : q a = true
      · rw [List.countP_cons_of_pos _ _ hq]; omega
      · rw [List.countP_cons_of_neg _ _ hq]; exact ih1

theorem countP_lt_of_imp (l : List Nat) (p q : Nat → Bool) (h : ∀ x ∈ l, p x = true → q x = true)
    (m : Nat) (hm : m ∈ l) (hq : q m = true) (hp : ¬ p m = true) : l.countP p < l.countP q := by
  induction l with
  | nil => simp at hm
  | cons a l ih =>
    have hle := countP_le_of_imp l p q (fun x hx => h x (List.mem_cons_of_mem _ hx))
    rcases List.mem_cons.1 hm with e | e
    · subst e
      rw [List.countP_cons_of_neg _ _ hp, List.countP_cons_of_pos _ _ hq]
      omega
    · have ih1 := ih (fun x hx => h x (List.mem_cons_of_mem _ hx)) e
      by_cases hpa : p a = true
      · have hqa := h a (List.mem_cons_self _ _) hpa
        rw [List.countP_cons_of_pos _ _ hpa, List.countP_cons_of_pos _ _ hqa]
        omega
      · rw [List.countP_cons_of_neg _ _ hpa]
        by_cases hqa : q a = true
        · rw [List.countP_cons_of_pos _ _ hqa]; omega
        · rw [List.countP_cons_of_neg _ _ hqa]; exact ih1

theorem Grows.unassigned_le {K : Nat} {nodes : List Nat} {m1 m2 : Mem} (h : Grows K nodes m1 m2)
    (l : List Nat) : unassigned m2 l ≤ unassigned m1 l := by
  apply countP_le_of_imp
  intro x _ hx
  rcases h.interval_cases x with e | ⟨_, _, e⟩
  · rw [← e]; exact hx
  · rw [e] at hx; simp at hx

theorem unassigned_modify_lt (K : Nat) (nodes : List Nat) (mem : Mem) (m : Nat) (hm : m ∈ nodes)
    (h1 : (mem m)._interval = none) :
    unassigned (mem.modify m (fun x => { x with _interval := some K })) nodes <
      unassigned mem nodes := by
  apply countP_lt_of_imp _ _ _ _ m hm
  · rw [h1]; rfl
  · simp
  · intro x _ hx
    by_cases hxm : x = m
    · subst hxm; simp at hx
    · rw [Mem.modify_other _ _ _ _ hxm] at hx; exact hx

theorem growPass_flag_true (K : Nat) (nodes : List Nat) :
    ∀ (l : List Nat) (mem : Mem) (added : Bool), (∀ m ∈ l, m ∈ nodes) →
      (growPass K mem added l).2 = true →
      added = true ∨ unassigned (growPass K mem added l).1 nodes < unassigned mem nodes := by
  intro l
  induction l with
  | nil => intro mem added _ h; exact Or.inl h
  | cons m rest ih =>
    intro mem added hl h
    rw [growPass_cons] at h ⊢
    split
    · rename_i hc
      right
      have h1 := unassigned_modify_lt K nodes mem m (hl m (List.mem_cons_self _ _)) hc.1
      have h2 := (growPass_grows K nodes rest
        (mem.modify m (fun x => { x with _interval := some K })) true
        (fun x hx => hl x (List.mem_cons_of_mem _ hx))).unassigned_le nodes
      omega
    · rename_i hc
      rw [if_neg hc] at h
      exact ih mem added (fun x hx => hl x (List.mem_cons_of_mem _ hx)) h

theorem growInterval_spec (K : Nat) (nodes : List Nat) :
    ∀ (fuel : Nat) (mem : Mem), unassigned mem nodes < fuel →
      ∃ m2, growInterval fuel K mem nodes = some m2 ∧ Grows K nodes mem m2 ∧
        NoneQualifies K nodes m2 := by
  intro fuel
  induction fuel with
  | zero => intro mem h; omega
  | succ fuel ih =>
    intro mem h
    simp only [growInterval]
    have hg := growPass_grows K nodes nodes mem false (fun _ hx => hx)
    split
    · rename_i hc
      rcases growPass_flag_true K nodes nodes mem false (fun _ hx => hx) hc with e | e
      · exact absurd e (by simp)
      · obtain ⟨m2, h1, h2, h3⟩ := ih (growPass K mem false nodes).1 (by omega)
        exact ⟨m2, h1, grows_trans hg h2, h3⟩
    · rename_i hc
      have hf : (growPass K mem false nodes).2 = false := by
        cases hh : (growPass K mem false nodes).2 with
        | true => exact absurd hh hc
        | false => rfl
      obtain ⟨_, h2, h3⟩ := growPass_flag_false K nodes mem false hf
      refine ⟨_, rfl, hg, ?_⟩
      rw [h2]
      exact h3

theorem growInterval_noop (K : Nat) (nodes : List Nat) (fuel : Nat) (mem : Mem)
    (h : NoneQualifies K nodes mem) : growInterval (fuel + 1) K mem nodes = some mem := by
  have key : ∀ (l : List Nat) (added : Bool), (∀ m ∈ l, m ∈ nodes) →
      growPass K mem added l = (mem, added) := by
    intro l
    induction l with
    | nil => intro added _; rfl
    | cons m rest ih =>
      intro added hl
      rw [growPass_cons, if_neg (h m (hl m (List.mem_cons_self _ _)))]
      exact ih added (fun x hx => hl x (List.mem_cons_of_mem _ hx))
  simp only [growInterval, key nodes false (fun _ hx => hx)]
  simp

end Decompiler

namespace Decompiler

/-! ### One turn of the loop over the list `intervals` -/

theorem mem_newHeaders (K : Nat) (mem : Mem) (nodes : List Nat) (w : Nat) :
    w ∈ newHeaders K mem nodes ↔
      w ∈ nodes ∧ (mem w)._interval = none ∧ ∃ p ∈ (mem w)._in, (mem p)._interval = some K := by
  unfold newHeaders
  simp [List.mem_filter, Option.isNone_iff_eq_none]

/-- A turn for an entry that already is a header changes nothing and appends
the nodes without interval that have a predecessor in it. -/
theorem intervalInv_revisit (nodes : List Nat) (e K : Nat) (mem : Mem) (work : List Nat)
    (inv : IntervalInv nodes e mem (K :: work)) (hK : (mem K)._interval = some K) :
    IntervalInv nodes e mem (work ++ newHeaders K mem nodes) := by
  refine ⟨inv.inClosed, inv.headerValued, inv.closedH, inv.member, ?_, ?_, ?_, inv.headerPred, ?_⟩
  · intro w hw
    rcases List.mem_append.1 hw with h | h
    · exact inv.workOk w (List.mem_cons_of_mem _ h)
    · have := (mem_newHeaders K mem nodes w).1 h
      exact ⟨this.1, Or.inl this.2.1⟩
  · intro w hw hn
    rcases List.mem_append.1 hw with h | h
    · exact inv.workPred w (List.mem_cons_of_mem _ h) hn
    · obtain ⟨_, _, p, hp, hpK⟩ := (mem_newHeaders K mem nodes w).1 h
      exact Or.inl ⟨p, hp, K, hpK⟩
  · intro u hu hn hp
    have := inv.pending u hu hn hp
    rcases List.mem_cons.1 this with h | h
    · rw [h, hK] at hn; exact absurd hn (by simp)
    · exact List.mem_append_left _ h
  · rcases inv.entry with h | h
    · rcases List.mem_cons.1 h with h1 | h1
      · right; rw [h1]; exact hK
      · left; exact List.mem_append_left _ h1
    · exact Or.inr h

/-- A turn for an entry that has no interval yet. -/
theorem intervalInv_visit (nodes : List Nat) (e K : Nat) (mem m2 : Mem) (work : List Nat)
    (inv : IntervalInv nodes e mem (K :: work)) (hK : (mem K)._interval = none)
    (hg : Grows K nodes (mem.modify K (fun x => { x with _interval := some K })) m2)
    (hq : NoneQualifies K nodes m2) :
    IntervalInv nodes e m2 (work ++ newHeaders K m2 nodes) := by
  have hKn : K ∈ nodes := (inv.workOk K (List.mem_cons_self _ _)).1
  -- the interval fields change from `none` to `some K` only
  have F1 : ∀ x, (m2 x)._interval = (mem x)._interval ∨
      ((mem x)._interval = none ∧ x ∈ nodes ∧ (m2 x)._interval = some K) := by
    intro x
    by_cases hx : x = K
    · subst hx
      right
      refine ⟨hK, hKn, ?_⟩
      rw [hg.interval_some x x (by simp)]
      simp
    · rcases hg.interval_cases x with h | ⟨h1, h2, h3⟩
      · left; rw [h, Mem.modify_other _ _ _ _ hx]
      · right; rw [Mem.modify_other _ _ _ _ hx] at h1; exact ⟨h1, h2, h3⟩
  have F2 : ∀ x, (m2 x)._in = (mem x)._in := by
    intro x
    rw [hg.in_eq x]
    by_cases hx : x = K
    · subst hx; simp
    · rw [Mem.modify_other _ _ _ _ hx]
  have F3 : ∀ h, (mem h)._interval = some h → h ≠ K := by
    intro h hh e1
    rw [e1, hK] at hh
    exact absurd hh (by simp)
  have F4 : ∀ x, x ≠ K → (mem x)._interval = none → (m2 x)._interval = some K →
      ∀ p ∈ (mem x)._in, (m2 p)._interval = some K := by
    intro x hx h1 h2 p hp
    apply hg.preds x (by rw [Mem.modify_other _ _ _ _ hx]; exact h1) h2 p
    rw [Mem.modify_other _ _ _ _ hx]; exact hp
  have F5 : (m2 K)._interval = some K := by
    rw [hg.interval_some K K (by simp)]; simp
  have keep : ∀ x h, (mem x)._interval = some h → (m2 x)._interval = some h := by
    intro x h hx
    rcases F1 x with h1 | ⟨h1, _, _⟩
    · rw [h1]; exact hx
    · rw [hx] at h1; exact absurd h1 (by simp)
  have back : ∀ x, (m2 x)._interval = none → (mem x)._interval = none := by
    intro x hx
    rcases F1 x with h1 | ⟨h1, _, _⟩
    · rw [← h1]; exact hx
    · exact h1
  -- when all nodes are without interval the entry at the head is the entry node
  have hKe : (∀ u ∈ nodes, (mem u)._interval = none) → K = e := by
    intro hall
    rcases inv.workPred K (List.mem_cons_self _ _) hK with ⟨p, hp, h, hph⟩ | ⟨h, _⟩
    · rw [hall p (inv.inClosed K hKn p hp)] at hph
      exact absurd hph (by simp)
    · exact h
  refine ⟨?_, ?_, ?_, ?_, ?_, ?_, ?_, ?_, ?_⟩
  · intro u hu p hp
    rw [F2] at hp
    exact inv.inClosed u hu p hp
  · intro u hu h huh
    rcases F1 u with h1 | ⟨_, _, h3⟩
    · rw [h1] at huh
      obtain ⟨a, b⟩ := inv.headerValued u hu h huh
      exact ⟨a, keep h h b⟩
    · rw [h3] at huh
      have : K = h := Option.some.inj huh
      subst this
      exact ⟨hKn, F5⟩
  · intro h hh hhh
    rcases F1 h with h1 | ⟨_, _, h3⟩
    · rw [h1] at hhh
      intro m hm ⟨hm1, hm2⟩
      have hold := inv.closedH h hh hhh m hm
      apply hold
      refine ⟨back m hm1, ?_⟩
      intro p hp
      have hp2 := hm2 p (by rw [F2]; exact hp)
      rcases F1 p with e1 | ⟨_, _, e3⟩
      · rw [← e1]; exact hp2
      · rw [e3] at hp2
        exact absurd (Option.some.inj hp2).symm (F3 h hhh)
    · rw [h3] at hhh
      have : K = h := Option.some.inj hhh
      subst this
      exact hq
  · intro u hu h huh hne p hp
    rw [F2] at hp
    rcases F1 u with h1 | ⟨h1, _, h3⟩
    · rw [h1] at huh
      exact keep p h (inv.member u hu h huh hne p hp)
    · rw [h3] at huh
      have : K = h := Option.some.inj huh
      subst this
      exact F4 u (fun e1 => hne e1.symm) h1 h3 p hp
  · intro w hw
    rcases List.mem_append.1 hw with h | h
    · obtain ⟨hwn, hwi⟩ := inv.workOk w (List.mem_cons_of_mem _ h)
      refine ⟨hwn, ?_⟩
      rcases hwi with hn | hs
      · rcases F1 w with h1 | ⟨_, _, h3⟩
        · left; rw [h1]; exact hn
        · by_cases hwK : w = K
          · right; rw [hwK]; exact F5
          · exfalso
            have hall := F4 w hwK hn h3
            rcases inv.workPred w (List.mem_cons_of_mem _ h) hn with ⟨p, hp, h0, hph⟩ | ⟨h0, hall0⟩
            · have h2 := keep p h0 hph
              rw [hall p hp] at h2
              have : K = h0 := Option.some.inj h2
              subst this
              have := (inv.headerValued p (inv.inClosed w hwn p hp) K hph).2
              rw [hK] at this
              exact absurd this (by simp)
            · exact hwK (h0.trans (hKe hall0).symm)
      · right; exact keep w w hs
    · have := (mem_newHeaders K m2 nodes w).1 h
      exact ⟨this.1, Or.inl this.2.1⟩
  · intro w hw hn
    rcases List.mem_append.1 hw with h | h
    · rcases inv.workPred w (List.mem_cons_of_mem _ h) (back w hn) with
        ⟨p, hp, h0, hph⟩ | ⟨h0, hall0⟩
      · exact Or.inl ⟨p, by rw [F2]; exact hp, h0, keep p h0 hph⟩
      · exfalso
        have : w = K := h0.trans (hKe hall0).symm
        rw [this, F5] at hn
        exact absurd hn (by simp)
    · obtain ⟨_, _, p, hp, hpK⟩ := (mem_newHeaders K m2 nodes w).1 h
      exact Or.inl ⟨p, hp, K, hpK⟩
  · intro u hu hn ⟨p, hp, hpn⟩
    rcases F1 p with h1 | ⟨_, _, h3⟩
    · have := inv.pending u hu (back u hn) ⟨p, by rw [← F2]; exact hp, by rw [← h1]; exact hpn⟩
      rcases List.mem_cons.1 this with e1 | e1
      · rw [e1, F5] at hn; exact absurd hn (by simp)
      · exact List.mem_append_left _ e1
    · exact List.mem_append_right _ ((mem_newHeaders K m2 nodes u).2 ⟨hu, hn, p, hp, h3⟩)
  · intro h hh hhh hne
    rcases F1 h with h1 | ⟨_, _, h3⟩
    · rw [h1] at hhh
      obtain ⟨p0, hp0, I, hI, hIh, p1, hp1, hp1I⟩ := inv.headerPred h hh hhh hne
      refine ⟨p0, by rw [F2]; exact hp0, I, keep p0 I hI, hIh, p1, by rw [F2]; exact hp1, ?_⟩
      rcases F1 p1 with e1 | ⟨_, _, e3⟩
      · rw [e1]; exact hp1I
      · rw [e3]
        intro e4
        have hII := (inv.headerValued p0 (inv.inClosed h hh p0 hp0) I hI).2
        exact F3 I hII (Option.some.inj e4).symm
    · rw [h3] at hhh
      have : K = h := Option.some.inj hhh
      subst this
      rcases inv.workPred K (List.mem_cons_self _ _) hK with ⟨p0, hp0, I, hI⟩ | ⟨h0, _⟩
      · obtain ⟨hIn, hII⟩ := inv.headerValued p0 (inv.inClosed K hKn p0 hp0) I hI
        have hIK : I ≠ K := F3 I hII
        have hnq := inv.closedH I hIn hII K hKn
        have hex : ∃ p1 ∈ (mem K)._in, (mem p1)._interval ≠ some I := by
          by_contra hcon
          apply hnq
          refine ⟨hK, ?_⟩
          intro p hp
          by_contra hpI
          exact hcon ⟨p, hp, hpI⟩
        obtain ⟨p1, hp1, hp1I⟩ := hex
        refine ⟨p0, by rw [F2]; exact hp0, I, keep p0 I hI, hIK, p1, by rw [F2]; exact hp1, ?_⟩
        rcases F1 p1 with e1 | ⟨_, _, e3⟩
        · rw [e1]; exact hp1I
        · rw [e3]
          intro e4
          exact hIK (Option.some.inj e4).symm
      · exact absurd h0 hne
  · rcases inv.entry with h | h
    · rcases List.mem_cons.1 h with h1 | h1
      · right; rw [h1]; exact F5
      · left; exact List.mem_append_left _ h1
    · exact Or.inr (keep e e h)

end Decompiler

namespace Decompiler

/-! ### The loop over the list `intervals` ends -/

theorem sum_map_le (l : List Nat) (f g : Nat → Nat) (h : ∀ w ∈ l, f w ≤ g w) :
    (l.map f).sum ≤ (l.map g).sum := by
  induction l with
  | nil => simp
  | cons a l ih =>
    have h1 := h a (List.mem_cons_self _ _)
    have h2 := ih (fun w hw => h w (List.mem_cons_of_mem _ hw))
    simp only [List.map_cons, List.sum_cons]
    omega

theorem sum_map_le_const (l : List Nat) (f : Nat → Nat) (c : Nat) (h : ∀ w ∈ l, f w ≤ c) :
    (l.map f).sum ≤ l.length * c := by
  induction l with
  | nil => simp
  | cons a l ih =>
    have h1 := h a (List.mem_cons_self _ _)
    have h2 := ih (fun w hw => h w (List.mem_cons_of_mem _ hw))
    simp only [List.map_cons, List.sum_cons, List.length_cons, Nat.succ_mul]
    omega

theorem workWeight_append (mem : Mem) (nodes l1 l2 : List Nat) :
    workWeight mem nodes (l1 ++ l2) = workWeight mem nodes l1 + workWeight mem nodes l2 := by
  simp [workWeight, List.map_append, List.sum_append]

theorem workWeight_cons (mem : Mem) (nodes : List Nat) (K : Nat) (l : List Nat) :
    workWeight mem nodes (K :: l) =
      (nodes.length + 1) ^ itemRank mem nodes K + workWeight mem nodes l := by
  simp [workWeight]

theorem newHeaders_length_le (K : Nat) (mem : Mem) (nodes : List Nat) :
    (newHeaders K mem nodes).length ≤ nodes.length :=
  List.length_filter_le _ _

theorem workWeight_newHeaders (K : Nat) (mem : Mem) (nodes : List Nat) :
    workWeight mem nodes (newHeaders K mem nodes) ≤
      nodes.length * (nodes.length + 1) ^ (2 * unassigned mem nodes) := by
  have h := sum_map_le_const (newHeaders K mem nodes)
    (fun w => (nodes.length + 1) ^ itemRank mem nodes w)
    ((nodes.length + 1) ^ (2 * unassigned mem nodes)) (by
      intro w hw
      have := ((mem_newHeaders K mem nodes w).1 hw).2.1
      simp only [itemRank, this, if_true, Nat.add_zero]
      exact Nat.le_refl _)
  have h2 := Nat.mul_le_mul_right ((nodes.length + 1) ^ (2 * unassigned mem nodes))
    (newHeaders_length_le K mem nodes)
  exact Nat.le_trans h h2

theorem workWeight_revisit (nodes : List Nat) (K : Nat) (mem : Mem) (work : List Nat)
    (hK : (mem K)._interval = some K) :
    workWeight mem nodes (work ++ newHeaders K mem nodes) < workWeight mem nodes (K :: work) := by
  rw [workWeight_append, workWeight_cons]
  have h1 := workWeight_newHeaders K mem nodes
  have h2 : itemRank mem nodes K = 2 * unassigned mem nodes + 1 := by
    simp [itemRank, hK]
  rw [h2, Nat.pow_succ]
  have h3 : 0 < (nodes.length + 1) ^ (2 * unassigned mem nodes) := Nat.pow_pos (by omega)
  have h4 : nodes.length * (nodes.length + 1) ^ (2 * unassigned mem nodes) <
      (nodes.length + 1) ^ (2 * unassigned mem nodes) * (nodes.length + 1) := by
    rw [Nat.mul_comm, Nat.mul_succ]
    omega
  omega

theorem workWeight_visit (nodes : List Nat) (K : Nat) (mem m2 : Mem) (work : List Nat)
    (hKn : K ∈ nodes) (hK : (mem K)._interval = none) (hK2 : (m2 K)._interval ≠ none)
    (back : ∀ x, (m2 x)._interval = none → (mem x)._interval = none) :
    workWeight m2 nodes (work ++ newHeaders K m2 nodes) < workWeight mem nodes (K :: work) := by
  rw [workWeight_append, workWeight_cons]
  have hU : unassigned m2 nodes < unassigned mem nodes := by
    apply countP_lt_of_imp _ _ _ _ K hKn
    · rw [hK]; rfl
    · intro h
      apply hK2
      exact Option.isNone_iff_eq_none.1 h
    · intro x _ hx
      rw [back x (Option.isNone_iff_eq_none.1 hx)]; rfl
  have h1 := workWeight_newHeaders K m2 nodes
  have h2 : itemRank mem nodes K = 2 * unassigned mem nodes := by
    simp [itemRank, hK]
  rw [h2]
  have h3 : workWeight m2 nodes work ≤ workWeight mem nodes work := by
    apply sum_map_le
    intro w _
    apply Nat.pow_le_pow_right (by omega)
    unfold itemRank
    split <;> split <;> omega
  have h5 : (nodes.length + 1) ^ (2 * unassigned m2 nodes + 1) ≤
      (nodes.length + 1) ^ (2 * unassigned mem nodes) :=
    Nat.pow_le_pow_right (by omega) (by omega)
  rw [Nat.pow_succ] at h5
  have h6 : 0 < (nodes.length + 1) ^ (2 * unassigned m2 nodes) := Nat.pow_pos (by omega)
  have h4 : nodes.length * (nodes.length + 1) ^ (2 * unassigned m2 nodes) <
      (nodes.length + 1) ^ (2 * unassigned m2 nodes) * (nodes.length + 1) := by
    rw [Nat.mul_comm, Nat.mul_succ]
    omega
  omega

end Decompiler

namespace Decompiler

theorem node_set_interval_self (n : Node) (v : Option Nat) (h : n._interval = v) :
    { n with _interval := v } = n := by
  cases n
  simp_all

theorem sameButInterval_refl (m : Mem) : SameButInterval m m :=
  fun _ => ⟨rfl, rfl, rfl, rfl, rfl, rfl, rfl⟩

theorem sameButInterval_trans {m1 m2 m3 : Mem} (h12 : SameButInterval m1 m2)
    (h23 : SameButInterval m2 m3) : SameButInterval m1 m3 := by
  intro x
  obtain ⟨a1, a2, a3, a4, a5, a6, a7⟩ := h12 x
  obtain ⟨b1, b2, b3, b4, b5, b6, b7⟩ := h23 x
  exact ⟨b1.trans a1, b2.trans a2, b3.trans a3, b4.trans a4, b5.trans a5, b6.trans a6,
    b7.trans a7⟩

theorem sameButInterval_modify (m : Mem) (K : Nat) (v : Option Nat) :
    SameButInterval m (m.modify K (fun x => { x with _interval := v })) := by
  intro x
  by_cases hx : x = K
  · subst hx; simp
  · rw [Mem.modify_other _ _ _ _ hx]
    exact ⟨rfl, rfl, rfl, rfl, rfl, rfl, rfl⟩

theorem Grows.sameButInterval {K : Nat} {nodes : List Nat} {m1 m2 : Mem}
    (h : Grows K nodes m1 m2) : SameButInterval m1 m2 := by
  intro x
  rcases h.step x with e | ⟨_, _, e⟩
  · rw [e]; exact ⟨rfl, rfl, rfl, rfl, rfl, rfl, rfl⟩
  · rw [e]; exact ⟨rfl, rfl, rfl, rfl, rfl, rfl, rfl⟩

theorem unassigned_le_length (mem : Mem) (nodes : List Nat) :
    unassigned mem nodes ≤ nodes.length :=
  List.countP_le_length _

/-- With enough fuel the loop over the list `intervals` ends, in a state that
satisfies the invariant with nothing left to visit. -/
theorem intervalLoop_spec (nodes : List Nat) (e : Nat) :
    ∀ (steps fuel : Nat) (mem : Mem) (work : List Nat), nodes.length < fuel →
      IntervalInv nodes e mem work → workWeight mem nodes work < steps →
      ∃ m2, intervalLoop steps fuel mem nodes work = some m2 ∧ IntervalInv nodes e m2 [] ∧
        SameButInterval mem m2 := by
  intro steps
  induction steps with
  | zero => intro fuel mem work _ _ h; omega
  | succ steps ih =>
    intro fuel mem work hf inv hw
    cases work with
    | nil => exact ⟨mem, by simp [intervalLoop], inv, sameButInterval_refl mem⟩
    | cons K work =>
      simp only [intervalLoop]
      obtain ⟨hKn, hKi⟩ := inv.workOk K (List.mem_cons_self _ _)
      rcases hKi with hK | hK
      · -- first visit of `K`
        have hu := unassigned_le_length
          (mem.modify K (fun x => { x with _interval := some K })) nodes
        obtain ⟨m2, h1, h2, h3⟩ := growInterval_spec K nodes fuel
          (mem.modify K (fun x => { x with _interval := some K })) (by omega)
        rw [h1]
        simp only [Option.some_bind]
        have inv2 := intervalInv_visit nodes e K mem m2 work inv hK h2 h3
        have hK2 : (m2 K)._interval ≠ none := by
          rw [h2.interval_some K K (by simp)]; simp
        have back : ∀ x, (m2 x)._interval = none → (mem x)._interval = none := by
          intro x hx
          by_cases hxK : x = K
          · rw [hxK]; exact hK
          · rcases h2.interval_cases x with e1 | ⟨_, _, e3⟩
            · rw [Mem.modify_other _ _ _ _ hxK] at e1
              rw [← e1]; exact hx
            · rw [e3] at hx; exact absurd hx (by simp)
        have hw2 := workWeight_visit nodes K mem m2 work hKn hK hK2 back
        obtain ⟨m3, g1, g2, g3⟩ := ih fuel m2 _ hf inv2 (by omega)
        exact ⟨m3, g1, g2, sameButInterval_trans
          (sameButInterval_trans (sameButInterval_modify mem K (some K)) h2.sameButInterval) g3⟩
      · -- `K` already is a header
        have hmem : mem.modify K (fun x => { x with _interval := some K }) = mem := by
          funext x
          by_cases hx : x = K
          · subst hx
            simp only [Mem.modify_same]
            exact node_set_interval_self _ _ hK
          · exact Mem.modify_other _ _ _ _ hx
        rw [hmem]
        obtain ⟨f1, rfl⟩ : ∃ f1, fuel = f1 + 1 := ⟨fuel - 1, by omega⟩
        rw [growInterval_noop K nodes f1 mem (inv.closedH K hKn hK)]
        simp only [Option.some_bind]
        have inv2 := intervalInv_revisit nodes e K mem work inv hK
        have hw2 := workWeight_revisit nodes K mem work hK
        exact ih (f1 + 1) mem _ hf inv2 (by omega)

/-- The state `assignIntervals` ends in on a graph with an entry, closed edge
lists and no interval assigned. -/
theorem assignIntervals_inv (g : ControlFlowGraph) (e : Nat) (he : g._entry = some e)
    (hen : e ∈ g._nodes) (hclosed : EdgesClosed g)
    (hfresh : ∀ u ∈ g._nodes, (g.mem u)._interval = none) :
    ∃ fuel0, ∀ fuel, fuel0 ≤ fuel →
      ∃ g1, assignIntervals fuel g = some g1 ∧ g1._nodes = g._nodes ∧ g1._entry = g._entry ∧
        g1._targets = g._targets ∧ SameButInterval g.mem g1.mem ∧
        IntervalInv g._nodes e g1.mem [] := by
  have inv0 : IntervalInv g._nodes e g.mem [e] := by
    refine ⟨fun u hu => (hclosed u hu).2, ?_, ?_, ?_, ?_, ?_, ?_, ?_, Or.inl (List.mem_singleton.2 rfl)⟩
    · intro u hu h huh
      rw [hfresh u hu] at huh; exact absurd huh (by simp)
    · intro h hh hhh
      rw [hfresh h hh] at hhh; exact absurd hhh (by simp)
    · intro u hu h huh
      rw [hfresh u hu] at huh; exact absurd huh (by simp)
    · intro w hw
      rw [List.mem_singleton.1 hw]
      exact ⟨hen, Or.inl (hfresh e hen)⟩
    · intro w hw _
      exact Or.inr ⟨List.mem_singleton.1 hw, hfresh⟩
    · intro u hu _ ⟨p, hp, hpn⟩
      exact absurd (hfresh p ((hclosed u hu).2 p hp)) hpn
    · intro h hh hhh
      rw [hfresh h hh] at hhh; exact absurd hhh (by simp)
  refine ⟨workWeight g.mem g._nodes [e] + g._nodes.length + 1, ?_⟩
  intro fuel hfuel
  obtain ⟨m2, h1, h2, h3⟩ := intervalLoop_spec g._nodes e fuel fuel g.mem [e] (by omega) inv0
    (by omega)
  refine ⟨{ g with mem := m2 }, ?_, rfl, rfl, rfl, h3, h2⟩
  unfold assignIntervals
  rw [he]
  simp only [h1, Option.map_some']

end Decompiler

namespace Decompiler

/-! ### Stores that differ in the numbers only -/

theorem sameButNumber_refl (m : Mem) : SameButNumber m m :=
  fun _ => ⟨rfl, rfl, rfl, rfl, rfl, rfl, rfl⟩

theorem sameButNumber_trans {m1 m2 m3 : Mem} (h12 : SameButNumber m1 m2)
    (h23 : SameButNumber m2 m3) : SameButNumber m1 m3 := by
  intro x
  obtain ⟨a1, a2, a3, a4, a5, a6, a7⟩ := h12 x
  obtain ⟨b1, b2, b3, b4, b5, b6, b7⟩ := h23 x
  exact ⟨b1.trans a1, b2.trans a2, b3.trans a3, b4.trans a4, b5.trans a5, b6.trans a6,
    b7.trans a7⟩

theorem sameButNumber_setNumber (m : Mem) (u : Nat) (v : Int) :
    SameButNumber m (setNumber m u v) := by
  intro x
  unfold setNumber
  by_cases hx : x = u
  · subst hx; simp
  · rw [Mem.modify_other _ _ _ _ hx]
    exact ⟨rfl, rfl, rfl, rfl, rfl, rfl, rfl⟩

theorem setNumber_same (m : Mem) (u : Nat) (v : Int) : (setNumber m u v u)._number = v := by
  simp [setNumber]

theorem setNumber_other (m : Mem) (u x : Nat) (v : Int) (h : x ≠ u) :
    setNumber m u v x = m x := by
  unfold setNumber
  exact Mem.modify_other _ _ _ _ h

theorem reach_of_out_eq (m1 m2 : Mem) (h : ∀ x, (m2 x)._out = (m1 x)._out) (a b : Nat)
    (hr : Reach m1 a b) : Reach m2 a b := by
  induction hr with
  | refl => exact Relation.ReflTransGen.refl
  | tail _ hbc ih => exact Relation.ReflTransGen.tail ih (by rw [h]; exact hbc)

theorem reach_congr {m1 m2 : Mem} (h : SameButNumber m1 m2) (a b : Nat) :
    Reach m2 a b ↔ Reach m1 a b :=
  ⟨reach_of_out_eq m2 m1 (fun x => ((h x).2.2.1).symm) a b,
   reach_of_out_eq m1 m2 (fun x => (h x).2.2.1) a b⟩

theorem reach_trans {m : Mem} {a b c : Nat} (h1 : Reach m a b) (h2 : Reach m b c) :
    Reach m a c :=
  Relation.ReflTransGen.trans h1 h2

theorem reach_step {m : Mem} {a b : Nat} (h : b ∈ (m a)._out) : Reach m a b :=
  Relation.ReflTransGen.single h

/-! ### The relation `Numbered` -/

theorem numbered_refl (src : Nat) (m : Mem) (n : Int) : Numbered src m n m n where
  frame := sameButNumber_refl m
  le := le_refl n
  untouched := fun _ _ => rfl
  range := fun _ h => Or.inl h
  inj := fun _ _ hx _ h _ => absurd hx h
  surj := fun _ h1 h2 => absurd (lt_of_lt_of_le h1 h2) (lt_irrefl n)
  reach := fun _ hx h => absurd hx h

theorem Numbered.gray_iff {src : Nat} {m1 m2 : Mem} {n n2 : Int} (h : Numbered src m1 n m2 n2)
    (hn : 0 ≤ n) (a : Nat) : (m2 a)._number = -1 ↔ (m1 a)._number = -1 := by
  by_cases h0 : (m1 a)._number = 0
  · rcases h.range a h0 with e | ⟨e1, _⟩
    · rw [e, h0]
    · constructor
      · intro e; omega
      · intro e; omega
  · rw [h.untouched a h0]

theorem Numbered.nonzero {src : Nat} {m1 m2 : Mem} {n n2 : Int} (h : Numbered src m1 n m2 n2)
    (a : Nat) (ha : (m1 a)._number ≠ 0) : (m2 a)._number ≠ 0 := by
  rw [h.untouched a ha]; exact ha

theorem Numbered.zero_back {src : Nat} {m1 m2 : Mem} {n n2 : Int} (h : Numbered src m1 n m2 n2)
    (a : Nat) (ha : (m2 a)._number = 0) : (m1 a)._number = 0 := by
  by_contra h0
  rw [h.untouched a h0] at ha
  exact h0 ha

theorem Numbered.zeros_le {src : Nat} {m1 m2 : Mem} {n n2 : Int} (h : Numbered src m1 n m2 n2)
    (nodes : List Nat) : zeros m2 nodes ≤ zeros m1 nodes := by
  apply countP_le_of_imp
  intro x _ hx
  simp only [decide_eq_true_eq] at hx ⊢
  exact h.zero_back x hx

theorem Numbered.of_reach {v u : Nat} {m1 m2 : Mem} {n n2 : Int} (h : Numbered v m1 n m2 n2)
    (huv : Reach m1 u v) : Numbered u m1 n m2 n2 where
  frame := h.frame
  le := h.le
  untouched := h.untouched
  range := h.range
  inj := h.inj
  surj := h.surj
  reach := fun x hx hx2 => reach_trans huv (h.reach x hx hx2)

theorem numbered_trans {src : Nat} {m1 m2 m3 : Mem} {n k k3 : Int} (hn : 0 ≤ n)
    (h12 : Numbered src m1 n m2 k) (h23 : Numbered src m2 k m3 k3) :
    Numbered src m1 n m3 k3 where
  frame := sameButNumber_trans h12.frame h23.frame
  le := le_trans h12.le h23.le
  untouched := by
    intro x hx
    rw [h23.untouched x (by rw [h12.untouched x hx]; exact hx), h12.untouched x hx]
  range := by
    intro x hx
    have hle1 := h12.le
    have hle2 := h23.le
    rcases h12.range x hx with e | ⟨e1, e2⟩
    · rcases h23.range x e with f | ⟨f1, f2⟩
      · exact Or.inl f
      · exact Or.inr ⟨by omega, f2⟩
    · have hne : (m2 x)._number ≠ 0 := by omega
      rw [h23.untouched x hne]
      exact Or.inr ⟨e1, by omega⟩
  inj := by
    intro x y hx hy hx3 hxy
    have hle1 := h12.le
    by_cases hx2 : (m2 x)._number = 0
    · by_cases hy2 : (m2 y)._number = 0
      · exact h23.inj x y hx2 hy2 hx3 hxy
      · exfalso
        rw [h23.untouched y hy2] at hxy
        rcases h23.range x hx2 with f | ⟨f1, f2⟩
        · exact hx3 f
        · rcases h12.range y hy with g | ⟨g1, g2⟩
          · exact hy2 g
          · omega
    · rw [h23.untouched x hx2] at hxy
      by_cases hy2 : (m2 y)._number = 0
      · exfalso
        rcases h23.range y hy2 with f | ⟨f1, f2⟩
        · rw [f] at hxy; exact hx2 hxy
        · rcases h12.range x hx with g | ⟨g1, g2⟩
          · exact hx2 g
          · omega
      · rw [h23.untouched y hy2] at hxy
        exact h12.inj x y hx hy hx2 hxy
  surj := by
    intro i hi1 hi2
    by_cases hik : i ≤ k
    · obtain ⟨x, hx1, hx2⟩ := h12.surj i hi1 hik
      refine ⟨x, hx1, ?_⟩
      rw [h23.untouched x (by omega)]
      exact hx2
    · obtain ⟨x, hx1, hx2⟩ := h23.surj i (by omega) hi2
      exact ⟨x, h12.zero_back x hx1, hx2⟩
  reach := by
    intro x hx hx3
    by_cases hx2 : (m2 x)._number = 0
    · exact (reach_congr h12.frame src x).1 (h23.reach x hx2 hx3)
    · exact h12.reach x hx hx2

end Decompiler

namespace Decompiler

/-! ### The invariants of the traversal at the two assignments of `orderVisit` -/

theorem setNumber_number (m : Mem) (u x : Nat) (v : Int) :
    (setNumber m u v x)._number = if x = u then v else (m x)._number := by
  by_cases h : x = u
  · subst h; rw [setNumber_same, if_pos rfl]
  · rw [setNumber_other _ _ _ _ h, if_neg h]

theorem setNumber_out (m : Mem) (u x : Nat) (v : Int) :
    (setNumber m u v x)._out = (m x)._out :=
  ((sameButNumber_setNumber m u v) x).2.2.1

theorem reach_setNumber (m : Mem) (u : Nat) (v : Int) (a b : Nat) :
    Reach (setNumber m u v) a b ↔ Reach m a b :=
  reach_congr (sameButNumber_setNumber m u v) a b

/-- The assignment `u->_number = -1` keeps the invariants. -/
theorem visitInv_mark (mem : Mem) (n : Int) (e u : Nat) (inv : VisitInv mem n e)
    (hu : (mem u)._number = 0) : VisitInv (setNumber mem u (-1)) n e := by
  have hn := inv.nonneg
  refine ⟨hn, ?_, ?_, ?_, ?_⟩
  · intro x
    rw [setNumber_number]
    split
    · omega
    · exact inv.bounded x
  · intro x hx y hy
    rw [setNumber_number] at hx
    rw [setNumber_out] at hy
    split at hx
    · omega
    · rw [setNumber_number]
      split
      · omega
      · exact inv.closure x hx y hy
  · intro x hx y hxy
    rw [setNumber_number] at hx
    rw [reach_setNumber] at hxy
    split at hx
    · omega
    · obtain ⟨x1, h1, h2, h3⟩ := inv.tinv x hx y hxy
      refine ⟨x1, (reach_setNumber _ _ _ _ _).2 h1, (reach_setNumber _ _ _ _ _).2 h2, ?_⟩
      rcases h3 with ⟨a, b, c⟩ | a
      · left
        have hx1 : x1 ≠ u := fun e1 => by rw [e1, hu] at a; omega
        have hy : y ≠ u := fun e1 => by rw [e1, hu] at b; omega
        rw [setNumber_number, setNumber_number, if_neg hx1, if_neg hy]
        exact ⟨a, b, c⟩
      · right
        have hx1 : x1 ≠ u := fun e1 => by rw [e1, hu] at a; omega
        rw [setNumber_number, if_neg hx1]
        exact a
  · intro x hx hxe
    rw [setNumber_number] at hx
    split at hx
    · omega
    · rename_i hxu
      obtain ⟨p, hp1, hp2⟩ := inv.parInv x hx hxe
      refine ⟨p, by rw [setNumber_out]; exact hp1, ?_⟩
      rw [setNumber_number, setNumber_number, if_neg hxu]
      split
      · left; rfl
      · exact hp2

/-- From a numbered node, a path stays among numbered nodes or meets a node
that is being visited. -/
theorem reach_exit (mem : Mem) (n : Int) (hb : Bounded mem n) (hc : Closure mem) (x y : Nat)
    (hx : 0 < (mem x)._number) (hxy : Reach mem x y) :
    0 < (mem y)._number ∨ ∃ a, (mem a)._number = -1 ∧ Reach mem x a ∧ Reach mem a y := by
  induction hxy with
  | refl => exact Or.inl hx
  | tail hab hbc ih =>
    rename_i b c
    rcases ih with h | ⟨a, h1, h2, h3⟩
    · have hne := hc b h c hbc
      have hbd := (hb c).1
      by_cases hpos : 0 < (mem c)._number
      · exact Or.inl hpos
      · right
        exact ⟨c, by omega, Relation.ReflTransGen.tail hab hbc, Relation.ReflTransGen.refl⟩
    · exact Or.inr ⟨a, h1, h2, Relation.ReflTransGen.tail h3 hbc⟩

/-- The assignment `u->_number = ++number` keeps the invariants. -/
theorem visitInv_finish (mf : Mem) (kf : Int) (e u : Nat) (inv : VisitInv mf kf e)
    (hu : (mf u)._number = -1) (hsucc : ∀ v ∈ (mf u)._out, (mf v)._number ≠ 0)
    (hgray : ∀ a, (mf a)._number = -1 → Reach mf a u)
    (hpar : u ≠ e → ∃ p, u ∈ (mf p)._out ∧ (mf p)._number = -1 ∧ p ≠ u) :
    VisitInv (setNumber mf u (kf + 1)) (kf + 1) e := by
  have hn := inv.nonneg
  have hbound : Bounded (setNumber mf u (kf + 1)) (kf + 1) := by
    intro x
    rw [setNumber_number]
    split
    · omega
    · have := inv.bounded x; omega
  have hclos : Closure (setNumber mf u (kf + 1)) := by
    intro x hx y hy
    rw [setNumber_number] at hx
    rw [setNumber_out] at hy
    rw [setNumber_number]
    split
    · omega
    · split at hx
      · rename_i hxu
        rw [hxu] at hy
        exact hsucc y hy
      · exact inv.closure x hx y hy
  -- the property for the node that has just been numbered
  have hroot : ∀ y, Reach mf u y →
      ∃ x1, Reach mf u x1 ∧ Reach mf x1 u ∧
        ((0 < (setNumber mf u (kf + 1) x1)._number ∧ 0 < (setNumber mf u (kf + 1) y)._number ∧
          (setNumber mf u (kf + 1) y)._number ≤ (setNumber mf u (kf + 1) x1)._number) ∨
          (setNumber mf u (kf + 1) x1)._number = -1) := by
    intro y huy
    have hupos : 0 < (setNumber mf u (kf + 1) u)._number := by
      rw [setNumber_same]; omega
    rcases reach_exit _ _ hbound hclos u y hupos ((reach_setNumber _ _ _ _ _).2 huy) with
      h | ⟨a, h1, h2, _⟩
    · refine ⟨u, Relation.ReflTransGen.refl, Relation.ReflTransGen.refl, Or.inl ⟨hupos, h, ?_⟩⟩
      rw [setNumber_same]
      exact (hbound y).2
    · have hau : a ≠ u := by
        intro e1
        rw [e1, setNumber_same] at h1
        omega
      have ha : (mf a)._number = -1 := by
        rw [setNumber_number, if_neg hau] at h1; exact h1
      exact ⟨a, (reach_setNumber _ _ _ _ _).1 h2, hgray a ha, Or.inr h1⟩
  refine ⟨by omega, hbound, hclos, ?_, ?_⟩
  · intro x hx y hxy
    rw [reach_setNumber] at hxy
    by_cases hxu : x = u
    · subst hxu
      obtain ⟨x1, h1, h2, h3⟩ := hroot y hxy
      exact ⟨x1, (reach_setNumber _ _ _ _ _).2 h1, (reach_setNumber _ _ _ _ _).2 h2, h3⟩
    · rw [setNumber_number, if_neg hxu] at hx
      obtain ⟨x1, h1, h2, h3⟩ := inv.tinv x hx y hxy
      rcases h3 with ⟨a, b, c⟩ | a
      · have hx1 : x1 ≠ u := fun e1 => by rw [e1, hu] at a; omega
        have hy : y ≠ u := fun e1 => by rw [e1, hu] at b; omega
        refine ⟨x1, (reach_setNumber _ _ _ _ _).2 h1, (reach_setNumber _ _ _ _ _).2 h2, Or.inl ?_⟩
        rw [setNumber_number, setNumber_number, if_neg hx1, if_neg hy]
        exact ⟨a, b, c⟩
      · by_cases hx1 : x1 = u
        · subst hx1
          obtain ⟨x2, g1, g2, g3⟩ := hroot y (reach_trans h2 hxy)
          exact ⟨x2, (reach_setNumber _ _ _ _ _).2 (reach_trans h1 g1),
            (reach_setNumber _ _ _ _ _).2 (reach_trans g2 h2), g3⟩
        · refine ⟨x1, (reach_setNumber _ _ _ _ _).2 h1, (reach_setNumber _ _ _ _ _).2 h2,
            Or.inr ?_⟩
          rw [setNumber_number, if_neg hx1]
          exact a
  · intro x hx hxe
    by_cases hxu : x = u
    · subst hxu
      obtain ⟨p, hp1, hp2, hp3⟩ := hpar hxe
      refine ⟨p, by rw [setNumber_out]; exact hp1, Or.inl ?_⟩
      rw [setNumber_number, if_neg hp3]
      exact hp2
    · rw [setNumber_number, if_neg hxu] at hx
      obtain ⟨p, hp1, hp2⟩ := inv.parInv x hx hxe
      refine ⟨p, by rw [setNumber_out]; exact hp1, ?_⟩
      rw [setNumber_number, setNumber_number, if_neg hxu]
      split
      · right
        have := (inv.bounded x).2
        omega
      · exact hp2

end Decompiler

namespace Decompiler

/-! ### The loop over the successors, and `orderVisit` -/

theorem zeros_setNumber_lt (mem : Mem) (nodes : List Nat) (u : Nat) (v : Int) (hun : u ∈ nodes)
    (hu : (mem u)._number = 0) (hv : v ≠ 0) : zeros (setNumber mem u v) nodes < zeros mem nodes := by
  apply countP_lt_of_imp _ _ _ _ u hun
  · simpa using hu
  · rw [setNumber_same]; simpa using hv
  · intro x _ hx
    simp only [decide_eq_true_eq] at hx ⊢
    rw [setNumber_number] at hx
    split at hx
    · exact absurd hx hv
    · exact hx

theorem orderFold_spec (nodes : List Nat) (e fuel : Nat) (ih : VisitOk nodes e fuel) (u : Nat)
    (hun : u ∈ nodes) :
    ∀ (vs : List Nat) (m : Mem) (k : Int),
      zeros m nodes < fuel → (∀ x ∈ nodes, ∀ y ∈ (m x)._out, y ∈ nodes) →
      (m u)._number = -1 → VisitInv m k e → (∀ a, (m a)._number = -1 → Reach m a u) →
      (∀ v ∈ vs, v ∈ (m u)._out) →
      ∃ mf kf,
        vs.foldlM (fun (s : Mem × Int) v =>
          if (s.1 v)._number = 0 then orderVisit fuel s.1 v s.2 else some s) (m, k) =
            some (mf, kf) ∧
        Numbered u m k mf kf ∧ VisitInv mf kf e ∧ ∀ v ∈ vs, (mf v)._number ≠ 0 := by
  intro vs
  induction vs with
  | nil =>
    intro m k _ _ _ inv _ _
    exact ⟨m, k, rfl, numbered_refl u m k, inv, by simp⟩
  | cons v rest ihl =>
    intro m k hz hcl hu inv hg hvs
    have hvout : v ∈ (m u)._out := hvs v (List.mem_cons_self _ _)
    have hvn : v ∈ nodes := hcl u hun v hvout
    simp only [List.foldlM_cons]
    by_cases hv0 : (m v)._number = 0
    · rw [if_pos hv0]
      obtain ⟨m1, k1, h1, h2, h3, h4, h5⟩ := ih m v k hz hvn hcl hv0 inv
        (fun a ha => reach_trans (hg a ha) (reach_step hvout))
        (fun _ => ⟨u, hvout, hu⟩)
      rw [h1]
      simp only [Option.bind_eq_bind, Option.some_bind]
      have hn := inv.nonneg
      have hout : ∀ x, (m1 x)._out = (m x)._out := fun x => (h2.frame x).2.2.1
      obtain ⟨mf, kf, g1, g2, g3, g4⟩ := ihl m1 k1
        (lt_of_le_of_lt (h2.zeros_le nodes) hz)
        (fun x hx y hy => hcl x hx y (by rw [← hout]; exact hy))
        (by rw [h2.untouched u (by omega)]; exact hu)
        h5
        (fun a ha => (reach_congr h2.frame a u).2 (hg a ((h2.gray_iff hn a).1 ha)))
        (fun w hw => by rw [hout]; exact hvs w (List.mem_cons_of_mem _ hw))
      refine ⟨mf, kf, g1, numbered_trans hn (h2.of_reach (reach_step hvout)) g2, g3, ?_⟩
      intro w hw
      rcases List.mem_cons.1 hw with e1 | e1
      · rw [e1]
        exact g2.nonzero v (by omega)
      · exact g4 w e1
    · rw [if_neg hv0]
      simp only [Option.bind_eq_bind, Option.some_bind]
      obtain ⟨mf, kf, g1, g2, g3, g4⟩ := ihl m k hz hcl hu inv hg
        (fun w hw => hvs w (List.mem_cons_of_mem _ hw))
      refine ⟨mf, kf, g1, g2, g3, ?_⟩
      intro w hw
      rcases List.mem_cons.1 hw with e1 | e1
      · rw [e1]
        exact g2.nonzero v hv0
      · exact g4 w e1

/-- The whole call `orderVisit(u, n)` numbers nodes as `Numbered` says, given
what the loop over the successors did after `u` was marked. -/
theorem numbered_finish (mem mf : Mem) (u : Nat) (n kf : Int) (hn : 0 ≤ n)
    (hu : (mem u)._number = 0) (h : Numbered u (setNumber mem u (-1)) n mf kf) :
    Numbered u mem n (setNumber mf u (kf + 1)) (kf + 1) := by
  have hle := h.le
  have hmu : (mf u)._number = -1 := by
    rw [h.untouched u (by rw [setNumber_same]; omega), setNumber_same]
  have h1 : ∀ x, x ≠ u → (setNumber mem u (-1) x)._number = (mem x)._number := by
    intro x hx; rw [setNumber_other _ _ _ _ hx]
  refine ⟨sameButNumber_trans (sameButNumber_trans (sameButNumber_setNumber mem u (-1)) h.frame)
    (sameButNumber_setNumber mf u (kf + 1)), by omega, ?_, ?_, ?_, ?_, ?_⟩
  · intro x hx
    have hxu : x ≠ u := fun e1 => hx (by rw [e1]; exact hu)
    rw [setNumber_other _ _ _ _ hxu, h.untouched x (by rw [h1 x hxu]; exact hx), h1 x hxu]
  · intro x hx
    by_cases hxu : x = u
    · subst hxu
      right
      rw [setNumber_same]
      omega
    · rw [setNumber_other _ _ _ _ hxu]
      rcases h.range x (by rw [h1 x hxu]; exact hx) with e1 | ⟨e1, e2⟩
      · exact Or.inl e1
      · exact Or.inr ⟨e1, by omega⟩
  · intro x y hx hy hx2 hxy
    by_cases hxu : x = u
    · by_cases hyu : y = u
      · rw [hxu, hyu]
      · exfalso
        rw [hxu, setNumber_same, setNumber_other _ _ _ _ hyu] at hxy
        rcases h.range y (by rw [h1 y hyu]; exact hy) with e1 | ⟨e1, e2⟩
        · omega
        · omega
    · by_cases hyu : y = u
      · exfalso
        rw [hyu, setNumber_same, setNumber_other _ _ _ _ hxu] at hxy
        rcases h.range x (by rw [h1 x hxu]; exact hx) with e1 | ⟨e1, e2⟩
        · omega
        · omega
      · rw [setNumber_other _ _ _ _ hxu] at hx2 hxy
        rw [setNumber_other _ _ _ _ hyu] at hxy
        exact h.inj x y (by rw [h1 x hxu]; exact hx) (by rw [h1 y hyu]; exact hy) hx2 hxy
  · intro i hi1 hi2
    by_cases hik : i ≤ kf
    · obtain ⟨x, hx1, hx2⟩ := h.surj i hi1 hik
      have hxu : x ≠ u := by
        intro e1
        rw [e1, setNumber_same] at hx1
        omega
      refine ⟨x, by rw [← h1 x hxu]; exact hx1, ?_⟩
      rw [setNumber_other _ _ _ _ hxu]
      exact hx2
    · refine ⟨u, hu, ?_⟩
      rw [setNumber_same]
      omega
  · intro x hx hx2
    by_cases hxu : x = u
    · rw [hxu]; exact Relation.ReflTransGen.refl
    · rw [setNumber_other _ _ _ _ hxu] at hx2
      exact (reach_setNumber mem u (-1) u x).1 (h.reach x (by rw [h1 x hxu]; exact hx) hx2)

/-- `orderVisit` returns when its recursion depth `fuel` exceeds the number of
nodes with number 0, and numbers the nodes as described by `VisitOk`. -/
theorem orderVisit_ok (nodes : List Nat) (e : Nat) : ∀ fuel, VisitOk nodes e fuel := by
  intro fuel
  induction fuel with
  | zero => intro mem u n hz; omega
  | succ fuel ih =>
    intro mem u n hz hun hcl hu inv hg hpar
    have hn := inv.nonneg
    have hz1 := zeros_setNumber_lt mem nodes u (-1) hun hu (by omega)
    have hout1 : ∀ x, (setNumber mem u (-1) x)._out = (mem x)._out :=
      fun x => setNumber_out mem u x (-1)
    obtain ⟨mf, kf, g1, g2, g3, g4⟩ := orderFold_spec nodes e fuel ih u hun
      (setNumber mem u (-1) u)._out (setNumber mem u (-1)) n (by omega)
      (fun x hx y hy => hcl x hx y (by rw [← hout1]; exact hy))
      (setNumber_same mem u (-1))
      (visitInv_mark mem n e u inv hu)
      (by
        intro a ha
        rw [reach_setNumber]
        by_cases hau : a = u
        · rw [hau]; exact Relation.ReflTransGen.refl
        · rw [setNumber_other _ _ _ _ hau] at ha
          exact hg a ha)
      (fun _ hv => hv)
    have hmu : (mf u)._number = -1 := by
      rw [g2.untouched u (by rw [setNumber_same]; omega), setNumber_same]
    have houtf : ∀ x, (mf x)._out = (mem x)._out := by
      intro x
      rw [(g2.frame x).2.2.1, hout1]
    have hgrayf : ∀ a, (mf a)._number = -1 → Reach mf a u := by
      intro a ha
      have ha1 := (g2.gray_iff hn a).1 ha
      rw [reach_congr g2.frame, reach_setNumber]
      by_cases hau : a = u
      · rw [hau]; exact Relation.ReflTransGen.refl
      · rw [setNumber_other _ _ _ _ hau] at ha1
        exact hg a ha1
    have hparf : u ≠ e → ∃ p, u ∈ (mf p)._out ∧ (mf p)._number = -1 ∧ p ≠ u := by
      intro hue
      obtain ⟨p, hp1, hp2⟩ := hpar hue
      have hpu : p ≠ u := fun e1 => by rw [e1, hu] at hp2; omega
      refine ⟨p, by rw [houtf]; exact hp1, ?_, hpu⟩
      rw [(g2.gray_iff hn p), setNumber_other _ _ _ _ hpu]
      exact hp2
    have hfin := visitInv_finish mf kf e u g3 hmu
      (fun v hv => g4 v (by rw [hout1, ← houtf]; exact hv)) hgrayf hparf
    have hle := g2.le
    refine ⟨setNumber mf u (kf + 1), kf + 1, ?_, numbered_finish mem mf u n kf hn hu g2,
      setNumber_same _ _ _, by omega, hfin⟩
    simp only [orderVisit, g1, Option.map_some']

end Decompiler

namespace Decompiler

/-! ### `orderVisit` looks at the nodes of the graph only -/

theorem orderFold_local (nodes : List Nat) (fuel : Nat)
    (ih : ∀ (mem mem1 : Mem) (u : Nat) (n : Int) (r1 : Mem × Int), u ∈ nodes →
      (∀ x ∈ nodes, mem x = mem1 x) → (∀ x ∈ nodes, ∀ y ∈ (mem x)._out, y ∈ nodes) →
      orderVisit fuel mem1 u n = some r1 →
      ∃ r, orderVisit fuel mem u n = some r ∧ r.2 = r1.2 ∧ (∀ x ∈ nodes, r.1 x = r1.1 x) ∧
        (∀ x, x ∉ nodes → r.1 x = mem x) ∧ ∀ x, (r.1 x)._out = (mem x)._out) :
    ∀ (vs : List Nat) (m m1 : Mem) (k : Int) (r1 : Mem × Int), (∀ v ∈ vs, v ∈ nodes) →
      (∀ x ∈ nodes, m x = m1 x) → (∀ x ∈ nodes, ∀ y ∈ (m x)._out, y ∈ nodes) →
      vs.foldlM (fun (s : Mem × Int) v =>
        if (s.1 v)._number = 0 then orderVisit fuel s.1 v s.2 else some s) (m1, k) = some r1 →
      ∃ r, vs.foldlM (fun (s : Mem × Int) v =>
          if (s.1 v)._number = 0 then orderVisit fuel s.1 v s.2 else some s) (m, k) = some r ∧
        r.2 = r1.2 ∧ (∀ x ∈ nodes, r.1 x = r1.1 x) ∧ (∀ x, x ∉ nodes → r.1 x = m x) ∧
        ∀ x, (r.1 x)._out = (m x)._out := by
  intro vs
  induction vs with
  | nil =>
    intro m m1 k r1 _ hag _ h
    simp only [List.foldlM_nil, Option.pure_def, Option.some.injEq] at h
    subst h
    exact ⟨(m, k), rfl, rfl, hag, fun _ _ => rfl, fun _ => rfl⟩
  | cons v rest ihl =>
    intro m m1 k r1 hvs hag hcl h
    have hvn : v ∈ nodes := hvs v (List.mem_cons_self _ _)
    simp only [List.foldlM_cons, Option.bind_eq_bind] at h ⊢
    rw [hag v hvn]
    by_cases hv0 : (m1 v)._number = 0
    · rw [if_pos hv0] at h ⊢
      cases hc : orderVisit fuel m1 v k with
      | none => rw [hc] at h; exact absurd h (by simp)
      | some s1 =>
        rw [hc] at h
        simp only [Option.some_bind] at h
        obtain ⟨s, g1, g2, g3, g4, g5⟩ := ih m m1 v k s1 hvn hag hcl hc
        rw [g1]
        simp only [Option.some_bind]
        have hs : s = (s.1, s1.2) := by rw [← g2]
        rw [hs]
        obtain ⟨r, f1, f2, f3, f4, f5⟩ := ihl s.1 s1.1 s1.2 r1
          (fun w hw => hvs w (List.mem_cons_of_mem _ hw)) g3
          (fun x hx y hy => hcl x hx y (by rw [← g5]; exact hy)) h
        exact ⟨r, f1, f2, f3, fun x hx => (f4 x hx).trans (g4 x hx),
          fun x => (f5 x).trans (g5 x)⟩
    · rw [if_neg hv0] at h ⊢
      simp only [Option.some_bind] at h ⊢
      exact ihl m m1 k r1 (fun w hw => hvs w (List.mem_cons_of_mem _ hw)) hag hcl h

theorem orderVisit_local (nodes : List Nat) :
    ∀ (fuel : Nat) (mem mem1 : Mem) (u : Nat) (n : Int) (r1 : Mem × Int), u ∈ nodes →
      (∀ x ∈ nodes, mem x = mem1 x) → (∀ x ∈ nodes, ∀ y ∈ (mem x)._out, y ∈ nodes) →
      orderVisit fuel mem1 u n = some r1 →
      ∃ r, orderVisit fuel mem u n = some r ∧ r.2 = r1.2 ∧ (∀ x ∈ nodes, r.1 x = r1.1 x) ∧
        (∀ x, x ∉ nodes → r.1 x = mem x) ∧ ∀ x, (r.1 x)._out = (mem x)._out := by
  intro fuel
  induction fuel with
  | zero => intro mem mem1 u n r1 _ _ _ h; simp [orderVisit] at h
  | succ fuel ih =>
    intro mem mem1 u n r1 hun hag hcl h
    simp only [orderVisit] at h ⊢
    have hag1 : ∀ x ∈ nodes, setNumber mem u (-1) x = setNumber mem1 u (-1) x := by
      intro x hx
      by_cases hxu : x = u
      · subst hxu
        simp only [setNumber, Mem.modify_same]
        rw [hag x hx]
      · rw [setNumber_other _ _ _ _ hxu, setNumber_other _ _ _ _ hxu]
        exact hag x hx
    have hout1 : ∀ x, (setNumber mem u (-1) x)._out = (mem x)._out :=
      fun x => setNumber_out mem u x (-1)
    cases hf : (setNumber mem1 u (-1) u)._out.foldlM (fun (s : Mem × Int) v =>
        if (s.1 v)._number = 0 then orderVisit fuel s.1 v s.2 else some s)
        (setNumber mem1 u (-1), n) with
    | none => rw [hf] at h; exact absurd h (by simp)
    | some s1 =>
      rw [hf] at h
      simp only [Option.map_some', Option.some.injEq] at h
      subst h
      rw [← hag1 u hun] at hf
      obtain ⟨s, g1, g2, g3, g4, g5⟩ := orderFold_local nodes fuel ih
        (setNumber mem u (-1) u)._out (setNumber mem u (-1)) (setNumber mem1 u (-1)) n s1
        (fun v hv => hcl u hun v (by rw [← hout1]; exact hv)) hag1
        (fun x hx y hy => hcl x hx y (by rw [← hout1]; exact hy)) hf
      rw [g1]
      refine ⟨(setNumber s.1 u (s.2 + 1), s.2 + 1), rfl, by rw [g2], ?_, ?_, ?_⟩
      · intro x hx
        simp only
        by_cases hxu : x = u
        · subst hxu
          simp only [setNumber, Mem.modify_same]
          rw [g3 x hx, g2]
        · rw [setNumber_other _ _ _ _ hxu, setNumber_other _ _ _ _ hxu]
          exact g3 x hx
      · intro x hx
        have hxu : x ≠ u := fun e1 => hx (e1 ▸ hun)
        simp only
        rw [setNumber_other _ _ _ _ hxu, g4 x hx, setNumber_other _ _ _ _ hxu]
      · intro x
        simp only
        rw [setNumber_out, g5, hout1]

end Decompiler

namespace Decompiler

/-! ### `orderNodes` on a graph without numbers -/

theorem sameButNumber_zeroOutside (nodes : List Nat) (mem : Mem) :
    SameButNumber mem (zeroOutside nodes mem) := by
  intro x
  unfold zeroOutside
  split <;> exact ⟨rfl, rfl, rfl, rfl, rfl, rfl, rfl⟩

theorem reach_nodes (nodes : List Nat) (mem : Mem)
    (hcl : ∀ x ∈ nodes, ∀ y ∈ (mem x)._out, y ∈ nodes) (a b : Nat) (ha : a ∈ nodes)
    (h : Reach mem a b) : b ∈ nodes := by
  induction h with
  | refl => exact ha
  | tail _ hbc ih => exact hcl _ ih _ hbc

theorem orderVisit_postOrder (nodes : List Nat) (e : Nat) (mem : Mem) (hen : e ∈ nodes)
    (hcl : ∀ x ∈ nodes, ∀ y ∈ (mem x)._out, y ∈ nodes)
    (hz : ∀ u ∈ nodes, (mem u)._number = 0) (fuel : Nat) (hfuel : nodes.length < fuel) :
    ∃ m2 n2, orderVisit fuel mem e 0 = some (m2, n2) ∧ PostOrder nodes e mem m2 := by
  have hfr := sameButNumber_zeroOutside nodes mem
  have hz1 : ∀ x, (zeroOutside nodes mem x)._number = 0 := by
    intro x
    unfold zeroOutside
    split
    · rename_i hx; exact hz x hx
    · rfl
  have hout1 : ∀ x, (zeroOutside nodes mem x)._out = (mem x)._out := fun x => (hfr x).2.2.1
  have hinv : VisitInv (zeroOutside nodes mem) 0 e := by
    refine ⟨le_refl 0, ?_, ?_, ?_, ?_⟩
    · intro x; rw [hz1]; omega
    · intro x hx; rw [hz1] at hx; omega
    · intro x hx; rw [hz1] at hx; omega
    · intro x hx; rw [hz1] at hx; omega
  obtain ⟨m1, n1, h1, h2, h3, h4, h5⟩ := orderVisit_ok nodes e fuel (zeroOutside nodes mem) e 0
    (lt_of_le_of_lt (List.countP_le_length _) hfuel) hen
    (fun x hx y hy => hcl x hx y (by rw [← hout1]; exact hy)) (hz1 e) hinv
    (fun a ha => by rw [hz1] at ha; omega) (fun h => absurd rfl h)
  obtain ⟨r, g1, g2, g3, g4, g5⟩ := orderVisit_local nodes fuel mem (zeroOutside nodes mem) e 0
    (m1, n1) hen (fun x hx => by unfold zeroOutside; rw [if_pos hx]) hcl h1
  have hr : r = (r.1, n1) := by
    have : r.2 = n1 := g2
    rw [← this]
  have hreach : ∀ a b, Reach (zeroOutside nodes mem) a b ↔ Reach mem a b :=
    fun a b => reach_congr hfr a b
  -- no node is left with the mark `-1`
  have hnogray : ∀ x, (m1 x)._number ≠ -1 := by
    intro x hx
    have := (h2.gray_iff (le_refl 0) x).1 hx
    rw [hz1] at this
    omega
  have hnum : ∀ x, x ∈ nodes → (r.1 x)._number = (m1 x)._number := by
    intro x hx; rw [g3 x hx]
  have hpos1 : ∀ u, Reach mem e u → 0 < (m1 u)._number := by
    intro u hu
    have he0 : 0 < (m1 e)._number := by rw [h3]; exact h4
    rcases reach_exit m1 n1 h5.bounded h5.closure e u he0
      ((reach_congr h2.frame e u).2 ((hreach e u).2 hu)) with h | ⟨a, ha, _, _⟩
    · exact h
    · exact absurd ha (hnogray a)
  have hin : ∀ u, Reach mem e u → u ∈ nodes := fun u hu => reach_nodes nodes mem hcl e u hen hu
  have hreached : ∀ x, (m1 x)._number ≠ 0 → Reach mem e x := by
    intro x hx
    exact (hreach e x).1 (h2.reach x (hz1 x) hx)
  refine ⟨r.1, n1, by rw [g1, hr], ?_⟩
  refine ⟨?_, g4, ?_, ?_, ?_, ?_, ?_, ?_⟩
  · intro x
    by_cases hx : x ∈ nodes
    · rw [g3 x hx]
      exact (sameButNumber_trans hfr h2.frame) x
    · rw [g4 x hx]
      exact ⟨rfl, rfl, rfl, rfl, rfl, rfl, rfl⟩
  · intro u hu
    rw [hnum u (hin u hu), hnum e hen, h3]
    exact ⟨hpos1 u hu, (h5.bounded u).2⟩
  · intro u hu hnr
    rw [hnum u hu]
    by_contra hne
    exact hnr (hreached u hne)
  · intro u v hu hv huv
    rw [hnum u (hin u hu), hnum v (hin v hv)] at huv
    exact h2.inj u v (hz1 u) (hz1 v) (by have := hpos1 u hu; omega) huv
  · intro i hi1 hi2
    rw [hnum e hen, h3] at hi2
    obtain ⟨x, _, hx2⟩ := h2.surj i hi1 hi2
    have hxr := hreached x (by omega)
    exact ⟨x, hxr, by rw [hnum x (hin x hxr)]; exact hx2⟩
  · intro u hu hue
    obtain ⟨p, hp1, hp2⟩ := h5.parInv u (hpos1 u hu) hue
    rcases hp2 with hp2 | hp2
    · exact absurd hp2 (hnogray p)
    · have hpr := hreached p (by have := hpos1 u hu; omega)
      refine ⟨p, hpr, ?_, ?_⟩
      · rw [← hout1, ← (h2.frame p).2.2.1]; exact hp1
      · rw [hnum u (hin u hu), hnum p (hin p hpr)]; exact hp2
  · intro x y hx hxy
    obtain ⟨x1, a1, a2, a3⟩ := h5.tinv x (hpos1 x hx)
      y ((reach_congr h2.frame x y).2 ((hreach x y).2 hxy))
    have b1 : Reach mem x x1 := (hreach x x1).1 ((reach_congr h2.frame x x1).1 a1)
    have b2 : Reach mem x1 x := (hreach x1 x).1 ((reach_congr h2.frame x1 x).1 a2)
    rcases a3 with ⟨_, _, c3⟩ | c
    · refine ⟨x1, b1, b2, ?_⟩
      rw [hnum y (hin y (reach_trans hx hxy)), hnum x1 (hin x1 (reach_trans hx b1))]
      exact c3
    · exact absurd c (hnogray x1)

end Decompiler

namespace Decompiler

theorem orderNodes_spec (g : ControlFlowGraph) (e : Nat) (he : g._entry = some e)
    (hen : e ∈ g._nodes) (hcl : EdgesClosed g) (hz : ∀ u ∈ g._nodes, (g.mem u)._number = 0)
    (fuel : Nat) (hfuel : g._nodes.length < fuel) :
    ∃ g1, orderNodes fuel g = some g1 ∧ g1._nodes = g._nodes ∧ g1._entry = g._entry ∧
      g1._targets = g._targets ∧ PostOrder g._nodes e g.mem g1.mem := by
  obtain ⟨m2, n2, h1, h2⟩ := orderVisit_postOrder g._nodes e g.mem hen
    (fun x hx => (hcl x hx).1) hz fuel hfuel
  refine ⟨{ g with mem := m2 }, ?_, rfl, rfl, rfl, h2⟩
  unfold orderNodes
  rw [he]
  simp only [hz e hen, if_true, h1, Option.map_some']

/-- The nodes reachable from `e`, listed by their postorder number. -/
theorem postOrder_list (nodes : List Nat) (e : Nat) (mem0 mem : Mem)
    (h : PostOrder nodes e mem0 mem) :
    ∃ post : List Nat, post.Nodup ∧ (∀ u, u ∈ post ↔ Reach mem0 e u) ∧
      (post.length : Int) = (mem e)._number ∧
      ∀ (i u : Nat), post[i]? = some u → (mem u)._number = (i : Int) + 1 := by
  have hepos := (h.pos e Relation.ReflTransGen.refl).1
  have hs : ∀ i : Nat, ∃ u, (i : Int) < (mem e)._number →
      (Reach mem0 e u ∧ (mem u)._number = (i : Int) + 1) := by
    intro i
    by_cases hi : (i : Int) < (mem e)._number
    · obtain ⟨u, hu1, hu2⟩ := h.surj ((i : Int) + 1) (by omega) (by omega)
      exact ⟨u, fun _ => ⟨hu1, hu2⟩⟩
    · exact ⟨e, fun hc => absurd hc hi⟩
  choose f hf using hs
  have hk : (((mem e)._number.toNat : Nat) : Int) = (mem e)._number :=
    Int.toNat_of_nonneg (by omega)
  have hlt : ∀ i, i < (mem e)._number.toNat → (i : Int) < (mem e)._number := by
    intro i hi; omega
  refine ⟨(List.range (mem e)._number.toNat).map f, ?_, ?_, ?_, ?_⟩
  · apply List.Nodup.map_on _ (List.nodup_range _)
    intro i hi j hj hij
    have h1 := (hf i (hlt i (List.mem_range.1 hi))).2
    have h2 := (hf j (hlt j (List.mem_range.1 hj))).2
    rw [hij] at h1
    omega
  · intro u
    rw [List.mem_map]
    constructor
    · rintro ⟨i, hi, rfl⟩
      exact (hf i (hlt i (List.mem_range.1 hi))).1
    · intro hu
      obtain ⟨hu1, hu2⟩ := h.pos u hu
      have hi : ((mem u)._number.toNat - 1) < (mem e)._number.toNat := by omega
      refine ⟨(mem u)._number.toNat - 1, List.mem_range.2 hi, ?_⟩
      obtain ⟨g1, g2⟩ := hf _ (hlt _ hi)
      apply h.inj _ _ g1 hu
      rw [g2]
      omega
  · rw [List.length_map, List.length_range, hk]
  · intro i u hiu
    rw [List.getElem?_map] at hiu
    by_cases hi : i < (mem e)._number.toNat
    · rw [List.getElem?_range hi] at hiu
      simp only [Option.map_some', Option.some.injEq] at hiu
      rw [← hiu]
      exact (hf i (hlt i hi)).2
    · rw [List.getElem?_eq_none (by simpa using Nat.le_of_not_lt hi)] at hiu
      simp at hiu

end Decompiler

namespace Decompiler

/-! ### `componentVisit` only fills null `_component` fields -/

theorem compFills_refl (h : Nat) (m : Mem) : CompFills h m m := fun _ => Or.inl rfl

theorem compFills_trans {h : Nat} {m1 m2 m3 : Mem} (h12 : CompFills h m1 m2)
    (h23 : CompFills h m2 m3) : CompFills h m1 m3 := by
  intro x
  rcases h12 x with e1 | ⟨n1, e1⟩
  · rcases h23 x with e2 | ⟨n2, e2⟩
    · exact Or.inl (e2.trans e1)
    · rw [e1] at n2 e2; exact Or.inr ⟨n2, e2⟩
  · rcases h23 x with e2 | ⟨n2, _⟩
    · exact Or.inr ⟨n1, e2.trans e1⟩
    · rw [e1] at n2; simp at n2

theorem CompFills.some_eq {h : Nat} {m1 m2 : Mem} (hf : CompFills h m1 m2) (x : Nat)
    (hx : (m1 x)._component.isSome = true) : m2 x = m1 x := by
  rcases hf x with e | ⟨n, _⟩
  · exact e
  · rw [n] at hx; simp at hx

theorem CompFills.isSome {h : Nat} {m1 m2 : Mem} (hf : CompFills h m1 m2) (x : Nat)
    (hx : (m1 x)._component.isSome = true) : (m2 x)._component.isSome = true := by
  rw [hf.some_eq x hx]; exact hx

theorem CompFills.fills_number {h : Nat} {m1 m2 : Mem} (hf : CompFills h m1 m2) (x : Nat) :
    (m2 x)._number = (m1 x)._number := by
  rcases hf x with e | ⟨_, e⟩ <;> rw [e]

theorem CompFills.fills_in {h : Nat} {m1 m2 : Mem} (hf : CompFills h m1 m2) (x : Nat) :
    (m2 x)._in = (m1 x)._in := by
  rcases hf x with e | ⟨_, e⟩ <;> rw [e]

theorem componentVisit_fills (head : Nat) :
    ∀ (fuel : Nat) (mem : Mem) (u : Nat) (m2 : Mem),
      componentVisit fuel mem u head = some m2 →
        CompFills head mem m2 ∧ (m2 u)._component.isSome = true := by
  intro fuel
  induction fuel with
  | zero => intro mem u m2 h; simp [componentVisit] at h
  | succ fuel ih =>
    intro mem u m2 h
    unfold componentVisit at h
    by_cases hc : (mem u)._component.isSome = true
    · rw [if_pos hc] at h
      injection h with h
      subst h
      exact ⟨compFills_refl _ _, hc⟩
    · rw [if_neg hc] at h
      have hnone : (mem u)._component = none := by
        cases hcu : (mem u)._component with
        | none => rfl
        | some c => rw [hcu] at hc; simp at hc
      have hstep : CompFills head mem
          (mem.modify u (fun x => { x with _component := some head })) := by
        intro x
        by_cases hx : x = u
        · subst hx
          exact Or.inr ⟨hnone, by simp⟩
        · exact Or.inl (Mem.modify_other _ _ _ _ hx)
      have hsome : ((mem.modify u (fun x => { x with _component := some head })) u)._component.isSome
          = true := by simp
      have key : ∀ (l : List Nat) (m1 : Mem),
          l.foldlM (fun m v => componentVisit fuel m v head) m1 = some m2 →
            CompFills head m1 m2 := by
        intro l
        induction l with
        | nil =>
          intro m1 hm
          simp only [List.foldlM, pure, Option.some.injEq] at hm
          subst hm
          exact compFills_refl _ _
        | cons v l ihl =>
          intro m1 hm
          rw [List.foldlM_cons] at hm
          cases hv : componentVisit fuel m1 v head with
          | none => rw [hv] at hm; simp at hm
          | some m3 =>
            rw [hv] at hm
            exact compFills_trans (ih m1 v m3 hv).1 (ihl m3 hm)
      have hk := key _ _ h
      exact ⟨compFills_trans hstep hk, hk.isSome u hsome⟩

/-- A call of `componentVisit` on a node whose `_component` is set returns at once. -/
theorem componentVisit_set (fuel : Nat) (mem : Mem) (u head : Nat)
    (hc : (mem u)._component.isSome = true) :
    componentVisit (fuel + 1) mem u head = some mem := by
  unfold componentVisit
  rw [if_pos hc]

theorem componentFold_set (fuel : Nat) (hf : 0 < fuel) (mem : Mem) :
    ∀ (l : List Nat), (∀ u ∈ l, (mem u)._component.isSome = true) →
      l.foldlM (fun m u => componentVisit fuel m u u) mem = some mem := by
  obtain ⟨k, rfl⟩ : ∃ k, fuel = k + 1 := ⟨fuel - 1, by omega⟩
  intro l
  induction l with
  | nil => intro _; rfl
  | cons v l ih =>
    intro h
    rw [List.foldlM_cons, componentVisit_set k mem v v (h v (List.mem_cons_self _ _))]
    exact ih (fun u hu => h u (List.mem_cons_of_mem _ hu))

theorem componentFold_fills (fuel : Nat) :
    ∀ (l : List Nat) (m1 m2 : Mem),
      l.foldlM (fun m u => componentVisit fuel m u u) m1 = some m2 →
        (∀ x, (m2 x)._number = (m1 x)._number) ∧
        (∀ x, (m1 x)._component.isSome = true → (m2 x)._component.isSome = true) ∧
        ∀ u ∈ l, (m2 u)._component.isSome = true := by
  intro l
  induction l with
  | nil =>
    intro m1 m2 h
    simp only [List.foldlM, pure, Option.some.injEq] at h
    subst h
    exact ⟨fun _ => rfl, fun _ hx => hx, fun u hu => by simp at hu⟩
  | cons v l ih =>
    intro m1 m2 h
    rw [List.foldlM_cons] at h
    cases hv : componentVisit fuel m1 v v with
    | none => rw [hv] at h; simp at h
    | some m3 =>
      rw [hv] at h
      obtain ⟨f1, s1⟩ := componentVisit_fills v fuel m1 v m3 hv
      obtain ⟨n2, k2, a2⟩ := ih m3 m2 h
      refine ⟨fun x => (n2 x).trans (f1.fills_number x), fun x hx => k2 x (f1.isSome x hx), ?_⟩
      intro u hu
      rcases List.mem_cons.1 hu with rfl | hu
      · exact k2 u s1
      · exact a2 u hu

theorem mem_inPostOrder (mem : Mem) (nodes : List Nat) (u : Nat) :
    u ∈ (inPostOrder mem nodes).reverse ↔ u ∈ nodes := by
  rw [List.mem_reverse]
  exact (List.perm_insertionSort (postOrderLe mem) nodes).mem_iff

/-! ### The numbers given out by `orderVisit` grow -/

theorem orderVisit_number :
    ∀ (fuel : Nat) (mem : Mem) (u : Nat) (n : Int) (m2 : Mem) (n2 : Int),
      orderVisit fuel mem u n = some (m2, n2) → n < n2 ∧ (m2 u)._number = n2 := by
  intro fuel
  induction fuel with
  | zero => intro mem u n m2 n2 h; simp [orderVisit] at h
  | succ fuel ih =>
    intro mem u n m2 n2 h
    unfold orderVisit at h
    simp only [Option.map_eq_some'] at h
    obtain ⟨s, hs, he⟩ := h
    have key : ∀ (l : List Nat) (s0 : Mem × Int),
        l.foldlM (fun (s : Mem × Int) v =>
          if (s.1 v)._number = 0 then orderVisit fuel s.1 v s.2 else some s) s0 = some s →
          s0.2 ≤ s.2 := by
      intro l
      induction l with
      | nil =>
        intro s0 h0
        simp only [List.foldlM, pure, Option.some.injEq] at h0
        rw [h0]
      | cons v l ihl =>
        intro s0 h0
        rw [List.foldlM_cons] at h0
        by_cases hz : (s0.1 v)._number = 0
        · rw [if_pos hz] at h0
          cases hv : orderVisit fuel s0.1 v s0.2 with
          | none => rw [hv] at h0; simp at h0
          | some s1 =>
            rw [hv] at h0
            have h1 := (ih s0.1 v s0.2 s1.1 s1.2 hv).1
            have h2 := ihl s1 h0
            omega
        · rw [if_neg hz] at h0
          exact ihl s0 h0
    have hle := key _ _ hs
    simp only [Prod.mk.injEq] at he
    obtain ⟨e1, e2⟩ := he
    subst e1
    subst e2
    refine ⟨by simpa using Int.lt_add_one_iff.2 hle, ?_⟩
    simp [setNumber]

end Decompiler

namespace Decompiler

/-! ### `assignIntervals` on a graph whose nodes all have an interval -/

theorem modify_interval_self (mem : Mem) (e : Nat) (h : (mem e)._interval = some e) :
    mem.modify e (fun x => { x with _interval := some e }) = mem := by
  funext x
  by_cases hx : x = e
  · subst hx
    rw [Mem.modify_same]
    exact node_set_interval_self _ _ h
  · exact Mem.modify_other _ _ _ _ hx

theorem newHeaders_assigned (K : Nat) (mem : Mem) (nodes : List Nat)
    (hall : ∀ u ∈ nodes, (mem u)._interval.isSome = true) : newHeaders K mem nodes = [] := by
  unfold newHeaders
  rw [List.filter_eq_nil_iff]
  intro u hu
  have := hall u hu
  cases hi : (mem u)._interval with
  | none => rw [hi] at this; simp at this
  | some v => simp

theorem intervalLoop_assigned (mem : Mem) (nodes : List Nat) (e : Nat)
    (hee : (mem e)._interval = some e)
    (hall : ∀ u ∈ nodes, (mem u)._interval.isSome = true) (steps fuel : Nat) :
    intervalLoop (steps + 1) (fuel + 1) mem nodes [e] = some mem := by
  have hq : NoneQualifies e nodes mem := by
    intro m hm hc
    have := hall m hm
    rw [hc.1] at this
    simp at this
  unfold intervalLoop
  simp only [modify_interval_self mem e hee, growInterval_noop e nodes fuel mem hq,
    Option.some_bind, newHeaders_assigned e mem nodes hall, List.append_nil]
  cases steps <;> simp [intervalLoop]

theorem assignIntervals_assigned (g : ControlFlowGraph) (e : Nat) (he : g._entry = some e)
    (hee : (g.mem e)._interval = some e)
    (hall : ∀ u ∈ g._nodes, (g.mem u)._interval.isSome = true) (fuel : Nat) (hf : 0 < fuel) :
    assignIntervals fuel g = some g := by
  obtain ⟨k, rfl⟩ : ∃ k, fuel = k + 1 := ⟨fuel - 1, by omega⟩
  unfold assignIntervals
  rw [he]
  simp only [intervalLoop_assigned g.mem g._nodes e hee hall k k, Option.map_some']
  cases g
  simp only at he
  rw [he]

theorem intervals_assigned (g : ControlFlowGraph) (e : Nat) (he : g._entry = some e)
    (hee : (g.mem e)._interval = some e)
    (hall : ∀ u ∈ g._nodes, (g.mem u)._interval.isSome = true) (fuel : Nat) (hf : 0 < fuel) :
    intervals fuel g = some (g, headers g) := by
  unfold intervals
  rw [assignIntervals_assigned g e he hee hall fuel hf]
  rfl

end Decompiler

namespace Decompiler

/-! ### `removeUnreachableNodes` on edge lists -/

theorem thinned_refl (mem : Mem) (l : List Nat) : Thinned mem l l :=
  ⟨fun _ => true, by simp, by simp⟩

theorem thinned_trans {m1 m2 : Mem} (hn : ∀ x, (m2 x)._number = (m1 x)._number)
    {l1 l2 l3 : List Nat} (h12 : Thinned m1 l1 l2) (h23 : Thinned m2 l2 l3) :
    Thinned m1 l1 l3 := by
  obtain ⟨q1, e1, z1⟩ := h12
  obtain ⟨q2, e2, z2⟩ := h23
  refine ⟨fun p => q1 p && q2 p, ?_, ?_⟩
  · rw [e2, e1, List.filter_filter]
    congr 1
    funext p
    exact Bool.and_comm _ _
  · intro p hp
    simp only [Bool.and_eq_false_iff] at hp
    rcases hp with hp | hp
    · exact z1 p hp
    · rw [← hn p]; exact z2 p hp

theorem thinned_filter_ne (mem : Mem) (l : List Nat) (u : Nat) (hu : (mem u)._number = 0) :
    Thinned mem l (l.filter (fun y => y ≠ u)) := by
  refine ⟨fun y => decide (y ≠ u), rfl, ?_⟩
  intro p hp
  simp only [ne_eq, decide_not, Bool.not_eq_false', decide_eq_true_eq] at hp
  rw [hp]; exact hu

theorem Thinned.mem_of_mem {mem : Mem} {l l2 : List Nat} (h : Thinned mem l l2) {p : Nat}
    (hp : p ∈ l2) : p ∈ l := by
  obtain ⟨q, e, _⟩ := h
  rw [e] at hp
  exact (List.mem_filter.1 hp).1

theorem Thinned.mem_numbered {mem : Mem} {l l2 : List Nat} (h : Thinned mem l l2) {p : Nat}
    (hp : p ∈ l) (hn : (mem p)._number ≠ 0) : p ∈ l2 := by
  obtain ⟨q, e, z⟩ := h
  rw [e, List.mem_filter]
  refine ⟨hp, ?_⟩
  cases hq : q p with
  | true => rfl
  | false => exact absurd (z p hq) hn

theorem Unlinks.unlinks_number {m1 m2 : Mem} (h : Unlinks m1 m2) (x : Nat) :
    (m2 x)._number = (m1 x)._number := by
  rw [(h x).1]

theorem unlinks_refl (m : Mem) : Unlinks m m :=
  fun _ => ⟨rfl, thinned_refl m _, thinned_refl m _⟩

theorem unlinks_trans {m1 m2 m3 : Mem} (h12 : Unlinks m1 m2) (h23 : Unlinks m2 m3) :
    Unlinks m1 m3 := by
  intro x
  obtain ⟨a1, a2, a3⟩ := h12 x
  obtain ⟨b1, b2, b3⟩ := h23 x
  refine ⟨?_, thinned_trans h12.unlinks_number a2 b2, thinned_trans h12.unlinks_number a3 b3⟩
  rw [b1, a1]

theorem unlinks_modify_in (mem : Mem) (v u : Nat) (hu : (mem u)._number = 0) :
    Unlinks mem (mem.modify v (fun x => { x with _in := x._in.filter (fun y => y ≠ u) })) := by
  intro x
  by_cases hx : x = v
  · subst hx
    simp only [Mem.modify_same]
    exact ⟨trivial, thinned_filter_ne mem _ u hu, thinned_refl mem _⟩
  · rw [Mem.modify_other _ _ _ _ hx]
    exact ⟨rfl, thinned_refl mem _, thinned_refl mem _⟩

theorem unlinks_modify_out (mem : Mem) (v u : Nat) (hu : (mem u)._number = 0) :
    Unlinks mem (mem.modify v (fun x => { x with _out := x._out.filter (fun y => y ≠ u) })) := by
  intro x
  by_cases hx : x = v
  · subst hx
    simp only [Mem.modify_same]
    exact ⟨trivial, thinned_refl mem _, thinned_filter_ne mem _ u hu⟩
  · rw [Mem.modify_other _ _ _ _ hx]
    exact ⟨rfl, thinned_refl mem _, thinned_refl mem _⟩

theorem unlinkIn_spec (u : Nat) :
    ∀ (vs : List Nat) (mem : Mem), (mem u)._number = 0 →
      Unlinks mem (unlinkIn u mem vs) ∧ ∀ r ∈ vs, u ∉ ((unlinkIn u mem vs) r)._in := by
  intro vs
  induction vs with
  | nil => intro mem _; exact ⟨unlinks_refl mem, by simp⟩
  | cons v vs ih =>
    intro mem hu
    simp only [unlinkIn]
    have step := unlinks_modify_in mem v u hu
    obtain ⟨h1, h2⟩ := ih _ (by rw [step.unlinks_number u]; exact hu)
    refine ⟨unlinks_trans step h1, ?_⟩
    intro r hr
    rcases List.mem_cons.1 hr with rfl | hr
    · intro hmem
      have := (h1 r).2.1.mem_of_mem hmem
      simp at this
    · exact h2 r hr

theorem unlinkOut_spec (u : Nat) :
    ∀ (vs : List Nat) (mem : Mem), (mem u)._number = 0 → Unlinks mem (unlinkOut u mem vs) := by
  intro vs
  induction vs with
  | nil => intro mem _; exact unlinks_refl mem
  | cons v vs ih =>
    intro mem hu
    simp only [unlinkOut]
    have step := unlinks_modify_out mem v u hu
    exact unlinks_trans step (ih _ (by rw [step.unlinks_number u]; exact hu))

theorem unlinkUnreachable_spec :
    ∀ (l : List Nat) (mem : Mem),
      Unlinks mem (unlinkUnreachable mem l) ∧
      ∀ u ∈ l, (mem u)._number = 0 → ∀ r ∈ (mem u)._out, (mem r)._number ≠ 0 →
        u ∉ ((unlinkUnreachable mem l) r)._in := by
  intro l
  induction l with
  | nil => intro mem; exact ⟨unlinks_refl mem, by simp⟩
  | cons u l ih =>
    intro mem
    simp only [unlinkUnreachable]
    by_cases hu : (mem u)._number = 0
    · rw [if_pos hu]
      obtain ⟨a1, a2⟩ := unlinkIn_spec u (mem u)._out mem hu
      have hu1 : ((unlinkIn u mem (mem u)._out) u)._number = 0 := by rw [a1.unlinks_number u]; exact hu
      have b1 := unlinkOut_spec u ((unlinkIn u mem (mem u)._out) u)._in _ hu1
      have h12 := unlinks_trans a1 b1
      obtain ⟨c1, c2⟩ := ih (unlinkOut u (unlinkIn u mem (mem u)._out)
        ((unlinkIn u mem (mem u)._out) u)._in)
      refine ⟨unlinks_trans h12 c1, ?_⟩
      intro u2 hu2 hz r hr hrn hmem
      rcases List.mem_cons.1 hu2 with rfl | hu2
      · have h3 := (c1 r).2.1.mem_of_mem hmem
        have h4 := (b1 r).2.1.mem_of_mem h3
        exact a2 r hr h4
      · refine c2 u2 hu2 (by rw [h12.unlinks_number u2]; exact hz) r ?_ (by rw [h12.unlinks_number r]; exact hrn)
          hmem
        exact (h12 u2).2.2.mem_numbered hr hrn
    · rw [if_neg hu]
      obtain ⟨c1, c2⟩ := ih mem
      refine ⟨c1, ?_⟩
      intro u2 hu2 hz r hr hrn
      rcases List.mem_cons.1 hu2 with rfl | hu2
      · exact absurd hz hu
      · exact c2 u2 hu2 hz r hr hrn

/-- On a graph with symmetric edge lists, predecessors inside the graph and
numbered nodes whose successors are numbered, `removeUnreachableNodes` keeps
the successor lists of the numbered nodes and deletes from their predecessor
lists exactly the nodes with number 0. -/
theorem removeUnreachableNodes_lists (g : ControlFlowGraph) (hsym : EdgeSymmetric g)
    (hin : ∀ u ∈ g._nodes, ∀ p ∈ (g.mem u)._in, p ∈ g._nodes)
    (hsucc : ∀ u ∈ g._nodes, (g.mem u)._number ≠ 0 → ∀ v ∈ (g.mem u)._out,
      (g.mem v)._number ≠ 0) :
    (removeUnreachableNodes g)._nodes =
      g._nodes.filter (fun u => decide ((g.mem u)._number ≠ 0)) ∧
    ∀ r ∈ g._nodes, (g.mem r)._number ≠ 0 →
      (removeUnreachableNodes g).mem r =
        { g.mem r with _in := (g.mem r)._in.filter (fun p => decide ((g.mem p)._number ≠ 0)) } := by
  obtain ⟨h1, h2⟩ := unlinkUnreachable_spec g._nodes g.mem
  constructor
  · simp only [removeUnreachableNodes, h1.unlinks_number]
  · intro r hr hrn
    show (unlinkUnreachable g.mem g._nodes) r = _
    obtain ⟨e1, ⟨q1, i1, z1⟩, ⟨q2, o1, z2⟩⟩ := h1 r
    have hout : ((unlinkUnreachable g.mem g._nodes) r)._out = (g.mem r)._out := by
      rw [o1, List.filter_eq_self]
      intro v hv
      cases hq : q2 v with
      | true => rfl
      | false => exact absurd (z2 v hq) (hsucc r hr hrn v hv)
    have hinr : ((unlinkUnreachable g.mem g._nodes) r)._in =
        (g.mem r)._in.filter (fun p => decide ((g.mem p)._number ≠ 0)) := by
      rw [i1]
      apply List.filter_congr
      intro p hp
      by_cases hpn : (g.mem p)._number = 0
      · have hpnodes := hin r hr p hp
        have hcount : 0 < (g.mem p)._out.count r := by
          rw [hsym p hpnodes r hr]
          exact List.count_pos_iff.2 hp
        have hnot := h2 p hpnodes hpn r (List.count_pos_iff.1 hcount) hrn
        cases hq : q1 p with
        | true =>
          exfalso
          apply hnot
          rw [i1, List.mem_filter]
          exact ⟨hp, hq⟩
        | false => simp [hpn]
      · cases hq : q1 p with
        | true => simp [hpn]
        | false => exact absurd (z1 p hq) hpn
    rw [e1, hout, hinr]

end Decompiler

namespace Decompiler

/-! ### The graph built from a stream: fields and edge direction -/

theorem addNodesFromScript_fields (script : List Instruction) (hasc : Ascending script)
    (hv : TargetsValid script) (g : ControlFlowGraph)
    (h : addNodesFromScript ControlFlowGraph.empty script = some g) :
    g._entry = none ∧
    ∀ x, (g.mem x)._number = 0 ∧ (g.mem x)._dominator = none ∧ (g.mem x)._interval = none ∧
      (g.mem x)._component = none ∧ (x ∉ g._nodes → (g.mem x)._out = []) := by
  have hlast : ∀ (j : Nat) (b : List Instruction), (scriptRuns script)[j]? = some b →
      ∃ lastI, b.getLast? = some lastI := by
    intro j b hb
    have hne := scriptRuns_ne_nil script b (List.getElem?_mem hb)
    cases hl : b.getLast? with
    | none => exact absurd (List.getLast?_eq_none_iff.1 hl) hne
    | some lastI => exact ⟨lastI, rfl⟩
  obtain ⟨g1, h1, h2, _, h4, h5⟩ := linkNodes_spec
    (fun n => (linkOut (splitGraph script) n).getD []) (splitGraph script)._nodes
    (splitGraph script) (by rw [splitGraph_nodes script hasc]; exact List.nodup_range _)
    (by
      intro n hn
      rw [splitGraph_nodes script hasc] at hn
      have hnl : n < (scriptRuns script).length := List.mem_range.1 hn
      have hb : (scriptRuns script)[n]? = some ((scriptRuns script)[n]) :=
        List.getElem?_eq_getElem hnl
      obtain ⟨lastI, hl⟩ := hlast n _ hb
      have e := linkOut_splitGraph script hasc hv n _ hb lastI hl
      simp only [e, Option.getD_some])
  have hg : g = g1 := by
    have e : addNodesFromScript ControlFlowGraph.empty script =
        linkNodes (splitGraph script) (splitGraph script)._nodes := rfl
    rw [e, h1] at h
    exact (Option.some.inj h).symm
  subst hg
  have hfresh : ∀ x, ((splitGraph script).mem x)._number = 0 ∧
      ((splitGraph script).mem x)._dominator = none ∧
      ((splitGraph script).mem x)._interval = none ∧
      ((splitGraph script).mem x)._component = none := by
    intro x
    cases hb : (scriptRuns script)[x]? with
    | none => rw [(splitGraph_mem script hasc x).2 hb]; exact ⟨rfl, rfl, rfl, rfl⟩
    | some b => rw [(splitGraph_mem script hasc x).1 b hb]; exact ⟨rfl, rfl, rfl, rfl⟩
  constructor
  · rw [h4]
    rw [splitGraph_eq script hasc]
    exact (foldl_buildStep_nodes _ _).2.2
  · intro x
    obtain ⟨_, a2, a3, a4, a5, a6⟩ := h5 x
    obtain ⟨b1, b2, b3, b4⟩ := hfresh x
    refine ⟨a3.trans b1, a4.trans b2, a5.trans b3, a6.trans b4, ?_⟩
    intro hx
    rw [h2] at hx
    rw [a2, if_neg hx, splitGraph_out script hasc]

theorem addNodesFromScript_sym (script : List Instruction) (g : ControlFlowGraph)
    (h : addNodesFromScript ControlFlowGraph.empty script = some g) (u v : Nat) :
    (g.mem u)._out.count v = (g.mem v)._in.count u := by
  unfold addNodesFromScript at h
  simp only at h
  have hnil := splitNodes_edges_nil script []
    { ControlFlowGraph.empty with _targets := markTargets script ControlFlowGraph.empty._targets }
    (by intro x; simp [ControlFlowGraph.empty, Node.fresh])
  have := linkNodes_sym [u, v] _ _ _ h
    (by intro a _ b _; rw [(hnil a).2, (hnil b).1]; rfl)
  exact this.2 u (by simp) v (by simp)

theorem forwardJumps_valid (script : List Instruction) (hf : ForwardJumps script) :
    TargetsValid script :=
  fun i hi t ht => (hf i hi t ht).2

theorem run_head_le_last (script : List Instruction) (hasc : Ascending script)
    (b : List Instruction) (hb : b ∈ scriptRuns script) (lastI : Instruction)
    (hl : b.getLast? = some lastI) : headAddr b ≤ lastI._addr := by
  have hsub : List.Sublist b script := by
    have := List.sublist_flatten_of_mem hb
    rwa [scriptRuns_flatten] at this
  have hp : (b.map (fun i => i._addr)).Pairwise (fun a b => a < b) :=
    List.Pairwise.sublist (List.Sublist.map _ hsub) hasc
  have hmem := List.mem_of_getLast?_eq_some hl
  cases b with
  | nil => simp at hmem
  | cons i rest =>
    simp only [List.map_cons, List.pairwise_cons, List.mem_map, forall_exists_index, and_imp,
      forall_apply_eq_imp_iff₂] at hp
    rcases List.mem_cons.1 hmem with h | h
    · rw [h]; exact Nat.le_refl _
    · exact Nat.le_of_lt (hp.1 lastI h)

/-- In the graph built from a stream whose jumps all go forward, every edge
goes from a node to a node created later. -/
theorem forward_out (script : List Instruction) (hasc : Ascending script)
    (hf : ForwardJumps script) (g : ControlFlowGraph)
    (h : addNodesFromScript ControlFlowGraph.empty script = some g) :
    ∀ j ∈ g._nodes, ∀ v ∈ (g.mem j)._out, j < v := by
  obtain ⟨g1, h1, h2, h3, h4, _⟩ := addNodesFromScript_spec script hasc
    (forwardJumps_valid script hf)
  have hg : g = g1 := by rw [h1] at h; exact (Option.some.inj h).symm
  subst hg
  intro j hj v hv
  rw [h2] at hj
  have hjl : j < (scriptRuns script).length := List.mem_range.1 hj
  have hb : (scriptRuns script)[j]? = some ((scriptRuns script)[j]) :=
    List.getElem?_eq_getElem hjl
  have hbm : (scriptRuns script)[j] ∈ scriptRuns script := List.getElem_mem hjl
  have hne := scriptRuns_ne_nil script _ hbm
  obtain ⟨lastI, hl⟩ : ∃ lastI, ((scriptRuns script)[j]).getLast? = some lastI := by
    cases hl : ((scriptRuns script)[j]).getLast? with
    | none => exact absurd (List.getLast?_eq_none_iff.1 hl) hne
    | some lastI => exact ⟨lastI, rfl⟩
  rw [h4 j _ lastI hb hl, List.mem_append] at hv
  rcases hv with hv | hv
  · unfold jumpSuccessors at hv
    cases ht : lastI.asJump with
    | none => rw [ht] at hv; simp at hv
    | some t =>
      rw [ht] at hv
      simp only [List.mem_filter, decide_eq_true_eq] at hv
      obtain ⟨hvn, hvh⟩ := hv
      rw [h2] at hvn
      have hvl : v < (scriptRuns script).length := List.mem_range.1 hvn
      have hbv : (scriptRuns script)[v]? = some ((scriptRuns script)[v]) :=
        List.getElem?_eq_getElem hvl
      rw [h3 v _ hbv] at hvh
      have hhead : headAddr ((scriptRuns script)[v]) = t := by
        cases hc : (scriptRuns script)[v] with
        | nil => rw [hc] at hvh; simp at hvh
        | cons i rest => rw [hc] at hvh; simpa [headAddr] using hvh
      have hlast := run_head_le_last script hasc _ hbm lastI hl
      have hlt := (hf lastI (mem_script_of_run script _ hbm lastI
        (List.mem_of_getLast?_eq_some hl)) t ht).1
      rcases Nat.lt_trichotomy j v with hlt2 | heq | hgt
      · exact hlt2
      · subst heq; omega
      · have := heads_lt script hasc v j _ _ hbv hb hgt
        omega
  · unfold fallSuccessors at hv
    split at hv
    · rw [h2] at hv
      by_cases hj1 : j + 1 < (scriptRuns script).length
      · rw [List.getElem?_range hj1] at hv
        simp only [Option.toList_some, List.mem_singleton] at hv
        omega
      · rw [List.getElem?_eq_none (by simpa using Nat.le_of_not_lt hj1)] at hv
        simp at hv
    · simp at hv

/-- In the graph built from a stream whose jumps all go forward, every
predecessor of a node was created earlier. -/
theorem forward_in (script : List Instruction) (hasc : Ascending script)
    (hf : ForwardJumps script) (g : ControlFlowGraph)
    (h : addNodesFromScript ControlFlowGraph.empty script = some g) :
    ∀ (x : Nat), ∀ p ∈ (g.mem x)._in, p < x := by
  intro x p hp
  have hc : 0 < (g.mem p)._out.count x := by
    rw [addNodesFromScript_sym script g h p x]
    exact List.count_pos_iff.2 hp
  have hx : x ∈ (g.mem p)._out := List.count_pos_iff.1 hc
  have hpn : p ∈ g._nodes := by
    by_contra hn
    rw [(addNodesFromScript_fields script hasc (forwardJumps_valid script hf) g h).2 p
      |>.2.2.2.2 hn] at hx
    simp at hx
  exact forward_out script hasc hf g h p hpn x hx

/-! ### `setEntry` -/

theorem setEntry_eq :
    ∀ (l : List Nat) (g : ControlFlowGraph) (a : Nat),
      (∀ n ∈ l, (g.mem n)._instructions ≠ []) →
      setEntry g l a = some { g with _entry := (l.foldl
        (fun en n => if headAddr (g.mem n)._instructions = a then some n else en) g._entry) } := by
  intro l
  induction l with
  | nil => intro g a _; rfl
  | cons n l ih =>
    intro g a h
    have hn := h n (List.mem_cons_self _ _)
    unfold setEntry
    cases hi : (g.mem n)._instructions with
    | nil => exact absurd hi hn
    | cons i rest =>
      simp only [List.head?_cons, List.foldl_cons, headAddr, hi]
      by_cases ha : i._addr = a
      · rw [if_pos ha, if_pos ha]
        rw [ih { g with _entry := some n } a (fun m hm => h m (List.mem_cons_of_mem _ hm))]
        rfl
      · rw [if_neg ha, if_neg ha]
        rw [ih g a (fun m hm => h m (List.mem_cons_of_mem _ hm))]
        rfl

theorem foldl_entry_unique (P : Nat → Prop) [DecidablePred P] (z : Nat) (hz : P z) :
    ∀ (l : List Nat) (en : Option Nat), (∀ n ∈ l, P n → n = z) →
      l.foldl (fun en n => if P n then some n else en) en =
        if z ∈ l then some z else en := by
  intro l
  induction l with
  | nil => intro en _; rfl
  | cons n l ih =>
    intro en h
    rw [List.foldl_cons, ih _ (fun m hm => h m (List.mem_cons_of_mem _ hm))]
    by_cases hn : n = z
    · subst hn
      simp [hz]
    · have hfn : ¬ P n := fun hc => hn (h n (List.mem_cons_self _ _) hc)
      have hzn : ¬ z = n := fun e => hn e.symm
      simp only [if_neg hfn, List.mem_cons, hzn, false_or]

end Decompiler

namespace Decompiler

/-! ### Intervals of a graph whose edges all go forward -/

theorem assignIntervals_forward (g : ControlFlowGraph) (k : Nat) (hk : 0 < k)
    (hn : g._nodes = List.range k) (he : g._entry = some 0)
    (hin : ∀ x ∈ g._nodes, ∀ p ∈ (g.mem x)._in, p < x)
    (hfresh : ∀ u ∈ g._nodes, (g.mem u)._interval = none) (fuel : Nat) (hfuel : k < fuel) :
    ∃ m2, assignIntervals fuel g = some { g with mem := m2 } ∧ SameButInterval g.mem m2 ∧
      ∀ u ∈ g._nodes, (m2 u)._interval = some 0 := by
  obtain ⟨f, rfl⟩ : ∃ f, fuel = f + 1 := ⟨fuel - 1, by omega⟩
  have hlen : g._nodes.length = k := by rw [hn]; simp
  have hun : unassigned (g.mem.modify 0 (fun x => { x with _interval := some 0 })) g._nodes
      < f + 1 := by
    have := unassigned_le_length (g.mem.modify 0 (fun x => { x with _interval := some 0 })) g._nodes
    omega
  obtain ⟨m2, e2, hg, hq⟩ := growInterval_spec 0 g._nodes (f + 1) _ hun
  have hall : ∀ x, x < k → (m2 x)._interval = some 0 := by
    intro x
    induction x using Nat.strong_induction_on with
    | _ x ih =>
      intro hx
      have hxn : x ∈ g._nodes := by rw [hn]; exact List.mem_range.2 hx
      rcases hg.step x with e | ⟨_, _, e⟩
      · by_cases hx0 : x = 0
        · subst hx0
          rw [e]; simp
        · exfalso
          apply hq x hxn
          have e1 : m2 x = g.mem x := by rw [e, Mem.modify_other _ _ _ _ hx0]
          refine ⟨by rw [e1]; exact hfresh x hxn, ?_⟩
          intro p hp
          rw [e1] at hp
          have hpx := hin x hxn p hp
          exact ih p hpx (by omega)
      · rw [e]
  have hall2 : ∀ u ∈ g._nodes, (m2 u)._interval = some 0 := by
    intro u hu
    rw [hn] at hu
    exact hall u (List.mem_range.1 hu)
  have hsame : SameButInterval g.mem m2 :=
    sameButInterval_trans (sameButInterval_modify g.mem 0 (some 0)) hg.sameButInterval
  refine ⟨m2, ?_, hsame, hall2⟩
  unfold assignIntervals
  rw [he]
  simp only
  unfold intervalLoop
  simp only [e2, Option.some_bind,
    newHeaders_assigned 0 m2 g._nodes (fun u hu => by rw [hall2 u hu]; rfl), List.append_nil]
  cases f <;> simp [intervalLoop]

theorem headers_single (g : ControlFlowGraph) (e : Nat) (hen : e ∈ g._nodes)
    (hnd : g._nodes.Nodup) (hall : ∀ u ∈ g._nodes, (g.mem u)._interval = some e) :
    headers g = [e] := by
  unfold headers
  apply filter_eq_singleton _ _ _ hnd hen
  intro x hx
  rw [hall x hx]
  simp only [decide_eq_true_eq, Option.some.injEq]
  exact eq_comm

theorem pushBackOf_same (d : ControlFlowGraph) (du di : Nat) (hdi : (d.mem du)._interval = some di)
    (hp : (d.mem di)._primitive = (d.mem du)._primitive) :
    ∀ (l : List Nat) (mem : Mem),
      (∀ v ∈ l, (mem v)._interval = (d.mem du)._primitive) →
      pushBackOf d du mem l = some mem := by
  intro l
  induction l with
  | nil => intro mem _; rfl
  | cons v l ih =>
    intro mem h
    have hv := h v (List.mem_cons_self _ _)
    unfold pushBackOf
    rw [if_pos hv, hdi]
    simp only
    have : mem.modify v (fun x => { x with _interval := (d.mem di)._primitive }) = mem := by
      funext x
      by_cases hx : x = v
      · subst hx
        rw [Mem.modify_same]
        exact node_set_interval_self _ _ (by rw [hp]; exact hv)
      · exact Mem.modify_other _ _ _ _ hx
    rw [this]
    exact ih mem (fun w hw => h w (List.mem_cons_of_mem _ hw))

theorem assignIntervals_one (d : ControlFlowGraph) (hn : d._nodes = [0])
    (he : d._entry = some 0) (fuel : Nat) (hf : 0 < fuel) :
    assignIntervals fuel d =
      some { d with mem := d.mem.modify 0 (fun x => { x with _interval := some 0 }) } := by
  obtain ⟨f, rfl⟩ : ∃ f, fuel = f + 1 := ⟨fuel - 1, by omega⟩
  have hq : NoneQualifies 0 [0] (d.mem.modify 0 (fun x => { x with _interval := some 0 })) := by
    intro m hm hc
    rw [List.mem_singleton] at hm
    subst hm
    simp at hc
  unfold assignIntervals
  rw [he]
  simp only
  unfold intervalLoop
  rw [hn]
  have hnh := newHeaders_assigned 0 (d.mem.modify 0 (fun x => { x with _interval := some 0 }))
    [0] (fun u hu => by rw [List.mem_singleton] at hu; subst hu; simp)
  simp only [growInterval_noop 0 [0] f _ hq, Option.some_bind, hnh, List.append_nil]
  cases f <;> rfl

/-- On a graph whose nodes all lie in the interval of the entry, and whose
entry has no predecessor, `extendIntervals` changes nothing. -/
theorem extendIntervals_single (g : ControlFlowGraph) (e : Nat) (he : g._entry = some e)
    (hen : e ∈ g._nodes) (hnd : g._nodes.Nodup)
    (hall : ∀ u ∈ g._nodes, (g.mem u)._interval = some e) (hin : (g.mem e)._in = [])
    (hi : (g.mem e)._instructions ≠ []) (fuel : Nat) (hf : 0 < fuel) :
    extendIntervals fuel g = some g := by
  obtain ⟨f, rfl⟩ : ∃ f, fuel = f + 1 := ⟨fuel - 1, by omega⟩
  have hI := intervals_assigned g e he (hall e hen)
    (fun u hu => by rw [hall u hu]; rfl) (f + 1) hf
  have hH := headers_single g e hen hnd hall
  obtain ⟨i, rest, hir⟩ : ∃ i rest, (g.mem e)._instructions = i :: rest := by
    cases hc : (g.mem e)._instructions with
    | nil => exact absurd hc hi
    | cons i rest => exact ⟨i, rest, rfl⟩
  unfold extendIntervals
  simp only [hI, hH, Option.some_bind, deriveNodes, deriveEdges, hin, deriveEdgesOf, he, hir,
    List.head?_cons, addNode, ControlFlowGraph.empty, setEntry, Mem.modify_same, List.nil_append,
    if_true]
  rw [assignIntervals_one _ rfl rfl (f + 1) hf]
  simp only [Option.some_bind, pushBack]
  rw [pushBackOf_same _ 0 0 (by simp) rfl g._nodes g.mem (fun v hv => by
    rw [hall v hv]; simp)]
  simp only [Option.some_bind, Option.map_some', Option.some.injEq]
  cases g
  simp only at he
  rw [he]

end Decompiler

namespace Decompiler

/-! ### The fixed-point loop of `removeJumpsToJumps` -/

theorem jumpHead_congr (m1 m2 : Mem) (h : ∀ x, (m2 x)._instructions = (m1 x)._instructions)
    (v t : Nat) : JumpHead m2 v t ↔ JumpHead m1 v t := by
  unfold JumpHead jumpTargetOf
  rw [h v]

theorem jumpHead_iff (mem : Mem) (v t : Nat) :
    JumpHead mem v t ↔ ∃ first, (mem v)._instructions.head? = some first ∧
      first.asJump = some t ∧ first.isCondJump = false ∧ t ≠ first._addr := by
  unfold JumpHead jumpTargetOf
  cases h1 : (mem v)._instructions.head? with
  | none => simp
  | some first =>
    cases h2 : first.asJump with
    | none => simp [h2]
    | some t2 =>
      simp only [Option.some.injEq, exists_eq_left', h2]
      by_cases hc : (!first.isCondJump && decide (t2 ≠ first._addr)) = true
      · rw [if_pos hc]
        simp only [Bool.and_eq_true, Bool.not_eq_true', decide_eq_true_eq] at hc
        constructor
        · intro e
          injection e with e
          subst e
          exact ⟨rfl, hc.1, hc.2⟩
        · rintro ⟨e, _, _⟩
          rw [e]
      · rw [if_neg hc]
        constructor
        · intro e
          exact absurd e (by simp)
        · rintro ⟨e, c1, c2⟩
          subst e
          exfalso
          apply hc
          simp [c1, c2]

theorem outWeight_replace (rank : Nat → Nat) (mem : Mem) (nodes : List Nat) (u v w : Nat)
    (hu : u ∈ nodes) (hv : v ∈ (mem u)._out) (hr : rank w < rank v) :
    outWeight rank (replaceEdgesMem mem u v w) nodes < outWeight rank mem nodes := by
  unfold outWeight
  apply List.sum_lt_sum
  · intro x _
    rw [replaceEdgesMem_out]
    split
    · rw [List.map_map]
      apply List.sum_le_sum
      intro y _
      simp only [Function.comp]
      split
      · rename_i hy; rw [hy]; exact Nat.le_of_lt hr
      · exact Nat.le_refl _
    · exact Nat.le_refl _
  · refine ⟨u, hu, ?_⟩
    rw [replaceEdgesMem_out, if_pos rfl, List.map_map]
    apply List.sum_lt_sum
    · intro y _
      simp only [Function.comp]
      split
      · rename_i hy; rw [hy]; exact Nat.le_of_lt hr
      · exact Nat.le_refl _
    · exact ⟨v, hv, by simp only [Function.comp, if_pos rfl]; exact hr⟩

theorem jumpsInv_replace (targets : TargetMap) (nodes : List Nat) (mem0 mem : Mem)
    (rank : Nat → Nat) (hr : JumpsReady targets nodes mem0 rank)
    (inv : JumpsInv targets nodes mem0 mem) (u v w t : Nat)
    (hj : JumpHead mem0 v t) (hw : mapNode targets t = some w) :
    JumpsInv targets nodes mem0 (replaceEdgesMem mem u v w) := by
  refine ⟨fun x => by rw [replaceEdgesMem_instructions]; exact inv.instr x,
    outClosedOn_replaceEdgesMem mem nodes u v w (hr.tclosed t w hw) inv.closed, ?_⟩
  intro x
  rw [replaceEdgesMem_out]
  split
  · have hf := inv.follow x
    rw [List.forall₂_map_right_iff]
    apply List.Forall₂.imp _ hf
    intro a b hab
    split
    · rename_i hb
      subst hb
      exact Relation.ReflTransGen.tail hab ⟨t, hj, hw⟩
    · exact hab
  · exact inv.follow x

theorem jumpsOfNode_spec (targets : TargetMap) (nodes : List Nat) (mem0 : Mem)
    (rank : Nat → Nat) (hr : JumpsReady targets nodes mem0 rank) (u : Nat) (hu : u ∈ nodes) :
    ∀ (k i : Nat) (mem : Mem) (changed : Bool), JumpsInv targets nodes mem0 mem →
      ∃ m2 c2, jumpsOfNode targets u k i mem changed = some (m2, c2) ∧
        JumpsInv targets nodes mem0 m2 ∧
        outWeight rank m2 nodes ≤ outWeight rank mem nodes ∧
        (c2 = true → changed = true ∨ outWeight rank m2 nodes < outWeight rank mem nodes) ∧
        (changed = true → c2 = true) ∧
        (c2 = false → m2 = mem ∧
          ∀ p v, i ≤ p → p < i + k → (mem u)._out[p]? = some v → ∀ t, ¬ JumpHead mem0 v t) := by
  intro k
  induction k with
  | zero =>
    intro i mem changed inv
    refine ⟨mem, changed, rfl, inv, Nat.le_refl _, fun h => Or.inl h, fun h => h, fun _ => ⟨rfl, ?_⟩⟩
    intro p v h1 h2
    omega
  | succ k ih =>
    intro i mem changed inv
    unfold jumpsOfNode
    cases hv : (mem u)._out.get? i with
    | none =>
      refine ⟨mem, changed, rfl, inv, Nat.le_refl _, fun h => Or.inl h, fun h => h,
        fun _ => ⟨rfl, ?_⟩⟩
      intro p v h1 _ hp
      rw [List.get?_eq_getElem?, List.getElem?_eq_none_iff] at hv
      have := (List.getElem?_eq_some.1 hp).1
      omega
    | some v =>
      rw [List.get?_eq_getElem?] at hv
      have hvout : v ∈ (mem u)._out := List.getElem?_mem hv
      have hvn : v ∈ nodes := inv.closed u hu v hvout
      have hne := hr.nonempty v hvn
      rw [← inv.instr v] at hne
      obtain ⟨first, hfirst⟩ : ∃ first, (mem v)._instructions.head? = some first := by
        cases hc : (mem v)._instructions with
        | nil => exact absurd hc hne
        | cons a l => exact ⟨a, rfl⟩
      have hfirst0 : (mem0 v)._instructions.head? = some first := by
        rw [← inv.instr v]; exact hfirst
      simp only [hfirst]
      -- the case in which the entry at position `i` stays
      have stay : ¬ (∃ t, JumpHead mem0 v t) →
          ∀ (r : Option (Mem × Bool)), r = jumpsOfNode targets u k (i + 1) mem changed →
          ∃ m2 c2, r = some (m2, c2) ∧
            JumpsInv targets nodes mem0 m2 ∧
            outWeight rank m2 nodes ≤ outWeight rank mem nodes ∧
            (c2 = true → changed = true ∨ outWeight rank m2 nodes < outWeight rank mem nodes) ∧
            (changed = true → c2 = true) ∧
            (c2 = false → m2 = mem ∧
              ∀ p v, i ≤ p → p < i + (k + 1) → (mem u)._out[p]? = some v →
                ∀ t, ¬ JumpHead mem0 v t) := by
        intro hno r hr2
        obtain ⟨m2, c2, e, a1, a2, a3, a4, a5⟩ := ih (i + 1) mem changed inv
        refine ⟨m2, c2, by rw [hr2, e], a1, a2, a3, a4, fun hc => ⟨(a5 hc).1, ?_⟩⟩
        intro p v2 h1 h2 hp t
        by_cases hpi : p = i
        · subst hpi
          rw [hv] at hp
          injection hp with hp
          subst hp
          exact fun hj => hno ⟨t, hj⟩
        · exact (a5 hc).2 p v2 (by omega) (by omega) hp t
      cases ht : first.asJump with
      | none =>
        simp only
        apply stay _ _ rfl
        rintro ⟨t, hjh⟩
        obtain ⟨f2, hf2, hj2, _⟩ := (jumpHead_iff mem0 v t).1 hjh
        rw [hfirst0] at hf2
        injection hf2 with hf2
        subst hf2
        rw [ht] at hj2
        simp at hj2
      | some t =>
        simp only
        by_cases hcond : (!first.isCondJump && decide (t ≠ first._addr)) = true
        · rw [if_pos hcond]
          simp only [Bool.and_eq_true, Bool.not_eq_true', decide_eq_true_eq] at hcond
          have hj : JumpHead mem0 v t :=
            (jumpHead_iff mem0 v t).2 ⟨first, hfirst0, ht, hcond.1, hcond.2⟩
          obtain ⟨w, hw⟩ := hr.resolves v hvn t hj
          simp only [hw]
          have inv2 := jumpsInv_replace targets nodes mem0 mem rank hr inv u v w t hj hw
          have hlt := outWeight_replace rank mem nodes u v w hu hvout
            (hr.falls v hvn w (hr.tclosed t w hw) ⟨t, hj, hw⟩)
          obtain ⟨m2, c2, e, a1, a2, _, a4, _⟩ := ih (i + 1) (replaceEdgesMem mem u v w) true inv2
          have hc2 : c2 = true := a4 rfl
          refine ⟨m2, c2, e, a1, by omega, fun _ => Or.inr (by omega), fun _ => hc2, ?_⟩
          intro hc
          rw [hc2] at hc
          exact absurd hc (by simp)
        · rw [if_neg hcond]
          apply stay _ _ rfl
          rintro ⟨t2, hjh⟩
          obtain ⟨f2, hf2, hj2, hc2, hne2⟩ := (jumpHead_iff mem0 v t2).1 hjh
          rw [hfirst0] at hf2
          injection hf2 with hf2
          subst hf2
          rw [ht] at hj2
          injection hj2 with hj2
          subst hj2
          apply hcond
          simp [hc2, hne2]

end Decompiler

namespace Decompiler

theorem jumpsPass_spec (targets : TargetMap) (nodes : List Nat) (mem0 : Mem)
    (rank : Nat → Nat) (hr : JumpsReady targets nodes mem0 rank) :
    ∀ (l : List Nat) (mem : Mem) (changed : Bool), (∀ u ∈ l, u ∈ nodes) →
      JumpsInv targets nodes mem0 mem →
      ∃ m2 c2, jumpsPass targets mem changed l = some (m2, c2) ∧
        JumpsInv targets nodes mem0 m2 ∧
        outWeight rank m2 nodes ≤ outWeight rank mem nodes ∧
        (c2 = true → changed = true ∨ outWeight rank m2 nodes < outWeight rank mem nodes) ∧
        (changed = true → c2 = true) ∧
        (c2 = false → m2 = mem ∧
          ∀ u ∈ l, ∀ v ∈ (mem u)._out, ∀ t, ¬ JumpHead mem0 v t) := by
  intro l
  induction l with
  | nil =>
    intro mem changed _ inv
    exact ⟨mem, changed, rfl, inv, Nat.le_refl _, fun h => Or.inl h, fun h => h,
      fun _ => ⟨rfl, by simp⟩⟩
  | cons u l ih =>
    intro mem changed hl inv
    obtain ⟨m1, c1, e1, a1, a2, a3, a4, a5⟩ := jumpsOfNode_spec targets nodes mem0 rank hr u
      (hl u (List.mem_cons_self _ _)) (mem u)._out.length 0 mem changed inv
    obtain ⟨m2, c2, e2, b1, b2, b3, b4, b5⟩ := ih m1 c1
      (fun x hx => hl x (List.mem_cons_of_mem _ hx)) a1
    refine ⟨m2, c2, ?_, b1, by omega, ?_, fun h => b4 (a4 h), ?_⟩
    · simp only [jumpsPass, e1, Option.some_bind, e2]
    · intro hc
      rcases b3 hc with h | h
      · rcases a3 h with h2 | h2
        · exact Or.inl h2
        · exact Or.inr (by omega)
      · exact Or.inr (by omega)
    · intro hc
      obtain ⟨hm2, hrest⟩ := b5 hc
      have hc1 : c1 = false := by
        cases hcc : c1 with
        | false => rfl
        | true => rw [b4 hcc] at hc; exact absurd hc (by simp)
      obtain ⟨hm1, hfirst⟩ := a5 hc1
      subst hm1
      refine ⟨hm2, ?_⟩
      intro x hx v hv t
      rcases List.mem_cons.1 hx with rfl | hx
      · obtain ⟨p, hp⟩ := List.mem_iff_getElem?.1 hv
        exact hfirst p v (Nat.zero_le _) (by
          have := (List.getElem?_eq_some.1 hp).1
          omega) hp t
      · exact hrest x hx v hv t

theorem jumpsLoop_spec (targets : TargetMap) (nodes : List Nat) (mem0 : Mem)
    (rank : Nat → Nat) (hr : JumpsReady targets nodes mem0 rank) :
    ∀ (fuel : Nat) (mem : Mem), JumpsInv targets nodes mem0 mem →
      outWeight rank mem nodes < fuel →
      ∃ m2, jumpsLoop fuel targets mem nodes = some m2 ∧ JumpsInv targets nodes mem0 m2 ∧
        ∀ u ∈ nodes, ∀ v ∈ (m2 u)._out, ∀ t, ¬ JumpHead mem0 v t := by
  intro fuel
  induction fuel with
  | zero => intro mem _ h; omega
  | succ fuel ih =>
    intro mem inv hw
    obtain ⟨m1, c1, e1, a1, _, a3, _, a5⟩ :=
      jumpsPass_spec targets nodes mem0 rank hr nodes mem false (fun _ h => h) inv
    unfold jumpsLoop
    simp only [e1, Option.some_bind]
    cases hc : c1 with
    | true =>
      simp only [if_true]
      rcases a3 hc with h | h
      · exact absurd h (by simp)
      · exact ih m1 a1 (by omega)
    | false =>
      obtain ⟨hm, hno⟩ := a5 hc
      subst hm
      exact ⟨m1, by simp, a1, hno⟩

theorem jumpsTo_unique (targets : TargetMap) (mem : Mem) (v w1 w2 : Nat)
    (h1 : JumpsTo targets mem v w1) (h2 : JumpsTo targets mem v w2) : w1 = w2 := by
  obtain ⟨t1, a1, c1⟩ := h1
  obtain ⟨t2, a2, c2⟩ := h2
  have a1 : jumpTargetOf mem v = some t1 := a1
  have a2 : jumpTargetOf mem v = some t2 := a2
  rw [a1] at a2
  injection a2 with a2
  subst a2
  rw [c1] at c2
  injection c2

/-- Two ends of chains of block-leading jumps from the same node coincide. -/
theorem jumps_end_unique (targets : TargetMap) (mem : Mem) (a b c : Nat)
    (hab : Relation.ReflTransGen (JumpsTo targets mem) a b)
    (hac : Relation.ReflTransGen (JumpsTo targets mem) a c)
    (hb : ∀ t, ¬ JumpHead mem b t) (hc : ∀ t, ¬ JumpHead mem c t) : b = c := by
  induction hab using Relation.ReflTransGen.head_induction_on with
  | refl =>
    rcases Relation.ReflTransGen.cases_head hac with h | ⟨d, ⟨t, hj, _⟩, _⟩
    · exact h
    · exact absurd hj (hb t)
  | @head x y hstep _ ih =>
    rcases Relation.ReflTransGen.cases_head hac with h | ⟨d, hd, hdc⟩
    · obtain ⟨t, hj, _⟩ := hstep
      rw [h] at hj
      exact absurd hj (hc t)
    · rw [jumpsTo_unique targets mem x d y hd hstep] at hdc
      exact ih hdc

theorem chain_reaches (R : Nat → Nat → Prop) (J : Nat → Nat) (N : Nat)
    (hJ : ∀ i, i < N → R (J i) (J (i + 1))) :
    ∀ d i, i + d = N → Relation.ReflTransGen R (J i) (J N) := by
  intro d
  induction d with
  | zero =>
    intro i hi
    have : i = N := by omega
    subst this
    exact Relation.ReflTransGen.refl
  | succ d ih =>
    intro i hi
    exact Relation.ReflTransGen.head (hJ i (by omega)) (ih (i + 1) (by omega))

end Decompiler

namespace Decompiler

/-! ### The graph built from a stream is ready for `removeJumpsToJumps` -/

theorem addNodesFromScript_targets (script : List Instruction) (hasc : Ascending script)
    (hv : TargetsValid script) (g : ControlFlowGraph)
    (h : addNodesFromScript ControlFlowGraph.empty script = some g) :
    g._targets = (splitGraph script)._targets := by
  have hlast : ∀ (j : Nat) (b : List Instruction), (scriptRuns script)[j]? = some b →
      ∃ lastI, b.getLast? = some lastI := by
    intro j b hb
    have hne := scriptRuns_ne_nil script b (List.getElem?_mem hb)
    cases hl : b.getLast? with
    | none => exact absurd (List.getLast?_eq_none_iff.1 hl) hne
    | some lastI => exact ⟨lastI, rfl⟩
  obtain ⟨g1, h1, _, h3, _, _⟩ := linkNodes_spec
    (fun n => (linkOut (splitGraph script) n).getD []) (splitGraph script)._nodes
    (splitGraph script) (by rw [splitGraph_nodes script hasc]; exact List.nodup_range _)
    (by
      intro n hn
      rw [splitGraph_nodes script hasc] at hn
      have hnl : n < (scriptRuns script).length := List.mem_range.1 hn
      have hb : (scriptRuns script)[n]? = some ((scriptRuns script)[n]) :=
        List.getElem?_eq_getElem hnl
      obtain ⟨lastI, hl⟩ := hlast n _ hb
      have e := linkOut_splitGraph script hasc hv n _ hb lastI hl
      simp only [e, Option.getD_some])
  have e : addNodesFromScript ControlFlowGraph.empty script =
      linkNodes (splitGraph script) (splitGraph script)._nodes := rfl
  rw [e, h1] at h
  rw [← Option.some.inj h]
  exact h3

theorem addNodesFromScript_outClosed (script : List Instruction) (hasc : Ascending script)
    (hv : TargetsValid script) (g : ControlFlowGraph)
    (h : addNodesFromScript ControlFlowGraph.empty script = some g) :
    OutClosedOn g.mem g._nodes := by
  obtain ⟨g1, h1, h2, _, h4, _⟩ := addNodesFromScript_spec script hasc hv
  have hg : g = g1 := by rw [h1] at h; exact (Option.some.inj h).symm
  subst hg
  intro j hj v hv2
  have hj2 := hj
  rw [h2] at hj2
  have hjl : j < (scriptRuns script).length := List.mem_range.1 hj2
  have hb : (scriptRuns script)[j]? = some ((scriptRuns script)[j]) :=
    List.getElem?_eq_getElem hjl
  have hne := scriptRuns_ne_nil script _ (List.getElem_mem hjl)
  obtain ⟨lastI, hl⟩ : ∃ lastI, ((scriptRuns script)[j]).getLast? = some lastI := by
    cases hl : ((scriptRuns script)[j]).getLast? with
    | none => exact absurd (List.getLast?_eq_none_iff.1 hl) hne
    | some lastI => exact ⟨lastI, rfl⟩
  rw [h4 j _ lastI hb hl, List.mem_append] at hv2
  rcases hv2 with hv2 | hv2
  · unfold jumpSuccessors at hv2
    cases ht : lastI.asJump with
    | none => rw [ht] at hv2; simp at hv2
    | some t =>
      rw [ht] at hv2
      exact (List.mem_filter.1 hv2).1
  · unfold fallSuccessors at hv2
    split at hv2
    · cases hc : g._nodes[j + 1]? with
      | none => rw [hc] at hv2; simp at hv2
      | some w =>
        rw [hc] at hv2
        simp only [Option.toList_some, List.mem_singleton] at hv2
        rw [hv2]
        exact List.getElem?_mem hc
    · simp at hv2

theorem addNodesFromScript_ready (script : List Instruction) (hasc : Ascending script)
    (hv : TargetsValid script) (g : ControlFlowGraph)
    (h : addNodesFromScript ControlFlowGraph.empty script = some g) (rank : Nat → Nat)
    (hrank : ∀ v ∈ g._nodes, ∀ w ∈ g._nodes, JumpsTo g._targets g.mem v w → rank w < rank v) :
    JumpsReady g._targets g._nodes g.mem rank := by
  obtain ⟨g1, h1, h2, h3, _, _⟩ := addNodesFromScript_spec script hasc hv
  have hg : g = g1 := by rw [h1] at h; exact (Option.some.inj h).symm
  subst hg
  have ht := addNodesFromScript_targets script hasc hv g h
  have hrun : ∀ v ∈ g._nodes, ∃ b, (scriptRuns script)[v]? = some b ∧
      (g.mem v)._instructions = b ∧ b ∈ scriptRuns script := by
    intro v hvn
    rw [h2] at hvn
    have hvl := List.mem_range.1 hvn
    exact ⟨_, List.getElem?_eq_getElem hvl, h3 v _ (List.getElem?_eq_getElem hvl),
      List.getElem_mem hvl⟩
  refine ⟨?_, ?_, ?_, hrank⟩
  · intro v hvn
    obtain ⟨b, _, e, hb⟩ := hrun v hvn
    rw [e]
    exact scriptRuns_ne_nil script b hb
  · intro v hvn t hj
    obtain ⟨b, _, e, hb⟩ := hrun v hvn
    obtain ⟨first, hf, hjmp, _, _⟩ := (jumpHead_iff g.mem v t).1 hj
    rw [e] at hf
    have hfb : first ∈ b := by
      cases b with
      | nil => simp at hf
      | cons a l =>
        simp only [List.head?_cons, Option.some.injEq] at hf
        rw [← hf]; exact List.mem_cons_self _ _
    obtain ⟨jt, hjt, _⟩ := jumpSuccessors_splitGraph script hasc hv first
      (mem_script_of_run script b hb first hfb) t hjmp
    exact ⟨jt, by rw [ht]; exact hjt⟩
  · intro k w hkw
    rw [ht] at hkw
    by_cases hex : ∃ b ∈ scriptRuns script, headAddr b = k
    · obtain ⟨b, hb, hbk⟩ := hex
      obtain ⟨j, hj⟩ := List.mem_iff_getElem?.1 hb
      have := splitGraph_find_head script hasc j b hj
      rw [hbk] at this
      unfold mapNode at hkw
      rw [this] at hkw
      simp only [Option.join, Option.some_bind, id, Option.some.injEq] at hkw
      rw [← hkw, h2]
      exact List.mem_range.2 (List.getElem?_eq_some.1 hj).1
    · have := splitGraph_find_other script hasc hv k (fun b hb hbk => hex ⟨b, hb, hbk⟩)
      unfold mapNode at hkw
      rw [this] at hkw
      simp at hkw

theorem jumpsInv_refl (targets : TargetMap) (nodes : List Nat) (mem : Mem)
    (hc : OutClosedOn mem nodes) : JumpsInv targets nodes mem mem :=
  ⟨fun _ => rfl, hc, fun _ => List.forall₂_same.2 (fun _ _ => Relation.ReflTransGen.refl)⟩

end Decompiler

namespace Decompiler

/-! ### Two unconditional jumps that target each other -/

/-- One turn of the loop over `u->_out` on a state of the cycle. -/
theorem jumpsOfNode_cycle (targets : TargetMap) (t0 : mapNode targets 0 = some 0)
    (t1 : mapNode targets 1 = some 1) (mem : Mem) (u : Nat) (hu : u < 2) (changed : Bool)
    (h : JumpCycleInv mem) :
    ∃ v w, jumpsOfNode targets u (mem u)._out.length 0 mem changed =
        some (replaceEdgesMem mem u v w, true) ∧ JumpCycleInv (replaceEdgesMem mem u v w) := by
  obtain ⟨i0, i1, a, b, ha, hb, ha2, hb2⟩ := h
  have hv : ∃ v, (mem u)._out = [v] ∧ v < 2 := by
    rcases (by omega : u = 0 ∨ u = 1) with rfl | rfl
    · exact ⟨a, ha, ha2⟩
    · exact ⟨b, hb, hb2⟩
  obtain ⟨v, hv, hv2⟩ := hv
  have hstep : ∀ w, w < 2 → JumpCycleInv (replaceEdgesMem mem u v w) := by
    intro w hw
    refine ⟨by rw [replaceEdgesMem_instructions]; exact i0,
      by rw [replaceEdgesMem_instructions]; exact i1, ?_⟩
    rcases (by omega : u = 0 ∨ u = 1) with rfl | rfl
    · refine ⟨w, b, ?_, ?_, hw, hb2⟩
      · rw [replaceEdgesMem_out, if_pos rfl, hv]; simp
      · rw [replaceEdgesMem_out, if_neg (by decide)]; exact hb
    · refine ⟨a, w, ?_, ?_, ha2, hw⟩
      · rw [replaceEdgesMem_out, if_neg (by decide)]; exact ha
      · rw [replaceEdgesMem_out, if_pos rfl, hv]; simp
  rw [hv]
  rcases (by omega : v = 0 ∨ v = 1) with rfl | rfl
  · refine ⟨0, 1, ?_, hstep 1 (by decide)⟩
    simp [jumpsOfNode, hv, i0, Instruction.asJump, Instruction.isCondJump, t1]
  · refine ⟨1, 0, ?_, hstep 0 (by decide)⟩
    simp [jumpsOfNode, hv, i1, Instruction.asJump, Instruction.isCondJump, t0]

theorem chainCycleInv_replace (mem : Mem) (u v w : Nat) (hu : u < 2) (h : ChainCycleInv mem)
    (hc : JumpCycleInv (replaceEdgesMem mem u v w)) :
    ChainCycleInv (replaceEdgesMem mem u v w) := by
  obtain ⟨_, h2, h3, h4⟩ := h
  refine ⟨hc, ?_, ?_, ?_⟩
  · rw [replaceEdgesMem_out, if_neg (by omega)]; exact h2
  · rw [replaceEdgesMem_out, if_neg (by omega)]; exact h3
  · rw [replaceEdgesMem_instructions]; exact h4

theorem chainCycle_targets : mapNode chainCycleGraph._targets 0 = some 0 ∧
    mapNode chainCycleGraph._targets 1 = some 1 ∧ chainCycleGraph._nodes = [0, 1, 2, 3] := by
  refine ⟨?_, ?_, ?_⟩ <;> decide

theorem jumpsLoop_chainCycle :
    ∀ (fuel : Nat) (mem : Mem), ChainCycleInv mem →
      jumpsLoop fuel chainCycleGraph._targets mem [0, 1, 2, 3] = none := by
  intro fuel
  induction fuel with
  | zero => intro mem _; rfl
  | succ fuel ih =>
    intro mem h
    obtain ⟨t0, t1, _⟩ := chainCycle_targets
    obtain ⟨v1, w1, e1, c1⟩ := jumpsOfNode_cycle _ t0 t1 mem 0 (by decide) false h.1
    have h1 := chainCycleInv_replace mem 0 v1 w1 (by decide) h c1
    obtain ⟨v2, w2, e2, c2⟩ := jumpsOfNode_cycle _ t0 t1 _ 1 (by decide) true h1.1
    have h2 := chainCycleInv_replace _ 1 v2 w2 (by decide) h1 c2
    have e3 : jumpsOfNode chainCycleGraph._targets 2
        ((replaceEdgesMem (replaceEdgesMem mem 0 v1 w1) 1 v2 w2) 2)._out.length 0
        (replaceEdgesMem (replaceEdgesMem mem 0 v1 w1) 1 v2 w2) true =
        some (replaceEdgesMem (replaceEdgesMem mem 0 v1 w1) 1 v2 w2, true) := by
      rw [h2.2.1]
      simp [jumpsOfNode, h2.2.1, h2.2.2.2, Instruction.asJump]
    have e4 : jumpsOfNode chainCycleGraph._targets 3
        ((replaceEdgesMem (replaceEdgesMem mem 0 v1 w1) 1 v2 w2) 3)._out.length 0
        (replaceEdgesMem (replaceEdgesMem mem 0 v1 w1) 1 v2 w2) true =
        some (replaceEdgesMem (replaceEdgesMem mem 0 v1 w1) 1 v2 w2, true) := by
      rw [h2.2.2.1]
      rfl
    unfold jumpsLoop
    simp only [jumpsPass, e1, e2, e3, e4, Option.some_bind, if_true]
    exact ih _ h2

end Decompiler

namespace Decompiler

/-! ### The derived graph of `extendIntervals`: nodes -/

theorem lookup_filter_ne (tm : NodeMap) (h x : Nat) (hx : x ≠ h) :
    (tm.filter (fun e => e.1 ≠ h)).lookup x = tm.lookup x := by
  induction tm with
  | nil => rfl
  | cons a tm ih =>
    obtain ⟨k, v⟩ := a
    by_cases hk : k = h
    · subst hk
      have hf : List.filter (fun e => decide (e.1 ≠ k)) ((k, v) :: tm) =
          List.filter (fun e => decide (e.1 ≠ k)) tm := by
        simp [List.filter_cons]
      have hxk : (x == k) = false := by simpa using hx
      rw [hf, ih, List.lookup_cons, hxk]
    · have hf : List.filter (fun e => decide (e.1 ≠ h)) ((k, v) :: tm) =
          (k, v) :: List.filter (fun e => decide (e.1 ≠ h)) tm := by
        simp [List.filter_cons, hk]
      rw [hf, List.lookup_cons, List.lookup_cons, ih]

theorem deriveNodes_spec (mem : Mem) :
    ∀ (hs : List Nat) (d : ControlFlowGraph) (tm : NodeMap), hs.Nodup →
      (deriveNodes mem d tm hs).1._nodes = d._nodes ++ List.range' d.fresh hs.length ∧
      (deriveNodes mem d tm hs).1._entry = d._entry ∧
      (∀ j h, hs[j]? = some h →
        (deriveNodes mem d tm hs).1.mem (d.fresh + j) =
          { Node.fresh with _instructions := (mem h)._instructions, _primitive := some h }) ∧
      (∀ x, (x < d.fresh ∨ d.fresh + hs.length ≤ x) →
        (deriveNodes mem d tm hs).1.mem x = d.mem x) ∧
      (∀ j h, hs[j]? = some h → (deriveNodes mem d tm hs).2.lookup h = some (d.fresh + j)) ∧
      (∀ h, h ∉ hs → (deriveNodes mem d tm hs).2.lookup h = tm.lookup h) := by
  intro hs
  induction hs with
  | nil =>
    intro d tm _
    simp [deriveNodes]
  | cons h0 hs ih =>
    intro d tm hnd
    simp only [List.nodup_cons] at hnd
    obtain ⟨d1, hd1⟩ : ∃ d1 : ControlFlowGraph, d1 =
        { (addNode d (mem h0)._instructions).1 with
          mem := (addNode d (mem h0)._instructions).1.mem.modify
            (addNode d (mem h0)._instructions).2 (fun x => { x with _primitive := some h0 }) } :=
      ⟨_, rfl⟩
    have hstep : deriveNodes mem d tm (h0 :: hs) =
        deriveNodes mem d1 ((h0, d.fresh) :: tm.filter (fun e => e.1 ≠ h0)) hs := by
      rw [hd1]; rfl
    have hfr : d1.fresh = d.fresh + 1 := by rw [hd1]; rfl
    have hnodes : d1._nodes = d._nodes ++ [d.fresh] := by rw [hd1]; rfl
    have hentry : d1._entry = d._entry := by rw [hd1]; rfl
    have hmem : ∀ x, d1.mem x = if x = d.fresh then
        { Node.fresh with _instructions := (mem h0)._instructions, _primitive := some h0 }
        else d.mem x := by
      intro x
      rw [hd1]
      simp only [addNode, Mem.modify_apply]
      by_cases hx : x = d.fresh <;> simp [hx]
    rw [hstep]
    obtain ⟨a1, a2, a3, a4, a5, a6⟩ := ih d1
      ((h0, d.fresh) :: tm.filter (fun e => e.1 ≠ h0)) hnd.2
    rw [hfr] at a1 a3 a4 a5
    refine ⟨?_, ?_, ?_, ?_, ?_, ?_⟩
    · rw [a1, hnodes]
      simp [List.range'_succ]
    · rw [a2, hentry]
    · intro j h hj
      cases j with
      | zero =>
        simp only [List.getElem?_cons_zero, Option.some.injEq] at hj
        subst hj
        rw [Nat.add_zero, a4 d.fresh (Or.inl (Nat.lt_succ_self _)), hmem, if_pos rfl]
      | succ j =>
        simp only [List.getElem?_cons_succ] at hj
        have := a3 j h hj
        rw [show d.fresh + (j + 1) = d.fresh + 1 + j by omega]
        exact this
    · intro x hx
      rw [a4 x (by simp only [List.length_cons] at hx; omega)]
      have hxf : x ≠ d.fresh := by simp only [List.length_cons] at hx; omega
      rw [hmem, if_neg hxf]
    · intro j h hj
      cases j with
      | zero =>
        simp only [List.getElem?_cons_zero, Option.some.injEq] at hj
        subst hj
        rw [a6 h0 hnd.1]
        simp
      | succ j =>
        simp only [List.getElem?_cons_succ] at hj
        rw [a5 j h hj]
        congr 1
        omega
    · intro h hh
      simp only [List.mem_cons, not_or] at hh
      rw [a6 h hh.2, List.lookup_cons]
      have : (h == h0) = false := by simpa using hh.1
      rw [this]
      exact lookup_filter_ne tm h0 h hh.1

/-- The graph and the map that the first loop of `extendIntervals` builds from
the list `hs` of headers. -/
theorem deriveNodes_empty (mem : Mem) (hs : List Nat) (hnd : hs.Nodup) :
    Derived mem hs (deriveNodes mem ControlFlowGraph.empty [] hs).1 ∧
    (∀ j h, hs[j]? = some h →
      (deriveNodes mem ControlFlowGraph.empty [] hs).2.lookup h = some j) ∧
    (∀ x, ((deriveNodes mem ControlFlowGraph.empty [] hs).1.mem x)._number = 0 ∧
      ((deriveNodes mem ControlFlowGraph.empty [] hs).1.mem x)._in = [] ∧
      ((deriveNodes mem ControlFlowGraph.empty [] hs).1.mem x)._out = []) := by
  obtain ⟨a1, a2, a3, a4, a5, _⟩ := deriveNodes_spec mem hs ControlFlowGraph.empty [] hnd
  have hf : ControlFlowGraph.empty.fresh = 0 := rfl
  simp only [hf, Nat.zero_add] at a1 a3 a4 a5
  have hall : ∀ x, ((deriveNodes mem ControlFlowGraph.empty [] hs).1.mem x)._number = 0 ∧
      ((deriveNodes mem ControlFlowGraph.empty [] hs).1.mem x)._in = [] ∧
      ((deriveNodes mem ControlFlowGraph.empty [] hs).1.mem x)._out = [] ∧
      ((deriveNodes mem ControlFlowGraph.empty [] hs).1.mem x)._interval = none := by
    intro x
    by_cases hx : x < hs.length
    · rw [a3 x _ (List.getElem?_eq_getElem hx)]
      exact ⟨rfl, rfl, rfl, rfl⟩
    · rw [a4 x (Or.inr (Nat.le_of_not_lt hx))]
      exact ⟨rfl, rfl, rfl, rfl⟩
  refine ⟨⟨?_, a2, ?_, fun x => (hall x).2.2.2, ?_, ?_⟩, a5, fun x => ⟨(hall x).1, (hall x).2.1,
    (hall x).2.2.1⟩⟩
  · rw [a1]
    simp [ControlFlowGraph.empty, List.range_eq_range']
  · intro j h hj
    rw [a3 j h hj]
    exact ⟨rfl, rfl⟩
  · intro x y hy
    rw [(hall x).2.1] at hy
    simp at hy
  · intro x y hy
    rw [(hall x).2.2.1] at hy
    simp at hy

end Decompiler

namespace Decompiler

/-! ### The derived graph of `extendIntervals`: edges -/

theorem addEdgeMem_fields (mem : Mem) (s t x : Nat) :
    (addEdgeMem mem s t) x =
      { mem x with _in := ((addEdgeMem mem s t) x)._in, _out := ((addEdgeMem mem s t) x)._out } := by
  unfold addEdgeMem
  simp only [Mem.modify_apply]
  by_cases h1 : x = t <;> by_cases h2 : x = s <;> by_cases h3 : t = s <;> simp_all

theorem derived_addEdge (mem : Mem) (hs : List Nat) (d : ControlFlowGraph) (s t : Nat)
    (hd : Derived mem hs d) (hsk : s < hs.length) (htk : t < hs.length) :
    Derived mem hs (addEdge d s t) := by
  have hf : ∀ x, (addEdge d s t).mem x =
      { d.mem x with _in := ((addEdgeMem d.mem s t) x)._in,
                     _out := ((addEdgeMem d.mem s t) x)._out } :=
    fun x => addEdgeMem_fields d.mem s t x
  refine ⟨hd.nodes, hd.entry, ?_, ?_, ?_, ?_⟩
  · intro j h hj
    rw [hf j]
    exact hd.node j h hj
  · intro x
    rw [hf x]
    exact hd.fresh x
  · intro x y hy
    have hy2 : y ∈ ((addEdgeMem d.mem s t) x)._in := hy
    rw [addEdgeMem_in] at hy2
    split at hy2
    · rename_i hx
      rcases List.mem_append.1 hy2 with h | h
      · exact hd.inClosed x y h
      · rw [List.mem_singleton] at h
        rw [hx, h]; exact ⟨htk, hsk⟩
    · exact hd.inClosed x y hy2
  · intro x y hy
    have hy2 : y ∈ ((addEdgeMem d.mem s t) x)._out := hy
    rw [addEdgeMem_out] at hy2
    split at hy2
    · rename_i hx
      rcases List.mem_append.1 hy2 with h | h
      · exact hd.outClosed x y h
      · rw [List.mem_singleton] at h
        rw [hx, h]; exact ⟨hsk, htk⟩
    · exact hd.outClosed x y hy2

theorem deriveEdgesOf_spec (mem : Mem) (tm : NodeMap) (hs : List Nat)
    (htm : ∀ j h, hs[j]? = some h → tm.lookup h = some j) (h j : Nat) (hj : hs[j]? = some h) :
    ∀ (l : List Nat) (d : ControlFlowGraph), Derived mem hs d →
      (∀ u ∈ l, ∃ (h2 j2 : Nat), (mem u)._interval = some h2 ∧ hs[j2]? = some h2) →
      ∃ d2, deriveEdgesOf mem tm h d l = some d2 ∧ Derived mem hs d2 ∧
        (∀ x y, y ∈ (d.mem x)._in → y ∈ (d2.mem x)._in) ∧
        (∀ u ∈ l, ∀ h2 j2, (mem u)._interval = some h2 → h2 ≠ h → hs[j2]? = some h2 →
          j2 ∈ (d2.mem j)._in) := by
  intro l
  induction l with
  | nil =>
    intro d hd _
    exact ⟨d, rfl, hd, fun _ _ hy => hy, by simp⟩
  | cons u l ih =>
    intro d hd hl
    obtain ⟨h2, j2, hu, hj2⟩ := hl u (List.mem_cons_self _ _)
    have hjk : j < hs.length := (List.getElem?_eq_some.1 hj).1
    have hj2k : j2 < hs.length := (List.getElem?_eq_some.1 hj2).1
    unfold deriveEdgesOf
    by_cases hc : (mem u)._interval ≠ some h
    · rw [if_pos hc]
      simp only [transNode, hu, Option.some_bind, htm j2 h2 hj2, htm j h hj]
      obtain ⟨d2, e, a1, a2, a3⟩ := ih (addEdge d j2 j) (derived_addEdge mem hs d j2 j hd hj2k hjk)
        (fun w hw => hl w (List.mem_cons_of_mem _ hw))
      refine ⟨d2, e, a1, ?_, ?_⟩
      · intro x y hy
        apply a2
        show y ∈ ((addEdgeMem d.mem j2 j) x)._in
        rw [addEdgeMem_in]
        split
        · exact List.mem_append_left _ hy
        · exact hy
      · intro w hw h3 j3 hw3 hne hj3
        rcases List.mem_cons.1 hw with rfl | hw
        · rw [hu] at hw3
          injection hw3 with hw3
          subst hw3
          have : j3 = j2 := by
            have hnd := htm j3 h2 hj3
            rw [htm j2 h2 hj2] at hnd
            exact (Option.some.inj hnd).symm
          subst this
          apply a2
          show j3 ∈ ((addEdgeMem d.mem j3 j) j)._in
          rw [addEdgeMem_in, if_pos rfl]
          simp
        · exact a3 w hw h3 j3 hw3 hne hj3
    · rw [if_neg hc]
      obtain ⟨d2, e, a1, a2, a3⟩ := ih d hd (fun w hw => hl w (List.mem_cons_of_mem _ hw))
      refine ⟨d2, e, a1, a2, ?_⟩
      intro w hw h3 j3 hw3 hne hj3
      rcases List.mem_cons.1 hw with rfl | hw
      · exfalso
        apply hc
        rw [hw3]
        intro e2
        exact hne (Option.some.inj e2)
      · exact a3 w hw h3 j3 hw3 hne hj3

theorem deriveEdges_spec (mem : Mem) (tm : NodeMap) (hs : List Nat)
    (htm : ∀ j h, hs[j]? = some h → tm.lookup h = some j) :
    ∀ (hl : List Nat) (d : ControlFlowGraph), Derived mem hs d →
      (∀ h ∈ hl, (∃ (j : Nat), hs[j]? = some h) ∧
        ∀ u ∈ (mem h)._in, ∃ (h2 j2 : Nat), (mem u)._interval = some h2 ∧ hs[j2]? = some h2) →
      ∃ d2, deriveEdges mem tm d hl = some d2 ∧ Derived mem hs d2 ∧
        (∀ x y, y ∈ (d.mem x)._in → y ∈ (d2.mem x)._in) ∧
        (∀ h ∈ hl, ∀ u ∈ (mem h)._in, ∀ h2 j j2, (mem u)._interval = some h2 → h2 ≠ h →
          hs[j]? = some h → hs[j2]? = some h2 → j2 ∈ (d2.mem j)._in) := by
  intro hl
  induction hl with
  | nil =>
    intro d hd _
    exact ⟨d, rfl, hd, fun _ _ hy => hy, by simp⟩
  | cons h hl ih =>
    intro d hd hh
    obtain ⟨⟨j, hj⟩, hin⟩ := hh h (List.mem_cons_self _ _)
    obtain ⟨d1, e1, a1, a2, a3⟩ := deriveEdgesOf_spec mem tm hs htm h j hj (mem h)._in d hd hin
    obtain ⟨d2, e2, b1, b2, b3⟩ := ih d1 a1 (fun x hx => hh x (List.mem_cons_of_mem _ hx))
    refine ⟨d2, ?_, b1, fun x y hy => b2 x y (a2 x y hy), ?_⟩
    · simp only [deriveEdges, e1, Option.some_bind, e2]
    · intro h3 hh3 u hu h2 j3 j2 hu2 hne hj3 hj2
      rcases List.mem_cons.1 hh3 with rfl | hh3
      · have : j3 = j := by
          have hnd := htm j3 h3 hj3
          rw [htm j h3 hj] at hnd
          exact (Option.some.inj hnd).symm
        subst this
        exact b2 j3 j2 (a3 u hu h2 j2 hu2 hne hj2)
      · exact b3 h3 hh3 u hu h2 j3 j2 hu2 hne hj3 hj2

end Decompiler

namespace Decompiler

/-! ### The last loop of `extendIntervals` -/

theorem pushBackOf_spec (d : ControlFlowGraph) (du di : Nat)
    (hdi : (d.mem du)._interval = some di) :
    ∀ (l : List Nat) (mem : Mem), l.Nodup →
      ∃ m2, pushBackOf d du mem l = some m2 ∧
        ∀ x, m2 x = if x ∈ l ∧ (mem x)._interval = (d.mem du)._primitive then
          { mem x with _interval := (d.mem di)._primitive } else mem x := by
  intro l
  induction l with
  | nil =>
    intro mem _
    exact ⟨mem, rfl, fun x => by simp⟩
  | cons v l ih =>
    intro mem hnd
    simp only [List.nodup_cons] at hnd
    unfold pushBackOf
    by_cases hc : (mem v)._interval = (d.mem du)._primitive
    · rw [if_pos hc, hdi]
      simp only
      obtain ⟨m2, e, hm⟩ := ih (mem.modify v (fun x => { x with _interval := (d.mem di)._primitive }))
        hnd.2
      refine ⟨m2, e, ?_⟩
      intro x
      rw [hm x]
      by_cases hx : x = v
      · subst hx
        have hnl : ¬ (x ∈ l ∧ ((mem.modify x
            (fun x => { x with _interval := (d.mem di)._primitive })) x)._interval =
              (d.mem du)._primitive) := fun h => hnd.1 h.1
        rw [if_neg hnl, if_pos ⟨List.mem_cons_self _ _, hc⟩, Mem.modify_same]
      · rw [Mem.modify_other _ _ _ _ hx]
        simp only [List.mem_cons, hx, false_or]
    · rw [if_neg hc]
      obtain ⟨m2, e, hm⟩ := ih mem hnd.2
      refine ⟨m2, e, ?_⟩
      intro x
      rw [hm x]
      by_cases hx : x = v
      · subst hx
        have h1 : ¬ (x ∈ l ∧ (mem x)._interval = (d.mem du)._primitive) := fun h => hc h.2
        have h2 : ¬ (x ∈ x :: l ∧ (mem x)._interval = (d.mem du)._primitive) := fun h => hc h.2
        rw [if_neg h1, if_neg h2]
      · simp only [List.mem_cons, hx, false_or]

theorem pushedBack_zero (d : ControlFlowGraph) (hs nodes : List Nat) (mem : Mem) :
    PushedBack d hs nodes mem 0 mem :=
  ⟨sameButInterval_refl mem, fun _ _ _ _ _ _ h => absurd h (Nat.not_lt_zero _),
    fun _ _ _ _ _ h _ => h⟩

theorem pushedBack_step (d : ControlFlowGraph) (hs nodes : List Nat) (mem : Mem)
    (hnd : hs.Nodup)
    (hprim : ∀ (j h : Nat), hs[j]? = some h → (d.mem j)._primitive = some h)
    (hint : ∀ j, j < hs.length → ∃ i, (d.mem j)._interval = some i ∧ i < hs.length ∧
      (d.mem i)._interval = some i)
    (c : Nat) (hc : c < hs.length) (m m2 : Mem) (i : Nat) (hi : (d.mem c)._interval = some i)
    (inv : PushedBack d hs nodes mem c m)
    (hm2 : ∀ x, m2 x = if x ∈ nodes ∧ (m x)._interval = (d.mem c)._primitive then
      { m x with _interval := (d.mem i)._primitive } else m x) :
    PushedBack d hs nodes mem (c + 1) m2 := by
  obtain ⟨i2, hi2, hik, hii⟩ := hint c hc
  rw [hi] at hi2
  injection hi2 with hi2
  subst hi2
  have hpc : (d.mem c)._primitive = some hs[c] := hprim c _ (List.getElem?_eq_getElem hc)
  have hpi : (d.mem i)._primitive = some hs[i] := hprim i _ (List.getElem?_eq_getElem hik)
  have hinj : ∀ (a b : Nat) (ha : a < hs.length) (hb : b < hs.length), hs[a] = hs[b] → a = b := by
    intro a b ha hb hab
    exact (List.Nodup.getElem_inj_iff hnd).1 hab
  refine ⟨?_, ?_, ?_⟩
  · intro x
    rw [hm2 x]
    split
    · exact inv.frame x
    · exact inv.frame x
  · intro x hx j h hj hxh hjc
    rw [hm2 x]
    by_cases hjc2 : j < c
    · obtain ⟨i3, h3, a1, a2, a3⟩ := inv.moved x hx j h hj hxh hjc2
      by_cases hmatch : (m x)._interval = (d.mem c)._primitive
      · rw [if_pos ⟨hx, hmatch⟩]
        rw [a3, hpc] at hmatch
        have h3eq : h3 = hs[c] := Option.some.inj hmatch
        obtain ⟨hi3k, hi3v⟩ := List.getElem?_eq_some.1 a2
        have hi3c : i3 = c := hinj i3 c hi3k hc (by rw [hi3v, h3eq])
        -- the interval of `j` in `d` is `c`, which is a header of `d`, so `i = c`
        obtain ⟨i4, b1, _, b3⟩ := hint j (List.getElem?_eq_some.1 hj).1
        rw [a1] at b1
        injection b1 with b1
        subst b1
        rw [hi3c, hi] at b3
        have hic : i = c := Option.some.inj b3
        refine ⟨i3, h3, a1, a2, ?_⟩
        show (d.mem i)._primitive = some h3
        rw [hic, hpc, h3eq]
      · have hn : ¬ (x ∈ nodes ∧ (m x)._interval = (d.mem c)._primitive) := fun h => hmatch h.2
        rw [if_neg hn]
        exact ⟨i3, h3, a1, a2, a3⟩
    · have hjeq : j = c := by omega
      subst hjeq
      have hk := inv.kept x hx j h hj hxh (Nat.le_refl _)
      have hh : h = hs[j] := by
        have := (List.getElem?_eq_some.1 hj).2
        exact this.symm
      have hmatch : (m x)._interval = (d.mem j)._primitive := by rw [hk, hpc, hh]
      rw [if_pos ⟨hx, hmatch⟩]
      exact ⟨i, hs[i], hi, List.getElem?_eq_getElem hik, hpi⟩
  · intro x hx j h hj hxh hjc
    rw [hm2 x]
    have hk := inv.kept x hx j h hj hxh (by omega)
    have hne : ¬ (x ∈ nodes ∧ (m x)._interval = (d.mem c)._primitive) := by
      rintro ⟨_, hmatch⟩
      rw [hk, hpc] at hmatch
      obtain ⟨hjk, hjv⟩ := List.getElem?_eq_some.1 hj
      have := hinj j c hjk hc (by rw [hjv]; exact Option.some.inj hmatch)
      omega
    rw [if_neg hne]
    exact hk

theorem pushBack_spec (d : ControlFlowGraph) (hs nodes : List Nat) (mem : Mem)
    (hnd : hs.Nodup) (hnn : nodes.Nodup)
    (hprim : ∀ (j h : Nat), hs[j]? = some h → (d.mem j)._primitive = some h)
    (hint : ∀ j, j < hs.length → ∃ i, (d.mem j)._interval = some i ∧ i < hs.length ∧
      (d.mem i)._interval = some i) :
    ∀ (n c : Nat) (m : Mem), c + n = hs.length → PushedBack d hs nodes mem c m →
      ∃ m2, pushBack d nodes m (List.range' c n) = some m2 ∧
        PushedBack d hs nodes mem hs.length m2 := by
  intro n
  induction n with
  | zero =>
    intro c m hc inv
    have : c = hs.length := by omega
    subst this
    exact ⟨m, rfl, inv⟩
  | succ n ih =>
    intro c m hc inv
    obtain ⟨i, hi, _, _⟩ := hint c (by omega)
    obtain ⟨m1, e1, hm1⟩ := pushBackOf_spec d c i hi nodes m hnn
    have inv1 := pushedBack_step d hs nodes mem hnd hprim hint c (by omega) m m1 i hi inv hm1
    obtain ⟨m2, e2, inv2⟩ := ih (c + 1) m1 (by omega) inv1
    refine ⟨m2, ?_, inv2⟩
    simp only [List.range'_succ, pushBack, e1, Option.some_bind]
    exact e2

end Decompiler

namespace Decompiler

/-! ### Intervals of the derived graph -/

theorem intervalInv_assigned (nodes : List Nat) (e : Nat) (m : Mem)
    (inv : IntervalInv nodes e m []) (u : Nat)
    (h : Relation.ReflTransGen (fun x y => y ∈ nodes ∧ x ∈ (m y)._in) e u) :
    ∃ i, (m u)._interval = some i := by
  induction h with
  | refl =>
    rcases inv.entry with h | h
    · simp at h
    · exact ⟨e, h⟩
  | @tail b c _ hbc ih =>
    obtain ⟨ib, hib⟩ := ih
    cases hci : (m c)._interval with
    | some i => exact ⟨i, rfl⟩
    | none =>
      have := inv.pending c hbc.1 hci ⟨b, hbc.2, by rw [hib]; simp⟩
      simp at this

theorem mem_headers (g : ControlFlowGraph) (h : Nat) :
    h ∈ headers g ↔ h ∈ g._nodes ∧ (g.mem h)._interval = some h := by
  unfold headers
  simp only [List.mem_filter, decide_eq_true_eq]

theorem headers_nodup (g : ControlFlowGraph) (hnd : g._nodes.Nodup) : (headers g).Nodup :=
  hnd.sublist (List.filter_sublist _)

/-- Every node lies in the interval of a header that has a place in the list
of headers. -/
theorem proper_index (g : ControlFlowGraph) (e : Nat) (hp : ProperIntervals g e) (u : Nat)
    (hu : u ∈ g._nodes) :
    ∃ (h j : Nat), (g.mem u)._interval = some h ∧ (headers g)[j]? = some h := by
  obtain ⟨h, h1, h2, h3⟩ := hp.valued u hu
  obtain ⟨j, hj⟩ := List.mem_iff_getElem?.1 ((mem_headers g h).2 ⟨h2, h3⟩)
  exact ⟨h, j, h1, hj⟩

theorem index_unique (hs : List Nat) (hnd : hs.Nodup) (a b h : Nat) (ha : hs[a]? = some h)
    (hb : hs[b]? = some h) : a = b := by
  obtain ⟨ha1, ha2⟩ := List.getElem?_eq_some.1 ha
  obtain ⟨hb1, hb2⟩ := List.getElem?_eq_some.1 hb
  exact (List.Nodup.getElem_inj_iff hnd).1 (ha2.trans hb2.symm)

/-- The place of the interval of every node is reached, in the derived graph,
from the place of the entry. -/
theorem derived_reach (g : ControlFlowGraph) (e : Nat) (hen : e ∈ g._nodes)
    (hnd : g._nodes.Nodup) (hcl : EdgesClosed g) (hsym : EdgeSymmetric g) (hp : ProperIntervals g e)
    (d : ControlFlowGraph) (hd : d._nodes = List.range (headers g).length)
    (hedge : ∀ h ∈ headers g, ∀ u ∈ (g.mem h)._in, ∀ (h2 j j2 : Nat),
      (g.mem u)._interval = some h2 → h2 ≠ h → (headers g)[j]? = some h →
      (headers g)[j2]? = some h2 → j2 ∈ (d.mem j)._in)
    (je : Nat) (hje : (headers g)[je]? = some e) (u : Nat) (hu : Reach g.mem e u) :
    ∃ (h j : Nat), (g.mem u)._interval = some h ∧ (headers g)[j]? = some h ∧
      Relation.ReflTransGen (fun x y => y ∈ d._nodes ∧ x ∈ (d.mem y)._in) je j := by
  induction hu with
  | refl => exact ⟨e, je, hp.entry, hje, Relation.ReflTransGen.refl⟩
  | @tail b c hab hbc ih =>
    obtain ⟨hb, jb, hb1, hb2, hb3⟩ := ih
    have hbn : b ∈ g._nodes := reach_nodes g._nodes g.mem (fun x hx => (hcl x hx).1) e b hen hab
    have hcn : c ∈ g._nodes := (hcl b hbn).1 c hbc
    obtain ⟨hc, jc, hc1, hc2⟩ := proper_index g e hp c hcn
    by_cases heq : hc = hb
    · subst heq
      have := index_unique _ (headers_nodup g hnd) jc jb hc hc2 hb2
      subst this
      exact ⟨hc, jc, hc1, hc2, hb3⟩
    · have hbin : b ∈ (g.mem c)._in := by
        have hcount : 0 < (g.mem c)._in.count b := by
          rw [← hsym b hbn c hcn]
          exact List.count_pos_iff.2 hbc
        exact List.count_pos_iff.1 hcount
      have hch : hc = c := by
        by_contra hne
        have := hp.member c hcn hc hc1 hne b hbin
        rw [hb1] at this
        exact heq (Option.some.inj this).symm
      subst hch
      have hin := hedge hc (List.getElem?_mem hc2) b hbin hb jc jb hb1 (fun e2 => heq e2.symm)
        hc2 hb2
      refine ⟨hc, jc, hc1, hc2, Relation.ReflTransGen.tail hb3 ⟨?_, hin⟩⟩
      rw [hd]
      exact List.mem_range.2 (List.getElem?_eq_some.1 hc2).1

end Decompiler

namespace Decompiler

theorem derived_assign (g : ControlFlowGraph) (e : Nat) (hen : e ∈ g._nodes)
    (hnd : g._nodes.Nodup) (hcl : EdgesClosed g) (hsym : EdgeSymmetric g)
    (hreach : ∀ u ∈ g._nodes, Reach g.mem e u) (hp : ProperIntervals g e)
    (d : ControlFlowGraph) (hd : Derived g.mem (headers g) d)
    (hedge : ∀ h ∈ headers g, ∀ u ∈ (g.mem h)._in, ∀ (h2 j j2 : Nat),
      (g.mem u)._interval = some h2 → h2 ≠ h → (headers g)[j]? = some h →
      (headers g)[j2]? = some h2 → j2 ∈ (d.mem j)._in)
    (je : Nat) (hje : (headers g)[je]? = some e) :
    ∃ fuel0, ∀ fuel, fuel0 ≤ fuel →
      ∃ d4, assignIntervals fuel { d with _entry := some je } = some d4 ∧
        d4._nodes = List.range (headers g).length ∧
        (∀ (j h : Nat), (headers g)[j]? = some h → (d4.mem j)._primitive = some h) ∧
        (∀ j, j < (headers g).length → ∃ i, (d4.mem j)._interval = some i ∧
          i < (headers g).length ∧ (d4.mem i)._interval = some i) ∧
        (d4.mem je)._interval = some je := by
  have hjek : je < (headers g).length := (List.getElem?_eq_some.1 hje).1
  have hclosed : EdgesClosed { d with _entry := some je } := by
    intro u _
    constructor
    · intro v hv
      show v ∈ d._nodes
      rw [hd.nodes]
      exact List.mem_range.2 (hd.outClosed u v hv).2
    · intro v hv
      show v ∈ d._nodes
      rw [hd.nodes]
      exact List.mem_range.2 (hd.inClosed u v hv).2
  obtain ⟨fuel0, hfuel⟩ := assignIntervals_inv { d with _entry := some je } je rfl
    (by show je ∈ d._nodes; rw [hd.nodes]; exact List.mem_range.2 hjek) hclosed
    (fun u _ => hd.fresh u)
  refine ⟨fuel0, fun fuel hle => ?_⟩
  obtain ⟨d4, h1, h2, _, _, h4, inv⟩ := hfuel fuel hle
  have hnodes : d4._nodes = List.range (headers g).length := by
    rw [h2]; exact hd.nodes
  have hentry : (d4.mem je)._interval = some je := by
    rcases inv.entry with h | h
    · simp at h
    · exact h
  refine ⟨d4, h1, hnodes, ?_, ?_, hentry⟩
  · intro j h hj
    rw [(h4 j).2.2.2.2.2.2]
    exact (hd.node j h hj).2
  · intro j hj
    have hjm : (headers g)[j]? = some (headers g)[j] := List.getElem?_eq_getElem hj
    obtain ⟨hn, hh⟩ := (mem_headers g _).1 (List.getElem?_mem hjm)
    obtain ⟨h2', j2, a1, a2, a3⟩ := derived_reach g e hen hnd hcl hsym hp d hd.nodes hedge je hje
      _ (hreach _ hn)
    rw [hh] at a1
    have hh2 : h2' = (headers g)[j] := (Option.some.inj a1).symm
    subst hh2
    have hj2 : j2 = j := index_unique _ (headers_nodup g hnd) j2 j _ a2 hjm
    subst hj2
    have a4 : Relation.ReflTransGen
        (fun x y => y ∈ ({ d with _entry := some je } : ControlFlowGraph)._nodes ∧
          x ∈ (d4.mem y)._in) je j2 := by
      apply Relation.ReflTransGen.mono _ a3
      intro x y hxy
      refine ⟨hxy.1, ?_⟩
      rw [(h4 y).2.1]
      exact hxy.2
    obtain ⟨i, hi⟩ := intervalInv_assigned _ je d4.mem inv j2 a4
    have hj2n : j2 ∈ ({ d with _entry := some je } : ControlFlowGraph)._nodes := by
      show j2 ∈ d._nodes
      rw [hd.nodes]; exact List.mem_range.2 hj
    obtain ⟨b1, b2⟩ := inv.headerValued j2 hj2n i hi
    refine ⟨i, hi, ?_, b2⟩
    have : i ∈ d._nodes := b1
    rw [hd.nodes] at this
    exact List.mem_range.1 this

/-- `extendIntervals` on a graph whose interval fields form a partition into
intervals with one entry each. -/
theorem extendIntervals_proper (g : ControlFlowGraph) (e : Nat) (he : g._entry = some e)
    (hen : e ∈ g._nodes) (hnd : g._nodes.Nodup) (hcl : EdgesClosed g) (hsym : EdgeSymmetric g)
    (hreach : ∀ u ∈ g._nodes, Reach g.mem e u)
    (hinstr : ∀ u ∈ g._nodes, (g.mem u)._instructions ≠ [])
    (huniq : ∀ u ∈ g._nodes, ∀ v ∈ g._nodes,
      headAddr (g.mem u)._instructions = headAddr (g.mem v)._instructions → u = v)
    (hp : ProperIntervals g e) :
    ∃ fuel0, ∀ fuel, fuel0 ≤ fuel →
      ∃ (m2 : Mem) (d : ControlFlowGraph),
        extendIntervals fuel g = some { g with mem := m2 } ∧
        PushedBack d (headers g) g._nodes g.mem (headers g).length m2 ∧
        (∀ j, j < (headers g).length → ∃ i, (d.mem j)._interval = some i ∧
          i < (headers g).length ∧ (d.mem i)._interval = some i) ∧
        (∀ (je : Nat), (headers g)[je]? = some e → (d.mem je)._interval = some je) := by
  have hsn := headers_nodup g hnd
  obtain ⟨hd1, htm, _⟩ := deriveNodes_empty g.mem (headers g) hsn
  obtain ⟨d2, e2, hd2, _, hedge⟩ := deriveEdges_spec g.mem _ (headers g) htm (headers g) _ hd1
    (by
      intro h hh
      refine ⟨List.mem_iff_getElem?.1 hh, ?_⟩
      intro u hu
      have hhn := ((mem_headers g h).1 hh).1
      exact proper_index g e hp u ((hcl h hhn).2 u hu))
  obtain ⟨je, hje⟩ := List.mem_iff_getElem?.1 ((mem_headers g e).2 ⟨hen, hp.entry⟩)
  have hjek : je < (headers g).length := (List.getElem?_eq_some.1 hje).1
  obtain ⟨i0, rest, hir⟩ : ∃ i0 rest, (g.mem e)._instructions = i0 :: rest := by
    cases hc : (g.mem e)._instructions with
    | nil => exact absurd hc (hinstr e hen)
    | cons a l => exact ⟨a, l, rfl⟩
  have hdinstr : ∀ n ∈ d2._nodes, ∃ h, (headers g)[n]? = some h ∧ h ∈ g._nodes ∧
      (d2.mem n)._instructions = (g.mem h)._instructions := by
    intro n hn
    rw [hd2.nodes] at hn
    have hnk := List.mem_range.1 hn
    have hm : (headers g)[n]? = some (headers g)[n] := List.getElem?_eq_getElem hnk
    exact ⟨_, hm, ((mem_headers g _).1 (List.getElem?_mem hm)).1, (hd2.node n _ hm).1⟩
  have hset : setEntry d2 d2._nodes i0._addr = some { d2 with _entry := some je } := by
    rw [setEntry_eq d2._nodes d2 i0._addr (fun n hn => by
      obtain ⟨h, _, hhn, hi⟩ := hdinstr n hn
      rw [hi]; exact hinstr h hhn)]
    have hz : headAddr (d2.mem je)._instructions = i0._addr := by
      rw [(hd2.node je e hje).1, hir]; rfl
    rw [foldl_entry_unique (fun n => headAddr (d2.mem n)._instructions = i0._addr) je hz
      d2._nodes d2._entry (by
        intro n hn hPn
        obtain ⟨h, hm, hhn, hi⟩ := hdinstr n hn
        have hP : headAddr (d2.mem n)._instructions = i0._addr := hPn
        rw [hi] at hP
        have : h = e := huniq h hhn e hen (by rw [hP, hir]; rfl)
        subst this
        exact index_unique _ hsn n je h hm hje)]
    rw [if_pos (by rw [hd2.nodes]; exact List.mem_range.2 hjek)]
  obtain ⟨fuel0, hfuel⟩ := derived_assign g e hen hnd hcl hsym hreach hp d2 hd2 hedge je hje
  refine ⟨fuel0 + 1, fun fuel hle => ?_⟩
  obtain ⟨d4, h4, hn4, hprim, hint, hent⟩ := hfuel fuel (by omega)
  have hI := intervals_assigned g e he hp.entry (fun u hu => by
    obtain ⟨h, h1, _, _⟩ := hp.valued u hu
    rw [h1]; rfl) fuel (by omega)
  obtain ⟨m2, e3, hpb⟩ := pushBack_spec d4 (headers g) g._nodes g.mem hsn hnd hprim hint
    (headers g).length 0 g.mem (by omega) (pushedBack_zero _ _ _ _)
  refine ⟨m2, d4, ?_, hpb, hint, ?_⟩
  · unfold extendIntervals
    simp only [hI, Option.some_bind, e2, he, hir, List.head?_cons, hset, h4, hn4,
      List.range_eq_range', e3, Option.map_some']
  · intro je2 hje2
    have := index_unique _ hsn je2 je e hje2 hje
    subst this
    exact hent

end Decompiler

namespace Decompiler

/-- The state that `assignIntervals` leaves on a graph with fresh interval
fields, all of whose nodes are reachable from the entry. -/
theorem proper_of_fresh (g : ControlFlowGraph) (e : Nat) (he : g._entry = some e)
    (hen : e ∈ g._nodes) (hcl : EdgesClosed g) (hsym : EdgeSymmetric g)
    (hreach : ∀ u ∈ g._nodes, Reach g.mem e u)
    (hfresh : ∀ u ∈ g._nodes, (g.mem u)._interval = none) :
    ∃ fuel0 g1, (∀ fuel, fuel0 ≤ fuel → assignIntervals fuel g = some g1) ∧
      g1._nodes = g._nodes ∧ g1._entry = g._entry ∧ SameButInterval g.mem g1.mem ∧
      ProperIntervals g1 e := by
  obtain ⟨fuel0, hfuel⟩ := assignIntervals_inv g e he hen hcl hfresh
  obtain ⟨g1, h1, h2, h3, _, h4, inv⟩ := hfuel fuel0 (Nat.le_refl _)
  have hentry : (g1.mem e)._interval = some e := by
    rcases inv.entry with h | h
    · simp at h
    · exact h
  have hassigned : ∀ u, Reach g.mem e u → ∃ h, (g1.mem u)._interval = some h := by
    intro u hu
    induction hu with
    | refl => exact ⟨e, hentry⟩
    | @tail b c hab hbc ih =>
      have hb : b ∈ g._nodes := reach_nodes g._nodes g.mem (fun x hx => (hcl x hx).1) e b hen hab
      have hc : c ∈ g._nodes := (hcl b hb).1 c hbc
      have hcount : 0 < (g.mem c)._in.count b := by
        rw [← hsym b hb c hc]
        exact List.count_pos_iff.2 hbc
      have hbin : b ∈ (g1.mem c)._in := by
        rw [(h4 c).2.1]
        exact List.count_pos_iff.1 hcount
      cases hci : (g1.mem c)._interval with
      | some h => exact ⟨h, rfl⟩
      | none =>
        obtain ⟨hb0, hbi⟩ := ih
        have := inv.pending c hc hci ⟨b, hbin, by rw [hbi]; simp⟩
        simp at this
  refine ⟨fuel0, g1, fun fuel hle => assignIntervals_mono fuel0 fuel g g1 hle h1, h2, h3, h4, ?_⟩
  refine ⟨?_, hentry, ?_⟩
  · intro u hu
    rw [h2] at hu
    obtain ⟨h, hh⟩ := hassigned u (hreach u hu)
    obtain ⟨a1, a2⟩ := inv.headerValued u hu h hh
    exact ⟨h, hh, by rw [h2]; exact a1, a2⟩
  · intro u hu h hh hne p hp
    rw [h2] at hu
    exact inv.member u hu h hh hne p hp

/-- What the interval fields are after the last loop of `extendIntervals`. -/
theorem merged_of_pushedBack (g : ControlFlowGraph) (e : Nat) (hen : e ∈ g._nodes)
    (hnd : g._nodes.Nodup) (hp : ProperIntervals g e) (d : ControlFlowGraph) (m2 : Mem)
    (hpb : PushedBack d (headers g) g._nodes g.mem (headers g).length m2)
    (hint : ∀ j, j < (headers g).length → ∃ i, (d.mem j)._interval = some i ∧
      i < (headers g).length ∧ (d.mem i)._interval = some i)
    (hent : ∀ (je : Nat), (headers g)[je]? = some e → (d.mem je)._interval = some je) :
    (∀ u ∈ g._nodes, ∀ v ∈ g._nodes, (g.mem u)._interval = (g.mem v)._interval →
      (m2 u)._interval = (m2 v)._interval) ∧
    (∀ u ∈ g._nodes, ∃ h, (m2 u)._interval = some h ∧ h ∈ headers g ∧
      (m2 h)._interval = some h) ∧
    (m2 e)._interval = some e := by
  have hsn := headers_nodup g hnd
  have hmove : ∀ u ∈ g._nodes, ∀ (j h : Nat), (headers g)[j]? = some h →
      (g.mem u)._interval = some h →
      ∃ (i h2 : Nat), (d.mem j)._interval = some i ∧ (d.mem i)._interval = some i ∧
        (headers g)[i]? = some h2 ∧ (m2 u)._interval = some h2 := by
    intro u hu j h hj hu1
    have hjk := (List.getElem?_eq_some.1 hj).1
    obtain ⟨i, h2, a1, a2, a3⟩ := hpb.moved u hu j h hj hu1 hjk
    obtain ⟨i2, b1, _, b3⟩ := hint j hjk
    rw [a1] at b1
    injection b1 with b1
    subst b1
    exact ⟨i, h2, a1, b3, a2, a3⟩
  refine ⟨?_, ?_, ?_⟩
  · intro u hu v hv huv
    obtain ⟨h, j, hu1, hj⟩ := proper_index g e hp u hu
    have hv1 : (g.mem v)._interval = some h := by rw [← huv]; exact hu1
    obtain ⟨i, h2, a1, _, a2, a3⟩ := hmove u hu j h hj hu1
    obtain ⟨i2, h3, b1, _, b2, b3⟩ := hmove v hv j h hj hv1
    rw [a1] at b1
    injection b1 with b1
    subst b1
    rw [a2] at b2
    injection b2 with b2
    subst b2
    rw [a3, b3]
  · intro u hu
    obtain ⟨h, j, hu1, hj⟩ := proper_index g e hp u hu
    obtain ⟨i, h2, _, a1, a2, a3⟩ := hmove u hu j h hj hu1
    have hh2 := List.getElem?_mem a2
    obtain ⟨hn2, hi2⟩ := (mem_headers g h2).1 hh2
    obtain ⟨i3, h3, b1, _, b2, b3⟩ := hmove h2 hn2 i h2 a2 hi2
    rw [a1] at b1
    injection b1 with b1
    subst b1
    rw [a2] at b2
    injection b2 with b2
    subst b2
    exact ⟨h2, a3, hh2, b3⟩
  · obtain ⟨je, hje⟩ := List.mem_iff_getElem?.1 ((mem_headers g e).2 ⟨hen, hp.entry⟩)
    obtain ⟨i, h2, a1, _, a2, a3⟩ := hmove e hen je e hje hp.entry
    rw [hent je hje] at a1
    injection a1 with a1
    subst a1
    rw [hje] at a2
    injection a2 with a2
    subst a2
    exact a3

theorem headers_sublist (g : ControlFlowGraph) (m2 : Mem)
    (h : ∀ u ∈ g._nodes, (m2 u)._interval = some u → (g.mem u)._interval = some u) :
    (headers { g with mem := m2 }).Sublist (headers g) := by
  unfold headers
  have : List.filter (fun u => decide ((m2 u)._interval = some u)) g._nodes =
      List.filter (fun u => decide ((m2 u)._interval = some u))
        (List.filter (fun u => decide ((g.mem u)._interval = some u)) g._nodes) := by
    rw [List.filter_filter]
    apply List.filter_congr
    intro u hu
    by_cases hc : (m2 u)._interval = some u
    · simp [hc, h u hu hc]
    · simp [hc]
  show (List.filter (fun u => decide ((m2 u)._interval = some u)) g._nodes).Sublist _
  rw [this]
  exact List.filter_sublist _

end Decompiler

namespace Decompiler

/-- On a graph whose interval fields form a partition into intervals with one
entry each, `extendIntervals` returns and only merges intervals. -/
theorem extendIntervals_merges_proper (g : ControlFlowGraph) (e : Nat)
    (he : g._entry = some e) (hen : e ∈ g._nodes) (hnd : g._nodes.Nodup)
    (hcl : EdgesClosed g) (hsym : EdgeSymmetric g)
    (hreach : ∀ u ∈ g._nodes, Reach g.mem e u)
    (hinstr : ∀ u ∈ g._nodes, (g.mem u)._instructions ≠ [])
    (huniq : ∀ u ∈ g._nodes, ∀ v ∈ g._nodes,
      headAddr (g.mem u)._instructions = headAddr (g.mem v)._instructions → u = v)
    (hp : ProperIntervals g e) :
    ∃ fuel0, ∀ fuel, fuel0 ≤ fuel →
      ∃ g2, extendIntervals fuel g = some g2 ∧ g2._nodes = g._nodes ∧ g2._entry = g._entry ∧
        SameButInterval g.mem g2.mem ∧
        (∀ u ∈ g._nodes, ∀ v ∈ g._nodes, (g.mem u)._interval = (g.mem v)._interval →
          (g2.mem u)._interval = (g2.mem v)._interval) ∧
        (∀ u ∈ g._nodes, ∃ h, (g2.mem u)._interval = some h ∧ h ∈ headers g ∧
          (g2.mem h)._interval = some h) ∧
        (g2.mem e)._interval = some e ∧
        (headers g2).Sublist (headers g) ∧ (headers g2).length ≤ (headers g).length := by
  obtain ⟨fuel0, hfuel⟩ :=
    extendIntervals_proper g e he hen hnd hcl hsym hreach hinstr huniq hp
  refine ⟨fuel0, fun fuel hle => ?_⟩
  obtain ⟨m2, d, h1, hpb, hint, hent⟩ := hfuel fuel hle
  obtain ⟨c1, c2, c3⟩ := merged_of_pushedBack g e hen hnd hp d m2 hpb hint hent
  have hsub : (headers { g with mem := m2 }).Sublist (headers g) := by
    apply headers_sublist
    intro u hu huu
    obtain ⟨h, a1, a2, _⟩ := c2 u hu
    rw [huu] at a1
    have : u = h := Option.some.inj a1
    subst this
    exact ((mem_headers g u).1 a2).2
  exact ⟨{ g with mem := m2 }, h1, rfl, rfl, hpb.frame, c1, c2, c3, hsub, hsub.length_le⟩

end Decompiler

namespace Decompiler

/-! ### `componentVisit` as a traversal along predecessor lists -/

theorem unassignedC_fills_le (head : Nat) (nodes : List Nat) {m1 m2 : Mem}
    (h : CompFills head m1 m2) : unassignedC m2 nodes ≤ unassignedC m1 nodes := by
  unfold unassignedC
  apply countP_le_of_imp
  intro x _ hx
  cases hc : (m1 x)._component with
  | none => rfl
  | some c =>
    have := h.isSome x (by rw [hc]; rfl)
    rw [Option.isNone_iff_eq_none] at hx
    rw [hx] at this
    simp at this

theorem unassignedC_modify_lt (nodes : List Nat) (m : Mem) (u head : Nat) (hu : u ∈ nodes)
    (hc : (m u)._component = none) :
    unassignedC (m.modify u (fun x => { x with _component := some head })) nodes <
      unassignedC m nodes := by
  unfold unassignedC
  refine countP_lt_of_imp _ _ _ ?_ u hu ?_ ?_
  · intro x _ hx
    by_cases hxu : x = u
    · subst hxu; rw [hc]; rfl
    · rw [Mem.modify_other _ _ _ _ hxu] at hx; exact hx
  · rw [hc]; rfl
  · simp

theorem visited_refl (head u : Nat) (m : Mem) (hu : (m u)._component.isSome = true) :
    Visited head u m m :=
  ⟨compFills_refl head m, hu, fun x h1 h2 => by rw [h1] at h2; simp at h2,
    fun y h1 h2 => by rw [h1] at h2; simp at h2⟩

theorem componentVisit_ok (nodes : List Nat) (head : Nat) :
    ∀ (fuel : Nat) (m : Mem) (u : Nat), unassignedC m nodes < fuel → u ∈ nodes →
      (∀ x ∈ nodes, ∀ p ∈ (m x)._in, p ∈ nodes) →
      ∃ m2, componentVisit fuel m u head = some m2 ∧ Visited head u m m2 := by
  intro fuel
  induction fuel with
  | zero => intro m u h; omega
  | succ fuel ih =>
    intro m u hfuel hu hcl
    unfold componentVisit
    by_cases hc : (m u)._component.isSome = true
    · rw [if_pos hc]
      exact ⟨m, rfl, visited_refl head u m hc⟩
    · rw [if_neg hc]
      have hnone : (m u)._component = none := by
        cases hcu : (m u)._component with
        | none => rfl
        | some c => rw [hcu] at hc; simp at hc
      obtain ⟨m1, hm1⟩ : ∃ m1, m1 = m.modify u (fun x => { x with _component := some head }) :=
        ⟨_, rfl⟩
      have hstep : CompFills head m m1 := by
        intro x
        rw [hm1]
        by_cases hx : x = u
        · subst hx
          exact Or.inr ⟨hnone, by simp⟩
        · exact Or.inl (Mem.modify_other _ _ _ _ hx)
      have hlt : unassignedC m1 nodes < fuel := by
        have := unassignedC_modify_lt nodes m u head hu hnone
        rw [← hm1] at this
        omega
      have hu1 : (m1 u)._component.isSome = true := by rw [hm1]; simp
      -- the loop over the predecessors of `u`
      have key : ∀ (l : List Nat) (mt : Mem), (∀ v ∈ l, v ∈ nodes) → CompFills head m1 mt →
          ∃ m2, l.foldlM (fun m v => componentVisit fuel m v head) mt = some m2 ∧
            CompFills head mt m2 ∧ (∀ v ∈ l, (m2 v)._component.isSome = true) ∧
            (∀ x, (mt x)._component = none → (m2 x)._component.isSome = true →
              ∃ v ∈ l, Relation.ReflTransGen (fun a b => b ∈ (m a)._in) v x) ∧
            (∀ y, (mt y)._component = none → (m2 y)._component.isSome = true →
              ∀ p ∈ (m y)._in, (m2 p)._component.isSome = true) := by
        intro l
        induction l with
        | nil =>
          intro mt _ _
          refine ⟨mt, rfl, compFills_refl head mt, by simp, ?_, ?_⟩
          · intro x h1 h2; rw [h1] at h2; simp at h2
          · intro y h1 h2; rw [h1] at h2; simp at h2
        | cons v l ihl =>
          intro mt hl hmt
          have hin : ∀ x, (mt x)._in = (m x)._in := fun x =>
            (hmt.fills_in x).trans (hstep.fills_in x)
          obtain ⟨m3, e3, hv3⟩ := ih mt v
            (by have := unassignedC_fills_le head nodes hmt; omega)
            (hl v (List.mem_cons_self _ _))
            (fun x hx p hp => hcl x hx p (by rw [← hin x]; exact hp))
          obtain ⟨m2, e2, a1, a2, a3, a4⟩ := ihl m3
            (fun w hw => hl w (List.mem_cons_of_mem _ hw)) (compFills_trans hmt hv3.fills)
          refine ⟨m2, ?_, compFills_trans hv3.fills a1, ?_, ?_, ?_⟩
          · rw [List.foldlM_cons, e3]
            exact e2
          · intro w hw
            rcases List.mem_cons.1 hw with rfl | hw
            · exact a1.isSome w hv3.root
            · exact a2 w hw
          · intro x h1 h2
            cases hx3 : (m3 x)._component with
            | none =>
              obtain ⟨w, hw, hr⟩ := a3 x hx3 h2
              exact ⟨w, List.mem_cons_of_mem _ hw, hr⟩
            | some c =>
              have hb := hv3.back x h1 (by rw [hx3]; rfl)
              refine ⟨v, List.mem_cons_self _ _, ?_⟩
              apply Relation.ReflTransGen.mono _ hb
              intro a b hab
              rw [← hin a]; exact hab
          · intro y h1 h2 p hp
            cases hy3 : (m3 y)._component with
            | none => exact a4 y hy3 h2 p hp
            | some c =>
              have := hv3.preds y h1 (by rw [hy3]; rfl) p (by rw [hin y]; exact hp)
              exact a1.isSome p this
      have hin1 : (m1 u)._in = (m u)._in := hstep.fills_in u
      obtain ⟨m2, e2, a1, a2, a3, a4⟩ := key (m u)._in m1 (fun v hv => hcl u hu v hv)
        (compFills_refl head m1)
      refine ⟨m2, ?_, compFills_trans hstep a1, a1.isSome u hu1, ?_, ?_⟩
      · simp only
        rw [← hm1, hin1]
        exact e2
      · intro x h1 h2
        by_cases hx : x = u
        · subst hx; exact Relation.ReflTransGen.refl
        · have hx1 : (m1 x)._component = none := by
            rw [hm1, Mem.modify_other _ _ _ _ hx]; exact h1
          obtain ⟨v, hv, hr⟩ := a3 x hx1 h2
          exact Relation.ReflTransGen.head hv hr
      · intro y h1 h2 p hp
        by_cases hy : y = u
        · subst hy
          exact a2 p hp
        · have hy1 : (m1 y)._component = none := by
            rw [hm1, Mem.modify_other _ _ _ _ hy]; exact h1
          exact a4 y hy1 h2 p hp

end Decompiler

namespace Decompiler

/-! ### One turn of the loop of `assignComponents` -/

theorem in_of_out (nodes : List Nat) (mem : Mem) (hsym : SymOn mem nodes) (a b : Nat)
    (ha : a ∈ nodes) (hb : b ∈ nodes) (h : b ∈ (mem a)._out) : a ∈ (mem b)._in := by
  have : 0 < (mem b)._in.count a := by
    rw [← hsym a ha b hb]
    exact List.count_pos_iff.2 h
  exact List.count_pos_iff.1 this

theorem out_of_in (nodes : List Nat) (mem : Mem) (hsym : SymOn mem nodes) (a b : Nat)
    (ha : a ∈ nodes) (hb : b ∈ nodes) (h : a ∈ (mem b)._in) : b ∈ (mem a)._out := by
  have : 0 < (mem a)._out.count b := by
    rw [hsym a ha b hb]
    exact List.count_pos_iff.2 h
  exact List.count_pos_iff.1 this

/-- A chain of predecessor steps from `u` to `x` is a path from `x` to `u`. -/
theorem reach_of_back (nodes : List Nat) (mem : Mem) (hsym : SymOn mem nodes)
    (hin : ∀ x ∈ nodes, ∀ p ∈ (mem x)._in, p ∈ nodes) (u x : Nat) (hu : u ∈ nodes)
    (h : Relation.ReflTransGen (fun a b => b ∈ (mem a)._in) u x) :
    x ∈ nodes ∧ Reach mem x u := by
  induction h with
  | refl => exact ⟨hu, Relation.ReflTransGen.refl⟩
  | @tail b c _ hbc ih =>
    obtain ⟨hb, hr⟩ := ih
    have hc : c ∈ nodes := hin b hb c hbc
    exact ⟨hc, Relation.ReflTransGen.head (out_of_in nodes mem hsym c b hc hb hbc) hr⟩

/-- When every predecessor of a node with a component has one, every node that
reaches a node with a component has one. -/
theorem assigned_of_reach (nodes : List Nat) (mem m : Mem) (hsym : SymOn mem nodes)
    (hout : ∀ x ∈ nodes, ∀ y ∈ (mem x)._out, y ∈ nodes)
    (hclosed : ∀ y ∈ nodes, (m y)._component.isSome = true →
      ∀ p ∈ (mem y)._in, (m p)._component.isSome = true)
    (x y : Nat) (hx : x ∈ nodes) (h : Reach mem x y) (hy : (m y)._component.isSome = true) :
    (m x)._component.isSome = true := by
  induction h with
  | refl => exact hy
  | @tail b c hxb hbc ih =>
    have hb : b ∈ nodes := reach_nodes nodes mem hout x b hx hxb
    have hc : c ∈ nodes := hout b hb c hbc
    exact ih (hclosed c hc hy b (in_of_out nodes mem hsym b c hb hc hbc))

theorem componentsInv_skip (nodes : List Nat) (e : Nat) (mem0 : Mem) (done : List Nat)
    (m : Mem) (u : Nat) (inv : ComponentsInv nodes e mem0 done m)
    (hu : (m u)._component.isSome = true) : ComponentsInv nodes e mem0 (done ++ [u]) m := by
  refine ⟨inv.frame, inv.closedA, ?_, inv.headed, inv.sound, inv.whole⟩
  intro x hx
  rcases List.mem_append.1 hx with h | h
  · exact inv.visited x h
  · rw [List.mem_singleton] at h
    rw [h]; exact hu

theorem componentsInv_visit (nodes : List Nat) (e : Nat) (mem0 : Mem)
    (hsym : SymOn mem0 nodes) (hout : ∀ x ∈ nodes, ∀ y ∈ (mem0 x)._out, y ∈ nodes)
    (hin : ∀ x ∈ nodes, ∀ p ∈ (mem0 x)._in, p ∈ nodes)
    (hinj : ∀ a b, Reach mem0 e a → Reach mem0 e b → (mem0 a)._number = (mem0 b)._number → a = b)
    (htopo : ∀ x y, Reach mem0 e x → Reach mem0 x y →
      ∃ x1, Reach mem0 x x1 ∧ Reach mem0 x1 x ∧ (mem0 y)._number ≤ (mem0 x1)._number)
    (done : List Nat) (m m2 : Mem) (u : Nat) (hu : u ∈ nodes)
    (inv : ComponentsInv nodes e mem0 done m) (hnone : (m u)._component = none)
    (hlater : ∀ x ∈ nodes, x ∉ done → (mem0 x)._number ≤ (mem0 u)._number)
    (hv : Visited u u m m2) : ComponentsInv nodes e mem0 (done ++ [u]) m2 := by
  have hmin : ∀ x, (m x)._in = (mem0 x)._in := fun x => by rw [inv.frame x]
  have hu2 : (m2 u)._component = some u := by
    rcases hv.fills u with h | ⟨_, h⟩
    · have := hv.root
      rw [h, hnone] at this
      simp at this
    · rw [h]
  have hnew : ∀ x, (m x)._component = none → ∀ h, (m2 x)._component = some h → h = u := by
    intro x hx h hh
    rcases hv.fills x with h1 | ⟨_, h1⟩
    · rw [h1, hx] at hh; simp at hh
    · rw [h1] at hh; exact (Option.some.inj hh).symm
  have hold : ∀ x h, (m x)._component = some h → (m2 x)._component = some h := by
    intro x h hx
    rw [hv.fills.some_eq x (by rw [hx]; rfl)]
    exact hx
  have hclosed2 : ∀ y ∈ nodes, (m2 y)._component.isSome = true →
      ∀ p ∈ (mem0 y)._in, (m2 p)._component.isSome = true := by
    intro y hy hy2 p hp
    cases hc : (m y)._component with
    | some c =>
      exact hv.fills.isSome p (inv.closedA y hy (by rw [hc]; rfl) p hp)
    | none => exact hv.preds y hc hy2 p (by rw [hmin y]; exact hp)
  have hsound : ∀ x ∈ nodes, Reach mem0 e x → (m x)._component = none →
      (m2 x)._component.isSome = true → Mutual mem0 x u := by
    intro x hx hrx hxn hx2
    have hback := hv.back x hxn hx2
    have hback0 : Relation.ReflTransGen (fun a b => b ∈ (mem0 a)._in) u x := by
      apply Relation.ReflTransGen.mono _ hback
      intro a b hab
      rw [← hmin a]; exact hab
    obtain ⟨_, hxu⟩ := reach_of_back nodes mem0 hsym hin u x hu hback0
    refine ⟨hxu, ?_⟩
    obtain ⟨x1, a1, a2, a3⟩ := htopo x u hrx hxu
    by_cases hx1 : x1 = u
    · rw [← hx1]; exact a2
    · exfalso
      have hx1n : x1 ∈ nodes := reach_nodes nodes mem0 hout x x1 hx a1
      have hx1d : x1 ∈ done := by
        by_contra hnd
        have hle := hlater x1 hx1n hnd
        exact hx1 (hinj x1 u (reach_trans hrx a1) (reach_trans hrx hxu) (by omega))
      have := assigned_of_reach nodes mem0 m hsym hout inv.closedA x x1 hx a1
        (inv.visited x1 hx1d)
      rw [hxn] at this
      simp at this
  refine ⟨?_, hclosed2, ?_, ?_, ?_, ?_⟩
  · intro x
    rcases hv.fills x with h | ⟨_, h⟩
    · rw [h]; exact inv.frame x
    · rw [h]
      simp only
      rw [inv.frame x]
  · intro x hx
    rcases List.mem_append.1 hx with h | h
    · exact hv.fills.isSome x (inv.visited x h)
    · rw [List.mem_singleton] at h
      rw [h]; exact hv.root
  · intro x hx h hh
    cases hc : (m x)._component with
    | some c =>
      have := hold x c hc
      rw [hh] at this
      injection this with this
      subst this
      obtain ⟨a1, a2⟩ := inv.headed x hx h hc
      exact ⟨a1, hold h h a2⟩
    | none =>
      have := hnew x hc h hh
      subst this
      exact ⟨hu, hu2⟩
  · intro x hx hrx h hh
    cases hc : (m x)._component with
    | some c =>
      have := hold x c hc
      rw [hh] at this
      injection this with this
      subst this
      exact inv.sound x hx hrx h hc
    | none =>
      have := hnew x hc h hh
      subst this
      exact hsound x hx hrx hc (by rw [hh]; rfl)
  · intro x hx hrx h hh y hxy
    have hyn : y ∈ nodes := reach_nodes nodes mem0 hout x y hx hxy.1
    have hry : Reach mem0 e y := reach_trans hrx hxy.1
    cases hc : (m x)._component with
    | some c =>
      have := hold x c hc
      rw [hh] at this
      injection this with this
      subst this
      exact hold y h (inv.whole x hx hrx h hc y hxy)
    | none =>
      have := hnew x hc h hh
      subst this
      have hxu := hsound x hx hrx hc (by rw [hh]; rfl)
      have hyc : (m y)._component = none := by
        cases hcy : (m y)._component with
        | none => rfl
        | some c2 =>
          have := inv.whole y hyn hry c2 hcy x ⟨hxy.2, hxy.1⟩
          rw [hc] at this
          simp at this
      have hy2 : (m2 y)._component.isSome = true :=
        assigned_of_reach nodes mem0 m2 hsym hout hclosed2 y h hyn
          (reach_trans hxy.2 hxu.1) (by rw [hu2]; rfl)
      rcases hv.fills y with h1 | ⟨_, h1⟩
      · rw [h1, hyc] at hy2; simp at hy2
      · rw [h1]

end Decompiler

namespace Decompiler

/-! ### The loop of `assignComponents` -/

theorem unassignedC_le_length (mem : Mem) (nodes : List Nat) :
    unassignedC mem nodes ≤ nodes.length :=
  List.countP_le_length _

theorem inPostOrder_descending (mem : Mem) (nodes : List Nat) :
    ((inPostOrder mem nodes).reverse).Pairwise
      (fun a b => (mem b)._number ≤ (mem a)._number) := by
  haveI : IsTotal Nat (postOrderLe mem) := ⟨fun a b => Int.le_total _ _⟩
  haveI : IsTrans Nat (postOrderLe mem) := ⟨fun a b c hab hbc => Int.le_trans hab hbc⟩
  rw [List.pairwise_reverse]
  exact List.sorted_insertionSort (postOrderLe mem) nodes

theorem componentsFold_spec (nodes : List Nat) (e : Nat) (mem0 : Mem)
    (hsym : SymOn mem0 nodes) (hout : ∀ x ∈ nodes, ∀ y ∈ (mem0 x)._out, y ∈ nodes)
    (hin : ∀ x ∈ nodes, ∀ p ∈ (mem0 x)._in, p ∈ nodes)
    (hinj : ∀ a b, Reach mem0 e a → Reach mem0 e b → (mem0 a)._number = (mem0 b)._number → a = b)
    (htopo : ∀ x y, Reach mem0 e x → Reach mem0 x y →
      ∃ x1, Reach mem0 x x1 ∧ Reach mem0 x1 x ∧ (mem0 y)._number ≤ (mem0 x1)._number)
    (fuel : Nat) (hfuel : nodes.length < fuel) :
    ∀ (todo done : List Nat) (m : Mem), (∀ x, x ∈ done ++ todo ↔ x ∈ nodes) →
      (done ++ todo).Pairwise (fun a b => (mem0 b)._number ≤ (mem0 a)._number) →
      ComponentsInv nodes e mem0 done m →
      ∃ m2, todo.foldlM (fun m u => componentVisit fuel m u u) m = some m2 ∧
        ComponentsInv nodes e mem0 (done ++ todo) m2 := by
  intro todo
  induction todo with
  | nil =>
    intro done m _ _ inv
    exact ⟨m, rfl, by rw [List.append_nil]; exact inv⟩
  | cons u todo ih =>
    intro done m hperm hsort inv
    have hu : u ∈ nodes := (hperm u).1 (by simp)
    have hmin : ∀ x, (m x)._in = (mem0 x)._in := fun x => by rw [inv.frame x]
    have hex : ∃ m1, componentVisit fuel m u u = some m1 ∧
        ComponentsInv nodes e mem0 (done ++ [u]) m1 := by
      cases hc : (m u)._component with
      | some c =>
        obtain ⟨f, rfl⟩ : ∃ f, fuel = f + 1 := ⟨fuel - 1, by omega⟩
        exact ⟨m, componentVisit_set f m u u (by rw [hc]; rfl),
          componentsInv_skip nodes e mem0 done m u inv (by rw [hc]; rfl)⟩
      | none =>
        obtain ⟨m1, e1, hv⟩ := componentVisit_ok nodes u fuel m u
          (by have := unassignedC_le_length m nodes; omega) hu
          (fun x hx p hp => hin x hx p (by rw [← hmin x]; exact hp))
        refine ⟨m1, e1, ?_⟩
        apply componentsInv_visit nodes e mem0 hsym hout hin hinj htopo done m m1 u hu inv hc _ hv
        intro x hx hxd
        have hx2 : x ∈ done ++ u :: todo := (hperm x).2 hx
        rcases List.mem_append.1 hx2 with h | h
        · exact absurd h hxd
        · rcases List.mem_cons.1 h with h | h
          · rw [h]
          · have hp := (List.pairwise_append.1 hsort).2.1
            exact (List.pairwise_cons.1 hp).1 x h
    obtain ⟨m1, e1, hstep⟩ := hex
    obtain ⟨m2, e2, inv2⟩ := ih (done ++ [u]) m1
      (by intro x; rw [List.append_assoc]; exact hperm x)
      (by rw [List.append_assoc]; exact hsort) hstep
    refine ⟨m2, ?_, by rw [List.append_assoc] at inv2; exact inv2⟩
    rw [List.foldlM_cons, e1]
    exact e2

theorem mutual_symm {mem : Mem} {x y : Nat} (h : Mutual mem x y) : Mutual mem y x :=
  ⟨h.2, h.1⟩

theorem mutual_trans {mem : Mem} {x y z : Nat} (h1 : Mutual mem x y) (h2 : Mutual mem y z) :
    Mutual mem x z :=
  ⟨reach_trans h1.1 h2.1, reach_trans h2.2 h1.2⟩

/-- What `components` computes on a fresh graph: every node gets a component
that is its own component; among the nodes reachable from the entry the
components are the classes of mutual reachability. -/
theorem components_spec (g : ControlFlowGraph) (e : Nat) (he : g._entry = some e)
    (hen : e ∈ g._nodes) (hcl : EdgesClosed g) (hsym : EdgeSymmetric g)
    (hz : ∀ u ∈ g._nodes, (g.mem u)._number = 0)
    (hc : ∀ u ∈ g._nodes, (g.mem u)._component = none)
    (fuel : Nat) (hfuel : g._nodes.length < fuel) :
    ∃ g1, components fuel g =
        some (g1, g1._nodes.filter (fun u => (g1.mem u)._component = some u)) ∧
      g1._nodes = g._nodes ∧ g1._entry = g._entry ∧
      (∀ x, (g1.mem x)._in = (g.mem x)._in ∧ (g1.mem x)._out = (g.mem x)._out ∧
        (g1.mem x)._instructions = (g.mem x)._instructions) ∧
      (∀ x ∈ g._nodes, ∃ h, (g1.mem x)._component = some h ∧ h ∈ g._nodes ∧
        (g1.mem h)._component = some h) ∧
      (∀ x ∈ g._nodes, Reach g.mem e x → ∀ h, (g1.mem x)._component = some h →
        Mutual g.mem x h) ∧
      (∀ x ∈ g._nodes, Reach g.mem e x → ∀ h, (g1.mem x)._component = some h →
        ∀ y, Mutual g.mem x y → (g1.mem y)._component = some h) := by
  obtain ⟨g0, h1, h2, h3, _, hpo⟩ := orderNodes_spec g e he hen hcl hz fuel hfuel
  have hr : ∀ a b, Reach g0.mem a b ↔ Reach g.mem a b := fun a b => reach_congr hpo.frame a b
  have hsym0 : SymOn g0.mem g._nodes := by
    intro u hu v hv
    rw [(hpo.frame u).2.2.1, (hpo.frame v).2.1]
    exact hsym u hu v hv
  have hout0 : ∀ x ∈ g._nodes, ∀ y ∈ (g0.mem x)._out, y ∈ g._nodes := by
    intro x hx y hy
    rw [(hpo.frame x).2.2.1] at hy
    exact (hcl x hx).1 y hy
  have hin0 : ∀ x ∈ g._nodes, ∀ p ∈ (g0.mem x)._in, p ∈ g._nodes := by
    intro x hx y hy
    rw [(hpo.frame x).2.1] at hy
    exact (hcl x hx).2 y hy
  have hc0 : ∀ u ∈ g._nodes, (g0.mem u)._component = none := by
    intro u hu
    rw [(hpo.frame u).2.2.2.2.2.1]
    exact hc u hu
  have inv0 : ComponentsInv g._nodes e g0.mem [] g0.mem := by
    refine ⟨fun _ => rfl, ?_, by simp, ?_, ?_, ?_⟩
    · intro y hy h
      rw [hc0 y hy] at h
      simp at h
    · intro x hx h hh
      rw [hc0 x hx] at hh
      simp at hh
    · intro x hx _ h hh
      rw [hc0 x hx] at hh
      simp at hh
    · intro x hx _ h hh
      rw [hc0 x hx] at hh
      simp at hh
  obtain ⟨m2, e2, inv⟩ := componentsFold_spec g._nodes e g0.mem hsym0 hout0 hin0
    (fun a b ha hb hab => hpo.inj a b ((hr e a).1 ha) ((hr e b).1 hb) hab)
    (fun x y hx hxy => by
      obtain ⟨x1, a1, a2, a3⟩ := hpo.topo x y ((hr e x).1 hx) ((hr x y).1 hxy)
      exact ⟨x1, (hr x x1).2 a1, (hr x1 x).2 a2, a3⟩)
    fuel hfuel ((inPostOrder g0.mem g._nodes).reverse) [] g0.mem
    (fun x => by rw [List.nil_append]; exact mem_inPostOrder g0.mem g._nodes x)
    (by rw [List.nil_append]; exact inPostOrder_descending g0.mem g._nodes) inv0
  rw [List.nil_append] at inv
  have hmut : ∀ a b, Mutual g0.mem a b ↔ Mutual g.mem a b := by
    intro a b
    unfold Mutual
    rw [hr a b, hr b a]
  refine ⟨{ g0 with mem := m2 }, ?_, h2, h3, ?_, ?_, ?_, ?_⟩
  · unfold components assignComponents
    rw [h1]
    simp only [Option.some_bind, h2, e2, Option.map_some']
  · intro x
    show (m2 x)._in = _ ∧ (m2 x)._out = _ ∧ (m2 x)._instructions = _
    rw [inv.frame x]
    exact ⟨(hpo.frame x).2.1, (hpo.frame x).2.2.1, (hpo.frame x).1⟩
  · intro x hx
    have hv := inv.visited x ((mem_inPostOrder g0.mem g._nodes x).2 hx)
    cases hcx : (m2 x)._component with
    | none => rw [hcx] at hv; simp at hv
    | some h =>
      obtain ⟨a1, a2⟩ := inv.headed x hx h hcx
      exact ⟨h, rfl, a1, a2⟩
  · intro x hx hrx h hh
    exact (hmut x h).1 (inv.sound x hx ((hr e x).2 hrx) h hh)
  · intro x hx hrx h hh y hxy
    exact inv.whole x hx ((hr e x).2 hrx) h hh y ((hmut x y).2 hxy)

end Decompiler

namespace Decompiler

/-! ### Chains of `_dominator` references -/

@[simp] theorem setDominator_same (m : Mem) (v z : Nat) :
    ((setDominator m v z) v)._dominator = some z := by
  simp [setDominator]

theorem setDominator_other (m : Mem) (v z x : Nat) (h : x ≠ v) :
    (setDominator m v z) x = m x := by
  simp [setDominator, Mem.modify, h]

theorem setDominator_frame (m : Mem) (v z : Nat) : SameButDominator m (setDominator m v z) := by
  intro x
  by_cases h : x = v
  · subst h
    simp [setDominator]
  · rw [setDominator_other m v z x h]
    exact ⟨rfl, rfl, rfl, rfl, rfl, rfl, rfl⟩

theorem setDominator_dominator (m : Mem) (v z x : Nat) :
    ((setDominator m v z) x)._dominator = if x = v then some z else (m x)._dominator := by
  by_cases h : x = v
  · subst h
    simp
  · rw [setDominator_other m v z x h, if_neg h]

theorem setDominator_self (m : Mem) (v z : Nat) (h : (m v)._dominator = some z) :
    setDominator m v z = m := by
  funext x
  by_cases hx : x = v
  · subst hx
    simp only [setDominator, Mem.modify_same]
    rw [← h]
  · exact setDominator_other m v z x hx

theorem sameButDominator_refl (m : Mem) : SameButDominator m m :=
  fun _ => ⟨rfl, rfl, rfl, rfl, rfl, rfl, rfl⟩

theorem sameButDominator_trans {m1 m2 m3 : Mem} (h12 : SameButDominator m1 m2)
    (h23 : SameButDominator m2 m3) : SameButDominator m1 m3 := by
  intro x
  obtain ⟨a1, a2, a3, a4, a5, a6, a7⟩ := h12 x
  obtain ⟨b1, b2, b3, b4, b5, b6, b7⟩ := h23 x
  exact ⟨b1.trans a1, b2.trans a2, b3.trans a3, b4.trans a4, b5.trans a5, b6.trans a6,
    b7.trans a7⟩

theorem onChain_refl (m : Mem) (a : Nat) : OnChain m a a := Relation.ReflTransGen.refl

theorem onChain_trans {m : Mem} {a b c : Nat} (h1 : OnChain m a b) (h2 : OnChain m b c) :
    OnChain m a c := Relation.ReflTransGen.trans h1 h2

theorem onChain_head {m : Mem} {a b c : Nat} (h1 : (m a)._dominator = some b)
    (h2 : OnChain m b c) : OnChain m a c := Relation.ReflTransGen.head h1 h2

theorem onChain_tail {m : Mem} {a b c : Nat} (h1 : OnChain m a b)
    (h2 : (m b)._dominator = some c) : OnChain m a c := Relation.ReflTransGen.tail h1 h2

/-- The first step of a chain that leaves its start. -/
theorem onChain_cases_head {m : Mem} {a b : Nat} (h : OnChain m a b) :
    a = b ∨ ∃ d, (m a)._dominator = some d ∧ OnChain m d b := by
  rcases Relation.ReflTransGen.cases_head h with h1 | ⟨d, h1, h2⟩
  · exact Or.inl h1
  · exact Or.inr ⟨d, h1, h2⟩

/-- The chain of the root holds the root only. -/
theorem onChain_root {m : Mem} {e x : Nat} (hroot : (m e)._dominator = some e)
    (h : OnChain m e x) : x = e := by
  induction h with
  | refl => rfl
  | tail _ hstep ih =>
    rw [ih, hroot] at hstep
    exact (Option.some.inj hstep).symm

/-- Numbers rise along a chain. -/
theorem onChain_eq_or_lt {mem0 m : Mem} {e : Nat} (hroot : (m e)._dominator = some e)
    (hup : ∀ u d, (m u)._dominator = some d → u ≠ e →
      (m d)._dominator.isSome ∧ (mem0 u)._number < (mem0 d)._number)
    {a b : Nat} (h : OnChain m a b) : a = b ∨ (mem0 a)._number < (mem0 b)._number := by
  induction h using Relation.ReflTransGen.head_induction_on with
  | refl => exact Or.inl rfl
  | @head a1 c hstep hrest ih =>
    by_cases ha : a1 = e
    · subst ha
      rw [hroot] at hstep
      have : a1 = c := Option.some.inj hstep
      subst this
      exact ih
    · have h1 := (hup a1 c hstep ha).2
      rcases ih with h2 | h2
      · subst h2
        exact Or.inr h1
      · exact Or.inr (by omega)

theorem onChain_le {mem0 m : Mem} {e : Nat} (hroot : (m e)._dominator = some e)
    (hup : ∀ u d, (m u)._dominator = some d → u ≠ e →
      (m d)._dominator.isSome ∧ (mem0 u)._number < (mem0 d)._number)
    {a b : Nat} (h : OnChain m a b) : (mem0 a)._number ≤ (mem0 b)._number := by
  rcases onChain_eq_or_lt hroot hup h with h1 | h1
  · rw [h1]
  · omega

/-- A chain that starts at a node with a dominator stays among such nodes. -/
theorem onChain_assigned {mem0 m : Mem} {e : Nat} (hroot : (m e)._dominator = some e)
    (hup : ∀ u d, (m u)._dominator = some d → u ≠ e →
      (m d)._dominator.isSome ∧ (mem0 u)._number < (mem0 d)._number)
    {a b : Nat} (h : OnChain m a b) (ha : (m a)._dominator.isSome) :
    (m b)._dominator.isSome := by
  induction h with
  | refl => exact ha
  | @tail b1 c _ hstep ih =>
    by_cases hb : b1 = e
    · subst hb
      rw [hroot] at hstep
      have : b1 = c := Option.some.inj hstep
      subst this
      exact ih
    · exact (hup b1 c hstep hb).1

/-- A chain that ends at another node than its start ends at a node with a
dominator. -/
theorem onChain_target_assigned {mem0 m : Mem} {e : Nat} (hroot : (m e)._dominator = some e)
    (hup : ∀ u d, (m u)._dominator = some d → u ≠ e →
      (m d)._dominator.isSome ∧ (mem0 u)._number < (mem0 d)._number)
    {a b : Nat} (h : OnChain m a b) (hab : a ≠ b) : (m b)._dominator.isSome := by
  rcases Relation.ReflTransGen.cases_tail h with h1 | ⟨c, _, hstep⟩
  · exact absurd h1.symm hab
  · by_cases hc : c = e
    · subst hc
      rw [hroot] at hstep
      have : c = b := Option.some.inj hstep
      subst this
      rw [hroot]; rfl
    · exact (hup c b hstep hc).1

/-- Two nodes on one chain: one is on the chain of the other. -/
theorem onChain_total {m : Mem} {a b c : Nat} (h1 : OnChain m a b) (h2 : OnChain m a c) :
    OnChain m b c ∨ OnChain m c b := by
  induction h1 using Relation.ReflTransGen.head_induction_on with
  | refl => exact Or.inl h2
  | @head a1 d hstep hrest ih =>
    rcases onChain_cases_head h2 with h3 | ⟨d2, h3, h4⟩
    · subst h3
      exact Or.inr (onChain_head hstep hrest)
    · rw [hstep] at h3
      have : d = d2 := Option.some.inj h3
      subst this
      exact ih h4

/-- The chains after the assignment `v->_dominator = z`, where `z` is numbered
above `v`: the part of the old chain up to `v`, and the chain of `z` when the
old chain passes `v`. -/
theorem onChain_setDominator {mem0 m : Mem} {e : Nat} (hroot : (m e)._dominator = some e)
    (hup : ∀ u d, (m u)._dominator = some d → u ≠ e →
      (m d)._dominator.isSome ∧ (mem0 u)._number < (mem0 d)._number)
    (v z : Nat) (hve : v ≠ e) (hvz : (mem0 v)._number < (mem0 z)._number) (a b : Nat) :
    OnChain (setDominator m v z) a b ↔
      (OnChain m a b ∧ ¬ (OnChain m a v ∧ (mem0 v)._number < (mem0 b)._number)) ∨
      (OnChain m a v ∧ OnChain m z b) := by
  have hkeep : ∀ a b, OnChain m a b →
      ¬ (OnChain m a v ∧ (mem0 v)._number < (mem0 b)._number) →
      OnChain (setDominator m v z) a b := by
    intro a b h
    induction h with
    | refl => intro _; exact onChain_refl _ _
    | @tail b1 c hab hstep ih =>
      intro hn
      have hle : (mem0 b1)._number ≤ (mem0 c)._number :=
        onChain_le hroot hup (onChain_tail (onChain_refl m b1) hstep)
      have hb1 : b1 ≠ v := by
        intro hb
        subst hb
        apply hn
        refine ⟨hab, ?_⟩
        exact (hup b1 c hstep hve).2
      refine onChain_tail (ih ?_) ?_
      · rintro ⟨h1, h2⟩
        exact hn ⟨h1, by omega⟩
      · rw [setDominator_dominator, if_neg hb1]
        exact hstep
  have hz : ¬ OnChain m z v := by
    intro h
    have := onChain_le hroot hup h
    omega
  constructor
  · intro h
    induction h with
    | refl =>
      refine Or.inl ⟨onChain_refl _ _, fun hn => ?_⟩
      have := onChain_le hroot hup hn.1
      omega
    | @tail b1 c hab hstep ih =>
      rw [setDominator_dominator] at hstep
      by_cases hb : b1 = v
      · subst hb
        rw [if_pos rfl] at hstep
        have : z = c := Option.some.inj hstep
        subst this
        rcases ih with ⟨h1, _⟩ | ⟨h1, _⟩
        · exact Or.inr ⟨h1, onChain_refl _ _⟩
        · exact Or.inr ⟨h1, onChain_refl _ _⟩
      · rw [if_neg hb] at hstep
        rcases ih with ⟨h1, h2⟩ | ⟨h1, h2⟩
        · left
          refine ⟨onChain_tail h1 hstep, ?_⟩
          rintro ⟨h3, h4⟩
          have hle : (mem0 b1)._number ≤ (mem0 v)._number := by
            by_contra hc
            exact h2 ⟨h3, by omega⟩
          rcases onChain_total h1 h3 with h5 | h5
          · rcases onChain_cases_head h5 with h6 | ⟨d, h6, h7⟩
            · exact hb h6
            · rw [hstep] at h6
              have : c = d := Option.some.inj h6
              subst this
              have := onChain_le hroot hup h7
              omega
          · rcases onChain_eq_or_lt hroot hup h5 with h6 | h6
            · exact hb h6.symm
            · omega
        · exact Or.inr ⟨h1, onChain_tail h2 hstep⟩
  · rintro (⟨h1, h2⟩ | ⟨h1, h2⟩)
    · exact hkeep a b h1 h2
    · have h3 : OnChain (setDominator m v z) a v := hkeep a v h1 (fun hn => by omega)
      have h4 : OnChain (setDominator m v z) z b := hkeep z b h2 (fun hn => hz hn.1)
      exact onChain_trans h3 (onChain_head (setDominator_same m v z) h4)

/-- The chain of a node numbered above `v` is not changed by an assignment to `v`. -/
theorem onChain_setDominator_above {mem0 m : Mem} {e : Nat}
    (hroot : (m e)._dominator = some e)
    (hup : ∀ u d, (m u)._dominator = some d → u ≠ e →
      (m d)._dominator.isSome ∧ (mem0 u)._number < (mem0 d)._number)
    (v z : Nat) (hve : v ≠ e) (hvz : (mem0 v)._number < (mem0 z)._number) (a b : Nat)
    (ha : (mem0 v)._number < (mem0 a)._number) :
    OnChain (setDominator m v z) a b ↔ OnChain m a b := by
  have hav : ¬ OnChain m a v := by
    intro h
    have := onChain_le hroot hup h
    omega
  rw [onChain_setDominator hroot hup v z hve hvz]
  constructor
  · rintro (⟨h1, _⟩ | ⟨h1, _⟩)
    · exact h1
    · exact absurd h1 hav
  · intro h
    exact Or.inl ⟨h, fun hn => hav hn.1⟩

end Decompiler

namespace Decompiler

/-! ### `dominatorIntersect` -/

/-- The inner loop of `dominatorIntersect` stops at the first node of the
chain of `u` that is numbered `bound` or higher. -/
theorem climb_spec {m : Mem} {e : Nat}
    (hup : ∀ u d, (m u)._dominator = some d → u ≠ e →
      (m d)._dominator.isSome ∧ (m u)._number < (m d)._number)
    (hle : ∀ a, (m a)._dominator.isSome → (m a)._number ≤ (m e)._number)
    (bound : Int) (hb : bound ≤ (m e)._number) :
    ∀ (fuel u : Nat), (m u)._dominator.isSome →
      ((m e)._number - (m u)._number).toNat < fuel →
      ∃ u1, climb fuel m u bound = some u1 ∧ OnChain m u u1 ∧ bound ≤ (m u1)._number ∧
        ∀ x, OnChain m u x → bound ≤ (m x)._number → OnChain m u1 x := by
  intro fuel
  induction fuel with
  | zero => intro u _ h; omega
  | succ fuel ih =>
    intro u hu hf
    unfold climb
    by_cases hlt : (m u)._number < bound
    · rw [if_pos hlt]
      obtain ⟨d, hd⟩ := Option.isSome_iff_exists.1 hu
      have hue : u ≠ e := by
        intro h
        rw [h] at hlt
        omega
      obtain ⟨hd1, hd2⟩ := hup u d hd hue
      have hd3 := hle d hd1
      obtain ⟨u1, h1, h2, h3, h4⟩ := ih d hd1 (by omega)
      simp only [hd]
      refine ⟨u1, h1, onChain_head hd h2, h3, ?_⟩
      intro x hx hbx
      rcases onChain_cases_head hx with h5 | ⟨d2, h5, h6⟩
      · rw [← h5] at hbx
        omega
      · rw [hd] at h5
        have : d = d2 := Option.some.inj h5
        subst this
        exact h4 x h6 hbx
    · rw [if_neg hlt]
      exact ⟨u, rfl, onChain_refl _ _, by omega, fun x hx _ => hx⟩

/-- The function `dominatorIntersect` returns: the chain of the node returned
holds the nodes that are on the chains of both arguments. -/
theorem dominatorIntersect_spec {m : Mem} {e : Nat} (hroot : (m e)._dominator = some e)
    (hup : ∀ u d, (m u)._dominator = some d → u ≠ e →
      (m d)._dominator.isSome ∧ (m u)._number < (m d)._number)
    (hle : ∀ a, (m a)._dominator.isSome → (m a)._number ≤ (m e)._number)
    (hinj : ∀ a b, (m a)._dominator.isSome → (m b)._dominator.isSome →
      (m a)._number = (m b)._number → a = b) :
    ∀ (fuel u v : Nat), (m u)._dominator.isSome → (m v)._dominator.isSome →
      (2 * (m e)._number - (m u)._number - (m v)._number).toNat < fuel →
      ∃ z, dominatorIntersect fuel m u v = some z ∧ (m z)._dominator.isSome ∧
        ∀ x, OnChain m z x ↔ OnChain m u x ∧ OnChain m v x := by
  intro fuel
  induction fuel with
  | zero => intro u v _ _ h; omega
  | succ fuel ih =>
    intro u v hu hv hf
    unfold dominatorIntersect
    by_cases huv : u = v
    · subst huv
      rw [if_pos rfl]
      exact ⟨u, rfl, hu, fun x => ⟨fun h => ⟨h, h⟩, fun h => h.1⟩⟩
    · rw [if_neg huv]
      have hue := hle u hu
      have hve := hle v hv
      obtain ⟨u1, a1, a2, a3, a4⟩ := climb_spec hup hle (m v)._number hve (fuel + 1) u hu
        (by omega)
      have hu1 := onChain_assigned hroot hup a2 hu
      have hu1e := hle u1 hu1
      obtain ⟨v1, b1, b2, b3, b4⟩ := climb_spec hup hle (m u1)._number hu1e (fuel + 1) v hv
        (by omega)
      have hv1 := onChain_assigned hroot hup b2 hv
      have hv1e := hle v1 hv1
      have hu1u := onChain_le hroot hup a2
      have hv1v := onChain_le hroot hup b2
      have hne : (m u)._number ≠ (m v)._number := fun h => huv (hinj u v hu hv h)
      obtain ⟨z, c1, c2, c3⟩ := ih u1 v1 hu1 hv1 (by omega)
      refine ⟨z, ?_, c2, ?_⟩
      · rw [a1, Option.some_bind, b1, Option.some_bind]
        exact c1
      · intro x
        rw [c3]
        constructor
        · rintro ⟨h1, h2⟩
          exact ⟨onChain_trans a2 h1, onChain_trans b2 h2⟩
        · rintro ⟨h1, h2⟩
          have h3 := onChain_le hroot hup h2
          have h4 := a4 x h1 h3
          have h5 := onChain_le hroot hup h4
          exact ⟨h4, b4 x h2 h5⟩

end Decompiler

namespace Decompiler

/-! ### The new estimate of `assignDominators` -/

/-- The search for the first predecessor with a dominator. -/
theorem dropWhile_unassigned (m : Mem) :
    ∀ l : List Nat, (∃ q ∈ l, (m q)._dominator.isSome) →
      ∃ p rest, l.dropWhile (fun p => (m p)._dominator.isNone) = p :: rest ∧
        (m p)._dominator.isSome ∧ p ∈ l ∧ (∀ q ∈ rest, q ∈ l) ∧
        ∀ q ∈ l, (m q)._dominator.isSome → q = p ∨ q ∈ rest := by
  intro l
  induction l with
  | nil => rintro ⟨q, hq, _⟩; simp at hq
  | cons a l ih =>
    intro hex
    cases ha : (m a)._dominator with
    | some d =>
      refine ⟨a, l, ?_, ?_, List.mem_cons_self _ _, fun q hq => List.mem_cons_of_mem _ hq, ?_⟩
      · rw [List.dropWhile_cons, ha]
        rfl
      · rw [ha]; rfl
      · intro q hq _
        exact List.mem_cons.1 hq
    | none =>
      have hex2 : ∃ q ∈ l, (m q)._dominator.isSome := by
        obtain ⟨q, hq, hq2⟩ := hex
        rcases List.mem_cons.1 hq with h | h
        · rw [h, ha] at hq2
          simp at hq2
        · exact ⟨q, h, hq2⟩
      obtain ⟨p, rest, h1, h2, h3, h4, h5⟩ := ih hex2
      refine ⟨p, rest, ?_, h2, List.mem_cons_of_mem _ h3,
        fun q hq => List.mem_cons_of_mem _ (h4 q hq), ?_⟩
      · rw [List.dropWhile_cons, ha]
        exact h1
      · intro q hq hq2
        rcases List.mem_cons.1 hq with h | h
        · rw [h, ha] at hq2
          simp at hq2
        · exact h5 q h hq2

/-- The loop over the later predecessors. -/
theorem meetFold_spec {m : Mem} {e : Nat} (hroot : (m e)._dominator = some e)
    (hup : ∀ u d, (m u)._dominator = some d → u ≠ e →
      (m d)._dominator.isSome ∧ (m u)._number < (m d)._number)
    (hle : ∀ a, (m a)._dominator.isSome → 0 ≤ (m a)._number ∧ (m a)._number ≤ (m e)._number)
    (hinj : ∀ a b, (m a)._dominator.isSome → (m b)._dominator.isSome →
      (m a)._number = (m b)._number → a = b)
    (fuel : Nat) (hfuel : (2 * (m e)._number).toNat < fuel) :
    ∀ (rest : List Nat) (dom0 : Nat), (m dom0)._dominator.isSome →
      ∃ z, rest.foldlM (fun dom q =>
          if (m q)._dominator.isSome then dominatorIntersect fuel m q dom else some dom) dom0 =
            some z ∧ (m z)._dominator.isSome ∧
        ∀ x, OnChain m z x ↔
          (OnChain m dom0 x ∧ ∀ p ∈ rest, (m p)._dominator.isSome → OnChain m p x) := by
  intro rest
  induction rest with
  | nil =>
    intro dom0 h0
    exact ⟨dom0, rfl, h0, fun x => ⟨fun h => ⟨h, fun p hp => by simp at hp⟩, fun h => h.1⟩⟩
  | cons q rest ih =>
    intro dom0 h0
    rw [List.foldlM_cons]
    by_cases hq : (m q)._dominator.isSome
    · have hq1 := hle q hq
      have h01 := hle dom0 h0
      obtain ⟨z1, a1, a2, a3⟩ := dominatorIntersect_spec hroot hup (fun a ha => (hle a ha).2)
        hinj fuel q dom0 hq h0 (by omega)
      obtain ⟨z, b1, b2, b3⟩ := ih z1 a2
      refine ⟨z, ?_, b2, ?_⟩
      · rw [if_pos hq, a1]
        exact b1
      · intro x
        rw [b3, a3]
        constructor
        · rintro ⟨⟨h1, h2⟩, h3⟩
          refine ⟨h2, fun p hp hp2 => ?_⟩
          rcases List.mem_cons.1 hp with h | h
          · rw [h]; exact h1
          · exact h3 p h hp2
        · rintro ⟨h1, h2⟩
          exact ⟨⟨h2 q (List.mem_cons_self _ _) hq, h1⟩,
            fun p hp hp2 => h2 p (List.mem_cons_of_mem _ hp) hp2⟩
    · obtain ⟨z, b1, b2, b3⟩ := ih dom0 h0
      refine ⟨z, ?_, b2, ?_⟩
      · rw [if_neg hq]
        exact b1
      · intro x
        rw [b3]
        constructor
        · rintro ⟨h1, h3⟩
          refine ⟨h1, fun p hp hp2 => ?_⟩
          rcases List.mem_cons.1 hp with h | h
          · rw [h] at hp2; exact absurd hp2 hq
          · exact h3 p h hp2
        · rintro ⟨h1, h2⟩
          exact ⟨h1, fun p hp hp2 => h2 p (List.mem_cons_of_mem _ hp) hp2⟩

/-- The new estimate for `v` is found as soon as a predecessor of `v` has a
dominator: its chain holds the nodes that are on the chain of every
predecessor with a dominator. -/
theorem newDominator_spec {m : Mem} {e : Nat} (hroot : (m e)._dominator = some e)
    (hup : ∀ u d, (m u)._dominator = some d → u ≠ e →
      (m d)._dominator.isSome ∧ (m u)._number < (m d)._number)
    (hle : ∀ a, (m a)._dominator.isSome → 0 ≤ (m a)._number ∧ (m a)._number ≤ (m e)._number)
    (hinj : ∀ a b, (m a)._dominator.isSome → (m b)._dominator.isSome →
      (m a)._number = (m b)._number → a = b)
    (fuel : Nat) (hfuel : (2 * (m e)._number).toNat < fuel) (v : Nat)
    (hex : ∃ q ∈ (m v)._in, (m q)._dominator.isSome) :
    ∃ z, newDominator fuel m v = some z ∧ (m z)._dominator.isSome ∧
      ∀ x, OnChain m z x ↔ ∀ p ∈ (m v)._in, (m p)._dominator.isSome → OnChain m p x := by
  obtain ⟨p, rest, h1, h2, h3, h4, h5⟩ := dropWhile_unassigned m (m v)._in hex
  obtain ⟨z, a1, a2, a3⟩ := meetFold_spec hroot hup hle hinj fuel hfuel rest p h2
  refine ⟨z, ?_, a2, ?_⟩
  · unfold newDominator
    rw [h1]
    exact a1
  · intro x
    rw [a3]
    constructor
    · rintro ⟨b1, b2⟩ q hq hq2
      rcases h5 q hq hq2 with h | h
      · rw [h]; exact b1
      · exact b2 q h hq2
    · intro h
      exact ⟨h p h3 h2, fun q hq hq2 => h q (h4 q hq) hq2⟩

end Decompiler

namespace Decompiler

/-! ### Dominance -/

/-- A walk that avoids `d`, as a path. -/
theorem path_of_avoiding (mem : Mem) (d e : Nat) (hde : d ≠ e) (u : Nat)
    (h : Avoiding mem d e u) :
    ∃ l : List Nat, IsPath mem l ∧ l.head? = some e ∧ l.getLast? = some u ∧ d ∉ l := by
  induction h with
  | refl =>
    exact ⟨[e], List.chain'_singleton _, rfl, rfl, by simpa using hde⟩
  | @tail b c _ hstep ih =>
    obtain ⟨l, h1, h2, h3, h4⟩ := ih
    refine ⟨l ++ [c], ?_, ?_, ?_, ?_⟩
    · refine List.Chain'.append h1 (List.chain'_singleton _) ?_
      intro x hx y hy
      rw [h3] at hx
      simp only [Option.mem_def, Option.some.injEq] at hx
      simp only [List.head?_cons, Option.mem_def, Option.some.injEq] at hy
      subst hx; subst hy
      exact hstep.1
    · cases l with
      | nil => simp at h2
      | cons a l => simpa using h2
    · simp
    · intro hm
      rcases List.mem_append.1 hm with h | h
      · exact h4 h
      · simp only [List.mem_singleton] at h
        exact hstep.2 h.symm

/-- A path that does not hold `d` is a walk that avoids `d`. -/
theorem avoiding_of_path (mem : Mem) (d : Nat) :
    ∀ (l : List Nat) (a u : Nat), IsPath mem l → l.head? = some a → l.getLast? = some u →
      d ∉ l → Avoiding mem d a u := by
  intro l
  induction l with
  | nil => intro a u _ h; simp at h
  | cons x l ih =>
    intro a u hp hh hl hd
    simp only [List.head?_cons, Option.some.injEq] at hh
    subst hh
    cases l with
    | nil =>
      simp only [List.getLast?_singleton, Option.some.injEq] at hl
      subst hl
      exact Relation.ReflTransGen.refl
    | cons y l =>
      have hp2 := List.chain'_cons.1 hp
      have hl2 : (y :: l).getLast? = some u := by
        rw [List.getLast?_cons_cons] at hl
        exact hl
      have hd2 : d ∉ y :: l := fun h => hd (List.mem_cons_of_mem _ h)
      have hy : y ≠ d := by
        intro h
        apply hd
        rw [← h]
        simp
      exact Relation.ReflTransGen.head ⟨hp2.1, hy⟩ (ih y u hp2.2 rfl hl2 hd2)

/-- Dominance read on walks: `d` dominates `u` when `d` is the entry or no walk
from the entry to `u` avoids `d`. -/
theorem dominates_iff (mem : Mem) (e d u : Nat) :
    Dominates mem e d u ↔ (d = e ∨ ¬ Avoiding mem d e u) := by
  constructor
  · intro h
    by_cases hde : d = e
    · exact Or.inl hde
    · right
      intro ha
      obtain ⟨l, h1, h2, h3, h4⟩ := path_of_avoiding mem d e hde u ha
      exact h4 (h l h1 h2 h3)
  · rintro (h | h) l h1 h2 h3
    · rw [h]
      cases l with
      | nil => simp at h2
      | cons a l =>
        simp only [List.head?_cons, Option.some.injEq] at h2
        rw [h2]
        simp
    · by_contra hd
      exact h (avoiding_of_path mem d l e u h1 h2 h3 hd)

theorem dominates_refl (mem : Mem) (e u : Nat) : Dominates mem e u u := by
  intro l _ _ h
  exact List.mem_of_mem_getLast? h

/-- The entry is dominated by itself only. -/
theorem dominates_entry (mem : Mem) (e x : Nat) (h : Dominates mem e x e) : x = e := by
  have := h [e] (List.chain'_singleton _) rfl rfl
  simpa using this

/-- A dominator of `u` other than `u` dominates every predecessor of `u`. -/
theorem dominates_pred (mem : Mem) (e x u p : Nat) (h : Dominates mem e x u) (hxu : x ≠ u)
    (hp : u ∈ (mem p)._out) : Dominates mem e x p := by
  rw [dominates_iff] at h ⊢
  rcases h with h | h
  · exact Or.inl h
  · right
    intro ha
    exact h (Relation.ReflTransGen.tail ha ⟨hp, fun h2 => hxu h2.symm⟩)

/-- A dominator of `u` dominates a node from which `u` is reached through
nodes with lower numbers than the dominator. -/
theorem dominates_low (mem : Mem) (e x u v : Nat) (bound : Int) (h : Dominates mem e x u)
    (hlow : Relation.TransGen (LowStep mem bound) v u) (hb : bound ≤ (mem x)._number) :
    Dominates mem e x v := by
  rw [dominates_iff] at h ⊢
  rcases h with h | h
  · exact Or.inl h
  · right
    intro ha
    apply h
    have : Relation.ReflTransGen (fun y z => z ∈ (mem y)._out ∧ z ≠ x) v u := by
      apply Relation.TransGen.to_reflTransGen
      refine Relation.TransGen.mono ?_ hlow
      rintro a b ⟨h1, h2⟩
      refine ⟨h1, ?_⟩
      intro hbx
      rw [hbx] at h2
      omega
    exact Relation.ReflTransGen.trans ha this

theorem lowStep_mono (mem : Mem) {b1 b2 : Int} (h : b1 ≤ b2) {x y : Nat}
    (hs : LowStep mem b1 x y) : LowStep mem b2 x y :=
  ⟨hs.1, by have := hs.2; omega⟩

/-- A node on the chain of `w` reaches `w` through nodes with lower numbers. -/
theorem low_of_onChain {mem0 m : Mem} {e : Nat} (hroot : (m e)._dominator = some e)
    (hup : ∀ u d, (m u)._dominator = some d → u ≠ e →
      (m d)._dominator.isSome ∧ (mem0 u)._number < (mem0 d)._number)
    (hlow : ∀ u d, (m u)._dominator = some d → u ≠ e →
      Relation.TransGen (LowStep mem0 (mem0 d)._number) d u)
    {w u : Nat} (h : OnChain m w u) :
    w = u ∨ Relation.TransGen (LowStep mem0 (mem0 u)._number) u w := by
  induction h using Relation.ReflTransGen.head_induction_on with
  | refl => exact Or.inl rfl
  | @head w1 d hstep hrest ih =>
    by_cases hw : w1 = e
    · subst hw
      rw [hroot] at hstep
      have : w1 = d := Option.some.inj hstep
      subst this
      exact ih
    · have h1 := hlow w1 d hstep hw
      rcases ih with h2 | h2
      · subst h2
        exact Or.inr h1
      · right
        have hle := onChain_le hroot hup hrest
        exact Relation.TransGen.trans h2
          (Relation.TransGen.mono (fun a b hab => lowStep_mono mem0 hle hab) h1)

end Decompiler

namespace Decompiler

/-! ### One assignment of `assignDominators` -/

theorem setDominator_isSome (m : Mem) (v z x : Nat) :
    ((setDominator m v z) x)._dominator.isSome = true ↔
      (x = v ∨ (m x)._dominator.isSome = true) := by
  rw [setDominator_dominator]
  by_cases h : x = v
  · simp [h]
  · simp [h]

/-- Lowering the cursor over numbers that no pending node has. -/
theorem domInv_lower {nodes : List Nat} {e : Nat} {mem0 m : Mem} {c c2 : Int}
    (inv : DomInv nodes e mem0 m c) (hle : c2 ≤ c)
    (hgap : ∀ u ∈ nodes, u ≠ e → (mem0 u)._number ≤ c → (mem0 u)._number ≤ c2) :
    DomInv nodes e mem0 m c2 := by
  refine ⟨inv.frame, inv.root, inv.inside, inv.up, ?_, inv.low, inv.meet, ?_, inv.doms⟩
  · intro u hu hc
    by_cases hue : u = e
    · rw [hue, inv.root]; rfl
    · apply inv.done u hu
      by_contra hn
      have := hgap u hu hue (by omega)
      omega
  · intro u d hd hue hp
    apply inv.via u d hd hue
    rcases hp with h | h
    · left
      by_contra hn
      have := hgap u (inv.inside u d hd).1 hue (by omega)
      omega
    · right; omega

/-- The state after the assignment `v->_dominator = z`, where `v` is the node
at the cursor and `z` the meet of its predecessors that have a dominator. -/
theorem domInv_step {nodes : List Nat} {e : Nat} {mem0 m : Mem} {c : Int}
    (ord : Ordered nodes e mem0) (inv : DomInv nodes e mem0 m c) (v z : Nat)
    (hv : v ∈ nodes) (hve : v ≠ e) (hc : (mem0 v)._number = c) (hz : IsMeet mem0 m v z) :
    DomInv nodes e mem0 (setDominator m v z) (c - 1) := by
  obtain ⟨q, hq, hqn⟩ := ord.parent v hv hve
  have hqa : (m q)._dominator.isSome := inv.done q (ord.inClosed v hv q hq) (by omega)
  have hqz : OnChain m q z := (hz.2 z).1 (onChain_refl _ _) q hq hqa
  have hvz : (mem0 v)._number < (mem0 z)._number := by
    have := onChain_le inv.root inv.up hqz
    omega
  have CH := onChain_setDominator inv.root inv.up v z hve hvz
  have ABOVE := onChain_setDominator_above inv.root inv.up v z hve hvz
  have hmono : (m v)._dominator.isSome → OnChain m v z := by
    intro h
    obtain ⟨d, hd⟩ := Option.isSome_iff_exists.1 h
    exact onChain_head hd (inv.meet v d hd hve z
      (fun p hp hpa => (hz.2 z).1 (onChain_refl _ _) p hp hpa))
  have hpv : ∀ p, (m p)._dominator.isSome → OnChain m p v → OnChain m p z := by
    intro p hp hpv
    by_cases h : p = v
    · rw [h]
      apply hmono
      rw [← h]
      exact hp
    · exact onChain_trans hpv (hmono (onChain_target_assigned inv.root inv.up hpv h))
  have hold : ∀ p x, (m p)._dominator.isSome → OnChain (setDominator m v z) p x →
      OnChain m p x := by
    intro p x hp h
    rcases (CH p x).1 h with ⟨h1, _⟩ | ⟨h1, h2⟩
    · exact h1
    · exact onChain_trans (hpv p hp h1) h2
  have hzn : z ∈ nodes := by
    obtain ⟨dz, hdz⟩ := Option.isSome_iff_exists.1 hz.1
    exact (inv.inside z dz hdz).1
  have hpreds : ∀ x, x ≠ v → Dominates mem0 e x v → OnChain m z x := by
    intro x hxv hx
    apply (hz.2 x).2
    intro p hp hpa
    exact inv.doms p hpa x (dominates_pred mem0 e x v p hx hxv (ord.mirror v hv p hp))
  refine ⟨sameButDominator_trans inv.frame (setDominator_frame m v z), ?_, ?_, ?_, ?_, ?_, ?_,
    ?_, ?_⟩
  · rw [setDominator_dominator, if_neg (fun h => hve h.symm)]
    exact inv.root
  · intro u d hd
    rw [setDominator_dominator] at hd
    by_cases huv : u = v
    · rw [if_pos huv] at hd
      have : z = d := Option.some.inj hd
      subst this
      rw [huv]
      exact ⟨hv, hzn⟩
    · rw [if_neg huv] at hd
      exact inv.inside u d hd
  · intro u d hd hue
    rw [setDominator_dominator] at hd
    by_cases huv : u = v
    · rw [if_pos huv] at hd
      have : z = d := Option.some.inj hd
      subst this
      rw [huv]
      exact ⟨(setDominator_isSome m v z z).2 (Or.inr hz.1), hvz⟩
    · rw [if_neg huv] at hd
      have := inv.up u d hd hue
      exact ⟨(setDominator_isSome m v z d).2 (Or.inr this.1), this.2⟩
  · intro u hu hcu
    rw [setDominator_isSome]
    by_cases huv : u = v
    · exact Or.inl huv
    · right
      apply inv.done u hu
      have : (mem0 u)._number ≠ (mem0 v)._number := fun h => huv (ord.inj u hu v hv h)
      omega
  · intro u d hd hue
    rw [setDominator_dominator] at hd
    by_cases huv : u = v
    · rw [if_pos huv] at hd
      have : z = d := Option.some.inj hd
      subst this
      rw [huv]
      have hstep : LowStep mem0 (mem0 z)._number q v := ⟨ord.mirror v hv q hq, hvz⟩
      rcases low_of_onChain inv.root inv.up inv.low hqz with h | h
      · rw [h] at hstep
        exact Relation.TransGen.single hstep
      · exact Relation.TransGen.tail h hstep
    · rw [if_neg huv] at hd
      exact inv.low u d hd hue
  · intro u d hd hue x H
    rw [setDominator_dominator] at hd
    by_cases huv : u = v
    · rw [if_pos huv] at hd
      have : z = d := Option.some.inj hd
      subst this
      rw [ABOVE z x hvz]
      apply (hz.2 x).2
      intro p hp hpa
      apply hold p x hpa
      rw [huv] at H
      exact H p hp ((setDominator_isSome m v z p).2 (Or.inr hpa))
    · rw [if_neg huv] at hd
      have hdx : OnChain m d x := by
        apply inv.meet u d hd hue x
        intro p hp hpa
        exact hold p x hpa (H p hp ((setDominator_isSome m v z p).2 (Or.inr hpa)))
      rw [CH d x]
      by_cases hbad : OnChain m d v ∧ (mem0 v)._number < (mem0 x)._number
      · right
        refine ⟨hbad.1, ?_⟩
        have hdle := onChain_le inv.root inv.up hbad.1
        obtain ⟨q2, hq2, hq2a, _, hq2d⟩ := inv.via u d hd hue (Or.inr (by omega))
        have := H q2 hq2 ((setDominator_isSome m v z q2).2 (Or.inr hq2a))
        rcases (CH q2 x).1 this with ⟨_, h2⟩ | ⟨_, h2⟩
        · exact absurd ⟨onChain_trans hq2d hbad.1, hbad.2⟩ h2
        · exact h2
      · exact Or.inl ⟨hdx, hbad⟩
  · intro u d hd hue hprem
    rw [setDominator_dominator] at hd
    by_cases huv : u = v
    · rw [if_pos huv] at hd
      have : z = d := Option.some.inj hd
      subst this
      rw [huv]
      refine ⟨q, hq, (setDominator_isSome m v z q).2 (Or.inr hqa), hqn, ?_⟩
      rw [ABOVE q z hqn]
      exact hqz
    · rw [if_neg huv] at hd
      have hun := (inv.inside u d hd).1
      have hne : (mem0 u)._number ≠ (mem0 v)._number := fun h => huv (ord.inj u hun v hv h)
      obtain ⟨q2, hq2, hq2a, hq2n, hq2d⟩ := inv.via u d hd hue (by omega)
      refine ⟨q2, hq2, (setDominator_isSome m v z q2).2 (Or.inr hq2a), hq2n, ?_⟩
      rw [CH q2 d]
      by_cases hbad : OnChain m q2 v ∧ (mem0 v)._number < (mem0 d)._number
      · exfalso
        have := onChain_le inv.root inv.up hbad.1
        have := hbad.2
        omega
      · exact Or.inl ⟨hq2d, hbad⟩
  · intro u hu x hx
    by_cases huv : u = v
    · rw [huv] at hx ⊢
      by_cases hxv : x = v
      · rw [hxv]
        exact onChain_refl _ _
      · apply onChain_head (setDominator_same m v z)
        rw [ABOVE z x hvz]
        exact hpreds x hxv hx
    · have hua : (m u)._dominator.isSome := by
        rcases (setDominator_isSome m v z u).1 hu with h | h
        · exact absurd h huv
        · exact h
      have hux := inv.doms u hua x hx
      rw [CH u x]
      by_cases hbad : OnChain m u v ∧ (mem0 v)._number < (mem0 x)._number
      · right
        refine ⟨hbad.1, ?_⟩
        rcases low_of_onChain inv.root inv.up inv.low hbad.1 with h | h
        · exact absurd h huv
        · apply hpreds x
          · intro hxv
            have := hbad.2
            rw [hxv] at this
            omega
          · exact dominates_low mem0 e x u v _ hx h (by have := hbad.2; omega)
      · exact Or.inl ⟨hux, hbad⟩

end Decompiler

namespace Decompiler

/-! ### One pass of `assignDominators` -/

/-- The facts about numbers that the functions of `assignDominators` use, read
on the store `m` itself. -/
theorem domInv_numbers {nodes : List Nat} {e : Nat} {mem0 m : Mem} {c : Int}
    (ord : Ordered nodes e mem0) (inv : DomInv nodes e mem0 m c) :
    (∀ x, (m x)._number = (mem0 x)._number) ∧
    (∀ u d, (m u)._dominator = some d → u ≠ e →
      (m d)._dominator.isSome ∧ (m u)._number < (m d)._number) ∧
    (∀ a, (m a)._dominator.isSome → 0 ≤ (m a)._number ∧ (m a)._number ≤ (m e)._number) ∧
    (∀ a b, (m a)._dominator.isSome → (m b)._dominator.isSome →
      (m a)._number = (m b)._number → a = b) := by
  have hnum : ∀ x, (m x)._number = (mem0 x)._number := fun x => (inv.frame x).2.2.2.1
  have hin : ∀ a, (m a)._dominator.isSome → a ∈ nodes := by
    intro a ha
    obtain ⟨d, hd⟩ := Option.isSome_iff_exists.1 ha
    exact (inv.inside a d hd).1
  refine ⟨hnum, ?_, ?_, ?_⟩
  · intro u d hd hue
    rw [hnum, hnum]
    exact inv.up u d hd hue
  · intro a ha
    rw [hnum, hnum]
    have := ord.pos a (hin a ha)
    omega
  · intro a b ha hb hab
    rw [hnum, hnum] at hab
    exact ord.inj a (hin a ha) b (hin b hb) hab

/-- The meet of the predecessors of the node at the cursor is numbered above
it, and lies on the chain of its dominator when it has one. -/
theorem meet_above {nodes : List Nat} {e : Nat} {mem0 m : Mem} {c : Int}
    (ord : Ordered nodes e mem0) (inv : DomInv nodes e mem0 m c) (v z : Nat)
    (hv : v ∈ nodes) (hve : v ≠ e) (hc : (mem0 v)._number = c) (hz : IsMeet mem0 m v z) :
    (mem0 v)._number < (mem0 z)._number ∧
      ∀ d, (m v)._dominator = some d → OnChain m d z := by
  obtain ⟨q, hq, hqn⟩ := ord.parent v hv hve
  have hqa : (m q)._dominator.isSome := inv.done q (ord.inClosed v hv q hq) (by omega)
  have hqz : OnChain m q z := (hz.2 z).1 (onChain_refl _ _) q hq hqa
  refine ⟨?_, ?_⟩
  · have := onChain_le inv.root inv.up hqz
    omega
  · intro d hd
    exact inv.meet v d hd hve z (fun p hp hpa => (hz.2 z).1 (onChain_refl _ _) p hp hpa)

theorem domNumber_setDominator_other (m : Mem) (v z u : Nat) (h : u ≠ v) :
    domNumber (setDominator m v z) u = domNumber m u := by
  unfold domNumber
  rw [setDominator_dominator, if_neg h]
  cases (m u)._dominator with
  | none => rfl
  | some d => simp only [(setDominator_frame m v z d).2.2.2.1]

theorem domNumber_setDominator_same (m : Mem) (v z : Nat) :
    domNumber (setDominator m v z) v = (m z)._number.toNat := by
  unfold domNumber
  rw [setDominator_same]
  simp only [(setDominator_frame m v z z).2.2.2.1]

/-- The number of the dominator does not fall in an assignment, and rises when
the dominator changes. -/
theorem domNumber_step {nodes : List Nat} {e : Nat} {mem0 m : Mem} {c : Int}
    (ord : Ordered nodes e mem0) (inv : DomInv nodes e mem0 m c) (v z : Nat)
    (hv : v ∈ nodes) (hve : v ≠ e) (hc : (mem0 v)._number = c) (hz : IsMeet mem0 m v z) :
    (∀ u, domNumber m u ≤ domNumber (setDominator m v z) u) ∧
    ((m v)._dominator ≠ some z → domNumber m v < domNumber (setDominator m v z) v) := by
  obtain ⟨h1, h2⟩ := meet_above ord inv v z hv hve hc hz
  have hnum : ∀ x, (m x)._number = (mem0 x)._number := fun x => (inv.frame x).2.2.2.1
  have hpos := (ord.pos v hv).1
  have key : domNumber m v ≤ (m z)._number.toNat ∧
      ((m v)._dominator ≠ some z → domNumber m v < (m z)._number.toNat) := by
    unfold domNumber
    cases hd : (m v)._dominator with
    | none =>
      simp only
      rw [hnum]
      exact ⟨by omega, fun _ => by omega⟩
    | some d =>
      simp only
      rw [hnum, hnum]
      rcases onChain_eq_or_lt inv.root inv.up (h2 d hd) with h | h
      · rw [h]
        exact ⟨le_refl _, fun hn => absurd rfl hn⟩
      · exact ⟨by omega, fun _ => by omega⟩
  refine ⟨?_, ?_⟩
  · intro u
    by_cases hu : u = v
    · rw [hu, domNumber_setDominator_same]
      exact key.1
    · rw [domNumber_setDominator_other m v z u hu]
  · intro hn
    rw [domNumber_setDominator_same]
    exact key.2 hn

/-- A pass with the flag set ends with the flag set. -/
theorem dominatorPass_changed (fuel : Nat) :
    ∀ (rest : List Nat) (m m2 : Mem) (ch2 : Bool),
      dominatorPass fuel m true rest = some (m2, ch2) → ch2 = true := by
  intro rest
  induction rest with
  | nil =>
    intro m m2 ch2 h
    simp only [dominatorPass, Option.some.injEq, Prod.mk.injEq] at h
    exact h.2.symm
  | cons v rest ih =>
    intro m m2 ch2 h
    unfold dominatorPass at h
    cases hz : newDominator fuel m v with
    | none => rw [hz] at h; simp at h
    | some z =>
      rw [hz, Option.some_bind] at h
      split at h
      · exact ih _ m2 ch2 h
      · exact ih _ m2 ch2 h

/-- One pass over the nodes that are still to be processed, by descending
number: it returns, keeps the invariant, does not lower the number of any
dominator, raises one when it sets the flag, and when it leaves the flag unset
the store is unchanged and every node of the pass has the meet of its
predecessors as dominator. -/
theorem dominatorPass_spec {nodes : List Nat} {e : Nat} {mem0 : Mem}
    (ord : Ordered nodes e mem0) (fuel : Nat) (hfuel : (2 * (mem0 e)._number).toNat < fuel) :
    ∀ (rest : List Nat) (m : Mem) (c : Int) (changed : Bool), DomInv nodes e mem0 m c →
      rest.Pairwise (fun a b => (mem0 b)._number < (mem0 a)._number) →
      (∀ u ∈ rest, u ∈ nodes ∧ u ≠ e) →
      (∀ u ∈ nodes, u ≠ e → ((mem0 u)._number ≤ c ↔ u ∈ rest)) →
      ∃ m2 ch2, dominatorPass fuel m changed rest = some (m2, ch2) ∧
        (∃ c2, DomInv nodes e mem0 m2 c2 ∧ ∀ u ∈ nodes, u ≠ e → c2 < (mem0 u)._number) ∧
        (∀ u, domNumber m u ≤ domNumber m2 u) ∧
        (ch2 = true → changed = true ∨ ∃ u ∈ rest, domNumber m u < domNumber m2 u) ∧
        (ch2 = false → m2 = m ∧
          ∀ u ∈ rest, ∃ z, (m u)._dominator = some z ∧ IsMeet mem0 m u z) := by
  intro rest
  induction rest with
  | nil =>
    intro m c changed inv _ _ hiff
    refine ⟨m, changed, rfl, ⟨c, inv, ?_⟩, fun u => le_refl _, ?_, ?_⟩
    · intro u hu hue
      by_contra hn
      have := (hiff u hu hue).1 (by omega)
      simp at this
    · intro h; exact Or.inl h
    · intro _
      exact ⟨rfl, fun u hu => by simp at hu⟩
  | cons v rest ih =>
    intro m c changed inv hsort hsub hiff
    obtain ⟨hv, hve⟩ := hsub v (List.mem_cons_self _ _)
    have hsort2 := List.pairwise_cons.1 hsort
    have hvc : (mem0 v)._number ≤ c := (hiff v hv hve).2 (List.mem_cons_self _ _)
    have inv1 : DomInv nodes e mem0 m (mem0 v)._number := by
      apply domInv_lower inv hvc
      intro u hu hue huc
      rcases List.mem_cons.1 ((hiff u hu hue).1 huc) with h | h
      · rw [h]
      · have := hsort2.1 u h
        omega
    obtain ⟨hnum, hup, hle, hinj⟩ := domInv_numbers ord inv1
    have hinv : ∀ x, (m x)._in = (mem0 x)._in := fun x => (inv1.frame x).2.1
    obtain ⟨q, hq, hqn⟩ := ord.parent v hv hve
    have hqa : (m q)._dominator.isSome := inv1.done q (ord.inClosed v hv q hq) hqn
    obtain ⟨z, hz1, hz2, hz3⟩ := newDominator_spec inv1.root hup hle hinj fuel
      (by rw [hnum]; exact hfuel) v ⟨q, by rw [hinv]; exact hq, hqa⟩
    have hmeet : IsMeet mem0 m v z := ⟨hz2, fun x => by rw [hz3 x, hinv]⟩
    have inv2 := domInv_step ord inv1 v z hv hve rfl hmeet
    obtain ⟨hw1, hw2⟩ := domNumber_step ord inv1 v z hv hve rfl hmeet
    have hiff2 : ∀ u ∈ nodes, u ≠ e → ((mem0 u)._number ≤ (mem0 v)._number - 1 ↔ u ∈ rest) := by
      intro u hu hue
      constructor
      · intro h
        rcases List.mem_cons.1 ((hiff u hu hue).1 (by omega)) with h2 | h2
        · rw [h2] at h
          omega
        · exact h2
      · intro h
        have := hsort2.1 u h
        omega
    have hsub2 : ∀ u ∈ rest, u ∈ nodes ∧ u ≠ e := fun u hu => hsub u (List.mem_cons_of_mem _ hu)
    unfold dominatorPass
    rw [hz1, Option.some_bind]
    by_cases hch : (m v)._dominator = some z
    · rw [if_neg (not_not.2 hch)]
      rw [setDominator_self m v z hch] at inv2
      obtain ⟨m2, ch2, a1, a2, a3, a4, a5⟩ := ih m _ changed inv2 hsort2.2 hsub2 hiff2
      refine ⟨m2, ch2, a1, a2, a3, ?_, ?_⟩
      · intro h
        rcases a4 h with h2 | ⟨u, hu, h2⟩
        · exact Or.inl h2
        · exact Or.inr ⟨u, List.mem_cons_of_mem _ hu, h2⟩
      · intro h
        obtain ⟨b1, b2⟩ := a5 h
        refine ⟨b1, ?_⟩
        intro u hu
        rcases List.mem_cons.1 hu with h2 | h2
        · rw [h2]
          exact ⟨z, hch, hmeet⟩
        · exact b2 u h2
    · rw [if_pos hch]
      obtain ⟨m2, ch2, a1, a2, a3, _, _⟩ := ih (setDominator m v z) _ true inv2 hsort2.2 hsub2
        hiff2
      have hch2 : ch2 = true := dominatorPass_changed fuel rest _ m2 ch2 a1
      refine ⟨m2, ch2, a1, a2, fun u => le_trans (hw1 u) (a3 u), ?_, ?_⟩
      · intro _
        right
        exact ⟨v, List.mem_cons_self _ _, lt_of_lt_of_le (hw2 hch) (a3 v)⟩
      · intro h
        rw [hch2] at h
        exact absurd h (by simp)

end Decompiler

namespace Decompiler

/-! ### The loop of `assignDominators` -/

/-- After a full pass the cursor can be put back above all nodes. -/
theorem domInv_raise {nodes : List Nat} {e : Nat} {mem0 m : Mem} {c : Int}
    (inv : DomInv nodes e mem0 m c) (h : ∀ u ∈ nodes, u ≠ e → c < (mem0 u)._number)
    (c2 : Int) : DomInv nodes e mem0 m c2 := by
  refine ⟨inv.frame, inv.root, inv.inside, inv.up, ?_, inv.low, inv.meet, ?_, inv.doms⟩
  · intro u hu _
    by_cases hue : u = e
    · rw [hue, inv.root]; rfl
    · exact inv.done u hu (h u hu hue)
  · intro u d hd hue _
    exact inv.via u d hd hue (Or.inl (h u (inv.inside u d hd).1 hue))

theorem domNumber_le {nodes : List Nat} {e : Nat} {mem0 m : Mem} {c : Int}
    (ord : Ordered nodes e mem0) (inv : DomInv nodes e mem0 m c) (u : Nat) :
    domNumber m u ≤ (mem0 e)._number.toNat := by
  unfold domNumber
  cases hd : (m u)._dominator with
  | none => exact Nat.zero_le _
  | some d =>
    simp only
    rw [(inv.frame d).2.2.2.1]
    have := ord.pos d (inv.inside u d hd).2
    omega

/-- The loop on `changed` returns when the number of passes allowed exceeds
what the numbers of the dominators can still rise by; every node of the pass
then has the meet of its predecessors as dominator. -/
theorem dominatorLoop_spec {nodes : List Nat} {e : Nat} {mem0 : Mem}
    (ord : Ordered nodes e mem0) (fuel : Nat) (hfuel : (2 * (mem0 e)._number).toNat < fuel)
    (l : List Nat) (hsort : l.Pairwise (fun a b => (mem0 b)._number < (mem0 a)._number))
    (hsub : ∀ u ∈ l, u ∈ nodes ∧ u ≠ e) (hall : ∀ u ∈ nodes, u ≠ e → u ∈ l) :
    ∀ (passes : Nat) (m : Mem) (c : Int), DomInv nodes e mem0 m c →
      (∀ u ∈ nodes, u ≠ e → (mem0 u)._number ≤ c) →
      l.length * (mem0 e)._number.toNat + 1 ≤ passes + (l.map (domNumber m)).sum →
      ∃ m2 c2, dominatorLoop passes fuel m l = some m2 ∧ DomInv nodes e mem0 m2 c2 ∧
        (∀ u ∈ nodes, u ≠ e → c2 < (mem0 u)._number) ∧
        ∀ u ∈ l, ∃ z, (m2 u)._dominator = some z ∧ IsMeet mem0 m2 u z := by
  have hbound : ∀ (m : Mem) (c : Int), DomInv nodes e mem0 m c →
      (l.map (domNumber m)).sum ≤ l.length * (mem0 e)._number.toNat := by
    intro m c inv
    have := List.sum_le_card_nsmul (l.map (domNumber m)) (mem0 e)._number.toNat (by
      intro x hx
      obtain ⟨u, _, rfl⟩ := List.mem_map.1 hx
      exact domNumber_le ord inv u)
    simpa using this
  intro passes
  induction passes with
  | zero =>
    intro m c inv _ hw
    have := hbound m c inv
    omega
  | succ passes ih =>
    intro m c inv hc hw
    obtain ⟨m2, ch2, a1, ⟨c2, a2, a3⟩, a4, a5, a6⟩ := dominatorPass_spec ord fuel hfuel l m c
      false inv hsort hsub (fun u hu hue => ⟨fun _ => hall u hu hue, fun _ => hc u hu hue⟩)
    unfold dominatorLoop
    rw [a1, Option.some_bind]
    cases hch : ch2 with
    | true =>
      simp only [if_true]
      rcases a5 hch with h | h
      · exact absurd h (by simp)
      · have hlt : (l.map (domNumber m)).sum < (l.map (domNumber m2)).sum :=
          List.sum_lt_sum _ _ (fun u _ => a4 u) h
        exact ih m2 (mem0 e)._number (domInv_raise a2 a3 _)
          (fun u hu _ => (ord.pos u hu).2) (by omega)
    | false =>
      simp only [Bool.false_eq_true, if_false]
      obtain ⟨b1, b2⟩ := a6 hch
      refine ⟨m2, c2, rfl, a2, a3, ?_⟩
      rw [b1]
      exact b2

/-- At the fixpoint, the nodes on the chain of `u` dominate `u`. -/
theorem onChain_dominates {nodes : List Nat} {e : Nat} {mem0 m : Mem}
    (ord : Ordered nodes e mem0) (hroot : (m e)._dominator = some e)
    (hall : ∀ u ∈ nodes, (m u)._dominator.isSome)
    (hfix : ∀ u ∈ nodes, u ≠ e → ∃ z, (m u)._dominator = some z ∧ IsMeet mem0 m u z)
    (u x : Nat) (h : OnChain m u x) : Dominates mem0 e x u := by
  rw [dominates_iff]
  by_cases hxe : x = e
  · exact Or.inl hxe
  · right
    intro ha
    have key : u ∈ nodes ∧ ¬ OnChain m u x := by
      clear h
      induction ha with
      | refl =>
        exact ⟨ord.entry, fun h => hxe (onChain_root hroot h)⟩
      | @tail p u2 _ hstep ih =>
        obtain ⟨hp, hnp⟩ := ih
        obtain ⟨hu2, hpin⟩ := ord.outClosed p hp u2 hstep.1
        refine ⟨hu2, ?_⟩
        intro hc
        rcases onChain_cases_head hc with h1 | ⟨d, h1, h2⟩
        · exact hstep.2 h1
        · by_cases hue : u2 = e
          · rw [hue, hroot] at h1
            have : e = d := Option.some.inj h1
            rw [← this] at h2
            exact hxe (onChain_root hroot h2)
          · obtain ⟨z, hz1, hz2⟩ := hfix u2 hu2 hue
            rw [hz1] at h1
            have : z = d := Option.some.inj h1
            subst this
            exact hnp ((hz2.2 x).1 h2 p hpin (hall p hp))
    exact key.2 h

end Decompiler

namespace Decompiler

/-! ### `assignDominators` reads and writes the nodes of the graph only -/

theorem climb_local (nodes : List Nat) (m1 m2 : Mem) (hag : ∀ x ∈ nodes, m1 x = m2 x)
    (hcl : DomClosed nodes m2) (bound : Int) :
    ∀ (fuel u : Nat), u ∈ nodes →
      climb fuel m1 u bound = climb fuel m2 u bound ∧
        ∀ r, climb fuel m2 u bound = some r → r ∈ nodes := by
  intro fuel
  induction fuel with
  | zero =>
    intro u _
    exact ⟨rfl, fun r h => by simp [climb] at h⟩
  | succ fuel ih =>
    intro u hu
    unfold climb
    rw [hag u hu]
    by_cases hlt : (m2 u)._number < bound
    · rw [if_pos hlt, if_pos hlt]
      cases hd : (m2 u)._dominator with
      | none => exact ⟨rfl, fun r h => by simp at h⟩
      | some d => exact ih d (hcl.1 u hu d hd)
    · rw [if_neg hlt, if_neg hlt]
      refine ⟨rfl, fun r h => ?_⟩
      rw [← Option.some.inj h]
      exact hu

theorem dominatorIntersect_local (nodes : List Nat) (m1 m2 : Mem)
    (hag : ∀ x ∈ nodes, m1 x = m2 x) (hcl : DomClosed nodes m2) :
    ∀ (fuel u v : Nat), u ∈ nodes → v ∈ nodes →
      dominatorIntersect fuel m1 u v = dominatorIntersect fuel m2 u v ∧
        ∀ r, dominatorIntersect fuel m2 u v = some r → r ∈ nodes := by
  intro fuel
  induction fuel with
  | zero =>
    intro u v _ _
    exact ⟨rfl, fun r h => by simp [dominatorIntersect] at h⟩
  | succ fuel ih =>
    intro u v hu hv
    unfold dominatorIntersect
    by_cases huv : u = v
    · rw [if_pos huv, if_pos huv]
      refine ⟨rfl, fun r h => ?_⟩
      rw [← Option.some.inj h]
      exact hu
    · rw [if_neg huv, if_neg huv]
      obtain ⟨a1, a2⟩ := climb_local nodes m1 m2 hag hcl (m2 v)._number (fuel + 1) u hu
      rw [hag v hv, a1]
      cases hc1 : climb (fuel + 1) m2 u (m2 v)._number with
      | none => exact ⟨rfl, fun r h => by simp at h⟩
      | some u1 =>
        have hu1 := a2 u1 hc1
        obtain ⟨b1, b2⟩ := climb_local nodes m1 m2 hag hcl (m2 u1)._number (fuel + 1) v hv
        simp only [Option.some_bind]
        rw [hag u1 hu1, b1]
        cases hc2 : climb (fuel + 1) m2 v (m2 u1)._number with
        | none => exact ⟨rfl, fun r h => by simp at h⟩
        | some v1 =>
          simp only [Option.some_bind]
          exact ih u1 v1 hu1 (b2 v1 hc2)

theorem dropWhile_agree {p1 p2 : Nat → Bool} :
    ∀ l : List Nat, (∀ x ∈ l, p1 x = p2 x) → l.dropWhile p1 = l.dropWhile p2 := by
  intro l
  induction l with
  | nil => intro _; rfl
  | cons a l ih =>
    intro h
    rw [List.dropWhile_cons, List.dropWhile_cons, h a (List.mem_cons_self _ _),
      ih (fun x hx => h x (List.mem_cons_of_mem _ hx))]

theorem meetFold_local (nodes : List Nat) (m1 m2 : Mem) (hag : ∀ x ∈ nodes, m1 x = m2 x)
    (hcl : DomClosed nodes m2) (fuel : Nat) :
    ∀ (rest : List Nat) (dom0 : Nat), (∀ q ∈ rest, q ∈ nodes) → dom0 ∈ nodes →
      rest.foldlM (fun dom q =>
          if (m1 q)._dominator.isSome then dominatorIntersect fuel m1 q dom else some dom) dom0 =
        rest.foldlM (fun dom q =>
          if (m2 q)._dominator.isSome then dominatorIntersect fuel m2 q dom else some dom) dom0 ∧
      ∀ r, rest.foldlM (fun dom q =>
          if (m2 q)._dominator.isSome then dominatorIntersect fuel m2 q dom else some dom) dom0 =
        some r → r ∈ nodes := by
  intro rest
  induction rest with
  | nil =>
    intro dom0 _ h0
    refine ⟨rfl, fun r h => ?_⟩
    simp only [List.foldlM_nil] at h
    rw [← Option.some.inj h]
    exact h0
  | cons q rest ih =>
    intro dom0 hrest h0
    have hq := hrest q (List.mem_cons_self _ _)
    have hrest2 : ∀ q ∈ rest, q ∈ nodes := fun x hx => hrest x (List.mem_cons_of_mem _ hx)
    rw [List.foldlM_cons, List.foldlM_cons, hag q hq]
    by_cases hqa : (m2 q)._dominator.isSome
    · rw [if_pos hqa, if_pos hqa]
      obtain ⟨a1, a2⟩ := dominatorIntersect_local nodes m1 m2 hag hcl fuel q dom0 hq h0
      rw [a1]
      cases hc : dominatorIntersect fuel m2 q dom0 with
      | none => exact ⟨rfl, fun r h => by simp at h⟩
      | some z => exact ih z hrest2 (a2 z hc)
    · rw [if_neg hqa, if_neg hqa]
      exact ih dom0 hrest2 h0

theorem newDominator_local (nodes : List Nat) (m1 m2 : Mem) (hag : ∀ x ∈ nodes, m1 x = m2 x)
    (hcl : DomClosed nodes m2) (fuel v : Nat) (hv : v ∈ nodes) :
    newDominator fuel m1 v = newDominator fuel m2 v ∧
      ∀ r, newDominator fuel m2 v = some r → r ∈ nodes := by
  unfold newDominator
  rw [hag v hv]
  have hin := hcl.2 v hv
  have hd : (m2 v)._in.dropWhile (fun p => (m1 p)._dominator.isNone) =
      (m2 v)._in.dropWhile (fun p => (m2 p)._dominator.isNone) :=
    dropWhile_agree _ (fun x hx => by simp only [hag x (hin x hx)])
  rw [hd]
  have hsub : ∀ x ∈ (m2 v)._in.dropWhile (fun p => (m2 p)._dominator.isNone), x ∈ nodes :=
    fun x hx => hin x ((List.dropWhile_sublist _).subset hx)
  cases hl : (m2 v)._in.dropWhile (fun p => (m2 p)._dominator.isNone) with
  | nil => exact ⟨rfl, fun r h => by simp at h⟩
  | cons p rest =>
    rw [hl] at hsub
    exact meetFold_local nodes m1 m2 hag hcl fuel rest p
      (fun q hq => hsub q (List.mem_cons_of_mem _ hq)) (hsub p (List.mem_cons_self _ _))

theorem domClosed_setDominator (nodes : List Nat) (m : Mem) (hcl : DomClosed nodes m)
    (v z : Nat) (hz : z ∈ nodes) : DomClosed nodes (setDominator m v z) := by
  refine ⟨?_, ?_⟩
  · intro x hx d hd
    rw [setDominator_dominator] at hd
    by_cases hxv : x = v
    · rw [if_pos hxv] at hd
      rw [← Option.some.inj hd]
      exact hz
    · rw [if_neg hxv] at hd
      exact hcl.1 x hx d hd
  · intro x hx p hp
    rw [(setDominator_frame m v z x).2.1] at hp
    exact hcl.2 x hx p hp

/-- A pass on a store that agrees with `m2` on the nodes goes as on `m2`. -/
theorem dominatorPass_local (nodes : List Nat) (fuel : Nat) :
    ∀ (rest : List Nat) (m1 m2 : Mem) (ch : Bool), (∀ u ∈ rest, u ∈ nodes) →
      (∀ x ∈ nodes, m1 x = m2 x) → DomClosed nodes m2 →
      ∀ r2, dominatorPass fuel m2 ch rest = some r2 →
        ∃ r1, dominatorPass fuel m1 ch rest = some r1 ∧ r1.2 = r2.2 ∧
          (∀ x ∈ nodes, r1.1 x = r2.1 x) ∧ DomClosed nodes r2.1 ∧
          ∀ x, x ∉ nodes → r1.1 x = m1 x := by
  intro rest
  induction rest with
  | nil =>
    intro m1 m2 ch _ hag hcl r2 h
    simp only [dominatorPass, Option.some.injEq] at h
    subst h
    exact ⟨(m1, ch), rfl, rfl, hag, hcl, fun _ _ => rfl⟩
  | cons v rest ih =>
    intro m1 m2 ch hsub hag hcl r2 h
    have hv := hsub v (List.mem_cons_self _ _)
    have hsub2 : ∀ u ∈ rest, u ∈ nodes := fun u hu => hsub u (List.mem_cons_of_mem _ hu)
    obtain ⟨a1, a2⟩ := newDominator_local nodes m1 m2 hag hcl fuel v hv
    unfold dominatorPass at h ⊢
    rw [a1]
    cases hz : newDominator fuel m2 v with
    | none => rw [hz] at h; simp at h
    | some z =>
      rw [hz, Option.some_bind] at h
      rw [Option.some_bind, hag v hv]
      have hzn := a2 z hz
      by_cases hch : (m2 v)._dominator = some z
      · rw [if_neg (not_not.2 hch)] at h ⊢
        exact ih m1 m2 ch hsub2 hag hcl r2 h
      · rw [if_pos hch] at h ⊢
        obtain ⟨r1, b1, b2, b3, b4, b5⟩ := ih (setDominator m1 v z) (setDominator m2 v z) true
          hsub2 (by
            intro x hx
            by_cases hxv : x = v
            · subst hxv
              simp only [setDominator, Mem.modify_same]
              rw [hag x hx]
            · rw [setDominator_other m1 v z x hxv, setDominator_other m2 v z x hxv]
              exact hag x hx)
          (domClosed_setDominator nodes m2 hcl v z hzn) r2 h
        refine ⟨r1, b1, b2, b3, b4, ?_⟩
        intro x hx
        rw [b5 x hx]
        exact setDominator_other m1 v z x (fun hxv => hx (by rw [hxv]; exact hv))

/-- The loop on a store that agrees with `m2` on the nodes goes as on `m2`. -/
theorem dominatorLoop_local (nodes : List Nat) (fuel : Nat) (l : List Nat)
    (hsub : ∀ u ∈ l, u ∈ nodes) :
    ∀ (passes : Nat) (m1 m2 : Mem), (∀ x ∈ nodes, m1 x = m2 x) → DomClosed nodes m2 →
      ∀ r2, dominatorLoop passes fuel m2 l = some r2 →
        ∃ r1, dominatorLoop passes fuel m1 l = some r1 ∧ (∀ x ∈ nodes, r1 x = r2 x) ∧
          ∀ x, x ∉ nodes → r1 x = m1 x := by
  intro passes
  induction passes with
  | zero =>
    intro m1 m2 _ _ r2 h
    simp [dominatorLoop] at h
  | succ passes ih =>
    intro m1 m2 hag hcl r2 h
    unfold dominatorLoop at h ⊢
    cases hp : dominatorPass fuel m2 false l with
    | none => rw [hp] at h; simp at h
    | some p2 =>
      obtain ⟨p1, a1, a2, a3, a4, a5⟩ := dominatorPass_local nodes fuel l m1 m2 false hsub hag
        hcl p2 hp
      rw [hp, Option.some_bind] at h
      rw [a1, Option.some_bind, a2]
      by_cases hch : p2.2 = true
      · rw [if_pos hch] at h ⊢
        obtain ⟨r1, b1, b2, b3⟩ := ih p1.1 p2.1 a3 a4 r2 h
        exact ⟨r1, b1, b2, fun x hx => by rw [b3 x hx, a5 x hx]⟩
      · rw [if_neg hch] at h ⊢
        rw [← Option.some.inj h]
        exact ⟨p1.1, rfl, a3, a5⟩

end Decompiler

namespace Decompiler

/-! ### `assignDominators` on a numbered graph -/

theorem clearOutside_inside (nodes : List Nat) (mem : Mem) (x : Nat) (hx : x ∈ nodes) :
    clearOutside nodes mem x = mem x := by
  unfold clearOutside
  rw [if_pos hx]

theorem clearOutside_frame (nodes : List Nat) (mem : Mem) :
    SameButDominator mem (clearOutside nodes mem) := by
  intro x
  unfold clearOutside
  split <;> exact ⟨rfl, rfl, rfl, rfl, rfl, rfl, rfl⟩

theorem clearOutside_dominator (nodes : List Nat) (mem : Mem)
    (hfresh : ∀ u ∈ nodes, (mem u)._dominator = none) (x : Nat) :
    (clearOutside nodes mem x)._dominator = none := by
  unfold clearOutside
  split
  · rename_i hx; exact hfresh x hx
  · rfl

/-- The list of the pass: the nodes other than the entry, by descending number. -/
theorem passList_spec {nodes : List Nat} {e : Nat} {mem : Mem} (ord : Ordered nodes e mem) :
    (∀ u, u ∈ ((inPostOrder mem nodes).reverse).filter (fun u => u ≠ e) ↔
      (u ∈ nodes ∧ u ≠ e)) ∧
    (((inPostOrder mem nodes).reverse).filter (fun u => u ≠ e)).Pairwise
      (fun a b => (mem b)._number < (mem a)._number) ∧
    (((inPostOrder mem nodes).reverse).filter (fun u => u ≠ e)).length ≤ nodes.length := by
  have hmem : ∀ u, u ∈ ((inPostOrder mem nodes).reverse).filter (fun u => u ≠ e) ↔
      (u ∈ nodes ∧ u ≠ e) := by
    intro u
    rw [List.mem_filter, mem_inPostOrder]
    simp
  have hperm : (inPostOrder mem nodes).Perm nodes := List.perm_insertionSort _ _
  refine ⟨hmem, ?_, ?_⟩
  · have h1 : ((inPostOrder mem nodes).reverse).Pairwise
        (fun a b => (mem b)._number ≤ (mem a)._number) := inPostOrder_descending mem nodes
    have h2 : ((inPostOrder mem nodes).reverse).Nodup :=
      List.nodup_reverse.2 (hperm.nodup_iff.2 ord.nodup)
    have h3 := (h1.and h2).filter (fun u => decide (u ≠ e))
    refine List.Pairwise.imp_of_mem ?_ h3
    intro a b ha hb hab
    have ha2 := ((hmem a).1 ha).1
    have hb2 := ((hmem b).1 hb).1
    have hne : (mem a)._number ≠ (mem b)._number := fun h => hab.2 (ord.inj a ha2 b hb2 h)
    have := hab.1
    omega
  · calc (((inPostOrder mem nodes).reverse).filter (fun u => u ≠ e)).length
        ≤ ((inPostOrder mem nodes).reverse).length := List.length_filter_le _ _
      _ = nodes.length := by rw [List.length_reverse, hperm.length_eq]

/-- The state in which `assignDominators` enters its loop. -/
theorem domInv_start {nodes : List Nat} {e : Nat} {mem : Mem} (ord : Ordered nodes e mem)
    (hfresh : ∀ u ∈ nodes, (mem u)._dominator = none) :
    DomInv nodes e mem (setDominator (clearOutside nodes mem) e e) (mem e)._number := by
  have hnone : ∀ u, u ≠ e →
      ((setDominator (clearOutside nodes mem) e e) u)._dominator = none := by
    intro u hu
    rw [setDominator_dominator, if_neg hu]
    exact clearOutside_dominator nodes mem hfresh u
  have hsome : ∀ u d, ((setDominator (clearOutside nodes mem) e e) u)._dominator = some d →
      u = e ∧ d = e := by
    intro u d hd
    by_cases hu : u = e
    · rw [hu, setDominator_same] at hd
      exact ⟨hu, (Option.some.inj hd).symm⟩
    · rw [hnone u hu] at hd
      simp at hd
  refine ⟨sameButDominator_trans (clearOutside_frame nodes mem) (setDominator_frame _ e e),
    setDominator_same _ e e, ?_, ?_, ?_, ?_, ?_, ?_, ?_⟩
  · intro u d hd
    obtain ⟨h1, h2⟩ := hsome u d hd
    rw [h1, h2]
    exact ⟨ord.entry, ord.entry⟩
  · intro u d hd hue
    exact absurd (hsome u d hd).1 hue
  · intro u hu hc
    have := (ord.pos u hu).2
    omega
  · intro u d hd hue
    exact absurd (hsome u d hd).1 hue
  · intro u d hd hue
    exact absurd (hsome u d hd).1 hue
  · intro u d hd hue
    exact absurd (hsome u d hd).1 hue
  · intro u hu x hx
    obtain ⟨d, hd⟩ := Option.isSome_iff_exists.1 hu
    rw [(hsome u d hd).1] at hx ⊢
    rw [dominates_entry mem e x hx]
    exact onChain_refl _ _

/-- The loop of `assignDominators` on a graph whose numbers are in order and
whose nodes have no dominator yet: it returns a store that agrees, on the nodes,
with a store `m2` in which the invariant holds and every node other than the
entry has the meet of its predecessors as dominator. -/
theorem assignDominators_run (g : ControlFlowGraph) (e : Nat)
    (ord : Ordered g._nodes e g.mem) (hfresh : ∀ u ∈ g._nodes, (g.mem u)._dominator = none)
    (fuel : Nat) (hfuel : (g._nodes.length + 1) * (g._nodes.length + 1) < fuel) :
    ∃ r1 m2 c2, dominatorLoop fuel fuel (setDominator g.mem e e)
        (((inPostOrder g.mem g._nodes).reverse).filter (fun u => u ≠ e)) = some r1 ∧
      (∀ x ∈ g._nodes, r1 x = m2 x) ∧ (∀ x, x ∉ g._nodes → r1 x = g.mem x) ∧
      DomInv g._nodes e g.mem m2 c2 ∧ (∀ u ∈ g._nodes, (m2 u)._dominator.isSome) ∧
      ∀ u ∈ g._nodes, u ≠ e → ∃ z, (m2 u)._dominator = some z ∧ IsMeet g.mem m2 u z := by
  obtain ⟨hmem, hsort, hlen⟩ := passList_spec ord
  have hE : (g.mem e)._number.toNat ≤ g._nodes.length := by
    have := ord.bound
    omega
  have hsq : (g._nodes.length + 1) * (g._nodes.length + 1) =
      g._nodes.length * g._nodes.length + 2 * g._nodes.length + 1 := by ring
  have hprod : (((inPostOrder g.mem g._nodes).reverse).filter (fun u => u ≠ e)).length *
      (g.mem e)._number.toNat ≤ g._nodes.length * g._nodes.length := Nat.mul_le_mul hlen hE
  have hf2 : (2 * (g.mem e)._number).toNat < fuel := by
    have := ord.bound
    omega
  obtain ⟨m2, c2, a1, inv2, a3, hfix⟩ := dominatorLoop_spec ord fuel hf2 _ hsort
    (fun u hu => (hmem u).1 hu) (fun u hu hue => (hmem u).2 ⟨hu, hue⟩) fuel
    (setDominator (clearOutside g._nodes g.mem) e e) (g.mem e)._number
    (domInv_start ord hfresh) (fun u hu _ => (ord.pos u hu).2) (by omega)
  have hcl : DomClosed g._nodes (setDominator (clearOutside g._nodes g.mem) e e) := by
    refine ⟨?_, ?_⟩
    · intro x _ d hd
      exact ((domInv_start ord hfresh).inside x d hd).2
    · intro x hx p hp
      rw [((domInv_start ord hfresh).frame x).2.1] at hp
      exact ord.inClosed x hx p hp
  obtain ⟨r1, b1, b2, b3⟩ := dominatorLoop_local g._nodes fuel _ (fun u hu => ((hmem u).1 hu).1)
    fuel (setDominator g.mem e e) (setDominator (clearOutside g._nodes g.mem) e e) (by
      intro x hx
      by_cases hxe : x = e
      · subst hxe
        simp only [setDominator, Mem.modify_same]
        rw [clearOutside_inside _ _ x hx]
      · rw [setDominator_other _ e e x hxe, setDominator_other _ e e x hxe,
          clearOutside_inside _ _ x hx]) hcl m2 a1
  refine ⟨r1, m2, c2, b1, b2, ?_, inv2, ?_, ?_⟩
  · intro y hy
    rw [b3 y hy, setDominator_other _ e e y (fun h => hy (by rw [h]; exact ord.entry))]
  · intro u hu
    by_cases hue : u = e
    · rw [hue, inv2.root]; rfl
    · exact inv2.done u hu (a3 u hu hue)
  · exact fun u hu hue => hfix u ((hmem u).2 ⟨hu, hue⟩)

/-- The result of `assignDominators` on a graph whose numbers are in order and
whose nodes have no dominator yet. -/
theorem assignDominators_spec (g : ControlFlowGraph) (e : Nat) (he : g._entry = some e)
    (ord : Ordered g._nodes e g.mem) (hfresh : ∀ u ∈ g._nodes, (g.mem u)._dominator = none)
    (fuel : Nat) (hfuel : (g._nodes.length + 1) * (g._nodes.length + 1) < fuel) :
    ∃ g2, assignDominators fuel g = some g2 ∧ g2._nodes = g._nodes ∧ g2._entry = g._entry ∧
      SameButDominator g.mem g2.mem ∧ (g2.mem e)._dominator = none ∧
      ∀ u ∈ g._nodes, u ≠ e → ∃ d, (g2.mem u)._dominator = some d ∧ d ∈ g._nodes ∧
        (g.mem u)._number < (g.mem d)._number ∧ Dominates g.mem e d u ∧
        ∀ x, x ≠ u → Dominates g.mem e x u → Dominates g.mem e x d := by
  obtain ⟨r1, m2, c2, b1, b2, b3, inv2, hall, hfix2⟩ := assignDominators_run g e ord hfresh fuel
    hfuel
  refine ⟨{ g with mem := r1.modify e (fun x => { x with _dominator := none }) }, ?_, rfl, rfl,
    ?_, ?_, ?_⟩
  · unfold assignDominators
    rw [he]
    simp only
    have : dominatorLoop fuel fuel (g.mem.modify e (fun x => { x with _dominator := some e }))
        (((inPostOrder g.mem g._nodes).reverse).filter (fun u => u ≠ e)) = some r1 := b1
    rw [this]
    rfl
  · have h1 : SameButDominator g.mem r1 := by
      intro y
      by_cases hy : y ∈ g._nodes
      · rw [b2 y hy]
        exact inv2.frame y
      · rw [b3 y hy]
        exact ⟨rfl, rfl, rfl, rfl, rfl, rfl, rfl⟩
    have h2 : SameButDominator r1 (r1.modify e (fun x => { x with _dominator := none })) := by
      intro y
      by_cases hy : y = e
      · subst hy
        rw [Mem.modify_same]
        exact ⟨rfl, rfl, rfl, rfl, rfl, rfl, rfl⟩
      · rw [Mem.modify_other _ _ _ _ hy]
        exact ⟨rfl, rfl, rfl, rfl, rfl, rfl, rfl⟩
    exact sameButDominator_trans h1 h2
  · show ((r1.modify e (fun x => { x with _dominator := none })) e)._dominator = none
    simp only [Mem.modify_same]
  · intro u hu hue
    obtain ⟨z, hz1, hz2⟩ := hfix2 u hu hue
    refine ⟨z, ?_, (inv2.inside u z hz1).2, (inv2.up u z hz1 hue).2, ?_, ?_⟩
    · show ((r1.modify e (fun x => { x with _dominator := none })) u)._dominator = some z
      rw [Mem.modify_other _ _ _ _ hue, b2 u hu]
      exact hz1
    · exact onChain_dominates ord inv2.root hall hfix2 u z (onChain_head hz1 (onChain_refl _ _))
    · intro x hxu hx
      have h1 := inv2.doms u (hall u hu) x hx
      rcases onChain_cases_head h1 with h2 | ⟨d, h2, h3⟩
      · exact absurd h2.symm hxu
      · rw [hz1] at h2
        have : z = d := Option.some.inj h2
        subst this
        exact onChain_dominates ord inv2.root hall hfix2 z x h3

end Decompiler

namespace Decompiler

/-! ### From `orderNodes` to `assignDominators` -/

/-- The numbers that `orderNodes` leaves on a graph whose nodes are all
reachable from the entry are in order for `assignDominators`. -/
theorem ordered_of_postOrder (g : ControlFlowGraph) (e : Nat) (hen : e ∈ g._nodes)
    (hnd : g._nodes.Nodup) (hcl : EdgesClosed g) (hsym : EdgeSymmetric g)
    (hreach : ∀ u ∈ g._nodes, Reach g.mem e u) (m1 : Mem)
    (hpo : PostOrder g._nodes e g.mem m1) : Ordered g._nodes e m1 := by
  have hin : ∀ x, (m1 x)._in = (g.mem x)._in := fun x => (hpo.frame x).2.1
  have hout : ∀ x, (m1 x)._out = (g.mem x)._out := fun x => (hpo.frame x).2.2.1
  refine ⟨hen, hnd, ?_, ?_, ?_, ?_, ?_, ?_, ?_⟩
  · intro u hu p hp
    rw [hin] at hp
    exact (hcl u hu).2 p hp
  · intro u hu p hp
    rw [hin] at hp
    rw [hout]
    exact out_of_in g._nodes g.mem hsym p u ((hcl u hu).2 p hp) hu hp
  · intro p hp u hu
    rw [hout] at hu
    rw [hin]
    exact ⟨(hcl p hp).1 u hu, in_of_out g._nodes g.mem hsym p u hp ((hcl p hp).1 u hu) hu⟩
  · intro u hu
    exact hpo.pos u (hreach u hu)
  · intro u hu v hv h
    exact hpo.inj u v (hreach u hu) (hreach v hv) h
  · intro u hu hue
    obtain ⟨p, hp1, hp2, hp3⟩ := hpo.parent u (hreach u hu) hue
    have hpn : p ∈ g._nodes := reach_nodes g._nodes g.mem (fun x hx => (hcl x hx).1) e p hen hp1
    refine ⟨p, ?_, hp3⟩
    rw [hin]
    exact in_of_out g._nodes g.mem hsym p u hpn hu hp2
  · obtain ⟨post, h1, h2, h3, _⟩ := postOrder_list g._nodes e g.mem m1 hpo
    have hsub : post ⊆ g._nodes := fun x hx =>
      reach_nodes g._nodes g.mem (fun x hx => (hcl x hx).1) e x hen ((h2 x).1 hx)
    have := (h1.subperm hsub).length_le
    omega

theorem isPath_congr {m1 m2 : Mem} (h : ∀ x, (m2 x)._out = (m1 x)._out) (l : List Nat)
    (hp : IsPath m1 l) : IsPath m2 l := by
  unfold IsPath at hp ⊢
  exact List.Chain'.imp (fun a b hab => by rw [h]; exact hab) hp

/-- Dominance depends on the successor lists only. -/
theorem dominates_congr {m1 m2 : Mem} (h : ∀ x, (m2 x)._out = (m1 x)._out) (e d u : Nat) :
    Dominates m2 e d u ↔ Dominates m1 e d u :=
  ⟨fun hd l hl => hd l (isPath_congr h l hl),
   fun hd l hl => hd l (isPath_congr (fun x => (h x).symm) l hl)⟩

/-- Following dominators that are numbered higher ends at the entry, on nodes
of the graph with rising numbers. -/
theorem dominatorPath_spec (nodes : List Nat) (e : Nat) (mem : Mem) (he : e ∈ nodes)
    (hroot : (mem e)._dominator = none)
    (hle : ∀ u ∈ nodes, (mem u)._number ≤ (mem e)._number)
    (hinj : ∀ u ∈ nodes, (mem u)._number = (mem e)._number → u = e)
    (hdom : ∀ u ∈ nodes, u ≠ e → ∃ d, (mem u)._dominator = some d ∧ d ∈ nodes ∧
      (mem u)._number < (mem d)._number) :
    ∀ (k u : Nat), u ∈ nodes → ((mem e)._number - (mem u)._number).toNat ≤ k →
      (dominatorPath k mem u).getLast? = some e ∧
      (∀ x ∈ dominatorPath k mem u, x ∈ nodes ∧ (mem u)._number ≤ (mem x)._number) ∧
      (dominatorPath k mem u).Pairwise (fun a b => (mem a)._number < (mem b)._number) := by
  intro k
  induction k with
  | zero =>
    intro u hu hk
    have hue : u = e := hinj u hu (by have := hle u hu; omega)
    subst hue
    refine ⟨rfl, ?_, List.pairwise_singleton _ _⟩
    intro x hx
    simp only [dominatorPath, List.mem_singleton] at hx
    rw [hx]
    exact ⟨hu, le_refl _⟩
  | succ k ih =>
    intro u hu hk
    unfold dominatorPath
    by_cases hue : u = e
    · subst hue
      rw [hroot]
      refine ⟨rfl, ?_, List.pairwise_singleton _ _⟩
      intro x hx
      simp only [List.mem_singleton] at hx
      rw [hx]
      exact ⟨hu, le_refl _⟩
    · obtain ⟨d, hd1, hd2, hd3⟩ := hdom u hu hue
      rw [hd1]
      have hdle := hle d hd2
      obtain ⟨a1, a2, a3⟩ := ih d hd2 (by omega)
      refine ⟨?_, ?_, ?_⟩
      · simp only
        cases hp : dominatorPath k mem d with
        | nil => rw [hp] at a1; simp at a1
        | cons y l =>
          rw [List.getLast?_cons_cons, ← hp]
          exact a1
      · intro x hx
        rcases List.mem_cons.1 hx with h | h
        · rw [h]; exact ⟨hu, le_refl _⟩
        · have := a2 x h
          exact ⟨this.1, by omega⟩
      · refine List.pairwise_cons.2 ⟨?_, a3⟩
        intro x hx
        have := (a2 x hx).2
        omega

end Decompiler

namespace Decompiler

/-! ### A second call of `assignDominators` -/

/-- The meet of the predecessors is unique. -/
theorem isMeet_unique {mem0 m : Mem} {e : Nat} (hroot : (m e)._dominator = some e)
    (hup : ∀ u d, (m u)._dominator = some d → u ≠ e →
      (m d)._dominator.isSome ∧ (mem0 u)._number < (mem0 d)._number)
    (v z z2 : Nat) (h1 : IsMeet mem0 m v z) (h2 : IsMeet mem0 m v z2) : z = z2 := by
  have a1 : OnChain m z z2 := (h1.2 z2).2 ((h2.2 z2).1 (onChain_refl _ _))
  have a2 : OnChain m z2 z := (h2.2 z).2 ((h1.2 z).1 (onChain_refl _ _))
  rcases onChain_eq_or_lt hroot hup a1 with h | h
  · exact h
  · rcases onChain_eq_or_lt hroot hup a2 with h3 | h3
    · exact h3.symm
    · omega

/-- A pass over nodes that all have their new estimate as dominator changes
nothing. -/
theorem dominatorPass_fix (fuel : Nat) (m : Mem) :
    ∀ (rest : List Nat) (ch : Bool),
      (∀ v ∈ rest, ∃ z, newDominator fuel m v = some z ∧ (m v)._dominator = some z) →
      dominatorPass fuel m ch rest = some (m, ch) := by
  intro rest
  induction rest with
  | nil => intro ch _; rfl
  | cons v rest ih =>
    intro ch h
    obtain ⟨z, hz1, hz2⟩ := h v (List.mem_cons_self _ _)
    unfold dominatorPass
    rw [hz1, Option.some_bind, if_neg (not_not.2 hz2)]
    exact ih ch (fun u hu => h u (List.mem_cons_of_mem _ hu))

theorem dominatorLoop_fix (fuel passes : Nat) (m : Mem) (l : List Nat)
    (h : ∀ v ∈ l, ∃ z, newDominator fuel m v = some z ∧ (m v)._dominator = some z) :
    dominatorLoop (passes + 1) fuel m l = some m := by
  unfold dominatorLoop
  rw [dominatorPass_fix fuel m l false h, Option.some_bind]
  simp

theorem insertionSort_rel {r1 r2 : Nat → Nat → Prop} [i1 : DecidableRel r1]
    [i2 : DecidableRel r2] (h : r1 = r2) (l : List Nat) :
    l.insertionSort r1 = l.insertionSort r2 := by
  subst h
  have : i1 = i2 := Subsingleton.elim _ _
  subst this
  rfl

/-- The list sorted by `inPostOrder` depends on the numbers only. -/
theorem inPostOrder_congr (m1 m2 : Mem) (h : ∀ x, (m2 x)._number = (m1 x)._number)
    (nodes : List Nat) : inPostOrder m2 nodes = inPostOrder m1 nodes := by
  unfold inPostOrder
  apply insertionSort_rel
  funext a b
  unfold postOrderLe
  rw [h, h]

/-- On its own result `assignDominators` returns and changes nothing. -/
theorem assignDominators_again (g : ControlFlowGraph) (e : Nat) (he : g._entry = some e)
    (ord : Ordered g._nodes e g.mem) (hfresh : ∀ u ∈ g._nodes, (g.mem u)._dominator = none)
    (fuel : Nat) (hfuel : (g._nodes.length + 1) * (g._nodes.length + 1) < fuel) :
    ∃ g2, assignDominators fuel g = some g2 ∧ assignDominators fuel g2 = some g2 := by
  obtain ⟨r1, m2, c2, b1, b2, b3, inv2, hall, hfix2⟩ := assignDominators_run g e ord hfresh fuel
    hfuel
  obtain ⟨hmem, _, _⟩ := passList_spec ord
  obtain ⟨hnum, hup, hle, hinj⟩ := domInv_numbers ord inv2
  have hf2 : (2 * (m2 e)._number).toNat < fuel := by
    rw [hnum]
    have := ord.bound
    have hsq : (g._nodes.length + 1) * (g._nodes.length + 1) =
        g._nodes.length * g._nodes.length + 2 * g._nodes.length + 1 := by ring
    omega
  have hcl : DomClosed g._nodes m2 := by
    refine ⟨fun x _ d hd => (inv2.inside x d hd).2, ?_⟩
    intro x hx p hp
    rw [(inv2.frame x).2.1] at hp
    exact ord.inClosed x hx p hp
  have hr1e : (r1 e)._dominator = some e := by
    rw [b2 e ord.entry]
    exact inv2.root
  have hnum1 : ∀ x, (r1 x)._number = (g.mem x)._number := by
    intro x
    by_cases hx : x ∈ g._nodes
    · rw [b2 x hx]
      exact hnum x
    · rw [b3 x hx]
  have hfixed : ∀ v ∈ ((inPostOrder g.mem g._nodes).reverse).filter (fun u => u ≠ e),
      ∃ z, newDominator fuel r1 v = some z ∧ (r1 v)._dominator = some z := by
    intro v hv
    obtain ⟨hvn, hve⟩ := (hmem v).1 hv
    obtain ⟨z, hz1, hz2⟩ := hfix2 v hvn hve
    obtain ⟨q, hq, _⟩ := ord.parent v hvn hve
    have hin : (m2 v)._in = (g.mem v)._in := (inv2.frame v).2.1
    obtain ⟨z2, c1, c2, c3⟩ := newDominator_spec inv2.root hup hle hinj fuel hf2 v
      ⟨q, by rw [hin]; exact hq, hall q (ord.inClosed v hvn q hq)⟩
    have hmeet : IsMeet g.mem m2 v z2 := ⟨c2, fun x => by rw [c3 x, hin]⟩
    have hzz : z = z2 := isMeet_unique inv2.root inv2.up v z z2 hz2 hmeet
    refine ⟨z, ?_, ?_⟩
    · rw [(newDominator_local g._nodes r1 m2 b2 hcl fuel v hvn).1, c1, hzz]
    · rw [b2 v hvn]
      exact hz1
  obtain ⟨f, hf⟩ : ∃ f, fuel = f + 1 := ⟨fuel - 1, by omega⟩
  have hloop : dominatorLoop fuel fuel r1
      (((inPostOrder g.mem g._nodes).reverse).filter (fun u => u ≠ e)) = some r1 := by
    have := dominatorLoop_fix fuel f r1 _ hfixed
    rw [← hf] at this
    exact this
  have hback : (r1.modify e (fun x => { x with _dominator := none })).modify e
      (fun x => { x with _dominator := some e }) = r1 := by
    funext x
    by_cases hx : x = e
    · subst hx
      simp only [Mem.modify_same]
      rw [← hr1e]
    · rw [Mem.modify_other _ _ _ _ hx, Mem.modify_other _ _ _ _ hx]
  have hsort : inPostOrder (r1.modify e (fun x => { x with _dominator := none })) g._nodes =
      inPostOrder g.mem g._nodes := by
    apply inPostOrder_congr
    intro x
    by_cases hx : x = e
    · subst hx
      rw [Mem.modify_same]
      exact hnum1 x
    · rw [Mem.modify_other _ _ _ _ hx]
      exact hnum1 x
  refine ⟨{ g with mem := r1.modify e (fun x => { x with _dominator := none }) }, ?_, ?_⟩
  · unfold assignDominators
    rw [he]
    simp only
    have : dominatorLoop fuel fuel (g.mem.modify e (fun x => { x with _dominator := some e }))
        (((inPostOrder g.mem g._nodes).reverse).filter (fun u => u ≠ e)) = some r1 := b1
    rw [this]
    rfl
  · unfold assignDominators
    simp only [he]
    rw [hback, hsort, hloop]
    rfl

end Decompiler

namespace Decompiler

/-- C1: on an empty graph `addNodesFromScript` succeeds for a stream with
unique ascending addresses and valid jump targets, and the nodes it creates
are, in order, the maximal runs of the stream: no node is empty, the
instruction lists of the nodes concatenate to the stream, and an instruction
other than the first begins a node exactly when its address is a jump target
or the instruction before it is a jump. -/
theorem addNodesFromScript_maximal_runs (script : List Instruction) (hasc : Ascending script)
    (hv : TargetsValid script) :
    ∃ g, addNodesFromScript ControlFlowGraph.empty script = some g ∧
      (∀ n ∈ g._nodes, (g.mem n)._instructions ≠ []) ∧
      (g._nodes.map (fun n => (g.mem n)._instructions)).flatten = script ∧
      ∀ (k : Nat) (i j : Instruction), script[k]? = some i → script[k + 1]? = some j →
        ((∃ n ∈ g._nodes, (g.mem n)._instructions.head? = some j) ↔
          ((∃ x ∈ script, x.asJump = some j._addr) ∨ i.asJump.isSome = true)) := by
  obtain ⟨g, h1, h2, h3, _, _⟩ := addNodesFromScript_spec script hasc hv
  have hmap : g._nodes.map (fun n => (g.mem n)._instructions) = scriptRuns script := by
    rw [h2]
    exact map_range_eq _ _ h3
  refine ⟨g, h1, ?_, ?_, ?_⟩
  · intro n hn
    rw [h2] at hn
    have hnl : n < (scriptRuns script).length := List.mem_range.1 hn
    have hb : (scriptRuns script)[n]? = some ((scriptRuns script)[n]) :=
      List.getElem?_eq_getElem hnl
    rw [h3 n _ hb]
    exact scriptRuns_ne_nil script _ (List.getElem?_mem hb)
  · rw [hmap, scriptRuns_flatten]
  · intro k i j hi hj
    have hbegin : (∃ n ∈ g._nodes, (g.mem n)._instructions.head? = some j) ↔
        some j ∈ (scriptRuns script).map List.head? := by
      rw [← hmap, List.map_map, List.mem_map]
      constructor
      · rintro ⟨n, hn, e⟩; exact ⟨n, hn, e⟩
      · rintro ⟨n, hn, e⟩; exact ⟨n, hn, e⟩
    rw [hbegin]
    cases script with
    | nil => simp at hi
    | cons i0 rest =>
      rw [scriptRuns_heads]
      have hne : j ≠ i0 := by
        intro e
        have := script_index_inj (i0 :: rest) hasc (k + 1) 0 j i0 hj (by simp) (by rw [e])
        omega
      have hjrest : j ∈ rest := by
        simp only [List.getElem?_cons_succ] at hj
        exact List.getElem?_mem hj
      have hT : contains (markTargets (i0 :: rest) []) j._addr = true ↔
          Marked (i0 :: rest) j._addr := by
        rw [contains_markTargets]
        simp [contains, mapFind]
      constructor
      · intro hmem
        rcases List.mem_cons.1 hmem with e | e
        · exact absurd (Option.some.inj e) hne
        · obtain ⟨x, hx, hxe⟩ := List.mem_map.1 e
          have hxj : x = j := Option.some.inj hxe
          subst hxj
          have hmk := hT.1 (by simpa using (List.mem_filter.1 hx).2)
          rcases marked_cases _ _ hmk with ⟨y, hy, hyj⟩ | ⟨k1, i1, j1, a1, a2, a3, a4⟩
          · exact Or.inl ⟨y, hy, hyj⟩
          · right
            have hk := script_index_inj (i0 :: rest) hasc (k1 + 1) (k + 1) j1 x a2 hj a4
            have hk1 : k1 = k := by omega
            subst hk1
            rw [hi] at a1
            have : i = i1 := Option.some.inj a1
            rw [this]; exact a3
      · intro hrhs
        have hmk : Marked (i0 :: rest) j._addr := by
          rcases hrhs with ⟨x, hx, hxj⟩ | hjump
          · exact marked_of_jump _ x _ hx hxj
          · exact marked_after_jump _ k i j hi hj hjump
        apply List.mem_cons_of_mem
        exact List.mem_map.2 ⟨j, List.mem_filter.2 ⟨hjrest, by simpa using hT.2 hmk⟩, rfl⟩

/-- Witness for C1: the stream of the end-to-end example. -/
theorem addNodesFromScript_maximal_runs_witness :
    Ascending exampleScript ∧ TargetsValid exampleScript ∧
    ∃ g, addNodesFromScript ControlFlowGraph.empty exampleScript = some g ∧
      (∀ n ∈ g._nodes, (g.mem n)._instructions ≠ []) ∧
      (g._nodes.map (fun n => (g.mem n)._instructions)).flatten = exampleScript ∧
      ∀ (k : Nat) (i j : Instruction), exampleScript[k]? = some i →
        exampleScript[k + 1]? = some j →
        ((∃ n ∈ g._nodes, (g.mem n)._instructions.head? = some j) ↔
          ((∃ x ∈ exampleScript, x.asJump = some j._addr) ∨ i.asJump.isSome = true)) :=
  ⟨by decide, by decide, addNodesFromScript_maximal_runs exampleScript (by decide) (by decide)⟩

/-- C2: for a stream with unique ascending addresses and valid jump targets,
the successor list of the `j`-th node built by `addNodesFromScript` is: first
the node that begins at the target address when the last instruction of the
node is a jump, then the node `j + 1` when it exists and the last instruction
is no unconditional jump; so a node has at most two successors. -/
theorem addNodesFromScript_successors (script : List Instruction) (hasc : Ascending script)
    (hv : TargetsValid script) :
    ∃ g, addNodesFromScript ControlFlowGraph.empty script = some g ∧
      ∀ (j n : Nat), g._nodes[j]? = some n →
        ∃ lastI, (g.mem n)._instructions.getLast? = some lastI ∧
          (g.mem n)._out = jumpSuccessors g lastI ++ fallSuccessors g j lastI ∧
          (jumpSuccessors g lastI).length = (if lastI.asJump.isSome then 1 else 0) ∧
          (g.mem n)._out.length ≤ 2 := by
  obtain ⟨g, h1, h2, h3, h4, h5⟩ := addNodesFromScript_spec script hasc hv
  refine ⟨g, h1, ?_⟩
  intro j n hjn
  have hjl : j < (scriptRuns script).length := by
    have := (List.getElem?_eq_some.1 hjn).1
    rw [h2] at this
    simpa using this
  have hnj : n = j := by
    rw [h2, List.getElem?_range hjl] at hjn
    exact (Option.some.inj hjn).symm
  subst hnj
  have hb : (scriptRuns script)[n]? = some ((scriptRuns script)[n]) :=
    List.getElem?_eq_getElem hjl
  have hbm := List.getElem?_mem hb
  have hne := scriptRuns_ne_nil script _ hbm
  cases hl : ((scriptRuns script)[n]).getLast? with
  | none => exact absurd (List.getLast?_eq_none_iff.1 hl) hne
  | some lastI =>
    have hls : lastI ∈ script :=
      mem_script_of_run script _ hbm lastI (List.mem_of_getLast?_eq_some hl)
    have hout := h4 n _ lastI hb hl
    have hlen := h5 lastI hls
    refine ⟨lastI, by rw [h3 n _ hb]; exact hl, hout, hlen, ?_⟩
    rw [hout, List.length_append, hlen]
    have hf : (fallSuccessors g n lastI).length ≤ 1 := by
      unfold fallSuccessors
      split
      · cases g._nodes[n + 1]? <;> simp
      · simp
    split <;> omega

/-- Witness for C2: the stream of the end-to-end example. -/
theorem addNodesFromScript_successors_witness :
    Ascending exampleScript ∧ TargetsValid exampleScript ∧
    ∃ g, addNodesFromScript ControlFlowGraph.empty exampleScript = some g ∧
      ∀ (j n : Nat), g._nodes[j]? = some n →
        ∃ lastI, (g.mem n)._instructions.getLast? = some lastI ∧
          (g.mem n)._out = jumpSuccessors g lastI ++ fallSuccessors g j lastI ∧
          (jumpSuccessors g lastI).length = (if lastI.asJump.isSome then 1 else 0) ∧
          (g.mem n)._out.length ≤ 2 :=
  ⟨by decide, by decide, addNodesFromScript_successors exampleScript (by decide) (by decide)⟩

end Decompiler

namespace Decompiler

/-- C3: the edge lists stay symmetric under `addEdge`, `replaceEdges`,
`removeJumpsToJumps` and `removeUnreachableNodes`, and every graph built by
`addNodesFromScript` is symmetric. -/
theorem edge_symmetry_preserved :
    (∀ (g : ControlFlowGraph) (src dst : Nat),
      EdgeSymmetric g → EdgeSymmetric (addEdge g src dst)) ∧
    (∀ (g : ControlFlowGraph) (src oldTo newTo : Nat),
      src ∈ g._nodes → oldTo ∈ g._nodes → newTo ∈ g._nodes →
      EdgeSymmetric g → EdgeSymmetric (replaceEdges g src oldTo newTo)) ∧
    (∀ (fuel : Nat) (g g1 : ControlFlowGraph),
      EdgesClosed g → TargetsClosed g → EdgeSymmetric g →
      removeJumpsToJumps fuel g = some g1 → EdgeSymmetric g1) ∧
    (∀ g : ControlFlowGraph, EdgeSymmetric g → EdgeSymmetric (removeUnreachableNodes g)) ∧
    (∀ (script : List Instruction) (g : ControlFlowGraph),
      addNodesFromScript ControlFlowGraph.empty script = some g → EdgeSymmetric g) := by
  refine ⟨?_, ?_, ?_, edgeSymmetric_removeUnreachableNodes, edgeSymmetric_addNodesFromScript⟩
  · intro g src dst h
    exact symOn_addEdgeMem g.mem g._nodes src dst h
  · intro g src oldTo newTo _ ho _ h
    exact symOn_replaceEdgesMem g.mem g._nodes src oldTo newTo (fun _ => ho) h
  · intro fuel g g1 hc ht hs h
    unfold removeJumpsToJumps at h
    cases h1 : jumpsLoop fuel g._targets g.mem g._nodes with
    | none => rw [h1] at h; exact absurd h (by simp)
    | some m =>
      rw [h1] at h
      simp only [Option.map_some', Option.some.injEq] at h
      subst h
      have := jumpsLoop_inv g._targets g._nodes
        (fun k w hw => ht _ (mapFind_mem _ k _ ((mapNode_eq_some _ _ _).1 hw)) w rfl) fuel g.mem m hs
        (fun u hu => (hc u hu).1) h1
      exact this.1

/-- Witness for C3 on the irreducible example and on the graph of the
end-to-end example, where `removeJumpsToJumps` stops after two passes. -/
theorem edge_symmetry_preserved_witness :
    EdgeSymmetric (addEdge irreducibleExample 0 1) ∧
    EdgeSymmetric (replaceEdges irreducibleExample 0 1 2) ∧
    EdgeSymmetric ((removeJumpsToJumps 2 exampleGraphValue).getD ControlFlowGraph.empty) ∧
    EdgeSymmetric (removeUnreachableNodes irreducibleExample) ∧
    EdgeSymmetric
      ((addNodesFromScript ControlFlowGraph.empty exampleScript).getD ControlFlowGraph.empty) :=
  ⟨edge_symmetry_preserved.1 irreducibleExample 0 1 (by decide),
   edge_symmetry_preserved.2.1 irreducibleExample 0 1 2 (by decide) (by decide) (by decide)
     (by decide),
   edge_symmetry_preserved.2.2.1 2 exampleGraphValue _ (by decide) (by decide) (by decide)
     (option_eq_some_getD _ _ (by decide)),
   edge_symmetry_preserved.2.2.2.1 irreducibleExample (by decide),
   edge_symmetry_preserved.2.2.2.2 exampleScript _ (option_eq_some_getD _ _ (by decide))⟩

end Decompiler

namespace Decompiler

/-- C10: on the classic irreducible graph (entry `E` = node 0, `A` = node 1,
`B` = node 2, edges `E→A`, `E→B`, `A→B`, `B→A`, fresh scratch fields)
`isReducible` returns, given enough fuel, and its result is `false`; the
graph has three headers after the first `intervals()`, after the
`extendIntervals()` that follows it, and at the end. -/
theorem isReducible_irreducibleExample (fuel : Nat) (h : 8 ≤ fuel) :
    irreducibleExample._entry = some 0 ∧ irreducibleExample._nodes = [0, 1, 2] ∧
    (irreducibleExample.mem 0)._out = [1, 2] ∧ (irreducibleExample.mem 1)._out = [2] ∧
    (irreducibleExample.mem 2)._out = [1] ∧ EdgeSymmetric irreducibleExample ∧
    (∀ u ∈ irreducibleExample._nodes,
      (irreducibleExample.mem u)._number = 0 ∧ (irreducibleExample.mem u)._dominator = none ∧
      (irreducibleExample.mem u)._interval = none ∧ (irreducibleExample.mem u)._component = none) ∧
    (∃ r0, intervals fuel irreducibleExample = some r0 ∧ r0.2.length = 3 ∧
      ∃ g1, extendIntervals fuel r0.1 = some g1 ∧ (headers g1).length = 3) ∧
    ∃ g, isReducible fuel irreducibleExample = some (g, false) ∧ (headers g).length = 3 := by
  refine ⟨rfl, rfl, by decide, by decide, by decide, by decide, by decide, ?_, ?_⟩
  · have h0 := option_eq_some_getD (intervals 8 irreducibleExample) (irreducibleExample, [])
      (by decide)
    have h1 := option_eq_some_getD
      (extendIntervals 8 ((intervals 8 irreducibleExample).getD (irreducibleExample, [])).1)
      irreducibleExample (by decide)
    exact ⟨_, intervals_mono 8 fuel _ _ h h0, by decide, _,
      extendIntervals_mono 8 fuel _ _ h h1, by decide⟩
  · have h0 := option_eq_some_getD (isReducible 8 irreducibleExample) (irreducibleExample, true)
      (by decide)
    have h2 : ((isReducible 8 irreducibleExample).getD (irreducibleExample, true)).2 = false := by
      decide
    refine ⟨((isReducible 8 irreducibleExample).getD (irreducibleExample, true)).1, ?_, by decide⟩
    rw [← h2]
    exact isReducible_mono 8 fuel _ _ h h0

/-- Witness for C10 with fuel 8. -/
theorem isReducible_irreducibleExample_witness :
    8 ≤ 8 ∧ ∃ g, isReducible 8 irreducibleExample = some (g, false) ∧ (headers g).length = 3 :=
  ⟨Nat.le_refl 8, (isReducible_irreducibleExample 8 (Nat.le_refl 8)).2.2.2.2.2.2.2.2⟩

end Decompiler

namespace Decompiler

theorem reach_mem_nodes (g : ControlFlowGraph) (hclosed : EdgesClosed g) (a b : Nat)
    (ha : a ∈ g._nodes) (h : Reach g.mem a b) : b ∈ g._nodes := by
  induction h with
  | refl => exact ha
  | tail _ hbc ih => exact (hclosed _ ih).1 _ hbc

/-- C8: on a graph with an entry, edges inside the graph, symmetric edge lists
and no interval assigned, `assignIntervals` returns for every large enough
fuel; afterwards every node reachable from the entry has an interval, every
interval in use is a header (a node that is its own interval), the entry is a
header, and so each part of the partition by interval holds exactly one
own-header node.  Only `_interval` fields change. -/
theorem assignIntervals_partition (g : ControlFlowGraph) (e : Nat) (he : g._entry = some e)
    (hen : e ∈ g._nodes) (hclosed : EdgesClosed g) (hsym : EdgeSymmetric g)
    (hfresh : ∀ u ∈ g._nodes, (g.mem u)._interval = none) :
    ∃ fuel0, ∀ fuel, fuel0 ≤ fuel →
      ∃ g1, assignIntervals fuel g = some g1 ∧ g1._nodes = g._nodes ∧ g1._entry = g._entry ∧
        SameButInterval g.mem g1.mem ∧
        (∀ u, Reach g.mem e u → ∃ h, (g1.mem u)._interval = some h) ∧
        (∀ u ∈ g._nodes, ∀ h, (g1.mem u)._interval = some h →
          h ∈ g._nodes ∧ (g1.mem h)._interval = some h) ∧
        (g1.mem e)._interval = some e ∧
        (∀ u ∈ g._nodes, ∀ h, (g1.mem u)._interval = some h →
          ((g1.mem u)._interval = some u ↔ u = h)) := by
  obtain ⟨fuel0, hfuel⟩ := assignIntervals_inv g e he hen hclosed hfresh
  refine ⟨fuel0, fun fuel hle => ?_⟩
  obtain ⟨g1, h1, h2, h3, _, h4, inv⟩ := hfuel fuel hle
  have hentry : (g1.mem e)._interval = some e := by
    rcases inv.entry with h | h
    · simp at h
    · exact h
  refine ⟨g1, h1, h2, h3, h4, ?_, inv.headerValued, hentry, ?_⟩
  · intro u hu
    induction hu with
    | refl => exact ⟨e, hentry⟩
    | tail hab hbc ih =>
      rename_i b c
      have hb : b ∈ g._nodes := reach_mem_nodes g hclosed e b hen hab
      have hc : c ∈ g._nodes := (hclosed b hb).1 c hbc
      have hcount : 0 < (g.mem c)._in.count b := by
        rw [← hsym b hb c hc]
        exact List.count_pos_iff.2 hbc
      have hbin : b ∈ (g1.mem c)._in := by
        rw [(h4 c).2.1]
        exact List.count_pos_iff.1 hcount
      cases hci : (g1.mem c)._interval with
      | some h => exact ⟨h, rfl⟩
      | none =>
        obtain ⟨hb0, hbi⟩ := ih
        have := inv.pending c hc hci ⟨b, hbin, by rw [hbi]; simp⟩
        simp at this
  · intro u _ h huh
    rw [huh]
    constructor
    · intro e1; exact (Option.some.inj e1).symm
    · intro e1; rw [e1]

/-- Witness for C8: the graph of the end-to-end example. -/
theorem assignIntervals_partition_witness :
    exampleGraphValue._entry = some 0 ∧ 0 ∈ exampleGraphValue._nodes ∧
    EdgesClosed exampleGraphValue ∧ EdgeSymmetric exampleGraphValue ∧
    (∀ u ∈ exampleGraphValue._nodes, (exampleGraphValue.mem u)._interval = none) ∧
    ∃ fuel0, ∀ fuel, fuel0 ≤ fuel →
      ∃ g1, assignIntervals fuel exampleGraphValue = some g1 ∧
        (g1.mem 0)._interval = some 0 :=
  ⟨by decide, by decide, by decide, by decide, by decide,
    (assignIntervals_partition exampleGraphValue 0 (by decide) (by decide) (by decide)
      (by decide) (by decide)).imp fun _ h fuel hle =>
        (h fuel hle).imp fun _ hg => ⟨hg.1, hg.2.2.2.2.2.2.1⟩⟩

end Decompiler

namespace Decompiler

end Decompiler

namespace Decompiler

/-- C14: for nodes `src`, `oldTo` and `newTo` of an edge-symmetric graph with
`oldTo ≠ newTo`, and `n` the number of occurrences of `oldTo` in `src->_out`
(by symmetry also the number of occurrences of `src` in `oldTo->_in`),
`replaceEdges(src, oldTo, newTo)` leaves no `oldTo` in `src->_out` and no `src`
in `oldTo->_in`, raises the count of `newTo` in `src->_out` and of `src` in
`newTo->_in` by exactly `n`, keeps the length of `src->_out` and every entry
other than `oldTo` at its position (the entries `oldTo` become `newTo`),
removes from `oldTo->_in` only the entries `src`, appends to `newTo->_in` only
`n` entries `src`, and changes no other edge list, no other field and not the
node list. -/
theorem replaceEdges_redirects (g : ControlFlowGraph) (src oldTo newTo : Nat)
    (hs : src ∈ g._nodes) (ho : oldTo ∈ g._nodes) (hsym : EdgeSymmetric g)
    (hne : oldTo ≠ newTo) :
    oldTo ∉ ((replaceEdges g src oldTo newTo).mem src)._out ∧
    src ∉ ((replaceEdges g src oldTo newTo).mem oldTo)._in ∧
    ((replaceEdges g src oldTo newTo).mem src)._out.count newTo =
      (g.mem src)._out.count newTo + (g.mem src)._out.count oldTo ∧
    ((replaceEdges g src oldTo newTo).mem newTo)._in.count src =
      (g.mem newTo)._in.count src + (g.mem src)._out.count oldTo ∧
    ((replaceEdges g src oldTo newTo).mem src)._out.length = (g.mem src)._out.length ∧
    (∀ (i v : Nat), (g.mem src)._out[i]? = some v →
      ((replaceEdges g src oldTo newTo).mem src)._out[i]? =
        some (if v = oldTo then newTo else v)) ∧
    ((replaceEdges g src oldTo newTo).mem oldTo)._in =
      (g.mem oldTo)._in.filter (fun y => y ≠ src) ∧
    ((replaceEdges g src oldTo newTo).mem newTo)._in =
      (g.mem newTo)._in ++ List.replicate ((g.mem src)._out.count oldTo) src ∧
    (∀ x, x ≠ src → ((replaceEdges g src oldTo newTo).mem x)._out = (g.mem x)._out) ∧
    (∀ x, x ≠ oldTo → x ≠ newTo →
      ((replaceEdges g src oldTo newTo).mem x)._in = (g.mem x)._in) ∧
    (∀ x, ((replaceEdges g src oldTo newTo).mem x)._instructions = (g.mem x)._instructions ∧
      ((replaceEdges g src oldTo newTo).mem x)._number = (g.mem x)._number ∧
      ((replaceEdges g src oldTo newTo).mem x)._dominator = (g.mem x)._dominator ∧
      ((replaceEdges g src oldTo newTo).mem x)._interval = (g.mem x)._interval ∧
      ((replaceEdges g src oldTo newTo).mem x)._component = (g.mem x)._component) ∧
    (replaceEdges g src oldTo newTo)._nodes = g._nodes ∧
    (replaceEdges g src oldTo newTo)._entry = g._entry := by
  have hn : (g.mem oldTo)._in.count src = (g.mem src)._out.count oldTo :=
    (hsym src hs oldTo ho).symm
  have hne2 : ¬ newTo = oldTo := fun e => hne e.symm
  have hin : ((replaceEdges g src oldTo newTo).mem newTo)._in =
      (g.mem newTo)._in ++ List.replicate ((g.mem src)._out.count oldTo) src := by
    show ((replaceEdgesMem g.mem src oldTo newTo) newTo)._in = _
    rw [replaceEdgesMem_in, if_pos rfl, if_neg hne2, hn]
  have hold : ((replaceEdges g src oldTo newTo).mem oldTo)._in =
      (g.mem oldTo)._in.filter (fun y => y ≠ src) := by
    show ((replaceEdgesMem g.mem src oldTo newTo) oldTo)._in = _
    rw [replaceEdgesMem_in, if_neg hne, if_pos rfl]
  have hout : ((replaceEdges g src oldTo newTo).mem src)._out =
      (g.mem src)._out.map (fun y => if y = oldTo then newTo else y) := by
    show ((replaceEdgesMem g.mem src oldTo newTo) src)._out = _
    rw [replaceEdgesMem_out, if_pos rfl]
  refine ⟨?_, ?_, ?_, ?_, ?_, ?_, hold, hin, ?_, ?_, ?_, rfl, rfl⟩
  · rw [hout, List.mem_map]
    rintro ⟨y, _, hy⟩
    by_cases h : y = oldTo
    · rw [if_pos h] at hy; exact hne hy.symm
    · rw [if_neg h] at hy; exact h hy
  · rw [hold, List.mem_filter]
    rintro ⟨_, h⟩
    simp at h
  · rw [hout, count_map_replace, if_neg hne2, if_pos rfl]
  · rw [hin, List.count_append, List.count_replicate]
    simp
  · rw [hout, List.length_map]
  · intro i v hv
    rw [hout, List.getElem?_map, hv]
    rfl
  · intro x hx
    show ((replaceEdgesMem g.mem src oldTo newTo) x)._out = _
    rw [replaceEdgesMem_out, if_neg hx]
  · intro x hx1 hx2
    show ((replaceEdgesMem g.mem src oldTo newTo) x)._in = _
    rw [replaceEdgesMem_in, if_neg hx2, if_neg hx1]
  · intro x
    show _ ∧ _ ∧ _ ∧ _ ∧ _
    simp only [replaceEdges, replaceEdgesMem, Mem.modify_apply]
    by_cases h1 : x = src <;> by_cases h2 : x = oldTo <;> by_cases h3 : x = newTo <;>
      by_cases h4 : src = oldTo <;> by_cases h5 : src = newTo <;> simp_all

/-- Witness for C14: the irreducible example, redirecting the edge `0 → 1` to `2`. -/
theorem replaceEdges_redirects_witness :
    0 ∈ irreducibleExample._nodes ∧ 1 ∈ irreducibleExample._nodes ∧
    EdgeSymmetric irreducibleExample ∧ (1 : Nat) ≠ 2 ∧
    ((replaceEdges irreducibleExample 0 1 2).mem 0)._out = [2, 2] ∧
    ((replaceEdges irreducibleExample 0 1 2).mem 2)._in.count 0 =
      (irreducibleExample.mem 2)._in.count 0 + (irreducibleExample.mem 0)._out.count 1 :=
  ⟨by decide, by decide, by decide, by decide, by decide,
    (replaceEdges_redirects irreducibleExample 0 1 2 (by decide) (by decide) (by decide)
      (by decide)).2.2.2.1⟩

end Decompiler

namespace Decompiler

theorem marked_endToEnd (a b c d e x : Nat) (hbc : b < c) (hcd : c < d) (hde : d < e) :
    contains (markTargets (endToEndScript a b c d e) []) x = true ↔ (x = b ∨ x = c ∨ x = e) := by
  rw [contains_markTargets]
  simp only [endToEndScript, Marked, Instruction.asJump, contains, mapFind, Option.isSome_none,
    Option.isSome_some, List.head?_cons, List.head?_nil, Option.map_some', Option.map_none',
    Option.some.injEq, false_and, true_and, or_false, false_or, Bool.false_eq_true]
  simp only [reduceCtorEq, or_false, false_or]
  constructor
  · intro h
    omega
  · intro h
    omega

theorem scriptRuns_endToEnd (a b c d e : Nat) (hbc : b < c) (hcd : c < d) (hde : d < e) :
    scriptRuns (endToEndScript a b c d e) =
      [[⟨a, InstrKind.plain⟩], [⟨b, InstrKind.jump c⟩],
        [⟨c, InstrKind.plain⟩, ⟨d, InstrKind.condJump b⟩], [⟨e, InstrKind.plain⟩]] := by
  have hb := (marked_endToEnd a b c d e b hbc hcd hde).2 (Or.inl rfl)
  have hc := (marked_endToEnd a b c d e c hbc hcd hde).2 (Or.inr (Or.inl rfl))
  have he := (marked_endToEnd a b c d e e hbc hcd hde).2 (Or.inr (Or.inr rfl))
  have hd : contains (markTargets (endToEndScript a b c d e) []) d = false := by
    rw [← Bool.not_eq_true, marked_endToEnd a b c d e d hbc hcd hde]
    omega
  unfold scriptRuns
  generalize contains (markTargets (endToEndScript a b c d e) []) = T at hb hc hd he
  simp [endToEndScript, runs, cutAfter, hb, hc, hd, he]

theorem endToEnd_nodes (a b c d e : Nat) (hab : a < b) (hbc : b < c) (hcd : c < d)
    (hde : d < e) :
    ∃ g, addNodesFromScript ControlFlowGraph.empty (endToEndScript a b c d e) = some g ∧
      g._nodes.map (fun n => (g.mem n)._instructions) =
        [[⟨a, InstrKind.plain⟩], [⟨b, InstrKind.jump c⟩],
          [⟨c, InstrKind.plain⟩, ⟨d, InstrKind.condJump b⟩], [⟨e, InstrKind.plain⟩]] := by
  have hasc : Ascending (endToEndScript a b c d e) := by
    simp only [Ascending, endToEndScript, List.map_cons, List.map_nil, List.pairwise_cons,
      List.mem_cons, List.mem_singleton, List.not_mem_nil, forall_eq_or_imp, forall_eq]
    simp
    omega
  have hv : TargetsValid (endToEndScript a b c d e) := by
    intro i hi t ht
    simp only [endToEndScript, List.mem_cons, List.mem_singleton, List.not_mem_nil,
      or_false] at hi
    rcases hi with rfl | rfl | rfl | rfl | rfl <;>
      simp [Instruction.asJump] at ht <;> subst ht <;> simp [endToEndScript]
  obtain ⟨g, h1, h2, h3, _, _⟩ := addNodesFromScript_spec _ hasc hv
  refine ⟨g, h1, ?_⟩
  rw [h2, map_range_eq _ _ h3, scriptRuns_endToEnd a b c d e hbc hcd hde]

/-- C15, as amended: for the stream `A: nop, B: jump C, C: nop, D: conditional
jump B, E: return` with addresses `a < b < c < d < e`, `addNodesFromScript`
on an empty graph builds 4 nodes, with the instructions `[A]`, `[B]`, `[C, D]`
and `[E]`: `D` is neither a jump target nor the instruction after a jump, so it
stays in the block of `C`. -/
theorem endToEnd_builds_four_nodes (a b c d e : Nat) (hab : a < b) (hbc : b < c)
    (hcd : c < d) (hde : d < e) :
    ∃ g, addNodesFromScript ControlFlowGraph.empty (endToEndScript a b c d e) = some g ∧
      g._nodes.length = 4 ∧
      g._nodes.map (fun n => (g.mem n)._instructions) =
        [[⟨a, InstrKind.plain⟩], [⟨b, InstrKind.jump c⟩],
          [⟨c, InstrKind.plain⟩, ⟨d, InstrKind.condJump b⟩], [⟨e, InstrKind.plain⟩]] := by
  obtain ⟨g, h1, h2⟩ := endToEnd_nodes a b c d e hab hbc hcd hde
  refine ⟨g, h1, ?_, h2⟩
  have := congrArg List.length h2
  simpa using this

/-- Witness for C15 as amended: the addresses 10, 20, 30, 40, 50. -/
theorem endToEnd_builds_four_nodes_witness :
    (10 : Nat) < 20 ∧ (20 : Nat) < 30 ∧ (30 : Nat) < 40 ∧ (40 : Nat) < 50 ∧
    ∃ g, addNodesFromScript ControlFlowGraph.empty (endToEndScript 10 20 30 40 50) = some g ∧
      g._nodes.length = 4 ∧
      g._nodes.map (fun n => (g.mem n)._instructions) =
        [[⟨10, InstrKind.plain⟩], [⟨20, InstrKind.jump 30⟩],
          [⟨30, InstrKind.plain⟩, ⟨40, InstrKind.condJump 20⟩], [⟨50, InstrKind.plain⟩]] :=
  ⟨by decide, by decide, by decide, by decide,
    endToEnd_builds_four_nodes 10 20 30 40 50 (by decide) (by decide) (by decide) (by decide)⟩

/-- Counterexample to C15 as stated: at the addresses 10, 20, 30, 40, 50 the
call does not build 5 nodes. -/
theorem endToEnd_not_five_nodes :
    ¬ ∃ g, addNodesFromScript ControlFlowGraph.empty (endToEndScript 10 20 30 40 50) = some g ∧
      g._nodes.length = 5 := by
  rintro ⟨g, h1, h2⟩
  have h : (addNodesFromScript ControlFlowGraph.empty (endToEndScript 10 20 30 40 50)).map
      (fun g => g._nodes.length) = some 4 := by decide
  rw [h1] at h
  simp only [Option.map_some', Option.some.injEq] at h
  omega

end Decompiler

namespace Decompiler

/-- After `assignComponents` the entry has a number other than 0 and every node
of the graph has its `_component` set. -/
theorem assignComponents_sets (fuel : Nat) (g g1 : ControlFlowGraph)
    (h : assignComponents fuel g = some g1) :
    g1._nodes = g._nodes ∧ g1._entry = g._entry ∧
    (∃ e, g1._entry = some e ∧ (g1.mem e)._number ≠ 0) ∧
    ∀ u ∈ g1._nodes, (g1.mem u)._component.isSome = true := by
  unfold assignComponents at h
  cases ho : orderNodes fuel g with
  | none => rw [ho] at h; simp at h
  | some g0 =>
    rw [ho] at h
    simp only [Option.some_bind, Option.map_eq_some'] at h
    obtain ⟨m, hm, rfl⟩ := h
    obtain ⟨hnum, _, hall⟩ := componentFold_fills fuel _ _ _ hm
    have hg0 : g0._nodes = g._nodes ∧ g0._entry = g._entry ∧
        ∃ e, g0._entry = some e ∧ (g0.mem e)._number ≠ 0 := by
      unfold orderNodes at ho
      cases hent : g._entry with
      | none => rw [hent] at ho; simp at ho
      | some e =>
        rw [hent] at ho
        simp only at ho
        by_cases hz : (g.mem e)._number = 0
        · rw [if_pos hz] at ho
          simp only [Option.map_eq_some'] at ho
          obtain ⟨s, hs, rfl⟩ := ho
          have := orderVisit_number fuel g.mem e 0 s.1 s.2 hs
          refine ⟨rfl, rfl, e, rfl, ?_⟩
          show (s.1 e)._number ≠ 0
          omega
        · rw [if_neg hz] at ho
          injection ho with ho
          subst ho
          exact ⟨rfl, hent, e, hent, hz⟩
    obtain ⟨a1, a2, e, a3, a4⟩ := hg0
    refine ⟨a1, a2, ⟨e, a3, ?_⟩, ?_⟩
    · show (m e)._number ≠ 0
      rw [hnum e]; exact a4
    · intro u hu
      exact hall u ((mem_inPostOrder g0.mem g0._nodes u).2 hu)

/-- On a graph whose entry has a number and whose nodes all have a
`_component`, `components` changes nothing. -/
theorem components_noop (g : ControlFlowGraph) (e : Nat) (he : g._entry = some e)
    (hnum : (g.mem e)._number ≠ 0)
    (hall : ∀ u ∈ g._nodes, (g.mem u)._component.isSome = true) (fuel : Nat) (hf : 0 < fuel) :
    components fuel g =
      some (g, g._nodes.filter (fun u => (g.mem u)._component = some u)) := by
  have h1 : orderNodes fuel g = some g := by
    unfold orderNodes
    rw [he]
    simp only [if_neg hnum]
  unfold components assignComponents
  rw [h1]
  simp only [Option.some_bind]
  rw [componentFold_set fuel hf g.mem _
    (fun u hu => hall u ((mem_inPostOrder g.mem g._nodes u).1 hu))]
  rfl

/-- C17, as amended: `components()` never resets a `_component` field.  When
`components()` has returned on a graph and the edge lists (or any fields other
than `_number` and `_component`) were changed afterwards, a further call
returns, for every fuel of at least 1, the same representatives as the first
call and changes no field: it reports the components of the graph as it was at
the first call. -/
theorem components_not_recomputed (fuel : Nat) (g g1 : ControlFlowGraph) (l1 : List Nat)
    (h1 : components fuel g = some (g1, l1)) (g2 : ControlFlowGraph)
    (hn : g2._nodes = g1._nodes) (he : g2._entry = g1._entry)
    (hc : ∀ u, (g2.mem u)._component = (g1.mem u)._component ∧
      (g2.mem u)._number = (g1.mem u)._number)
    (fuel2 : Nat) (hf : 0 < fuel2) :
    components fuel2 g2 = some (g2, l1) := by
  unfold components at h1
  simp only [Option.map_eq_some', Prod.mk.injEq] at h1
  obtain ⟨g1a, ha, rfl, rfl⟩ := h1
  obtain ⟨_, _, ⟨e, b3, b4⟩, b5⟩ := assignComponents_sets fuel g g1a ha
  rw [components_noop g2 e (he.trans b3) (by rw [(hc e).2]; exact b4)
    (fun u hu => by rw [(hc u).1]; exact b5 u (hn ▸ hu)) fuel2 hf, hn]
  simp only [(hc _).1]

/-- Witness for C17 as amended: the graph `0 → 1`, to which the edge `1 → 0` is
added after the first call. -/
theorem components_not_recomputed_witness :
    components 3 chainExample =
      some ((components 3 chainExample).getD (chainExample, [])) ∧
    components 3 (addEdge ((components 3 chainExample).getD (chainExample, [])).1 1 0) =
      some (addEdge ((components 3 chainExample).getD (chainExample, [])).1 1 0,
        ((components 3 chainExample).getD (chainExample, [])).2) :=
  ⟨option_eq_some_getD _ _ (by decide),
    components_not_recomputed 3 chainExample
      ((components 3 chainExample).getD (chainExample, [])).1
      ((components 3 chainExample).getD (chainExample, [])).2
      (option_eq_some_getD (components 3 chainExample) (chainExample, []) (by decide))
      (addEdge ((components 3 chainExample).getD (chainExample, [])).1 1 0) rfl rfl
      (fun u => by
        simp only [addEdge, addEdgeMem, Mem.modify_apply]
        by_cases h1 : u = 0 <;> by_cases h2 : u = 1 <;> simp [h1, h2]) 3 (by decide)⟩

/-- Counterexample to C17 as stated: on the graph `0 → 1` with entry 0, after a
first call of `components()` and the call `addEdge(1, 0)`, a further call
returns the two representatives 0 and 1, while a call on the same graph with
all `_component` fields null returns the one representative 0. -/
theorem components_stale_example :
    ((components 3 chainExample).bind
      (fun r => components 3 (addEdge r.1 1 0))).map (fun r => r.2) = some [0, 1] ∧
    ((components 3 chainExample).bind
      (fun r => components 3 (clearComponents (addEdge r.1 1 0)))).map (fun r => r.2) =
        some [0] := by
  constructor <;> decide

end Decompiler

namespace Decompiler

/-- C18, as amended: `intervals()` never resets an `_interval` field.  On a
graph whose nodes all have an interval assigned and whose entry is its own
interval (the state that `assignIntervals` and `extendIntervals` leave), a call
of `intervals()` with fuel of at least 1 changes no field and returns the nodes
that are their own interval in the fields it found: the headers it returns are
those left by the earlier operation, not those of a fresh assignment. -/
theorem intervals_not_recomputed (g : ControlFlowGraph) (e : Nat) (he : g._entry = some e)
    (hee : (g.mem e)._interval = some e)
    (hall : ∀ u ∈ g._nodes, (g.mem u)._interval.isSome = true) (fuel : Nat) (hf : 0 < fuel) :
    intervals fuel g =
      some (g, g._nodes.filter (fun u => (g.mem u)._interval = some u)) :=
  intervals_assigned g e he hee hall fuel hf

/-- Witness for C18 as amended: the loop example after `extendIntervals`. -/
theorem intervals_not_recomputed_witness :
    ((extendIntervals 8 loopExample).getD loopExample)._entry = some 0 ∧
    (((extendIntervals 8 loopExample).getD loopExample).mem 0)._interval = some 0 ∧
    (∀ u ∈ ((extendIntervals 8 loopExample).getD loopExample)._nodes,
      ((((extendIntervals 8 loopExample).getD loopExample).mem u)._interval).isSome = true) ∧
    intervals 1 ((extendIntervals 8 loopExample).getD loopExample) =
      some ((extendIntervals 8 loopExample).getD loopExample,
        ((extendIntervals 8 loopExample).getD loopExample)._nodes.filter
          (fun u => (((extendIntervals 8 loopExample).getD loopExample).mem u)._interval =
            some u)) :=
  ⟨by decide, by decide, by decide,
    intervals_not_recomputed ((extendIntervals 8 loopExample).getD loopExample) 0
      (by decide) (by decide) (by decide) 1 (by decide)⟩

/-- Counterexample to C18 as stated: on the graph `0 → 1`, `1 → 2`, `2 → 1`
with entry 0, `extendIntervals` returns, a call of `intervals()` after it
returns the one header 0, and a call on the same graph with all `_interval`
fields null returns the two headers 0 and 1. -/
theorem intervals_after_extend_example :
    (extendIntervals 8 loopExample).isSome = true ∧
    ((extendIntervals 8 loopExample).bind (fun g => intervals 8 g)).map (fun r => r.2) =
      some [0] ∧
    ((extendIntervals 8 loopExample).bind
      (fun g => intervals 8 (clearIntervals g))).map (fun r => r.2) = some [0, 1] := by
  refine ⟨?_, ?_, ?_⟩ <;> decide

end Decompiler

namespace Decompiler

theorem jumpCycle_targets : mapNode jumpCycleGraph._targets 0 = some 0 ∧
    mapNode jumpCycleGraph._targets 1 = some 1 ∧ jumpCycleGraph._nodes = [0, 1] := by
  refine ⟨?_, ?_, ?_⟩ <;> decide

theorem jumpsLoop_cycle :
    ∀ (fuel : Nat) (mem : Mem), JumpCycleInv mem →
      jumpsLoop fuel jumpCycleGraph._targets mem [0, 1] = none := by
  intro fuel
  induction fuel with
  | zero => intro mem _; rfl
  | succ fuel ih =>
    intro mem h
    obtain ⟨t0, t1, _⟩ := jumpCycle_targets
    obtain ⟨v1, w1, e1, h1⟩ := jumpsOfNode_cycle _ t0 t1 mem 0 (by decide) false h
    obtain ⟨v2, w2, e2, h2⟩ := jumpsOfNode_cycle _ t0 t1 _ 1 (by decide) true h1
    unfold jumpsLoop
    simp only [jumpsPass, e1, e2, Option.some_bind, if_true]
    exact ih _ h2

/-- C19: on the graph that `addNodesFromScript` builds from the two
instructions `0: jump 1` and `1: jump 0` (unique ascending addresses, both
jump targets are addresses of the stream), `removeJumpsToJumps` gives no result
for any number of passes of its fixed-point loop: every pass redirects both
edges and sets `changed`. -/
theorem removeJumpsToJumps_cycle_diverges :
    Ascending jumpCycleScript ∧ TargetsValid jumpCycleScript ∧
    addNodesFromScript ControlFlowGraph.empty jumpCycleScript = some jumpCycleGraph ∧
    ∀ fuel, removeJumpsToJumps fuel jumpCycleGraph = none := by
  refine ⟨by decide, by decide, option_eq_some_getD _ _ (by decide), ?_⟩
  intro fuel
  have h0 : JumpCycleInv jumpCycleGraph.mem :=
    ⟨by decide, by decide, 1, 0, by decide, by decide, by decide, by decide⟩
  unfold removeJumpsToJumps
  rw [jumpCycle_targets.2.2, jumpsLoop_cycle fuel _ h0]
  rfl

end Decompiler

namespace Decompiler

/-- C12: on a graph with an entry among its nodes, edges inside the graph,
symmetric edge lists and all numbers 0, run `orderNodes` (it returns once the
fuel exceeds the number of nodes) and then `removeUnreachableNodes`.  The nodes
with a number other than 0 are exactly the nodes reachable from the entry; the
node list becomes the old one without the nodes of number 0, in the old order;
every remaining node keeps its successor list and all its other fields, and
its predecessor list is the old one without the occurrences of the removed
nodes. -/
theorem removeUnreachableNodes_exact (g : ControlFlowGraph) (e : Nat) (he : g._entry = some e)
    (hen : e ∈ g._nodes) (hcl : EdgesClosed g) (hsym : EdgeSymmetric g)
    (hz : ∀ u ∈ g._nodes, (g.mem u)._number = 0) (fuel : Nat) (hfuel : g._nodes.length < fuel) :
    ∃ g1, orderNodes fuel g = some g1 ∧
      (∀ u ∈ g._nodes, (g1.mem u)._number ≠ 0 ↔ Reach g.mem e u) ∧
      (removeUnreachableNodes g1)._nodes =
        g._nodes.filter (fun u => decide ((g1.mem u)._number ≠ 0)) ∧
      (∀ r ∈ (removeUnreachableNodes g1)._nodes,
        ((removeUnreachableNodes g1).mem r)._out = (g.mem r)._out ∧
        ((removeUnreachableNodes g1).mem r)._in =
          (g.mem r)._in.filter (fun p => decide ((g1.mem p)._number ≠ 0)) ∧
        ((removeUnreachableNodes g1).mem r)._instructions = (g.mem r)._instructions ∧
        ((removeUnreachableNodes g1).mem r)._number = (g1.mem r)._number) ∧
      (removeUnreachableNodes g1)._entry = g._entry := by
  obtain ⟨m2, n2, h1, h2⟩ := orderVisit_postOrder g._nodes e g.mem hen
    (fun x hx => (hcl x hx).1) hz fuel hfuel
  have ho : orderNodes fuel g = some { g with mem := m2 } := by
    unfold orderNodes
    rw [he]
    simp only [hz e hen, if_true, h1, Option.map_some']
  have hiff : ∀ u ∈ g._nodes, (m2 u)._number ≠ 0 ↔ Reach g.mem e u := by
    intro u hu
    constructor
    · intro hn
      by_contra hr
      exact hn (h2.zero u hu hr)
    · intro hr
      have := (h2.pos u hr).1
      omega
  have hsym1 : EdgeSymmetric { g with mem := m2 } := by
    intro u hu v hv
    show (m2 u)._out.count v = (m2 v)._in.count u
    rw [(h2.frame u).2.2.1, (h2.frame v).2.1]
    exact hsym u hu v hv
  have hin1 : ∀ u ∈ g._nodes, ∀ p ∈ (m2 u)._in, p ∈ g._nodes := by
    intro u hu p hp
    rw [(h2.frame u).2.1] at hp
    exact (hcl u hu).2 p hp
  have hsucc : ∀ u ∈ g._nodes, (m2 u)._number ≠ 0 → ∀ v ∈ (m2 u)._out, (m2 v)._number ≠ 0 := by
    intro u hu hn v hv
    rw [(h2.frame u).2.2.1] at hv
    have hr : Reach g.mem e v :=
      Relation.ReflTransGen.tail ((hiff u hu).1 hn) hv
    have := (h2.pos v hr).1
    omega
  obtain ⟨k1, k2⟩ := removeUnreachableNodes_lists { g with mem := m2 } hsym1 hin1 hsucc
  refine ⟨{ g with mem := m2 }, ho, hiff, k1, ?_, rfl⟩
  intro r hr
  rw [k1] at hr
  obtain ⟨hr1, hr2⟩ := List.mem_filter.1 hr
  have hr3 : (m2 r)._number ≠ 0 := by simpa using hr2
  rw [k2 r hr1 hr3]
  exact ⟨(h2.frame r).2.2.1, by rw [(h2.frame r).2.1], (h2.frame r).1, rfl⟩

/-- Witness for C12: the irreducible example with an unreachable node 3 that
has an edge to node 1. -/
theorem removeUnreachableNodes_exact_witness :
    unreachableExample._entry = some 0 ∧ 0 ∈ unreachableExample._nodes ∧
    EdgesClosed unreachableExample ∧ EdgeSymmetric unreachableExample ∧
    (∀ u ∈ unreachableExample._nodes, (unreachableExample.mem u)._number = 0) ∧
    unreachableExample._nodes.length < 5 ∧
    ∃ g1, orderNodes 5 unreachableExample = some g1 ∧
      (removeUnreachableNodes g1)._nodes =
        unreachableExample._nodes.filter (fun u => decide ((g1.mem u)._number ≠ 0)) :=
  ⟨by decide, by decide, by decide, by decide, by decide, by decide,
    (removeUnreachableNodes_exact unreachableExample 0 (by decide) (by decide) (by decide)
      (by decide) (by decide) 5 (by decide)).imp fun _ h => ⟨h.1, h.2.2.1⟩⟩

end Decompiler

namespace Decompiler

/-- The graph built from a non-empty stream whose jumps all go forward, with
the entry at the first instruction: its shape. -/
theorem forward_graph (script : List Instruction) (hne : script ≠ []) (hasc : Ascending script)
    (hf : ForwardJumps script) :
    ∃ g0 g k, addNodesFromScript ControlFlowGraph.empty script = some g0 ∧
      setEntry g0 g0._nodes (headAddr script) = some g ∧ 0 < k ∧
      g._nodes = List.range k ∧ g._entry = some 0 ∧
      (∀ (x : Nat), ∀ p ∈ (g.mem x)._in, p < x) ∧
      (∀ u, (g.mem u)._interval = none) ∧
      (∀ u ∈ g._nodes, (g.mem u)._instructions ≠ []) := by
  have hv := forwardJumps_valid script hf
  obtain ⟨g0, h1, h2, h3, _, _⟩ := addNodesFromScript_spec script hasc hv
  have hk : 0 < (scriptRuns script).length := by
    cases hc : scriptRuns script with
    | nil =>
      have := scriptRuns_flatten script
      rw [hc] at this
      exact absurd this.symm hne
    | cons b bs => simp
  have hinstr : ∀ n ∈ g0._nodes, (g0.mem n)._instructions ≠ [] := by
    intro n hn
    rw [h2] at hn
    have hnl := List.mem_range.1 hn
    rw [h3 n _ (List.getElem?_eq_getElem hnl)]
    exact scriptRuns_ne_nil script _ (List.getElem_mem hnl)
  have h0 : headAddr (g0.mem 0)._instructions = headAddr script := by
    rw [h3 0 _ (List.getElem?_eq_getElem hk)]
    cases script with
    | nil => exact absurd rfl hne
    | cons i rest =>
      have := scriptRuns_headAddrs i rest
      have h0 := congrArg (fun l => l[0]?) this
      simp only [List.getElem?_map, List.getElem?_eq_getElem hk, Option.map_some',
        List.map_cons, List.getElem?_cons_zero, Option.some.injEq] at h0
      rw [h0]; rfl
  have huniq : ∀ n ∈ g0._nodes,
      headAddr (g0.mem n)._instructions = headAddr script → n = 0 := by
    intro n hn hh
    rw [h2] at hn
    have hnl := List.mem_range.1 hn
    rw [← h0, h3 n _ (List.getElem?_eq_getElem hnl),
      h3 0 _ (List.getElem?_eq_getElem hk)] at hh
    exact heads_inj script hasc n 0 _ _ (List.getElem?_eq_getElem hnl)
      (List.getElem?_eq_getElem hk) hh
  have hentry := foldl_entry_unique
    (fun n => headAddr (g0.mem n)._instructions = headAddr script) 0 h0 g0._nodes g0._entry huniq
  have h0mem : 0 ∈ g0._nodes := by rw [h2]; exact List.mem_range.2 hk
  rw [if_pos h0mem] at hentry
  refine ⟨g0, { g0 with _entry := some 0 }, (scriptRuns script).length, h1, ?_, hk, h2, rfl,
    forward_in script hasc hf g0 h1,
    fun u => ((addNodesFromScript_fields script hasc hv g0 h1).2 u).2.2.1, hinstr⟩
  rw [setEntry_eq g0._nodes g0 (headAddr script) hinstr, hentry]

/-- C11: for a non-empty stream with unique ascending addresses in which
every jump targets the address of a later instruction of the stream,
`addNodesFromScript` on an empty graph and `setEntry` at the address of the
first instruction succeed, and on the graph they give `isReducible` returns
`true` for every fuel above the number of nodes plus one. -/
theorem isReducible_forward (script : List Instruction) (hne : script ≠ [])
    (hasc : Ascending script) (hf : ForwardJumps script) :
    ∃ g0 g, addNodesFromScript ControlFlowGraph.empty script = some g0 ∧
      setEntry g0 g0._nodes (headAddr script) = some g ∧
      ∀ fuel, g._nodes.length + 2 ≤ fuel → ∃ g1, isReducible fuel g = some (g1, true) := by
  obtain ⟨g0, g, k, h1, h2, hk, hn, he, hin, hfresh, hinstr⟩ :=
    forward_graph script hne hasc hf
  refine ⟨g0, g, h1, h2, ?_⟩
  intro fuel hfuel
  have hlen : g._nodes.length = k := by rw [hn]; simp
  obtain ⟨m2, a1, a2, a3⟩ := assignIntervals_forward g k hk hn he
    (fun x _ => hin x) (fun u _ => hfresh u) fuel (by omega)
  have h0mem : 0 ∈ g._nodes := by rw [hn]; exact List.mem_range.2 hk
  have hnd : g._nodes.Nodup := by rw [hn]; exact List.nodup_range _
  have hH : headers { g with mem := m2 } = [0] :=
    headers_single { g with mem := m2 } 0 h0mem hnd a3
  have hI0 : intervals fuel g = some ({ g with mem := m2 }, [0]) := by
    unfold intervals
    rw [a1]
    simp only [Option.map_some', Option.some.injEq, Prod.mk.injEq, true_and]
    exact hH
  have hI1 : intervals fuel { g with mem := m2 } = some ({ g with mem := m2 }, [0]) := by
    rw [intervals_assigned { g with mem := m2 } 0 he (a3 0 h0mem)
      (fun u hu => by rw [a3 u hu]; rfl) fuel (by omega), hH]
  have hin0 : (m2 0)._in = [] := by
    rw [(a2 0).2.1, List.eq_nil_iff_forall_not_mem]
    intro p hp
    have := hin 0 p hp
    omega
  have hE : extendIntervals fuel { g with mem := m2 } = some { g with mem := m2 } :=
    extendIntervals_single { g with mem := m2 } 0 he h0mem hnd a3 hin0
      (by rw [(a2 0).1]; exact hinstr 0 h0mem) fuel (by omega)
  obtain ⟨r, rfl⟩ : ∃ r, fuel = r + 2 := ⟨fuel - 2, by omega⟩
  refine ⟨{ g with mem := m2 }, ?_⟩
  unfold isReducible
  have hloop : reducibleLoop (r + 2) (r + 2) g (g._nodes.length + 1) =
      some { g with mem := m2 } := by
    unfold reducibleLoop
    simp only [hI0, Option.some_bind, List.length_singleton]
    rw [if_pos (by omega)]
    simp only [hI1, Option.some_bind, hE, List.length_singleton]
    unfold reducibleLoop
    simp only [hI1, Option.some_bind, List.length_singleton, gt_iff_lt, Nat.lt_irrefl, if_false]
  rw [hloop]
  simp only [Option.some_bind, hI1, Option.map_some', List.length_singleton, decide_True]

/-- Witness for C11: a stream of four instructions with two forward jumps. -/
theorem isReducible_forward_witness :
    forwardExample ≠ [] ∧ Ascending forwardExample ∧ ForwardJumps forwardExample ∧
    ∃ g0 g, addNodesFromScript ControlFlowGraph.empty forwardExample = some g0 ∧
      setEntry g0 g0._nodes (headAddr forwardExample) = some g ∧
      ∀ fuel, g._nodes.length + 2 ≤ fuel → ∃ g1, isReducible fuel g = some (g1, true) :=
  ⟨by decide, by decide, by decide,
    isReducible_forward forwardExample (by decide) (by decide) (by decide)⟩

end Decompiler

namespace Decompiler

theorem forall₂_getElem? {R : Nat → Nat → Prop} {l1 l2 : List Nat} (h : List.Forall₂ R l1 l2) :
    ∀ (p a : Nat), l1[p]? = some a → ∃ b, l2[p]? = some b ∧ R a b := by
  induction h with
  | nil => intro p a hp; simp at hp
  | cons hab _ ih =>
    intro p a hp
    cases p with
    | zero =>
      simp only [List.getElem?_cons_zero, Option.some.injEq] at hp
      subst hp
      exact ⟨_, by simp, hab⟩
    | succ p =>
      simp only [List.getElem?_cons_succ] at hp ⊢
      exact ih p a hp

/-- What `removeJumpsToJumps` does on a graph built from a stream, when a rank
falls along every block-leading unconditional jump. -/
theorem removeJumpsToJumps_spec (script : List Instruction) (hasc : Ascending script)
    (hv : TargetsValid script) (g : ControlFlowGraph)
    (hg : addNodesFromScript ControlFlowGraph.empty script = some g) (rank : Nat → Nat)
    (hrank : ∀ v ∈ g._nodes, ∀ w ∈ g._nodes, JumpsTo g._targets g.mem v w → rank w < rank v)
    (fuel : Nat) (hfuel : outWeight rank g.mem g._nodes < fuel) :
    ∃ m2, removeJumpsToJumps fuel g = some { g with mem := m2 } ∧
      JumpsInv g._targets g._nodes g.mem m2 ∧
      (∀ u ∈ g._nodes, ∀ v ∈ (m2 u)._out, ∀ t, ¬ JumpHead g.mem v t) ∧
      SymOn m2 g._nodes := by
  have hr := addNodesFromScript_ready script hasc hv g hg rank hrank
  have hc := addNodesFromScript_outClosed script hasc hv g hg
  obtain ⟨m2, e, inv, hno⟩ := jumpsLoop_spec g._targets g._nodes g.mem rank hr fuel g.mem
    (jumpsInv_refl _ _ _ hc) hfuel
  have hsym := (jumpsLoop_inv g._targets g._nodes hr.tclosed fuel g.mem m2
    (edgeSymmetric_addNodesFromScript script g hg) hc e).1
  refine ⟨m2, ?_, inv, hno, hsym⟩
  unfold removeJumpsToJumps
  rw [e]
  rfl

end Decompiler

namespace Decompiler

/-- C20: let `g` be a graph with its entry `e` among its nodes, no node listed
twice, edges inside the graph, symmetric edge lists, every node reachable from
the entry, non-empty instruction lists with unique first addresses, and
interval fields that are either all null or a partition into single-entry
intervals (what `assignIntervals` and `extendIntervals` leave).  Let `g1` be the
graph after the call of `intervals()` that `extendIntervals` starts with (`g`
itself in the second case): the interval fields before the merge.  For every
large enough fuel `extendIntervals` returns a graph `g2` such that: two nodes in
the same interval in `g1` are in the same interval in `g2`; every interval in
use in `g2` is a header of `g1` and is its own interval in `g2`; the entry is a
header of `g2`; the headers of `g2` are a sublist of those of `g1`, so their
number does not grow; and `g2` differs from `g` in `_interval` fields only. -/
theorem extendIntervals_merges (g : ControlFlowGraph) (e : Nat) (he : g._entry = some e)
    (hen : e ∈ g._nodes) (hnd : g._nodes.Nodup) (hcl : EdgesClosed g) (hsym : EdgeSymmetric g)
    (hreach : ∀ u ∈ g._nodes, Reach g.mem e u)
    (hinstr : ∀ u ∈ g._nodes, (g.mem u)._instructions ≠ [])
    (huniq : ∀ u ∈ g._nodes, ∀ v ∈ g._nodes,
      headAddr (g.mem u)._instructions = headAddr (g.mem v)._instructions → u = v)
    (hstate : (∀ u ∈ g._nodes, (g.mem u)._interval = none) ∨ ProperIntervals g e) :
    ∃ fuel0 g1, ProperIntervals g1 e ∧ (ProperIntervals g e → g1 = g) ∧
      SameButInterval g.mem g1.mem ∧
      ∀ fuel, fuel0 ≤ fuel →
        intervals fuel g = some (g1, headers g1) ∧
        ∃ g2, extendIntervals fuel g = some g2 ∧ g2._nodes = g._nodes ∧
          g2._entry = g._entry ∧ SameButInterval g.mem g2.mem ∧
          (∀ u ∈ g._nodes, ∀ v ∈ g._nodes, (g1.mem u)._interval = (g1.mem v)._interval →
            (g2.mem u)._interval = (g2.mem v)._interval) ∧
          (∀ u ∈ g._nodes, ∃ h, (g2.mem u)._interval = some h ∧ h ∈ headers g1 ∧
            (g2.mem h)._interval = some h) ∧
          (g2.mem e)._interval = some e ∧
          (headers g2).Sublist (headers g1) ∧ (headers g2).length ≤ (headers g1).length := by
  rcases hstate with hfresh | hp
  · obtain ⟨fuel0, g1, h1, h2, h3, h4, hp1⟩ := proper_of_fresh g e he hen hcl hsym hreach hfresh
    have hcl1 : EdgesClosed g1 := by
      intro u hu
      rw [h2] at hu ⊢
      rw [(h4 u).2.2.1, (h4 u).2.1]
      exact hcl u hu
    have hsym1 : EdgeSymmetric g1 := by
      intro u hu v hv
      rw [h2] at hu hv
      rw [(h4 u).2.2.1, (h4 v).2.1]
      exact hsym u hu v hv
    obtain ⟨fuel1, hfuel1⟩ := extendIntervals_merges_proper g1 e (h3.trans he) (h2 ▸ hen)
      (h2 ▸ hnd) hcl1 hsym1
      (fun u hu => reach_of_out_eq g.mem g1.mem (fun x => (h4 x).2.2.1) e u
        (hreach u (h2 ▸ hu)))
      (fun u hu => by rw [(h4 u).1]; exact hinstr u (h2 ▸ hu))
      (fun u hu v hv => by
        rw [(h4 u).1, (h4 v).1]; exact huniq u (h2 ▸ hu) v (h2 ▸ hv)) hp1
    refine ⟨fuel0 + fuel1 + 1, g1, hp1, ?_, h4, ?_⟩
    · intro hp
      have := hp.entry
      rw [hfresh e hen] at this
      exact absurd this (by simp)
    · intro fuel hle
      have hI : intervals fuel g = some (g1, headers g1) := by
        unfold intervals
        rw [h1 fuel (by omega)]
        rfl
      have hI1 : intervals fuel g1 = some (g1, headers g1) :=
        intervals_assigned g1 e (h3.trans he) hp1.entry (fun u hu => by
          obtain ⟨h, a, _, _⟩ := hp1.valued u hu
          rw [a]; rfl) fuel (by omega)
      have hE : extendIntervals fuel g = extendIntervals fuel g1 := by
        unfold extendIntervals
        rw [hI, hI1]
      obtain ⟨g2, a1, a2, a3, a4, a5, a6, a7, a8, a9⟩ := hfuel1 fuel (by omega)
      refine ⟨hI, g2, by rw [hE]; exact a1, a2.trans h2, a3.trans h3,
        sameButInterval_trans h4 a4, ?_, ?_, a7, a8, a9⟩
      · intro u hu v hv
        exact a5 u (h2 ▸ hu) v (h2 ▸ hv)
      · intro u hu
        exact a6 u (h2 ▸ hu)
  · obtain ⟨fuel1, hfuel1⟩ :=
      extendIntervals_merges_proper g e he hen hnd hcl hsym hreach hinstr huniq hp
    refine ⟨fuel1 + 1, g, hp, fun _ => rfl, sameButInterval_refl _, ?_⟩
    intro fuel hle
    have hI : intervals fuel g = some (g, headers g) :=
      intervals_assigned g e he hp.entry (fun u hu => by
        obtain ⟨h, a, _, _⟩ := hp.valued u hu
        rw [a]; rfl) fuel (by omega)
    exact ⟨hI, hfuel1 fuel (by omega)⟩

/-- Witness for C20: the loop example `0 → 1`, `1 → 2`, `2 → 1` with entry 0
and null interval fields. -/
theorem extendIntervals_merges_witness :
    loopExample._entry = some 0 ∧ 0 ∈ loopExample._nodes ∧ loopExample._nodes.Nodup ∧
    EdgesClosed loopExample ∧ EdgeSymmetric loopExample ∧
    (∀ u ∈ loopExample._nodes, Reach loopExample.mem 0 u) ∧
    (∀ u ∈ loopExample._nodes, (loopExample.mem u)._instructions ≠ []) ∧
    (∀ u ∈ loopExample._nodes, (loopExample.mem u)._interval = none) ∧
    ∃ fuel0 g1, ProperIntervals g1 0 ∧ ∀ fuel, fuel0 ≤ fuel →
      ∃ g2, extendIntervals fuel loopExample = some g2 ∧
        (headers g2).length ≤ (headers g1).length :=
  have hreach : ∀ u ∈ loopExample._nodes, Reach loopExample.mem 0 u := by
    intro u hu
    have hu2 : u = 0 ∨ u = 1 ∨ u = 2 := by
      have : loopExample._nodes = [0, 1, 2] := by decide
      rw [this] at hu
      simpa using hu
    have h01 : Reach loopExample.mem 0 1 :=
      Relation.ReflTransGen.tail Relation.ReflTransGen.refl (by decide)
    rcases hu2 with rfl | rfl | rfl
    · exact Relation.ReflTransGen.refl
    · exact h01
    · exact Relation.ReflTransGen.tail h01 (by decide)
  ⟨by decide, by decide, by decide, by decide, by decide, hreach, by decide, by decide,
    (extendIntervals_merges loopExample 0 (by decide) (by decide) (by decide) (by decide)
      (by decide) hreach (by decide) (by decide) (Or.inl (by decide))).imp
      fun _ h => h.imp fun _ hg => ⟨hg.1, fun fuel hle =>
        (hg.2.2.2 fuel hle).2.imp fun _ h2 => ⟨h2.1, h2.2.2.2.2.2.2.2.2⟩⟩⟩

end Decompiler

namespace Decompiler

/-- C7: on a graph with its entry among its nodes, no node listed twice, edges
inside the graph, symmetric edge lists, every node reachable from the entry and
all `_number` and `_component` fields unset, `components()` returns once the
fuel exceeds the number of nodes; afterwards two nodes have the same
`_component` if and only if each is reachable from the other, every
`_component` is a node of the graph whose `_component` is itself, and the
returned list has no duplicates, holds nodes of the graph only, and holds
exactly one node of the strongly connected component of every node. -/
theorem components_scc (g : ControlFlowGraph) (e : Nat) (he : g._entry = some e)
    (hen : e ∈ g._nodes) (hnd : g._nodes.Nodup) (hcl : EdgesClosed g) (hsym : EdgeSymmetric g)
    (hreach : ∀ u ∈ g._nodes, Reach g.mem e u)
    (hz : ∀ u ∈ g._nodes, (g.mem u)._number = 0)
    (hc : ∀ u ∈ g._nodes, (g.mem u)._component = none)
    (fuel : Nat) (hfuel : g._nodes.length < fuel) :
    ∃ g1 reps, components fuel g = some (g1, reps) ∧ g1._nodes = g._nodes ∧
      (∀ u ∈ g._nodes, ∀ v ∈ g._nodes,
        ((g1.mem u)._component = (g1.mem v)._component ↔ Mutual g.mem u v)) ∧
      (∀ u ∈ g._nodes, ∃ h, (g1.mem u)._component = some h ∧ h ∈ g._nodes ∧
        (g1.mem h)._component = some h) ∧
      reps.Nodup ∧ (∀ r ∈ reps, r ∈ g._nodes) ∧
      (∀ u ∈ g._nodes, ∃ r, r ∈ reps ∧ Mutual g.mem u r ∧
        ∀ r2 ∈ reps, Mutual g.mem u r2 → r2 = r) := by
  obtain ⟨g1, h1, h2, _, _, a1, a2, a3⟩ := components_spec g e he hen hcl hsym hz hc fuel hfuel
  refine ⟨g1, _, h1, h2, ?_, a1, ?_, ?_, ?_⟩
  · intro u hu v hv
    obtain ⟨hu1, hu2, _, _⟩ := a1 u hu
    obtain ⟨hv1, hv2, _, _⟩ := a1 v hv
    constructor
    · intro huv
      rw [hu2, hv2] at huv
      have : hu1 = hv1 := Option.some.inj huv
      subst this
      exact mutual_trans (a2 u hu (hreach u hu) hu1 hu2)
        (mutual_symm (a2 v hv (hreach v hv) hu1 hv2))
    · intro huv
      rw [hu2, a3 u hu (hreach u hu) hu1 hu2 v huv]
  · rw [h2]
    exact hnd.sublist (List.filter_sublist _)
  · intro r hr
    rw [h2] at hr
    exact (List.mem_filter.1 hr).1
  · intro u hu
    obtain ⟨h, hu2, hn, hh⟩ := a1 u hu
    refine ⟨h, ?_, a2 u hu (hreach u hu) h hu2, ?_⟩
    · rw [h2, List.mem_filter]
      exact ⟨hn, by simpa using hh⟩
    · intro r2 hr2 hur2
      rw [h2, List.mem_filter] at hr2
      have hr3 : (g1.mem r2)._component = some r2 := by simpa using hr2.2
      have := a3 u hu (hreach u hu) h hu2 r2 hur2
      rw [hr3] at this
      exact Option.some.inj this

/-- Witness for C7: the graph built from the stream `A: nop, B: jump C, C: nop,
D: conditional jump B, E: return` with entry `A`, whose nodes are `0 = [A]`,
`1 = [B]`, `2 = [C, D]` and `3 = [E]`: `components()` returns the three
representatives 0 (for `A`), 1 (for the loop of `B`, `C`, `D`) and 3 (for `E`). -/
theorem components_scc_witness :
    exampleGraphValue._entry = some 0 ∧ exampleGraphValue._nodes = [0, 1, 2, 3] ∧
    EdgesClosed exampleGraphValue ∧ EdgeSymmetric exampleGraphValue ∧
    (∀ u ∈ exampleGraphValue._nodes, Reach exampleGraphValue.mem 0 u) ∧
    (components 5 exampleGraphValue).map (fun r => r.2) = some [0, 1, 3] ∧
    ∃ g1 reps, components 5 exampleGraphValue = some (g1, reps) ∧
      g1._nodes = exampleGraphValue._nodes ∧
      (∀ u ∈ exampleGraphValue._nodes, ∀ v ∈ exampleGraphValue._nodes,
        ((g1.mem u)._component = (g1.mem v)._component ↔ Mutual exampleGraphValue.mem u v)) ∧
      (∀ u ∈ exampleGraphValue._nodes, ∃ h, (g1.mem u)._component = some h ∧
        h ∈ exampleGraphValue._nodes ∧ (g1.mem h)._component = some h) ∧
      reps.Nodup ∧ (∀ r ∈ reps, r ∈ exampleGraphValue._nodes) ∧
      (∀ u ∈ exampleGraphValue._nodes, ∃ r, r ∈ reps ∧ Mutual exampleGraphValue.mem u r ∧
        ∀ r2 ∈ reps, Mutual exampleGraphValue.mem u r2 → r2 = r) :=
  have hreach : ∀ u ∈ exampleGraphValue._nodes, Reach exampleGraphValue.mem 0 u := by
    intro u hu
    have hu2 : u = 0 ∨ u = 1 ∨ u = 2 ∨ u = 3 := by
      have : exampleGraphValue._nodes = [0, 1, 2, 3] := by decide
      rw [this] at hu
      simpa using hu
    have h01 : Reach exampleGraphValue.mem 0 1 :=
      Relation.ReflTransGen.tail Relation.ReflTransGen.refl (by decide)
    have h02 : Reach exampleGraphValue.mem 0 2 := Relation.ReflTransGen.tail h01 (by decide)
    rcases hu2 with rfl | rfl | rfl | rfl
    · exact Relation.ReflTransGen.refl
    · exact h01
    · exact h02
    · exact Relation.ReflTransGen.tail h02 (by decide)
  ⟨by decide, by decide, by decide, by decide, hreach, by decide,
    components_scc exampleGraphValue 0 (by decide) (by decide) (by decide) (by decide)
      (by decide) hreach (by decide) (by decide) 5 (by decide)⟩

end Decompiler

namespace Decompiler

/-- C16, as amended: `components()` numbers the graph from the entry only, so
it is correct on the part of the graph that the entry reaches.  On a graph with
its entry among its nodes, edges inside the graph, symmetric edge lists and all
`_number` and `_component` fields unset, whether or not every node is reachable
from the entry, `components()` returns once the fuel exceeds the number of
nodes; two nodes reachable from the entry have the same `_component` if and
only if each is reachable from the other, every `_component` is a node of the
graph whose `_component` is itself, and the returned list holds exactly one node
of the strongly connected component of every node reachable from the entry. -/
theorem components_reachable_part (g : ControlFlowGraph) (e : Nat) (he : g._entry = some e)
    (hen : e ∈ g._nodes) (hcl : EdgesClosed g) (hsym : EdgeSymmetric g)
    (hz : ∀ u ∈ g._nodes, (g.mem u)._number = 0)
    (hc : ∀ u ∈ g._nodes, (g.mem u)._component = none)
    (fuel : Nat) (hfuel : g._nodes.length < fuel) :
    ∃ g1 reps, components fuel g = some (g1, reps) ∧ g1._nodes = g._nodes ∧
      (∀ u ∈ g._nodes, ∀ v ∈ g._nodes, Reach g.mem e u → Reach g.mem e v →
        ((g1.mem u)._component = (g1.mem v)._component ↔ Mutual g.mem u v)) ∧
      (∀ u ∈ g._nodes, ∃ h, (g1.mem u)._component = some h ∧ h ∈ g._nodes ∧
        (g1.mem h)._component = some h) ∧
      (∀ u ∈ g._nodes, Reach g.mem e u → ∃ r, r ∈ reps ∧ Mutual g.mem u r ∧
        ∀ r2 ∈ reps, Mutual g.mem u r2 → r2 = r) := by
  obtain ⟨g1, h1, h2, _, _, a1, a2, a3⟩ := components_spec g e he hen hcl hsym hz hc fuel hfuel
  refine ⟨g1, _, h1, h2, ?_, a1, ?_⟩
  · intro u hu v hv hru hrv
    obtain ⟨hu1, hu2, _, _⟩ := a1 u hu
    obtain ⟨hv1, hv2, _, _⟩ := a1 v hv
    constructor
    · intro huv
      rw [hu2, hv2] at huv
      have : hu1 = hv1 := Option.some.inj huv
      subst this
      exact mutual_trans (a2 u hu hru hu1 hu2) (mutual_symm (a2 v hv hrv hu1 hv2))
    · intro huv
      rw [hu2, a3 u hu hru hu1 hu2 v huv]
  · intro u hu hru
    obtain ⟨h, hu2, hn, hh⟩ := a1 u hu
    refine ⟨h, ?_, a2 u hu hru h hu2, ?_⟩
    · rw [h2, List.mem_filter]
      exact ⟨hn, by simpa using hh⟩
    · intro r2 hr2 hur2
      rw [h2, List.mem_filter] at hr2
      have hr3 : (g1.mem r2)._component = some r2 := by simpa using hr2.2
      have := a3 u hu hru h hu2 r2 hur2
      rw [hr3] at this
      exact Option.some.inj this

/-- Witness for C16 as amended: the graph with the edge `1 → 0` and entry 0. -/
theorem components_reachable_part_witness :
    unreachedExample._entry = some 0 ∧ 0 ∈ unreachedExample._nodes ∧
    EdgesClosed unreachedExample ∧ EdgeSymmetric unreachedExample ∧
    (∀ u ∈ unreachedExample._nodes, (unreachedExample.mem u)._number = 0) ∧
    (∀ u ∈ unreachedExample._nodes, (unreachedExample.mem u)._component = none) ∧
    unreachedExample._nodes.length < 3 ∧
    ∃ g1 reps, components 3 unreachedExample = some (g1, reps) ∧
      g1._nodes = unreachedExample._nodes :=
  ⟨by decide, by decide, by decide, by decide, by decide, by decide, by decide,
    (components_reachable_part unreachedExample 0 (by decide) (by decide) (by decide)
      (by decide) (by decide) (by decide) 3 (by decide)).imp fun _ h =>
        h.imp fun _ hg => ⟨hg.1, hg.2.1⟩⟩

/-- Counterexample to C16 as stated: on the graph with the nodes 0 and 1, the
edge `1 → 0` and the entry 0, with fresh fields, `components()` leaves both
nodes with the component 0 and returns the one representative 0, although node
1 is not reachable from node 0: the two nodes are two strongly connected
components. -/
theorem components_unreached_example :
    (components 3 unreachedExample).map
      (fun r => ((r.1.mem 0)._component, (r.1.mem 1)._component, r.2)) =
        some (some 0, some 0, [0]) ∧
    ¬ Reach unreachedExample.mem 0 1 := by
  refine ⟨by decide, ?_⟩
  intro h
  rcases Relation.ReflTransGen.cases_head h with h0 | ⟨c, hc, _⟩
  · exact absurd h0 (by decide)
  · have : (unreachedExample.mem 0)._out = [] := by decide
    rw [this] at hc
    simp at hc

end Decompiler

namespace Decompiler

/-- C5: on a graph with its entry among its nodes, no node listed twice, edges
inside the graph, symmetric edge lists, every node reachable from the entry and
all `_number` and `_dominator` fields unset, `orderNodes` followed by
`assignDominators` returns once the fuel exceeds the square of the number of
nodes plus one: the search for the first processed predecessor and
`dominatorIntersect` never fail.  Afterwards the `_dominator` of every node `u`
other than the entry is the immediate dominator of `u`: a node `d` of the graph,
different from `u`, that lies on every path from the entry to `u`, and every
node other than `u` that lies on every path from the entry to `u` lies on every
path from the entry to `d`. -/
theorem assignDominators_immediate (g : ControlFlowGraph) (e : Nat) (he : g._entry = some e)
    (hen : e ∈ g._nodes) (hnd : g._nodes.Nodup) (hcl : EdgesClosed g) (hsym : EdgeSymmetric g)
    (hreach : ∀ u ∈ g._nodes, Reach g.mem e u)
    (hz : ∀ u ∈ g._nodes, (g.mem u)._number = 0)
    (hd : ∀ u ∈ g._nodes, (g.mem u)._dominator = none)
    (fuel : Nat) (hfuel : (g._nodes.length + 1) * (g._nodes.length + 1) < fuel) :
    ∃ g1 g2, orderNodes fuel g = some g1 ∧ assignDominators fuel g1 = some g2 ∧
      g2._nodes = g._nodes ∧
      ∀ u ∈ g._nodes, u ≠ e → ∃ d, (g2.mem u)._dominator = some d ∧ d ∈ g._nodes ∧ d ≠ u ∧
        Dominates g.mem e d u ∧
        ∀ x, x ≠ u → Dominates g.mem e x u → Dominates g.mem e x d := by
  have hn : g._nodes.length < fuel := by
    have := Nat.le_mul_self (g._nodes.length + 1)
    omega
  obtain ⟨g1, h1, h2, h3, _, hpo⟩ := orderNodes_spec g e he hen hcl hz fuel hn
  have ord := ordered_of_postOrder g e hen hnd hcl hsym hreach g1.mem hpo
  rw [← h2] at ord hfuel
  obtain ⟨g2, a1, a2, _, _, _, a6⟩ := assignDominators_spec g1 e (by rw [h3]; exact he) ord
    (fun u hu => by rw [(hpo.frame u).2.2.2.1]; exact hd u (by rw [← h2]; exact hu)) fuel hfuel
  have hout : ∀ x, (g1.mem x)._out = (g.mem x)._out := fun x => (hpo.frame x).2.2.1
  refine ⟨g1, g2, h1, a1, a2.trans h2, ?_⟩
  intro u hu hue
  obtain ⟨d, b1, b2, b3, b4, b5⟩ := a6 u (by rw [h2]; exact hu) hue
  refine ⟨d, b1, by rw [← h2]; exact b2, ?_, (dominates_congr hout e d u).1 b4, ?_⟩
  · intro hdu
    rw [hdu] at b3
    omega
  · intro x hxu hx
    exact (dominates_congr hout e x d).1 (b5 x hxu ((dominates_congr hout e x u).2 hx))

/-- Witness for C5: the graph of the stream `A: nop, B: jump C, C: nop,
D: conditional jump B, E: return` with entry `A`, whose nodes are `0 = [A]`,
`1 = [B]`, `2 = [C, D]` and `3 = [E]`; the dominators computed are
none, 0, 1 and 2. -/
theorem assignDominators_immediate_witness :
    exampleGraphValue._entry = some 0 ∧ exampleGraphValue._nodes = [0, 1, 2, 3] ∧
    EdgesClosed exampleGraphValue ∧ EdgeSymmetric exampleGraphValue ∧
    (∀ u ∈ exampleGraphValue._nodes, Reach exampleGraphValue.mem 0 u) ∧
    ((orderNodes 26 exampleGraphValue).bind (assignDominators 26)).map
      (fun g2 => g2._nodes.map (fun u => (g2.mem u)._dominator)) =
        some [none, some 0, some 1, some 2] ∧
    ∃ g1 g2, orderNodes 26 exampleGraphValue = some g1 ∧ assignDominators 26 g1 = some g2 ∧
      g2._nodes = exampleGraphValue._nodes ∧
      ∀ u ∈ exampleGraphValue._nodes, u ≠ 0 → ∃ d, (g2.mem u)._dominator = some d ∧
        d ∈ exampleGraphValue._nodes ∧ d ≠ u ∧ Dominates exampleGraphValue.mem 0 d u ∧
        ∀ x, x ≠ u → Dominates exampleGraphValue.mem 0 x u →
          Dominates exampleGraphValue.mem 0 x d :=
  have hreach : ∀ u ∈ exampleGraphValue._nodes, Reach exampleGraphValue.mem 0 u := by
    intro u hu
    have hu2 : u = 0 ∨ u = 1 ∨ u = 2 ∨ u = 3 := by
      have : exampleGraphValue._nodes = [0, 1, 2, 3] := by decide
      rw [this] at hu
      simpa using hu
    have h01 : Reach exampleGraphValue.mem 0 1 :=
      Relation.ReflTransGen.tail Relation.ReflTransGen.refl (by decide)
    have h02 : Reach exampleGraphValue.mem 0 2 := Relation.ReflTransGen.tail h01 (by decide)
    rcases hu2 with rfl | rfl | rfl | rfl
    · exact Relation.ReflTransGen.refl
    · exact h01
    · exact h02
    · exact Relation.ReflTransGen.tail h02 (by decide)
  ⟨by decide, by decide, by decide, by decide, hreach, by decide,
    assignDominators_immediate exampleGraphValue 0 (by decide) (by decide) (by decide)
      (by decide) (by decide) hreach (by decide) (by decide) 26 (by decide)⟩

end Decompiler

namespace Decompiler

/-- C6: on a graph with its entry among its nodes, no node listed twice, edges
inside the graph, symmetric edge lists, every node reachable from the entry and
all `_number` and `_dominator` fields unset, after `orderNodes` and
`assignDominators` (which return once the fuel exceeds the square of the number
of nodes plus one) the `_dominator` of the entry is null, the `_dominator` of
every other node is a node of the graph, and following `_dominator` references
from any node other than the entry, for at most as many steps as the graph has
nodes, ends at the entry, visits nodes of the graph only and visits none
twice: the references form a tree rooted at the entry.  A further call of
`assignDominators` on the result returns it unchanged, so the same holds when
the call is made on the dominators that an earlier call has left. -/
theorem assignDominators_tree (g : ControlFlowGraph) (e : Nat) (he : g._entry = some e)
    (hen : e ∈ g._nodes) (hnd : g._nodes.Nodup) (hcl : EdgesClosed g) (hsym : EdgeSymmetric g)
    (hreach : ∀ u ∈ g._nodes, Reach g.mem e u)
    (hz : ∀ u ∈ g._nodes, (g.mem u)._number = 0)
    (hd : ∀ u ∈ g._nodes, (g.mem u)._dominator = none)
    (fuel : Nat) (hfuel : (g._nodes.length + 1) * (g._nodes.length + 1) < fuel) :
    ∃ g1 g2, orderNodes fuel g = some g1 ∧ assignDominators fuel g1 = some g2 ∧
      g2._nodes = g._nodes ∧ g2._entry = g._entry ∧ (g2.mem e)._dominator = none ∧
      (∀ u ∈ g._nodes, u ≠ e →
        (∃ d, (g2.mem u)._dominator = some d ∧ d ∈ g._nodes) ∧
        (dominatorPath g._nodes.length g2.mem u).getLast? = some e ∧
        (dominatorPath g._nodes.length g2.mem u).Nodup ∧
        ∀ x ∈ dominatorPath g._nodes.length g2.mem u, x ∈ g._nodes) ∧
      assignDominators fuel g2 = some g2 := by
  have hn : g._nodes.length < fuel := by
    have := Nat.le_mul_self (g._nodes.length + 1)
    omega
  obtain ⟨g1, h1, h2, h3, _, hpo⟩ := orderNodes_spec g e he hen hcl hz fuel hn
  have ord := ordered_of_postOrder g e hen hnd hcl hsym hreach g1.mem hpo
  have ord1 := ord
  rw [← h2] at ord1 hfuel
  have hfresh : ∀ u ∈ g1._nodes, (g1.mem u)._dominator = none :=
    fun u hu => by rw [(hpo.frame u).2.2.2.1]; exact hd u (by rw [← h2]; exact hu)
  obtain ⟨g2, a1, a2, a3, a4, a5, a6⟩ := assignDominators_spec g1 e (by rw [h3]; exact he) ord1
    hfresh fuel hfuel
  have hagain : assignDominators fuel g2 = some g2 := by
    obtain ⟨g3, c1, c2⟩ := assignDominators_again g1 e (by rw [h3]; exact he) ord1 hfresh fuel
      hfuel
    rw [c1] at a1
    rw [← Option.some.inj a1]
    exact c2
  have hnum : ∀ x, (g2.mem x)._number = (g1.mem x)._number := fun x => (a4 x).2.2.2.1
  have hdom : ∀ u ∈ g._nodes, u ≠ e → ∃ d, (g2.mem u)._dominator = some d ∧ d ∈ g._nodes ∧
      (g2.mem u)._number < (g2.mem d)._number := by
    intro u hu hue
    obtain ⟨d, b1, b2, b3, _, _⟩ := a6 u (by rw [h2]; exact hu) hue
    exact ⟨d, b1, by rw [← h2]; exact b2, by rw [hnum, hnum]; exact b3⟩
  have hpath := dominatorPath_spec g._nodes e g2.mem hen a5
    (fun u hu => by rw [hnum, hnum]; exact (ord.pos u hu).2)
    (fun u hu h => by rw [hnum, hnum] at h; exact ord.inj u hu e hen h) hdom
  refine ⟨g1, g2, h1, a1, a2.trans h2, a3.trans h3, a5, ?_, hagain⟩
  intro u hu hue
  obtain ⟨d, b1, b2, _⟩ := hdom u hu hue
  have hk : ((g2.mem e)._number - (g2.mem u)._number).toNat ≤ g._nodes.length := by
    rw [hnum, hnum]
    have := ord.bound
    have := (ord.pos u hu).1
    omega
  obtain ⟨c1, c2, c3⟩ := hpath g._nodes.length u hu hk
  refine ⟨⟨d, b1, b2⟩, c1, ?_, fun x hx => (c2 x hx).1⟩
  exact c3.imp (fun hab => fun h => by rw [h] at hab; omega)

/-- Witness for C6: the graph of the stream `A: nop, B: jump C, C: nop,
D: conditional jump B, E: return` with entry `A`; from its last node the
`_dominator` references lead through the nodes 3, 2, 1 and 0. -/
theorem assignDominators_tree_witness :
    exampleGraphValue._entry = some 0 ∧ exampleGraphValue._nodes = [0, 1, 2, 3] ∧
    EdgesClosed exampleGraphValue ∧ EdgeSymmetric exampleGraphValue ∧
    (∀ u ∈ exampleGraphValue._nodes, Reach exampleGraphValue.mem 0 u) ∧
    ((orderNodes 26 exampleGraphValue).bind (assignDominators 26)).map
      (fun g2 => dominatorPath 4 g2.mem 3) = some [3, 2, 1, 0] ∧
    ∃ g1 g2, orderNodes 26 exampleGraphValue = some g1 ∧ assignDominators 26 g1 = some g2 ∧
      g2._nodes = exampleGraphValue._nodes ∧ g2._entry = exampleGraphValue._entry ∧
      (g2.mem 0)._dominator = none ∧
      (∀ u ∈ exampleGraphValue._nodes, u ≠ 0 →
        (∃ d, (g2.mem u)._dominator = some d ∧ d ∈ exampleGraphValue._nodes) ∧
        (dominatorPath exampleGraphValue._nodes.length g2.mem u).getLast? = some 0 ∧
        (dominatorPath exampleGraphValue._nodes.length g2.mem u).Nodup ∧
        ∀ x ∈ dominatorPath exampleGraphValue._nodes.length g2.mem u,
          x ∈ exampleGraphValue._nodes) ∧
      assignDominators 26 g2 = some g2 :=
  have hreach : ∀ u ∈ exampleGraphValue._nodes, Reach exampleGraphValue.mem 0 u := by
    intro u hu
    have hu2 : u = 0 ∨ u = 1 ∨ u = 2 ∨ u = 3 := by
      have : exampleGraphValue._nodes = [0, 1, 2, 3] := by decide
      rw [this] at hu
      simpa using hu
    have h01 : Reach exampleGraphValue.mem 0 1 :=
      Relation.ReflTransGen.tail Relation.ReflTransGen.refl (by decide)
    have h02 : Reach exampleGraphValue.mem 0 2 := Relation.ReflTransGen.tail h01 (by decide)
    rcases hu2 with rfl | rfl | rfl | rfl
    · exact Relation.ReflTransGen.refl
    · exact h01
    · exact h02
    · exact Relation.ReflTransGen.tail h02 (by decide)
  ⟨by decide, by decide, by decide, by decide, hreach, by decide,
    assignDominators_tree exampleGraphValue 0 (by decide) (by decide) (by decide)
      (by decide) (by decide) hreach (by decide) (by decide) 26 (by decide)⟩

end Decompiler
